import Mathlib

/-!
The pdaggerq tensor-index layer: lines, vertices and linkages.

A shallow embedding of the tensor-index layer of pdaggerq
(`pq_graph/include/line.hpp`, `pdaggerq/ta_builder/src/vertex.cc`,
`pq_graph/src/linkage.cc`).

Conventions of the embedding

* `std::string` is `String`; its ordering is the lexicographic order of the
  character lists, decided structurally (`str_lt`).
* `std::vector<T>` is `List T`.
* Locals that the source declares as `uint_fast8_t` / `uint8_t` are natural
  numbers reduced `% 256`; `size_t` arithmetic that can wrap is reduced
  `% 2 ^ 64`.
* A function whose C++ body can index outside an array returns `Option`;
  `none` stands for such an access (undefined behaviour).
* `std::map<string, T>` is an association list kept sorted by key
  (`smap_incr`, `smap_assign`), so that iteration is in key order.
* A search loop without a bound in the source takes a number of iterations
  and ends in a `Run`: a value, undefined behaviour, or out of iterations.
* Types and members that are declared in headers which are not part of the
  sources (`shape`, `Vertex::size`, `Vertex::empty`, the member
  `Vertex::ovstring()`, `Linkage::is_temp`, default arguments) are modelled
  from the specification or taken as parameters; each such definition says
  so in its doc comment.
* Of the graph (`pq_graph/src/consolidate.cc`, `pq_graph/src/pq_graph.cc`)
  the members that the embedded functions read or write are kept in
  `PQGraph`, `Equation` and `Term`.  The members of `Equation`, `Term` and
  `PQGraph` that are defined outside the sources are the fields of
  `Missing`; what the scoring of one pass of `PQGraph::substitute` leaves to
  commit is an argument of the run.
* The Python options of `set_options` are `PyObj` values; a failed cast or
  item access is `none`.
* The string constructor of `Vertex` works on the character list of the
  string; `find`, `substr` and `replace` are `str_find`, `str_substr` and
  `str_replace`, positions are `size_t` values with `npos = 2 ^ 64 - 1`.
* Of `ahat_helper.cc` the commutator helpers are embedded as the sequence of
  the calls `add_operator_product(factor, words)` that they issue.
-/

set_option linter.dupNamespace false

namespace pdaggerq

/-! ## Strings -/

/-- Byte-wise lexicographic `std::string::operator<`. -/
def str_lt (a b : String) : Bool := decide (a.data < b.data)

/-! ## Line (`line.hpp`) -/

/-- A single tensor index: `struct Line`. -/
structure Line where
  label_ : String
  o_ : Bool
  a_ : Bool
  blk_type_ : Char
  sig_ : Bool
  den_ : Bool
deriving DecidableEq, Repr

namespace Line

/-- The comparison `Line::operator==`: label and the four kind bits
    (the source does not compare `blk_type_`). -/
def op_eq (x y : Line) : Bool :=
  (x.label_ == y.label_) && (x.o_ == y.o_) && (x.a_ == y.a_) &&
    (x.sig_ == y.sig_) && (x.den_ == y.den_)

/-- The comparison `Line::equivalent`: the four kind bits. -/
def equivalent (x y : Line) : Bool :=
  (x.o_ == y.o_) && (x.a_ == y.a_) && (x.sig_ == y.sig_) && (x.den_ == y.den_)

/-- The comparison `Line::operator<`: sort by sig, den, o, a, then label. -/
def op_lt (x y : Line) : Bool :=
  if xor x.sig_ y.sig_ then x.sig_
  else if xor x.den_ y.den_ then x.den_
  else if xor x.o_ y.o_ then !x.o_
  else if xor x.a_ y.a_ then x.a_
  else str_lt x.label_ y.label_

/-- The getter `Line::has_blk`. -/
def has_blk (x : Line) : Bool := x.blk_type_ != '\x00'

/-- The getter `Line::block` (called `blk()` in `vertex.cc`). -/
def block (x : Line) : Char :=
  if x.blk_type_ = 's' then (if x.a_ then 'a' else 'b')
  else if x.blk_type_ = 'r' then (if x.a_ then '1' else '0')
  else '\x00'

end Line

/-- Equality of `std::vector<Line>`: same size and `Line::operator==` at
    every position. -/
def lines_eq : List Line → List Line → Bool
  | [], [] => true
  | a :: as, b :: bs => Line.op_eq a b && lines_eq as bs
  | _, _ => false

/-- Ordering of `std::vector<Line>` (`std::lexicographical_compare` with
    `Line::operator<`). -/
def lines_lt : List Line → List Line → Bool
  | [], [] => false
  | [], _ :: _ => true
  | _ :: _, [] => false
  | a :: as, b :: bs =>
    if Line.op_lt a b then true
    else if Line.op_lt b a then false
    else lines_lt as bs

/-! ## Shape -/

/-- Modelled from the spec: the header defining `shape` is not among the
    sources.  "A tuple `(o_act, o_inact, v_act, v_inact, L, Q)` of
    nonnegative counts.  Addition is elementwise." -/
structure shape where
  oa : Nat
  ob : Nat
  va : Nat
  vb : Nat
  L : Nat
  Q : Nat
deriving DecidableEq, Repr

namespace shape

/-- Modelled from the spec: the empty shape `shape()`. -/
def zero : shape := ⟨0, 0, 0, 0, 0, 0⟩

/-- Modelled from the spec: elementwise addition of shapes. -/
def add (s t : shape) : shape :=
  ⟨s.oa + t.oa, s.ob + t.ob, s.va + t.va, s.vb + t.vb, s.L + t.L, s.Q + t.Q⟩

/-- Modelled from the spec: the shape of one line, the unit count of the
    kind of the line (sigma, density, occupied/virtual and active/inactive). -/
def ofLine (l : Line) : shape :=
  if l.sig_ then ⟨0, 0, 0, 0, 1, 0⟩
  else if l.den_ then ⟨0, 0, 0, 0, 0, 1⟩
  else if l.o_ then (if l.a_ then ⟨1, 0, 0, 0, 0, 0⟩ else ⟨0, 1, 0, 0, 0, 0⟩)
  else (if l.a_ then ⟨0, 0, 1, 0, 0, 0⟩ else ⟨0, 0, 0, 1, 0, 0⟩)

/-- Modelled from the spec: `shape::operator+=(const Line&)`. -/
def addLine (s : shape) (l : Line) : shape := add s (ofLine l)

/-- Modelled from the spec: `shape(lines)`, the sum of the line shapes. -/
def ofLines (ls : List Line) : shape := ls.foldl addLine zero

/-- Componentwise comparison of two shapes. -/
def le (s t : shape) : Prop :=
  s.oa ≤ t.oa ∧ s.ob ≤ t.ob ∧ s.va ≤ t.va ∧ s.vb ≤ t.vb ∧ s.L ≤ t.L ∧ s.Q ≤ t.Q

end shape

/-! ## Vertex (`vertex.cc`) -/

/-- The data members of `class Vertex` that the embedded functions use. -/
structure Vertex where
  name_ : String
  base_name_ : String
  lines_ : List Line
  rank_ : Nat
  shape_ : shape
  has_blk_ : Bool
  is_sigma_ : Bool
  is_den_ : Bool
deriving DecidableEq, Repr

namespace Vertex

/-- The default constructor `Vertex::Vertex()`. -/
def empty_vertex : Vertex :=
  { name_ := "Empty", base_name_ := "Empty", lines_ := [], rank_ := 0,
    shape_ := shape.zero, has_blk_ := false, is_sigma_ := false, is_den_ := false }

/-- The vertex invariant of the data model: `rank = |lines|` and
    `shape = Σ line shapes`. -/
def Inv (v : Vertex) : Prop :=
  v.rank_ = v.lines_.length ∧ v.shape_ = shape.ofLines v.lines_

instance (v : Vertex) : Decidable v.Inv := by
  unfold Inv; exact inferInstance

/-- Modelled from the spec: `Vertex::size()` is declared in a header that is
    not among the sources; it is the number of lines, which its callers in
    `linkage.cc` store in a `uint_fast8_t`. -/
def size (v : Vertex) : Nat := v.lines_.length % 256

/-- The comparison `Vertex::operator==`, as written in `vertex.cc`. -/
def op_eq (v other : Vertex) : Bool :=
  if v.rank_ != other.rank_ then false
  else if v.shape_ != other.shape_ then false
  else if lines_eq v.lines_ other.lines_ then false
  else v.base_name_ != other.base_name_

/-- The comparison `Vertex::operator!=`. -/
def op_ne (v other : Vertex) : Bool := !(op_eq v other)

/-- The comparison `Vertex::equivalent`.  The loop reads position `i` of both
    line vectors for `i < rank_`; a position that one of the vectors lacks
    makes the comparison fail. -/
def equivalent (v other : Vertex) : Bool :=
  if v.rank_ != other.rank_ then false
  else if v.shape_ != other.shape_ then false
  else if !((List.range v.rank_).all fun i =>
      match v.lines_[i]?, other.lines_[i]? with
      | some a, some b => Line.equivalent a b
      | _, _ => false) then false
  else v.base_name_ == other.base_name_

/-- The body of `Vertex::format_name`. -/
def format_name (base_name : String) (rank : Nat) (has_blk : Bool)
    (ovstring new_blk_string : String) : String :=
  if rank = 0 then base_name ++ "_"
  else
    base_name ++ "_" ++ "[\"" ++ (if has_blk then new_blk_string ++ "_" else "")
      ++ ovstring ++ "\"]"

/-- Assignment `s[idx] = c` into a string buffer; `none` when `idx` is not a
    position of the buffer. -/
def write_at (s : List Char) (idx : Nat) (c : Char) : Option (List Char) :=
  if idx < s.length then some (s.set idx c) else none

/-- One iteration of the loop of `Vertex::update_lines`; the state is
    `(ovstring, blk_string, has_blk_, line_idx)`. -/
def update_lines_step (st : List Char × List Char × Bool × Nat) (line : Line) :
    Option (List Char × List Char × Bool × Nat) :=
  let (ov, blk, hb, idx) := st
  if line.sig_ then
    (write_at ov idx 'L').map fun ov1 => (ov1, blk, hb, (idx + 1) % 256)
  else if line.den_ then
    (write_at ov idx 'Q').map fun ov1 => (ov1, blk, hb, (idx + 1) % 256)
  else
    let r1 : Option (List Char × Nat) :=
      if !line.o_ then (write_at ov idx 'v').map fun ov1 => (ov1, (idx + 1) % 256)
      else some (ov, idx)
    r1.bind fun (ov1, idx1) =>
      if line.has_blk then
        (write_at blk idx1 line.block).map fun blk1 => (ov1, blk1, true, (idx1 + 1) % 256)
      else some (ov1, blk, hb, idx1)

/-- The loop of `Vertex::update_lines` over the lines. -/
def update_lines_loop : List Line → List Char × List Char × Bool × Nat →
    Option (List Char × List Char × Bool × Nat)
  | [], st => some st
  | line :: rest, st => (update_lines_step st line).bind (update_lines_loop rest)

/-- The member `Vertex::update_lines(lines, update_name)`. -/
def update_lines (v : Vertex) (lines : List Line) (update_name : Bool) : Option Vertex :=
  let rank := lines.length
  (update_lines_loop lines
      (List.replicate rank 'o', List.replicate rank '\x00', false, 0)).map
    fun (ov, blk, hb, _) =>
      { v with
        lines_ := lines
        rank_ := rank
        has_blk_ := hb
        shape_ := shape.ofLines lines
        name_ := if update_name then
            format_name v.base_name_ rank hb (String.mk ov) (String.mk blk)
          else v.name_ }

/-- The constructor `Vertex::Vertex(string base_name, const vector<Line>& lines)`. -/
def of_lines (base_name : String) (lines : List Line) : Option Vertex :=
  update_lines
    { name_ := "", base_name_ := base_name, lines_ := lines, rank_ := lines.length,
      shape_ := shape.zero, has_blk_ := false, is_sigma_ := false, is_den_ := false }
    lines true

end Vertex

/-! ## Linkage (`linkage.cc`) -/

/-- The data members that `class Linkage` adds to `Vertex` (children apart).
    The index containers `int_connec_`, `l_ext_idx_`, `r_ext_idx_` and
    `int_lines_` are sets; they are kept as duplicate-free lists and compared
    with `set_eq`. -/
structure LinkData where
  id_ : Int
  nvert_ : Nat
  int_lines_ : List Line
  int_connec_ : List (Nat × Nat)
  l_ext_idx_ : List Nat
  r_ext_idx_ : List Nat
  flop_scale_ : shape
  mem_scale_ : shape
  is_addition_ : Bool
  is_reused_ : Bool
deriving DecidableEq, Repr

/-- A `VertexPtr`: a plain vertex or a linkage with its two children. -/
inductive Node where
  | vertex (v : Vertex) : Node
  | linkage (v : Vertex) (d : LinkData) (left right : Node) : Node
deriving DecidableEq, Repr

namespace Node

/-- The `Vertex` base object of a node. -/
def vert : Node → Vertex
  | vertex v => v
  | linkage v _ _ _ => v

/-- The virtual member `is_linked()`: true exactly for linkages. -/
def is_linked : Node → Bool
  | vertex _ => false
  | linkage _ _ _ _ => true

/-- The getter `name()`. -/
def name (n : Node) : String := n.vert.name_

/-- The member `nvert_` of a linkage (read only under `is_linked()`). -/
def nvert_ : Node → Nat
  | vertex _ => 0
  | linkage _ d _ _ => d.nvert_

/-- Modelled from the spec: `is_temp()` is declared in a header that is not
    among the sources; "named intermediates (id ≥ 0)". -/
def is_temp : Node → Bool
  | vertex _ => false
  | linkage _ d _ _ => decide (0 ≤ d.id_)

/-- Number of plain vertices at the leaves of the tree. -/
def leaf_count : Node → Nat
  | vertex _ => 1
  | linkage _ _ l r => leaf_count l + leaf_count r

/-- Left-to-right sequence of the plain vertices at the leaves of the tree. -/
def leaves : Node → List Node
  | vertex v => [vertex v]
  | linkage _ _ l r => leaves l ++ leaves r

end Node

/-- Membership test of a set container kept as a list. -/
def set_mem {α : Type} [DecidableEq α] (x : α) (s : List α) : Bool := s.contains x

/-- The operation `emplace` on a set container. -/
def set_emplace {α : Type} [DecidableEq α] (s : List α) (x : α) : List α :=
  if s.contains x then s else s ++ [x]

/-- The operation `erase` on a set container. -/
def set_erase {α : Type} [DecidableEq α] (s : List α) (x : α) : List α :=
  s.filter fun y => decide (y ≠ x)

/-- Equality of two set containers. -/
def set_eq {α : Type} [DecidableEq α] (s t : List α) : Bool :=
  s.all (fun x => t.contains x) && t.all (fun x => s.contains x)

namespace Linkage

/-- The statement `line_populations[line]++` on the
    `std::map<Line, uint_fast8_t>`, kept as an association list sorted by
    `Line::operator<`. -/
def populate : List (Line × Nat) → Line → List (Line × Nat)
  | [], x => [(x, 1)]
  | (k, n) :: rest, x =>
    if Line.op_lt x k then (x, 1) :: (k, n) :: rest
    else if Line.op_lt k x then (k, n) :: populate rest x
    else (k, (n + 1) % 256) :: rest

/-- The two population loops of `set_links`. -/
def line_populations (left_lines right_lines : List Line) : List (Line × Nat) :=
  right_lines.foldl populate (left_lines.foldl populate [])

/-- What `set_links` assigns. -/
structure Links where
  lines_ : List Line
  int_lines_ : List Line
  mem_scale_ : shape
  flop_scale_ : shape
  is_sigma_ : Bool
  is_den_ : Bool
deriving DecidableEq, Repr

/-- The state of a freshly constructed linkage on entry of `set_links`. -/
def Links.init : Links :=
  { lines_ := [], int_lines_ := [], mem_scale_ := shape.zero, flop_scale_ := shape.zero,
    is_sigma_ := false, is_den_ := false }

/-- The operation `int_lines_.insert(line)`. -/
def int_lines_insert (s : List Line) (x : Line) : List Line :=
  if s.any (fun y => Line.op_eq y x) then s else s ++ [x]

/-- The operation `int_lines_.find(line) != int_lines_.end()`. -/
def int_lines_find (s : List Line) (x : Line) : Bool :=
  s.any fun y => Line.op_eq y x

/-- One iteration of the classification loop of `set_links`. -/
def classify (st : Links) (e : Line × Nat) : Links :=
  let st1 : Links :=
    if e.2 = 1 then
      { st with
        lines_ := st.lines_ ++ [e.1]
        mem_scale_ := st.mem_scale_.addLine e.1
        is_sigma_ := if e.1.sig_ then true else st.is_sigma_
        is_den_ := if e.1.sig_ then st.is_den_ else if e.1.den_ then true else st.is_den_ }
    else
      { st with int_lines_ := int_lines_insert st.int_lines_ e.1 }
  { st1 with flop_scale_ := st1.flop_scale_.addLine e.1 }

/-- The member `Linkage::set_links`, run in the constructor. -/
def set_links (left right : Vertex) : Links :=
  let left_size := left.size
  let right_size := right.size
  if left_size = 0 ∧ right_size = 0 then Links.init
  else if left_size = 0 then
    { Links.init with
      lines_ := right.lines_, mem_scale_ := right.shape_, flop_scale_ := right.shape_ }
  else if right_size = 0 then
    { Links.init with
      lines_ := left.lines_, mem_scale_ := left.shape_, flop_scale_ := left.shape_ }
  else
    (line_populations left.lines_ right.lines_).foldl classify Links.init

/-- The search `std::find` followed by `std::distance`: the first position
    holding a line equal to `x`, or the size when there is none. -/
def index_of : List Line → Line → Nat
  | [], _ => 0
  | a :: as, x => if Line.op_eq a x then 0 else index_of as x + 1

/-- What `connect_lines` assigns. -/
structure Connec where
  int_connec_ : List (Nat × Nat)
  l_ext_idx_ : List Nat
  r_ext_idx_ : List Nat
deriving DecidableEq, Repr

/-- One iteration of the search loop of `connect_lines`. -/
def connect_step (search_left : Bool) (other_lines int_lines : List Line)
    (st : Connec) (e : Nat × Line) : Connec :=
  if !(int_lines_find int_lines e.2) then st
  else
    let other_idx := index_of other_lines e.2 % 256
    if search_left then
      { int_connec_ := set_emplace st.int_connec_ (e.1, other_idx)
        l_ext_idx_ := set_erase st.l_ext_idx_ e.1
        r_ext_idx_ := set_erase st.r_ext_idx_ other_idx }
    else
      { int_connec_ := set_emplace st.int_connec_ (other_idx, e.1)
        l_ext_idx_ := set_erase st.l_ext_idx_ other_idx
        r_ext_idx_ := set_erase st.r_ext_idx_ e.1 }

/-- The member `Linkage::connect_lines`. -/
def connect_lines (left_lines right_lines int_lines : List Line) : Connec :=
  let left_size := left_lines.length % 256
  let right_size := right_lines.length % 256
  let st0 : Connec :=
    { int_connec_ := [], l_ext_idx_ := List.range left_size,
      r_ext_idx_ := List.range right_size }
  let search_left := lines_lt left_lines right_lines
  let search_size := if search_left then left_size else right_size
  let searched := if search_left then left_lines else right_lines
  let other := if search_left then right_lines else left_lines
  ((List.range search_size).zip searched).foldl
    (connect_step search_left other int_lines) st0

/-- The first block of the constructor `Linkage::Linkage` ("set inputs"):
    the pair `(left_, right_)`.  Two plain vertices are stored in the order
    of their names, any other pair as supplied. -/
def order_children (left right : Node) : Node × Node :=
  if !left.is_linked && !right.is_linked then
    (if str_lt left.name right.name then (left, right) else (right, left))
  else (left, right)

/-- The constructor `Linkage::Linkage` from the assignment of `nvert_` on,
    with `left_` and `right_` already set.  `update_name` stands for the
    member `update_name()`, whose definition is not among the sources: it
    yields the new `name_` from the children and the vertex data assigned so
    far. -/
def assemble (update_name : Node → Node → Vertex → String) (left_ right_ : Node)
    (is_addition : Bool) : Node :=
  let nvert0 : Nat := 2
  let nvert1 := if left_.is_linked then nvert0 - 1 + left_.nvert_ else nvert0
  let nvert2 := if right_.is_linked then nvert1 - 1 + right_.nvert_ else nvert1
  let base_name := left_.vert.name_ ++ "\t" ++ right_.vert.name_
  let sl := set_links left_.vert right_.vert
  let v0 : Vertex :=
    { Vertex.empty_vertex with
      base_name_ := base_name
      lines_ := sl.lines_
      is_sigma_ := sl.is_sigma_
      is_den_ := sl.is_den_
      rank_ := sl.lines_.length
      shape_ := sl.mem_scale_
      has_blk_ := left_.vert.has_blk_ || right_.vert.has_blk_ }
  let v1 : Vertex := { v0 with name_ := update_name left_ right_ v0 }
  let cl := connect_lines left_.vert.lines_ right_.vert.lines_ sl.int_lines_
  Node.linkage v1
    { id_ := -1, nvert_ := nvert2, int_lines_ := sl.int_lines_,
      int_connec_ := cl.int_connec_, l_ext_idx_ := cl.l_ext_idx_,
      r_ext_idx_ := cl.r_ext_idx_, flop_scale_ := sl.flop_scale_,
      mem_scale_ := sl.mem_scale_, is_addition_ := is_addition, is_reused_ := false }
    left_ right_

/-- The constructor `Linkage::Linkage(left, right, is_addition)`. -/
def Linkage (update_name : Node → Node → Vertex → String) (left right : Node)
    (is_addition : Bool) : Node :=
  assemble update_name (order_children left right).1 (order_children left right).2
    is_addition

/-- The free function `operator*(left, right)`. -/
def op_mul (update_name : Node → Node → Vertex → String) (left right : Node) : Node :=
  Linkage update_name left right false

/-- The free function `operator+(left, right)`, as written in `linkage.cc`. -/
def op_add (update_name : Node → Node → Vertex → String) (left right : Node) : Node :=
  Linkage update_name left right false

/-- The comparison `Linkage::operator==`.  A linkage built by the two-child
    constructor is not the empty sentinel, so the `empty()` test falls
    through. -/
def op_eq : Node → Node → Bool
  | Node.linkage v d l r, Node.linkage v2 d2 l2 r2 =>
    if d.is_addition_ != d2.is_addition_ then false
    else if d.nvert_ != d2.nvert_ then false
    else if xor l.is_linked l2.is_linked then false
    else if xor r.is_linked r2.is_linked then false
    else if l.is_linked && !(op_eq l l2) then false
    else if r.is_linked && !(op_eq r r2) then false
    else if d.flop_scale_ != d2.flop_scale_ then false
    else if d.mem_scale_ != d2.mem_scale_ then false
    else if !(set_eq d.l_ext_idx_ d2.l_ext_idx_) then false
    else if !(set_eq d.r_ext_idx_ d2.r_ext_idx_) then false
    else if !(set_eq d.int_connec_ d2.int_connec_) then false
    else if !(Vertex.equivalent v v2) then false
    else if !(Vertex.equivalent l.vert l2.vert) then false
    else if !(Vertex.equivalent r.vert r2.vert) then false
    else true
  | _, _ => false

/-- The vertex built by `make_shared<Vertex>("")` (string constructor on a
    string without `(` or `<`). -/
def blank_vertex : Vertex :=
  { name_ := "", base_name_ := "", lines_ := [], rank_ := 0, shape_ := shape.zero,
    has_blk_ := false, is_sigma_ := false, is_den_ := false }

/-- The static member `Linkage::link(op_vec)`; `none` stands for the
    `invalid_argument` exception. -/
def link (update_name : Node → Node → Vertex → String) (op_vec : List Node) : Option Node :=
  let op_vec_size := op_vec.length % 256
  match op_vec with
  | [] => none
  | a :: rest =>
    if op_vec_size = 0 then none
    else if op_vec_size = 1 then some (op_mul update_name (Node.vertex blank_vertex) a)
    else
      match rest with
      | [] => none
      | b :: tail =>
        some ((tail.take (op_vec_size - 2)).foldl (op_mul update_name)
          (op_mul update_name a b))

end Linkage

/-! ## Flattening (`Linkage::to_vector`) -/

/-- The mutable members `all_vert_` of the linkages of a tree, laid out like
    the tree; `leaf` stands for a subtree in which every `all_vert_` is
    empty. -/
inductive Cache where
  | leaf : Cache
  | node (all_vert_ : List Node) (l r : Cache) : Cache
deriving DecidableEq, Repr

namespace Cache

/-- The vector `all_vert_` stored at the root. -/
def all_vert_ : Cache → List Node
  | leaf => []
  | node a _ _ => a

/-- The caches of the left subtree. -/
def left : Cache → Cache
  | leaf => leaf
  | node _ l _ => l

/-- The caches of the right subtree. -/
def right : Cache → Cache
  | leaf => leaf
  | node _ _ r => r

end Cache

namespace Linkage

/-- Both overloads of `Linkage::to_vector`: `to_vector(regenerate, full_expand)`
    with the body of `to_vector(result, i, full_expand)` inlined.  `dr` and
    `df` are the default values of `regenerate` and `full_expand`, declared in
    a header that is not among the sources and used by the recursive calls
    `to_vector()`.  The result is the returned vector with the caches after
    the call; `none` stands for a write behind the `nvert_` slots of the
    buffer. -/
def to_vector (dr df : Bool) : Node → Cache → Bool → Bool → Option (List Node × Cache)
  | Node.vertex _, c, _, _ => some ([], c)
  | Node.linkage _ d l r, c, regenerate, full_expand =>
    if c.all_vert_.isEmpty || regenerate then
      let lres : Option (List Node × Cache) :=
        if l.is_linked then
          if !full_expand && l.is_temp then some ([l], c.left)
          else to_vector dr df l c.left dr df
        else some ([l], c.left)
      lres.bind fun lv =>
        let rres : Option (List Node × Cache) :=
          if r.is_linked then
            if !full_expand && r.is_temp then some ([r], c.right)
            else to_vector dr df r c.right dr df
          else some ([r], c.right)
        rres.bind fun rv =>
          if lv.1.length + rv.1.length ≤ d.nvert_ then
            some (lv.1 ++ rv.1, Cache.node (lv.1 ++ rv.1) lv.2 rv.2)
          else none
    else some (c.all_vert_, c)

end Linkage

/-! ## Permutations (`Vertex::permute`) -/

namespace Vertex

/-- The table `factorial_map` of `Vertex::permute`. -/
def factorial_map : List Nat :=
  [1, 1, 2, 6, 24, 120, 720, 5040, 40320, 362880, 3628800, 39916800, 479001600,
   6227020800, 87178291200, 1307674368000, 20922789888000, 355687428096000,
   6402373705728000, 121645100408832000]

/-- The lambda `factorial` of `Vertex::permute` on `size_t`. -/
def factorial (n : Nat) : Nat :=
  if n < 20 then factorial_map.getD n 0
  else (List.range' 2 (n - 2)).reverse.foldl (fun acc i => acc * i % 2 ^ 64) n

/-- The call `std::swap(perm[i], perm[j])` on an array. -/
def swap_at (perm : List Nat) (i j : Nat) : Option (List Nat) :=
  match perm[i]?, perm[j]? with
  | some a, some b => some ((perm.set i b).set j a)
  | _, _ => none

/-- One of the two swap loops of `Vertex::permute`: returns the permuted
    index array and the swap counter. -/
def permute_side (size perm_id : Nat) (perm : List Nat) : Option (List Nat × Nat) :=
  (List.range size).foldlM
    (fun (st : List Nat × Nat) i =>
      let j := (i + perm_id % (size - i)) % 256
      (swap_at st.1 i j).map fun p => (p, (st.2 + (if j != i then 1 else 0)) % 256))
    (perm, 0)

/-- The last loop of `Vertex::permute`, as written: position `i` takes the
    line at `left_perm[i]` when `i < left_size` and at `right_perm[i]`
    otherwise. -/
def permute_lines (lines : List Line) (left_size : Nat) (left_perm right_perm : List Nat) :
    List Nat → List Line → Option (List Line)
  | [], perm_lines => some perm_lines
  | i :: rest, perm_lines =>
    (if i < left_size then left_perm[i]? else right_perm[i]?).bind fun perm_idx =>
      (lines[perm_idx]?).bind fun line =>
        if i % 256 < perm_lines.length then
          permute_lines lines left_size left_perm right_perm rest (perm_lines.set (i % 256) line)
        else none

/-- The member `Vertex::permute(perm_id, swap_sign)`: the returned vertex and
    the value left in `swap_sign`. -/
def permute (v : Vertex) (perm_id : Nat) : Option (Vertex × Bool) :=
  if perm_id = 0 then some (v, false)
  else if v.rank_ ≤ 2 then some (empty_vertex, false)
  else
    let right_size := (v.rank_ / 2) % 256
    let left_size := (v.rank_ - right_size) % 256
    let left_perm := List.range left_size
    let right_perm := (List.range right_size).map fun i => (i + left_size) % 256
    let total_left_perms := factorial left_size
    let total_right_perms := factorial right_size
    if perm_id ≥ total_left_perms * total_right_perms % 2 ^ 64 then some (empty_vertex, false)
    else
      let left_perm_id := perm_id % total_left_perms
      let right_perm_id := perm_id / total_left_perms
      (permute_side left_size left_perm_id left_perm).bind fun lp =>
        (permute_side right_size right_perm_id right_perm).bind fun rp =>
          let swap_sign := decide ((lp.2 + rp.2) % 2 = 1)
          (permute_lines v.lines_ left_size lp.1 rp.1 (List.range v.rank_) v.lines_).bind
            fun perm_lines =>
              (update_lines v perm_lines true).map fun perm_op => (perm_op, swap_sign)

end Vertex

/-! ## Permutation search (`permute_like`, `is_isomorphic`, `permute_eri`) -/

/-- How a call with a search loop ends: with a value, in an access outside an
    array (undefined behaviour), or not within the given number of loop
    iterations. -/
inductive Run (α : Type) where
  | done (a : α) : Run α
  | undefined : Run α
  | out_of_fuel : Run α
deriving DecidableEq, Repr

namespace Vertex

/-- The member `Vertex::same_lines`. -/
def same_lines (v other : Vertex) : Bool :=
  if v.lines_.length != other.lines_.length then false
  else lines_eq v.lines_ other.lines_

/-- The `while (has_next)` loop of `Vertex::permute_like`, entered with
    `perm_idx`.  `is_empty` stands for the member `empty()`, which is
    declared in a header that is not among the sources.  The value is the
    pair returned by `permute_like`: the vertex and `swap_sign`. -/
def permute_like_loop (is_empty : Vertex → Bool) (v other : Vertex) :
    Nat → Nat → Run (Vertex × Bool)
  | 0, _ => Run.out_of_fuel
  | fuel + 1, perm_idx =>
    match permute v perm_idx with
    | none => Run.undefined
    | some (this_permuted, swap_sign) =>
      if op_eq this_permuted other then Run.done (this_permuted, swap_sign)
      else if is_empty this_permuted then Run.done (empty_vertex, false)
      else permute_like_loop is_empty v other fuel ((perm_idx + 1) % 2 ^ 64)

/-- The member `Vertex::permute_like(other, swap_sign)`. -/
def permute_like (is_empty : Vertex → Bool) (fuel : Nat) (v other : Vertex) :
    Run (Vertex × Bool) :=
  if v.rank_ = 0 then Run.done (empty_vertex, false)
  else if !(equivalent v other) then Run.done (empty_vertex, false)
  else if !(same_lines v other) then Run.done (empty_vertex, false)
  else permute_like_loop is_empty v other fuel 0

/-- The free function `is_isomorphic(left, right, swap_signs)`: the returned
    flag and the value left in `swap_signs`. -/
def is_isomorphic (is_empty : Vertex → Bool) (fuel : Nat) (left right : Vertex)
    (swap_signs : Bool) : Run (Bool × Bool) :=
  if op_eq left right then Run.done (true, swap_signs)
  else if left.base_name_ != right.base_name_ then Run.done (false, swap_signs)
  else
    match permute_like is_empty fuel left right with
    | Run.undefined => Run.undefined
    | Run.out_of_fuel => Run.out_of_fuel
    | Run.done (permuted_similar, test_swap_signs) =>
      if !(equivalent permuted_similar right) then Run.done (false, swap_signs)
      else Run.done (true, if test_swap_signs then !swap_signs else swap_signs)

/-- One iteration of the loop of the static `Vertex::ovstring(lines)`; the
    state is `(ovstring, line_idx)`. -/
def ovstring_step (st : List Char × Nat) (line : Line) : Option (List Char × Nat) :=
  (if !line.o_ then (write_at st.1 st.2 'v').map fun s => (s, (st.2 + 1) % 256)
    else some st).bind fun st1 =>
    (if line.sig_ then (write_at st1.1 st1.2 'L').map fun s => (s, (st1.2 + 1) % 256)
      else some st1).bind fun st2 =>
      if line.den_ then (write_at st2.1 st2.2 'Q').map fun s => (s, (st2.2 + 1) % 256)
      else some st2

/-- The static member `Vertex::ovstring(lines)`, as written in `vertex.cc`. -/
def ovstring (lines : List Line) : Option String :=
  if lines.isEmpty then some ""
  else
    (lines.foldlM ovstring_step (List.replicate (lines.length % 256) 'o', 0)).map
      fun st => String.mk st.1

/-- The member `Vertex::blk_string()`. -/
def blk_string (v : Vertex) : Option String :=
  if !v.has_blk_ || v.lines_.isEmpty then some ""
  else
    (v.lines_.foldlM
      (fun (st : List Char × Nat) line =>
        (write_at st.1 st.2 line.block).map fun s => (s, (st.2 + 1) % 256))
      (List.replicate v.rank_ '\x00', 0)).map fun st => String.mk st.1

/-- The allow-list `valid_ovstrings` of `Vertex::permute_eri`. -/
def valid_ovstrings : List String :=
  ["oooo", "vvvv", "oovv", "vvoo", "vovo", "vooo", "oovo", "vovv", "vvvo"]

/-- Modelled from the spec: the member `ovstring()` is declared in a header
    that is not among the sources; it is the occ/vir string of the vertex,
    read as the static `ovstring` applied to the lines of the vertex. -/
def ovstring_member (v : Vertex) : Option String := ovstring v.lines_

/-- One pass through the body of the `do ... while` loop of
    `Vertex::permute_eri` with the permutation `id`; `next` is the outcome of
    the call when the pass ends without a valid string. -/
def permute_eri_pass (is_empty : Vertex → Bool) (v : Vertex) (id : Nat)
    (next : Option (Vertex × Bool)) : Option (Vertex × Bool) :=
  match permute v id with
  | none => none
  | some (new_eri, swap_sign) =>
    if is_empty new_eri then some (v, false)
    else
      match ovstring_member new_eri with
      | none => none
      | some ov => if valid_ovstrings.contains ov then some (new_eri, swap_sign) else next

/-- The `do ... while` loop of `Vertex::permute_eri`, entered with `id`;
    `remaining` is `valid_ovstrings.size() - count`.  The value is the vertex
    left in `*this` and the returned flag. -/
def permute_eri_loop (is_empty : Vertex → Bool) (v : Vertex) :
    Nat → Nat → Option (Vertex × Bool)
  | 0, id => permute_eri_pass is_empty v id (some (v, false))
  | n + 1, id =>
    permute_eri_pass is_empty v id (permute_eri_loop is_empty v n ((id + 1) % 2 ^ 64))

/-- The member `Vertex::permute_eri()`; `allow_permute` is the member
    `allow_permute_`.  `none` stands for undefined behaviour. -/
def permute_eri (is_empty : Vertex → Bool) (allow_permute : Bool) (v : Vertex) :
    Option (Vertex × Bool) :=
  if !allow_permute then some (v, false)
  else (blk_string v).bind fun _ => permute_eri_loop is_empty v valid_ovstrings.length 0

/-! ## Sorting (`Vertex::sort`) -/

/-- The comparator passed to `std::sort` in `Vertex::sort`. -/
def sort_compare (a b : Line) : Bool :=
  if a.sig_ != b.sig_ then a.sig_ && !b.sig_
  else if a.den_ != b.den_ then a.den_ && !b.den_
  else if a.o_ == b.o_ then a.a_ && !b.a_
  else !a.o_ && b.o_

/-- The inner loop of an insertion sort: `x` moves left past every element
    `p` of the sorted prefix (given from its right end) with `comp x p`. -/
def linear_insert {α : Type} (comp : α → α → Bool) (x : α) : List α → List α
  | [] => [x]
  | p :: ps => if comp x p then p :: linear_insert comp x ps else x :: p :: ps

/-- The library call `std::sort(first, last, comp)` on a range: the insertion
    sort that libstdc++ performs on ranges of at most 16 elements, for which
    the definition is exact.  On longer ranges libstdc++ sorts by introsort
    and may order the elements that `comp` does not distinguish differently
    (the standard leaves their order unspecified); the statements about
    `Vertex::sort` are made on ranges within the bound. -/
def std_sort {α : Type} (comp : α → α → Bool) (range : List α) : List α :=
  (range.foldl (fun sorted_rev x => linear_insert comp x sorted_rev) []).reverse

/-- The static member `Vertex::sort(lines)`. -/
def sort_lines (lines : List Line) : List Line :=
  if lines.isEmpty then lines
  else
    let total_size := lines.length % 256
    let left_size := total_size
    std_sort sort_compare (lines.take left_size) ++ lines.drop left_size

/-- The member `Vertex::sort()`. -/
def sort (v : Vertex) : Option Vertex :=
  update_lines { v with lines_ := sort_lines v.lines_ } (sort_lines v.lines_) true

end Vertex

/-! ## Self links and generic lines (`vertex.cc`) -/

/-- The library call `std::to_string` on a non-negative integer. -/
def to_string (n : Nat) : String := toString n

/-- The statement `m[key]++` on a `std::map<string, uint8_t>`, kept as an
    association list sorted by `std::string::operator<`. -/
def smap_incr : List (String × Nat) → String → List (String × Nat)
  | [], key => [(key, 1)]
  | (k, n) :: rest, key =>
    if str_lt key k then (key, 1) :: (k, n) :: rest
    else if str_lt k key then (k, n) :: smap_incr rest key
    else (k, (n + 1) % 256) :: rest

/-- The value `m[key]` of a `std::map<string, uint8_t>` (0 for a key that is
    not yet in the map). -/
def smap_get : List (String × Nat) → String → Nat
  | [], _ => 0
  | (k, n) :: rest, key => if k = key then n else smap_get rest key

/-- The statement `m[key] = value` on a `std::map<string, T>`. -/
def smap_assign {β : Type} : List (String × β) → String → β → List (String × β)
  | [], key, value => [(key, value)]
  | (k, b) :: rest, key, value =>
    if str_lt key k then (key, value) :: (k, b) :: rest
    else if str_lt k key then (k, b) :: smap_assign rest key value
    else (k, value) :: rest

/-- The test `m.find(key) != m.end()` on a `std::map<string, T>`. -/
def smap_has {β : Type} (m : List (String × β)) (key : String) : Bool :=
  m.any fun e => decide (e.1 = key)

namespace Vertex

/-- The map `unique_line_map` of `Vertex::self_links` after its first loop. -/
def unique_line_map (lines : List Line) : List (String × Nat) :=
  lines.foldl (fun m line => smap_incr m line.label_) []

/-- The member `Vertex::self_links()`. -/
def self_links (v : Vertex) : List (String × (Line × Nat)) :=
  if v.rank_ ≤ 1 then []
  else
    v.lines_.foldl
      (fun sl line =>
        if smap_get (unique_line_map v.lines_) line.label_ > 1 then
          smap_assign sl line.label_ (line, smap_get (unique_line_map v.lines_) line.label_)
        else sl)
      []

/-- The first loop of `Vertex::make_self_linkages`: the lines after the
    repeated ones got their running index appended; `counts` is the map of
    the same name. -/
def relabel_loop (self_links : List (String × (Line × Nat))) :
    List Line → List (String × Nat) → List Line
  | [], _ => []
  | line :: rest, counts =>
    if smap_has self_links line.label_ then
      { line with label_ := line.label_ ++ to_string (smap_get counts line.label_) } ::
        relabel_loop self_links rest (smap_incr counts line.label_)
    else line :: relabel_loop self_links rest counts

/-- The copy `delta_line` of `line` with `to_string(j)` appended to its label. -/
def delta_line (line : Line) (j : Nat) : Line :=
  { line with label_ := line.label_ ++ to_string j }

/-- The loop `for (int j = 0; j < freq; j++)` of `Vertex::make_self_linkages`:
    the list `delta_lines_list`. -/
def delta_lines_list (line : Line) (freq : Nat) : List (List Line) :=
  ((List.range freq).foldl
    (fun (st : List (List Line) × List Line) j =>
      if j % 2 = 1 then (st.1 ++ [st.2 ++ [delta_line line j]], [])
      else (st.1, st.2 ++ [delta_line line j]))
    ([], [])).1

/-- The three statements that build one delta vertex in
    `Vertex::make_self_linkages`. -/
def make_delta (delta_lines : List Line) : Option Vertex :=
  (of_lines "Id" delta_lines).bind fun delta =>
    update_lines { delta with base_name_ := "Id" } delta_lines true

/-- All results of a list of fallible steps, when every one is defined. -/
def all_defined {α : Type} : List (Option α) → Option (List α)
  | [] => some []
  | none :: _ => none
  | some a :: rest => (all_defined rest).map fun l => a :: l

/-- The member `Vertex::make_self_linkages(self_links)`: the vertex
    afterwards and the returned vector `delta_ops`. -/
def make_self_linkages (v : Vertex) (self_links : List (String × (Line × Nat))) :
    Option (Vertex × List Vertex) :=
  (all_defined
      ((self_links.flatMap fun e => delta_lines_list e.2.1 e.2.2).map make_delta)).map
    fun delta_ops => ({ v with lines_ := relabel_loop self_links v.lines_ [] }, delta_ops)

/-- The loop of `Vertex::general_lines`, entered with the counters `c_occ`
    and `c_vir`. -/
def general_lines_loop : List Line → Nat → Nat → List Line
  | [], _, _ => []
  | line :: rest, c_occ, c_vir =>
    if line.o_ then
      { line with label_ := "o" ++ to_string c_occ } ::
        general_lines_loop rest ((c_occ + 1) % 256) c_vir
    else
      { line with label_ := "v" ++ to_string c_vir } ::
        general_lines_loop rest c_occ ((c_vir + 1) % 256)

/-- The static member `Vertex::general_lines(lines)`. -/
def general_lines (lines : List Line) : List Line := general_lines_loop lines 0 0

/-- The member `Vertex::genericize()`. -/
def genericize (v : Vertex) : Option Vertex :=
  update_lines v (general_lines v.lines_) true

end Vertex

/-! ## Auxiliary notions used in the statements -/

namespace Node

/-- The member `left_` of a linkage. -/
def left_ : Node → Node
  | vertex v => vertex v
  | linkage _ _ l _ => l

/-- The member `right_` of a linkage. -/
def right_ : Node → Node
  | vertex v => vertex v
  | linkage _ _ _ r => r

/-- The member `int_lines_` of a linkage. -/
def int_lines_ : Node → List Line
  | vertex _ => []
  | linkage _ d _ _ => d.int_lines_

/-- The member `int_connec_` of a linkage. -/
def int_connec_ : Node → List (Nat × Nat)
  | vertex _ => []
  | linkage _ d _ _ => d.int_connec_

/-- The member `l_ext_idx_` of a linkage. -/
def l_ext_idx_ : Node → List Nat
  | vertex _ => []
  | linkage _ d _ _ => d.l_ext_idx_

/-- The member `r_ext_idx_` of a linkage. -/
def r_ext_idx_ : Node → List Nat
  | vertex _ => []
  | linkage _ d _ _ => d.r_ext_idx_

/-- The member `flop_scale_` of a linkage. -/
def flop_scale_ : Node → shape
  | vertex _ => shape.zero
  | linkage _ d _ _ => d.flop_scale_

/-- The member `mem_scale_` of a linkage. -/
def mem_scale_ : Node → shape
  | vertex _ => shape.zero
  | linkage _ d _ _ => d.mem_scale_

/-- The count `n(child)` of the specification: 1 for a plain vertex, the
    stored `nvert_` for a linkage. -/
def count (n : Node) : Nat := if n.is_linked then n.nvert_ else 1

/-- Assignment `linkage->id() = k`. -/
def set_id (k : Int) : Node → Node
  | vertex v => vertex v
  | linkage v d l r => linkage v { d with id_ := k } l r

end Node

/-- Numeric rank of the kind bits of a line, in the order in which
    `Line::operator<` tests them. -/
def Line.kind (x : Line) : Nat :=
  (if x.sig_ then 0 else 8) + (if x.den_ then 0 else 4) + (if x.o_ then 2 else 0) +
    (if x.a_ then 0 else 1)

/-- The fields that `Line::operator<` and `Line::operator==` look at, in
    lexicographic order. -/
def Line.key (x : Line) : ℕ ×ₗ String := toLex (x.kind, x.label_)

/-- A line equal (under `Line::operator==`) to `x` occurs in `ls`. -/
def Line.occurs_in (x : Line) (ls : List Line) : Bool := ls.any fun y => Line.op_eq y x

/-- No line occurs twice in `ls` (under `Line::operator==`). -/
def no_repeat (ls : List Line) : Prop := ls.Pairwise fun a b => Line.op_eq a b = false

/-- Strictly increasing keys of a population map. -/
def KeySorted (m : List (Line × Nat)) : Prop :=
  m.Pairwise fun a b => a.1.key < b.1.key

/-- Number of lines of `ls` with the same key as `x`. -/
def key_count (ls : List Line) (x : Line) : Nat :=
  ls.countP fun y => decide (y.key = x.key)

/-- The first line of `ls` with the same key as `x`. -/
def key_first (ls : List Line) (x : Line) : Option Line :=
  ls.find? fun y => decide (y.key = x.key)

/-- What the population map holds after the lines `ls` were counted. -/
structure PopInv (ls : List Line) (m : List (Line × Nat)) : Prop where
  sorted : KeySorted m
  count : ∀ e ∈ m, e.2 = key_count ls e.1 % 256
  first : ∀ e ∈ m, key_first ls e.1 = some e.1
  cover : ∀ x ∈ ls, ∃ e ∈ m, e.1.key = x.key

/-- The keys of the population map with count 1. -/
def ext_of (m : List (Line × Nat)) : List Line :=
  (m.filter fun e => decide (e.2 = 1)).map Prod.fst

/-- The keys of the population map with a count other than 1. -/
def int_of (m : List (Line × Nat)) : List Line :=
  (m.filter fun e => !decide (e.2 = 1)).map Prod.fst

/-- The nodes that the constructor and `id()` assignments produce from plain
    vertices. -/
inductive Built (update_name : Node → Node → Vertex → String) : Node → Prop where
  | vertex (v : Vertex) : Built update_name (Node.vertex v)
  | link (l r : Node) (is_addition : Bool) : Built update_name l → Built update_name r →
      Built update_name (Linkage.Linkage update_name l r is_addition)
  | set_id (n : Node) (k : Int) : Built update_name n → Built update_name (n.set_id k)

namespace Node

/-- Every vertex object of the tree has `rank_ = |lines_|`. -/
def RankOK : Node → Prop
  | vertex v => v.rank_ = v.lines_.length
  | linkage v _ l r => v.rank_ = v.lines_.length ∧ RankOK l ∧ RankOK r

/-- Every linkage of the tree stores in `nvert_` the number of its leaves. -/
def CountOK : Node → Prop
  | vertex _ => True
  | linkage _ d l r => d.nvert_ = leaf_count l + leaf_count r ∧ CountOK l ∧ CountOK r

/-- A named intermediate lies strictly below the node. -/
def has_temp_below : Node → Bool
  | vertex _ => false
  | linkage _ _ l r =>
    l.is_temp || has_temp_below l || r.is_temp || has_temp_below r

/-- The flattening described by the specification for `full_expand = false`:
    the left-to-right leaf sequence in which every sub-linkage that is a named
    intermediate, at any depth, is one element. -/
def flat_named : Node → List Node
  | vertex v => [vertex v]
  | linkage _ _ l r =>
    (if l.is_temp then [l] else flat_named l) ++ (if r.is_temp then [r] else flat_named r)

/-- The vector that a recursive call `to_vector()` computes when the default
    of `full_expand` is `df`. -/
def default_flat (df : Bool) (n : Node) : List Node :=
  if df then n.leaves else n.flat_named

end Node

/-- The left-deep chain `((a * b) * c₁) * c₂ ...` built with `operator*`. -/
def Linkage.chain (update_name : Node → Node → Vertex → String) (a b : Node)
    (cs : List Node) : Node :=
  cs.foldl (Linkage.op_mul update_name) (Linkage.op_mul update_name a b)

/-- What one child contributes to the vector computed by
    `to_vector(result, i, full_expand)` on empty caches, when the default of
    `full_expand` is `df`. -/
def Linkage.part (df full_expand : Bool) (c : Node) : List Node :=
  if c.is_linked then
    (if !full_expand && c.is_temp then [c] else c.default_flat df)
  else [c]

/-- Strictly increasing keys of a `std::map<string, T>`. -/
def SSorted {β : Type} (m : List (String × β)) : Prop :=
  m.Pairwise fun a b => a.1 < b.1

/-- Number of lines of `ls` that carry the label `label`. -/
def label_count (ls : List Line) (label : String) : Nat :=
  ls.countP fun l => decide (l.label_ = label)

/-- The number written in decimal by the characters of `s`. -/
def parse_decimal (s : String) : Nat :=
  s.data.foldl (fun acc c => acc * 10 + (c.toNat - 48)) 0

/-- The lines for which `update_lines` stays inside its two-character
    buffers when it is run on a pair of copies of the line: every line that
    is not at once virtual (neither sigma nor density) and blocked. -/
def Line.delta_ok (l : Line) : Bool := l.sig_ || l.den_ || l.o_ || !l.has_blk

/-- The occ/vir string of a line vector read position by position: character
    `i` is `o` when line `i` is occupied and `v` otherwise. -/
def occ_vir_string (lines : List Line) : String :=
  String.mk (lines.map fun l => if l.o_ then 'o' else 'v')

/-- The loop of `Vertex::equivalent` over the positions below `n`. -/
def positions_equivalent (xs ys : List Line) (n : Nat) : Bool :=
  (List.range n).all fun i =>
    match xs[i]?, ys[i]? with
    | some a, some b => Line.equivalent a b
    | _, _ => false

/-! ## The constructor of a line (`line.hpp`) -/

namespace Line

/-- The initial value of the static array `occ_labels_` (`array<char, 32>`:
    the positions without an initialiser hold the null character). -/
def occ_labels_ : List Char :=
  ['i', 'j', 'k', 'l', 'm', 'n', 'o', 'I', 'J', 'K', 'M', 'N', 'O'] ++
    List.replicate 19 '\x00'

/-- The initial value of the static array `virt_labels_`. -/
def virt_labels_ : List Char :=
  ['a', 'b', 'c', 'd', 'e', 'f', 'g', 'h', 'v', 'A', 'B', 'C', 'D', 'E', 'F', 'G', 'H', 'V'] ++
    List.replicate 14 '\x00'

/-- The initial value of the static array `sig_labels_`. -/
def sig_labels_ : List Char := ['L', 'R', 'X', 'Y'] ++ List.replicate 28 '\x00'

/-- The initial value of the static array `den_labels_`. -/
def den_labels_ : List Char := ['Q', 'U'] ++ List.replicate 30 '\x00'

/-- The `switch (blk)` of the constructor `Line::Line(name, blk)`: the values
    of `blk_type_` and `a_`; `none` stands for the `runtime_error` of the
    default case. -/
def block_switch (blk : Char) : Option (Char × Bool) :=
  if blk = '\x00' then some ('\x00', true)
  else if blk = 'a' then some ('s', true)
  else if blk = 'b' then some ('s', false)
  else if blk = '1' then some ('r', true)
  else if blk = '0' then some ('r', false)
  else none

/-- The constructor `Line::Line(name, blk)`.  The four alphabets are the
    static arrays `occ_labels_`, `virt_labels_`, `sig_labels_`, `den_labels_`
    as they stand at the call (`set_options` can replace them); `none` stands
    for a `runtime_error`. -/
def of_name (occ virt sig den : List Char) (name : String) (blk : Char) : Option Line :=
  match name.data with
  | [] => none
  | line_char :: _ =>
    if line_char = '\x00' then
      some { label_ := name, o_ := false, a_ := true, blk_type_ := '\x00', sig_ := false,
             den_ := false }
    else
      let o := occ.contains line_char
      let sig_found := if !o then (if !(virt.contains line_char) then sig.contains line_char
        else false) else false
      let den_found := if !o then (if !(virt.contains line_char) then
        (if !sig_found then den.contains line_char else false) else false) else false
      (block_switch blk).map fun b =>
        { label_ := name, o_ := o, a_ := b.2, blk_type_ := b.1, sig_ := sig_found,
          den_ := den_found }

end Line

/-! ## Terms, equations and the graph (`consolidate.cc`, `pq_graph.cc`) -/

namespace Node

/-- Modelled from the spec: `is_scalar()` is declared in a header that is
    not among the sources; "scalar (rank 0)". -/
def is_scalar (n : Node) : Bool := n.vert.rank_ == 0

/-- The member `id_` of a linkage (`id()` in `consolidate.cc`), read only
    under `is_linked()`. -/
def id_ : Node → Int
  | vertex _ => -1
  | linkage _ d _ _ => d.id_

/-- The member `is_reused_` of a linkage (`reused_` in `consolidate.cc`),
    read only under `is_linked()`. -/
def is_reused_ : Node → Bool
  | vertex _ => false
  | linkage _ d _ _ => d.is_reused_

/-- Assignment `linkage->reused_ = value`. -/
def set_reused (value : Bool) : Node → Node
  | vertex v => vertex v
  | linkage v d l r => linkage v { d with is_reused_ := value } l r

end Node

/-- Modelled from the spec: `class Term` is declared in a header that is not
    among the sources.  "Attributes: `lhs` (Vertex or Linkage), ..., `rhs`
    (ordered list of Vertex pointers), ..., `is_assignment` (vs. accumulate),
    `comments`."  Only the members that the embedded functions read or write
    are kept. -/
structure Term where
  lhs : Node
  rhs : List Node
  is_assignment_ : Bool
  comments : List String
deriving DecidableEq, Repr

/-- Modelled from the spec: `class Equation` is declared in a header that is
    not among the sources.  "Attributes: ..., ordered list of Terms,
    `is_temp_equation` (intermediate declarations vs. user equations)".  Only
    the members that the embedded functions read or write are kept. -/
structure Equation where
  terms : List Term
  is_temp_equation_ : Bool
deriving DecidableEq, Repr

/-- Modelled from the spec: a default-constructed `Equation`, as
    `equations_[name]` inserts it for a name that is not in the map. -/
def Equation.empty : Equation := { terms := [], is_temp_equation_ := false }

/-- The value `m[key]` of the `std::map<string, Equation>`. -/
def smap_eq (m : List (String × Equation)) (key : String) : Equation :=
  match m.find? fun e => decide (e.1 = key) with
  | some e => e.2
  | none => Equation.empty

/-- The statement `m.erase(key)` on a `std::map<string, T>`. -/
def smap_erase {β : Type} (m : List (String × β)) (key : String) : List (String × β) :=
  m.filter fun e => decide (e.1 ≠ key)

/-- The value `m[key]` of the `std::map<string, linkage_set>`. -/
def smap_set (m : List (String × List Node)) (key : String) : List Node :=
  match m.find? fun e => decide (e.1 = key) with
  | some e => e.2
  | none => []

/-- The data members of `class PQGraph` that the embedded functions read or
    write. -/
structure PQGraph where
  equations_ : List (String × Equation)
  temp_counts_ : List (String × Nat)
  saved_linkages_ : List (String × List Node)
deriving DecidableEq, Repr

/-- The members of `Term`, `Equation`, `linkage_set` and `PQGraph` that
    `consolidate.cc` and `pq_graph.cc` call and whose definitions are not
    among the sources.  Each is taken as a function of what it reads; for the
    members of `PQGraph` that is the part of the graph kept in `PQGraph`. -/
structure Missing where
  /-- The constructor `Term(linkage, coeff)`. -/
  term_of_linkage : Node → Term
  /-- The constructor `Term(string)`. -/
  term_of_string : String → Term
  /-- The call `temp->str(true, false)` in `PQGraph::str`, whose result depends
      on `dimstring()` and `is_temp()`. -/
  lhs_name : Node → String
  /-- The member `Equation::substitute(linkage, allow_equality)`: the equation
      afterwards and the number of substitutions. -/
  eq_substitute : Equation → Node → Bool → Equation × Nat
  /-- The member `Equation::rearrange()`. -/
  eq_rearrange : Equation → Equation
  /-- The member `Equation::make_scalars(scalars, n_temps)`: the equation, the
      set `scalars` and the counter afterwards. -/
  eq_make_scalars : Equation → List Node → Nat → Equation × List Node × Nat
  /-- The member `linkage_set::insert`. -/
  set_insert : List Node → Node → List Node
  /-- The member `PQGraph::sort_tmps(equation)`. -/
  sort_tmps : Equation → Equation
  /-- The member `PQGraph::remove_redundant_tmps()`. -/
  remove_redundant_tmps : PQGraph → PQGraph
  /-- The call `reorder()` at the head of `PQGraph::substitute`. -/
  reorder : PQGraph → PQGraph
  /-- The calls `make_all_links(true)`, `merge_terms()` and
      `collect_scaling(true)` before the loop of `PQGraph::substitute`. -/
  generate : PQGraph → PQGraph
  /-- The end of one pass of the loop of `PQGraph::substitute`: the update of
      `test_linkages` with `merge_terms()`, `merge_intermediates()`, `prune()`
      and `make_all_links(true)`. -/
  regenerate : PQGraph → PQGraph
  /-- The calls after the loop of `PQGraph::substitute`: `merge_terms()`,
      `merge_intermediates()`, `rearrange()` of every equation and
      `collect_scaling(true, true)`. -/
  finish : PQGraph → PQGraph

namespace PQGraph

/-- The member `PQGraph::add_tmp(precon, equation, coeff)`: the equation with
    the term of the declaration appended. -/
def add_tmp (m : Missing) (precon : Node) (equation : Equation) : Equation :=
  { equation with terms := equation.terms ++ [m.term_of_linkage precon] }

/-- The local `temp_type` of `PQGraph::substitute`. -/
def temp_type (format_sigma only_scalars : Bool) : String :=
  if only_scalars then "scalar" else if format_sigma then "reused" else "temp"

/-- The local `eq_type` of `PQGraph::substitute`. -/
def eq_type (temp_type : String) (linkage : Node) : String :=
  if linkage.is_scalar then "scalar" else temp_type

/-- The block "ensure necessary equations exist" of `PQGraph::substitute`
    for one name. -/
def ensure_equation (equations : List (String × Equation)) (missing : String) :
    List (String × Equation) :=
  if smap_has equations missing then equations
  else smap_assign equations missing { terms := [], is_temp_equation_ := true }

/-- The block "ensure necessary equations exist" of `PQGraph::substitute`. -/
def ensure_equations (equations : List (String × Equation)) : List (String × Equation) :=
  ensure_equation (ensure_equation (ensure_equation equations "temp") "reused") "scalar"

/-- The head of the body of the scoring loop of `PQGraph::substitute`, from
    "copy linkage" to "set id of linkage", for one candidate: `none` when the
    candidate is put into `ignore_linkages` and skipped, otherwise the
    candidate with `reused_` and `id()` assigned.  `no_scalars` is the static
    `Equation::no_scalars_`. -/
def screen (format_sigma only_scalars no_scalars : Bool) (temp_counts : List (String × Nat))
    (linkage : Node) : Option Node :=
  if linkage.is_scalar && no_scalars then none
  else if (format_sigma && linkage.vert.is_sigma_) || (only_scalars && !linkage.is_scalar)
  then none
  else
    some ((linkage.set_reused format_sigma).set_id
      ((smap_get temp_counts (eq_type (temp_type format_sigma only_scalars) linkage) : Nat)
        + 1))

/-- The loop over `eq_keys` in the commit of `PQGraph::substitute`:
    `Equation::substitute` on every equation, `rearrange()` where a
    substitution was made, and the sum `num_subs`. -/
def substitute_all (m : Missing) (link_to_sub : Node) (allow_equality : Bool) :
    List (String × Equation) → List (String × Equation) × Nat
  | [] => ([], 0)
  | (eq_name, equation) :: rest =>
    let r := m.eq_substitute equation link_to_sub allow_equality
    let tail := substitute_all m link_to_sub allow_equality rest
    if r.2 > 0 then ((eq_name, m.eq_rearrange r.1) :: tail.1, r.2 + tail.2)
    else ((eq_name, r.1) :: tail.1, tail.2)

/-- The body of the commit loop of `PQGraph::substitute` for one entry of
    `sorted_test_data`, up to the test of the batch: the graph afterwards and
    whether a substitution was made (`num_subs > 0`). -/
def commit_step (m : Missing) (temp_type : String) (found_linkage : Node) (g : PQGraph) :
    PQGraph × Bool :=
  let eq_type := eq_type temp_type found_linkage
  let temp_id := smap_get g.temp_counts_ eq_type + 1
  let link_to_sub := found_linkage.set_id (temp_id : Nat)
  let r := substitute_all m link_to_sub true g.equations_
  if r.2 = 0 then
    ({ g with equations_ := r.1, temp_counts_ := smap_assign g.temp_counts_ eq_type (temp_id - 1) },
      false)
  else
    ({ equations_ := smap_assign r.1 eq_type (add_tmp m link_to_sub (smap_eq r.1 eq_type))
       temp_counts_ := smap_assign g.temp_counts_ eq_type temp_id
       saved_linkages_ := smap_assign g.saved_linkages_ eq_type
         (m.set_insert (smap_set g.saved_linkages_ eq_type) link_to_sub) }, true)

/-- The commit loop of `PQGraph::substitute` over `sorted_test_data`, entered
    with `batch_count`. -/
def commit_loop (m : Missing) (batched : Bool) (batch_size max_temps : Nat)
    (temp_type : String) : List Node → Nat → PQGraph → PQGraph
  | [], _, g => g
  | found_linkage :: rest, batch_count, g =>
    let r := commit_step m temp_type found_linkage g
    if !r.2 then commit_loop m batched batch_size max_temps temp_type rest batch_count r.1
    else if !batched || batch_count + 1 ≥ batch_size ||
        smap_get r.1.temp_counts_ (eq_type temp_type found_linkage) > max_temps then r.1
    else commit_loop m batched batch_size max_temps temp_type rest (batch_count + 1) r.1

/-- The `while` loop of `PQGraph::substitute`.  The list holds, pass by pass,
    what the scoring and the filter leave in `sorted_test_data`; it ends with
    the pass after which `test_linkages` is empty. -/
def substitute_loop (m : Missing) (batched : Bool) (batch_size max_temps : Nat)
    (temp_type : String) : List (List Node) → PQGraph → PQGraph
  | [], g => g
  | sorted_test_data :: later, g =>
    if smap_get g.temp_counts_ temp_type < max_temps then
      substitute_loop m batched batch_size max_temps temp_type later
        (m.regenerate (commit_loop m batched batch_size max_temps temp_type sorted_test_data 0 g))
    else g

/-- The member `PQGraph::substitute(ignore_declarations, format_sigma,
    only_scalars)` on the members kept in `PQGraph`; `batched`, `batch_size`
    and `max_temps` are the members `batched_`, `batch_size_`, `max_temps_`. -/
def substitute (m : Missing) (batched : Bool) (batch_size max_temps : Nat)
    (format_sigma only_scalars : Bool) (passes : List (List Node)) (g : PQGraph) : PQGraph :=
  let g1 := m.reorder g
  let g2 := m.generate { g1 with equations_ := ensure_equations g1.equations_ }
  m.finish
    (substitute_loop m batched batch_size max_temps (temp_type format_sigma only_scalars)
      passes g2)

end PQGraph

/-! ## Scalars and the emitted terms (`PQGraph::make_scalars`, `PQGraph::str`) -/

namespace PQGraph

/-- The loop of `PQGraph::make_scalars` over the equations: every equation
    but `scalar` goes through `Equation::make_scalars`, which shares the set
    `scalars` and the counter `temp_counts_["scalar"]`. -/
def make_scalars_loop (m : Missing) :
    List (String × Equation) → List Node → Nat → List (String × Equation) × List Node × Nat
  | [], scalars, n => ([], scalars, n)
  | (name, eq) :: rest, scalars, n =>
    if name = "scalar" then
      let tail := make_scalars_loop m rest scalars n
      ((name, eq) :: tail.1, tail.2)
    else
      let r := m.eq_make_scalars eq scalars n
      let tail := make_scalars_loop m rest r.2.1 r.2.2
      ((name, r.1) :: tail.1, tail.2)

/-- The flag `has_scalar` of `PQGraph::make_scalars` for one term. -/
def has_scalar (term : Term) : Bool :=
  term.rhs.any fun op => op.is_linked && op.is_scalar

/-- The block "remove scalars from all equations" of
    `PQGraph::make_scalars`, with the removal of the equations that are left
    without terms. -/
def remove_scalars (equations : List (String × Equation)) : List (String × Equation) :=
  equations.filterMap fun e =>
    let new_terms := e.2.terms.filter fun term => !(has_scalar term)
    if new_terms.isEmpty then none else some (e.1, { e.2 with terms := new_terms })

/-- The loop "add new scalars to all linkages and equations" of
    `PQGraph::make_scalars`. -/
def add_scalars (m : Missing) (scalars : List Node) (g : PQGraph) : PQGraph :=
  scalars.foldl
    (fun g scalar =>
      { g with
        equations_ := smap_assign g.equations_ "scalar"
          (add_tmp m scalar (smap_eq g.equations_ "scalar"))
        saved_linkages_ := smap_assign g.saved_linkages_ "scalar"
          (m.set_insert (smap_set g.saved_linkages_ "scalar") scalar) })
    g

/-- The member `PQGraph::make_scalars()` on the members kept in `PQGraph`;
    `no_scalars` is the static `Equation::no_scalars_`. -/
def make_scalars (m : Missing) (no_scalars : Bool) (g : PQGraph) : PQGraph :=
  let r := make_scalars_loop m g.equations_ (smap_set g.saved_linkages_ "scalar")
    (smap_get g.temp_counts_ "scalar")
  let g1 : PQGraph :=
    { g with equations_ := ensure_equation r.1 "scalar"
             temp_counts_ := smap_assign g.temp_counts_ "scalar" r.2.2 }
  let g2 : PQGraph :=
    if no_scalars then
      { g1 with equations_ := remove_scalars (smap_erase g1.equations_ "scalar") }
    else g1
  let g3 := add_scalars m (if no_scalars then [] else r.2.1) g2
  { g3 with
    equations_ := smap_assign g3.equations_ "scalar"
      { (smap_eq g3.equations_ "scalar") with
        terms := (smap_eq g3.equations_ "scalar").terms.map fun term =>
          { term with comments := [] } } }

/-- The loop of `PQGraph::str` that gathers `all_terms`: the equations with
    what the loop changed in them, and `all_terms`. -/
def collect_terms (m : Missing) :
    List (String × Equation) → List (String × Equation) × List Term
  | [] => ([], [])
  | (eq_name, equation) :: rest =>
    let tail := collect_terms m rest
    if equation.terms.isEmpty then ((eq_name, equation) :: tail.1, tail.2)
    else if eq_name = "scalars" || eq_name = "reuse" then
      ((eq_name, equation) :: tail.1, tail.2)
    else
      let sorted := m.sort_tmps equation
      let marked : Equation :=
        if eq_name != "tmps" then
          { sorted with
            terms := match sorted.terms with
              | [] => []
              | front :: others => { front with is_assignment_ := true } :: others }
        else sorted
      ((eq_name, marked) :: tail.1, marked.terms ++ tail.2)

/-- The test `found` of `PQGraph::str`: some operand of the right-hand side
    is a linkage that is neither a scalar nor reused and has the id
    `temp_id`. -/
def uses_tmp (temp_id : Int) (term : Term) : Bool :=
  term.rhs.any fun op =>
    op.is_linked && (!op.is_scalar && !op.is_reused_) && decide (op.id_ = temp_id)

/-- The search `for (auto i = all_terms.size() - 1; i >= 0; --i)` of
    `PQGraph::str`: the last position of a term that uses the intermediate
    `temp_id`. -/
def last_use (temp_id : Int) (all_terms : List Term) : Option Nat :=
  (List.range all_terms.length).reverse.find? fun i =>
    match all_terms[i]? with
    | some term => uses_tmp temp_id term
    | none => false

/-- The term `newterm` of `PQGraph::str` for the intermediate `temp`;
    `make_einsum` is the static `Term::make_einsum`. -/
def destructor_term (m : Missing) (make_einsum : Bool) (temp : Node) : Term :=
  { (m.term_of_string
      (if make_einsum then "del " ++ m.lhs_name temp
       else m.lhs_name temp ++ ".~TArrayD();")) with
    is_assignment_ := true
    comments := [] }

/-- The loop `for (auto &tempterm : equations_["tmps"])` of `PQGraph::str`
    over the terms that are still to come; the state is `all_terms` and
    `found_tmp_ids`.  `none` stands for an access outside `found_tmp_ids`. -/
def destructor_pass (m : Missing) (make_einsum : Bool) :
    List Term → List Term → List Bool → Option (List Term × List Bool)
  | [], all_terms, found_tmp_ids => some (all_terms, found_tmp_ids)
  | tempterm :: rest, all_terms, found_tmp_ids =>
    if !tempterm.lhs.is_linked then destructor_pass m make_einsum rest all_terms found_tmp_ids
    else
      let temp_id := tempterm.lhs.id_
      if temp_id < 1 then none
      else
        match found_tmp_ids[(temp_id - 1).toNat]? with
        | none => none
        | some true => destructor_pass m make_einsum rest all_terms found_tmp_ids
        | some false =>
          match last_use temp_id all_terms with
          | none => destructor_pass m make_einsum rest all_terms found_tmp_ids
          | some i =>
            destructor_pass m make_einsum rest
              (all_terms.take (i + 1) ++ [destructor_term m make_einsum tempterm.lhs] ++
                all_terms.drop (i + 1))
              (found_tmp_ids.set (temp_id - 1).toNat true)

/-- The `do ... while (!found_all_tmp_ids && retry++ < max_retry)` loop of
    `PQGraph::str`; `remaining` is `max_retry - retry`. -/
def destructor_loop (m : Missing) (make_einsum : Bool) (tmps : List Term) :
    Nat → List Term → List Bool → Option (List Term × List Bool)
  | 0, all_terms, found_tmp_ids => destructor_pass m make_einsum tmps all_terms found_tmp_ids
  | remaining + 1, all_terms, found_tmp_ids =>
    (destructor_pass m make_einsum tmps all_terms found_tmp_ids).bind fun r =>
      if r.2.all id then some r else destructor_loop m make_einsum tmps remaining r.1 r.2

/-- The term list that `PQGraph::str` streams under "Evaluate Equations"
    (the terms of `merged_eq` at the end); `none` stands for undefined
    behaviour. -/
def str_terms (m : Missing) (make_einsum : Bool) (g : PQGraph) : Option (List Term) :=
  let g1 := m.remove_redundant_tmps g
  let c := collect_terms m g1.equations_
  let all_terms := (m.sort_tmps { terms := c.2, is_temp_equation_ := false }).terms
  let tmps := (m.sort_tmps (smap_eq c.1 "tmps")).terms
  (destructor_loop m make_einsum tmps tmps.length all_terms
    (List.replicate tmps.length false)).map Prod.fst

end PQGraph

/-! ## Options (`PQGraph::set_options`) -/

/-- The Python values of the options dictionary, by what the casts of
    `set_options` make of them: an `int`, a `bool`, a dictionary that casts to
    `std::map<string, int>`, and any other object. -/
inductive PyObj where
  | int (n : Int) : PyObj
  | bool (b : Bool) : PyObj
  | int_map (items : List (String × Int)) : PyObj
  | other : PyObj
deriving DecidableEq, Repr

/-- The item access `options[key]` followed by
    `cast<std::map<string, int>>()`: `none` stands for the exception that
    pybind11 throws when the key is missing or the value does not cast. -/
def cast_int_map (options : List (String × PyObj)) (key : String) :
    Option (List (String × Int)) :=
  match options.find? fun e => decide (e.1 = key) with
  | some (_, PyObj.int_map items) => some items
  | _ => none

/-- The lookup `max_shape_map.at(key)` after a successful `find(key)`. -/
def int_map_find (max_shape_map : List (String × Int)) (key : String) : Option Int :=
  (max_shape_map.find? fun e => decide (e.1 = key)).map Prod.snd

/-- The conversion `static_cast<size_t>(int)`. -/
def to_size_t (n : Int) : Nat := (n % 2 ^ 64).toNat

namespace PQGraph

/-- The block of `PQGraph::set_options` that reads `max_shape`: the members
    `oa_` and `va_` of the static `Term::max_shape_` afterwards, and the
    message of the `invalid_argument` that leaves the function, if any.
    `narrow` is the conversion from `size_t` to the type of `oa_` and `va_`,
    which is declared in a header that is not among the sources. -/
def set_options_max_shape (narrow : Nat → Nat) (options : List (String × PyObj))
    (max_shape_ : Nat × Nat) : (Nat × Nat) × Option String :=
  if smap_has options "max_shape" then
    match cast_int_map options "max_shape_map" with
    | none =>
      (max_shape_, some "max_shape_map must be a map with 'o' or 'v' as keys to int values")
    | some max_shape_map =>
      if max_shape_map.any fun e => decide (e.1 ≠ "o") && decide (e.1 ≠ "v") then
        (max_shape_, some "max_shape_map must contain only 'o' and 'v' keys")
      else
        let oa := match int_map_find max_shape_map "o" with
          | some max_o => narrow (to_size_t max_o)
          | none => max_shape_.1
        let va := match int_map_find max_shape_map "v" with
          | some max_v => narrow (to_size_t max_v)
          | none => max_shape_.2
        if oa = 0 ∧ va = 0 then
          ((oa, va), some "max_shape_map must cannot have both 'o' and 'v' set to 0")
        else ((oa, va), none)
  else ((narrow (2 ^ 64 - 1), narrow (2 ^ 64 - 1)), none)

end PQGraph

/-! ## Chains of linkages (`Linkage::links`, `scale_list`, `link_and_scale`) -/

namespace Linkage

/-- The loop `for (i = 2; i < op_vec_size; i++)` of `Linkage::links` over the
    operands that are still to come: the linkages it stores. -/
def links_loop (update_name : Node → Node → Vertex → String) : Node → List Node → List Node
  | _, [] => []
  | linkage, op :: rest =>
    op_mul update_name linkage op :: links_loop update_name (op_mul update_name linkage op) rest

/-- The static member `Linkage::links(op_vec)`; `none` stands for the
    `invalid_argument` exception. -/
def links (update_name : Node → Node → Vertex → String) (op_vec : List Node) :
    Option (List Node) :=
  let op_vec_size := op_vec.length % 256
  if op_vec_size ≤ 1 then none
  else
    match op_vec with
    | a :: b :: tail =>
      some (op_mul update_name a b ::
        links_loop update_name (op_mul update_name a b) (tail.take (op_vec_size - 2)))
    | _ => none

/-- The loop `for (i = 2; i < op_vec_size; i++)` of `Linkage::scale_list` and
    of `Linkage::link_and_scale`: the last linkage and the two lists after
    the operands that are still to come. -/
def scale_loop (update_name : Node → Node → Vertex → String) :
    Node → List shape → List shape → List Node → Node × List shape × List shape
  | linkage, flop_list, mem_list, [] => (linkage, flop_list, mem_list)
  | linkage, flop_list, mem_list, op :: rest =>
    scale_loop update_name (op_mul update_name linkage op)
      (flop_list ++ [(op_mul update_name linkage op).flop_scale_])
      (mem_list ++ [(op_mul update_name linkage op).mem_scale_]) rest

/-- The static member `Linkage::link_and_scale(op_vec)`; `none` stands for
    the `invalid_argument` exception. -/
def link_and_scale (update_name : Node → Node → Vertex → String) (op_vec : List Node) :
    Option (Node × List shape × List shape) :=
  let op_vec_size := op_vec.length % 256
  if op_vec_size ≤ 1 then none
  else
    match op_vec with
    | a :: b :: tail =>
      some (scale_loop update_name (op_mul update_name a b)
        [(op_mul update_name a b).flop_scale_] [(op_mul update_name a b).mem_scale_]
        (tail.take (op_vec_size - 2)))
    | _ => none

/-- The static member `Linkage::scale_list(op_vec)`; `none` stands for the
    `invalid_argument` exception. -/
def scale_list (update_name : Node → Node → Vertex → String) (op_vec : List Node) :
    Option (List shape × List shape) :=
  let op_vec_size := op_vec.length % 256
  if op_vec_size ≤ 1 then none
  else
    match op_vec with
    | a :: b :: tail =>
      some (scale_loop update_name (op_mul update_name a b)
        [(op_mul update_name a b).flop_scale_] [(op_mul update_name a b).mem_scale_]
        (tail.take (op_vec_size - 2))).2
    | _ => none

/-- The loop of `Linkage::connect_lines` when `search_left` has the given
    value (`connect_lines` takes `left_lines < right_lines` for it). -/
def connect_scan (search_left : Bool) (left_lines right_lines int_lines : List Line) :
    Connec :=
  let left_size := left_lines.length % 256
  let right_size := right_lines.length % 256
  ((List.range (if search_left then left_size else right_size)).zip
      (if search_left then left_lines else right_lines)).foldl
    (connect_step search_left (if search_left then right_lines else left_lines) int_lines)
    { int_connec_ := [], l_ext_idx_ := List.range left_size,
      r_ext_idx_ := List.range right_size }

end Linkage

/-! ## Sigma vertices (`Vertex::make_sigma`, `Vertex::remove_sigma`) -/

namespace Vertex

/-- The member `Vertex::make_sigma()`.  The four alphabets are those of the
    constructor `Line("I")`. -/
def make_sigma (occ virt sig den : List Char) (v : Vertex) : Option Vertex :=
  (Line.of_name occ virt sig den "I" '\x00').bind fun line =>
    let sigma_line : Line := { line with sig_ := true }
    (update_lines v (sigma_line :: v.lines_) true).map fun v1 =>
      { v1 with is_sigma_ := true }

/-- The member `Vertex::remove_sigma()`. -/
def remove_sigma (v : Vertex) : Option Vertex :=
  if !v.is_sigma_ then some v
  else
    update_lines { v with is_sigma_ := false } (v.lines_.filter fun line => !line.sig_) true

end Vertex

/-! ## Commutators (`ahat_helper.cc`) -/

namespace ahat_helper

/-- The member `ahat_helper::add_commutator(factor, in)`: the calls
    `add_operator_product(factor, words)` that it issues, in order; `none`
    stands for `exit(1)`.  `F` is the type of `factor` with its unary minus. -/
def add_commutator {F : Type} [Neg F] (factor : F) (in_ : List String) :
    Option (List (F × List String)) :=
  match in_ with
  | [in0, in1] =>
    some [(factor, [in0, in1]),
          (-factor, [in1, in0])]
  | _ => none

/-- The member `ahat_helper::add_double_commutator(factor, in)`. -/
def add_double_commutator {F : Type} [Neg F] (factor : F) (in_ : List String) :
    Option (List (F × List String)) :=
  match in_ with
  | [in0, in1, in2] =>
    some [(factor, [in0, in1, in2]),
          (-factor, [in1, in0, in2]),
          (-factor, [in2, in0, in1]),
          (factor, [in2, in1, in0])]
  | _ => none

/-- The member `ahat_helper::add_triple_commutator(factor, in)`. -/
def add_triple_commutator {F : Type} [Neg F] (factor : F) (in_ : List String) :
    Option (List (F × List String)) :=
  match in_ with
  | [in0, in1, in2, in3] =>
    some [(factor, [in0, in1, in2, in3]),
          (-factor, [in1, in0, in2, in3]),
          (-factor, [in2, in0, in1, in3]),
          (factor, [in2, in1, in0, in3]),
          (-factor, [in3, in0, in1, in2]),
          (factor, [in3, in1, in0, in2]),
          (factor, [in3, in2, in0, in1]),
          (-factor, [in3, in2, in1, in0])]
  | _ => none

/-- The member `ahat_helper::add_quadruple_commutator(factor, in)`. -/
def add_quadruple_commutator {F : Type} [Neg F] (factor : F) (in_ : List String) :
    Option (List (F × List String)) :=
  match in_ with
  | [in0, in1, in2, in3, in4] =>
    some [(factor, [in0, in1, in2, in3, in4]),
          (-factor, [in1, in0, in2, in3, in4]),
          (-factor, [in2, in0, in1, in3, in4]),
          (factor, [in2, in1, in0, in3, in4]),
          (-factor, [in3, in0, in1, in2, in4]),
          (factor, [in3, in1, in0, in2, in4]),
          (factor, [in3, in2, in0, in1, in4]),
          (-factor, [in3, in2, in1, in0, in4]),
          (-factor, [in4, in0, in1, in2, in3]),
          (factor, [in4, in1, in0, in2, in3]),
          (factor, [in4, in2, in0, in1, in3]),
          (-factor, [in4, in2, in1, in0, in3]),
          (factor, [in4, in3, in0, in1, in2]),
          (-factor, [in4, in3, in1, in0, in2]),
          (-factor, [in4, in3, in2, in0, in1]),
          (factor, [in4, in3, in2, in1, in0])]
  | _ => none

/-- The commutator `[X, Y] = XY - YX` of a signed sum of operator words `X`
    with one operator `Y`, as the specification defines it: the words of `X`
    with `Y` appended, then the words of `X` with `Y` in front and the
    opposite sign. -/
def commutator_with {F : Type} [Neg F] (x : List (F × List String)) (y : String) :
    List (F × List String) :=
  x.map (fun t => (t.1, t.2 ++ [y])) ++ x.map (fun t => (-t.1, y :: t.2))

/-- The nested commutator `factor * [...[[A, B], C]..., Z]` of the
    specification, as a signed sum of operator words. -/
def nested_commutator {F : Type} [Neg F] (factor : F) (first : String)
    (others : List String) : List (F × List String) :=
  others.foldl commutator_with [(factor, [first])]

/-- The commutator `[X, Y] = XY - YX` of the specification in a ring. -/
def ring_commutator {R : Type} [Ring R] (x y : R) : R := x * y - y * x

/-- The signed sum of operator words that a sequence of calls
    `add_operator_product(factor, word)` stands for, when every operator name
    is read as an element of an algebra `R` over the ring of the factors. -/
def words_value {K R : Type} [CommRing K] [Ring R] [Algebra K R] (op : String → R)
    (calls : List (K × List String)) : R :=
  (calls.map fun c => c.1 • (c.2.map op).prod).sum

end ahat_helper

/-! ## The commit log, the filter and the depth of `PQGraph::substitute` -/

/-- Modelled from the spec: the result of `scaling_map::compare`, whose
    definition is in a header that is not among the sources.  "Map comparison
    returns one of {this_better, other_better, this_same, incomparable}". -/
inductive scaling_map.Comparison where
  | this_better : scaling_map.Comparison
  | other_better : scaling_map.Comparison
  | this_same : scaling_map.Comparison
  | incomparable : scaling_map.Comparison
deriving DecidableEq, Repr

namespace PQGraph

/-- The body of the loop "remove incompatible ones, and sort them" of
    `PQGraph::substitute` for one scored candidate: whether the candidate is
    inserted into `sorted_test_data`.  `test_gt` is the value of
    `test_flop_map > flop_map_` and `comparison` the value of
    `test_flop_map.compare(flop_map_)`; both members of `scaling_map` are
    defined outside the sources.  `no_scalars` is the static
    `Equation::no_scalars_`. -/
def filter_keep (test_gt : Bool) (comparison : scaling_map.Comparison)
    (is_scalar format_sigma no_scalars allow_equality : Bool) : Bool :=
  if test_gt then false
  else
    let is_equiv := decide (comparison = scaling_map.Comparison.this_same)
    let keep := decide (comparison = scaling_map.Comparison.this_better)
    let keep1 := if format_sigma || (is_scalar && !no_scalars) then true else keep
    let keep2 := if !keep1 && is_equiv && allow_equality then true else keep1
    keep2

/-- The calls `saved_linkages_[eq_type].insert(link_to_sub)` of the commit
    loop of `PQGraph::substitute`, in order: the kind and the linkage with its
    id.  The recursion is that of `commit_loop`. -/
def commit_loop_saved (m : Missing) (batched : Bool) (batch_size max_temps : Nat)
    (temp_type : String) : List Node → Nat → PQGraph → List (String × Node)
  | [], _, _ => []
  | found_linkage :: rest, batch_count, g =>
    let r := commit_step m temp_type found_linkage g
    let saved : String × Node :=
      (eq_type temp_type found_linkage,
        found_linkage.set_id
          ((smap_get g.temp_counts_ (eq_type temp_type found_linkage) + 1 : Nat) : Int))
    if !r.2 then commit_loop_saved m batched batch_size max_temps temp_type rest batch_count r.1
    else if !batched || batch_count + 1 ≥ batch_size ||
        smap_get r.1.temp_counts_ (eq_type temp_type found_linkage) > max_temps then [saved]
    else
      saved :: commit_loop_saved m batched batch_size max_temps temp_type rest
        (batch_count + 1) r.1

/-- The calls `saved_linkages_[eq_type].insert(link_to_sub)` of the `while`
    loop of `PQGraph::substitute`, in order.  The recursion is that of
    `substitute_loop`. -/
def substitute_loop_saved (m : Missing) (batched : Bool) (batch_size max_temps : Nat)
    (temp_type : String) : List (List Node) → PQGraph → List (String × Node)
  | [], _ => []
  | sorted_test_data :: later, g =>
    if smap_get g.temp_counts_ temp_type < max_temps then
      commit_loop_saved m batched batch_size max_temps temp_type sorted_test_data 0 g ++
        substitute_loop_saved m batched batch_size max_temps temp_type later
          (m.regenerate
            (commit_loop m batched batch_size max_temps temp_type sorted_test_data 0 g))
    else []

/-- The graph on entry of the `while` loop of `PQGraph::substitute`. -/
def substitute_entry (m : Missing) (g : PQGraph) : PQGraph :=
  m.generate
    { (m.reorder g) with equations_ := ensure_equations (m.reorder g).equations_ }

/-- The calls `saved_linkages_[eq_type].insert(link_to_sub)` of one run of
    `PQGraph::substitute`, in order. -/
def substitute_saved (m : Missing) (batched : Bool) (batch_size max_temps : Nat)
    (format_sigma only_scalars : Bool) (passes : List (List Node)) (g : PQGraph) :
    List (String × Node) :=
  substitute_loop_saved m batched batch_size max_temps (temp_type format_sigma only_scalars)
    passes (substitute_entry m g)

/-- The locals and the static `Term::max_depth_` that steer the depth of the
    candidates in `PQGraph::substitute`, with the values that
    `Term::max_depth_` had at the calls `make_all_links(true)`, in order. -/
structure Depth where
  max_depth_ : Nat
  current_depth : Nat
  used : List Nat
deriving DecidableEq, Repr

/-- The loop "gradually increase max depth" of `PQGraph::substitute`, entered
    with `test_linkages` empty.  The list holds, for each regeneration, whether
    `test_linkages` is empty after it; `none` stands for a list that ends
    before the loop does.  The result is the state and whether
    `test_linkages` is empty at the exit. -/
def grow_loop (batched : Bool) (org_max_depth : Nat) :
    List Bool → Bool → Depth → Option (Depth × Bool)
  | [], _, _ => none
  | found_empty :: later, last_empty, d =>
    let current_depth := (d.current_depth + 1) % 18446744073709551616
    let d1 : Depth :=
      { max_depth_ := current_depth, current_depth := current_depth,
        used := d.used ++ [current_depth] }
    if current_depth ≥ org_max_depth then some (d1, found_empty)
    else if last_empty && found_empty then
      if !batched then
        some ({ d1 with
          current_depth := (org_max_depth + 18446744073709551615) % 18446744073709551616 },
          found_empty)
      else
        grow_loop batched org_max_depth later found_empty
          { d1 with
            current_depth := (org_max_depth + 18446744073709551615) % 18446744073709551616 }
    else if found_empty then grow_loop batched org_max_depth later found_empty d1
    else some (d1, found_empty)

/-- The passes of the `while` loop of `PQGraph::substitute` as far as the
    depth goes.  A pass is given by whether `test_linkages` is empty after its
    commits and by the list that `grow_loop` reads. -/
def depth_loop (batched : Bool) (org_max_depth : Nat) :
    List (Bool × List Bool) → Depth → Option Depth
  | [], d => some d
  | (recompute, regenerated) :: later, d =>
    if recompute then
      (grow_loop batched org_max_depth regenerated recompute d).bind fun r =>
        depth_loop batched org_max_depth later r.1
    else depth_loop batched org_max_depth later d

/-- The depth in one run of `PQGraph::substitute`: `org_max_depth` is
    `Term::max_depth_` on entry; the result holds `Term::max_depth_` at the
    return and the depths of all candidate generations. -/
def substitute_depth (batched : Bool) (org_max_depth : Nat)
    (passes : List (Bool × List Bool)) : Option Depth :=
  let max_depth := if batched then 1 else org_max_depth
  (depth_loop batched org_max_depth passes
      { max_depth_ := max_depth, current_depth := 1, used := [max_depth] }).map fun d =>
    { d with max_depth_ := org_max_depth }

/-- The section "Scalars" of `PQGraph::str`: the equation that is streamed,
    `none` when the section is left out. -/
def str_scalars (m : Missing) (g : PQGraph) : Option Equation :=
  let c := collect_terms m (m.remove_redundant_tmps g).equations_
  if (smap_eq c.1 "scalars").terms.isEmpty then none
  else some (m.sort_tmps (smap_eq c.1 "scalars"))

/-- The section "Shared Operators" of `PQGraph::str`: the equation that is
    streamed, `none` when the section is left out. -/
def str_reuse (m : Missing) (g : PQGraph) : Option Equation :=
  let c := collect_terms m (m.remove_redundant_tmps g).equations_
  if (smap_eq c.1 "reuse").terms.isEmpty then none
  else some (m.sort_tmps (smap_eq c.1 "reuse"))

/-- The loop of `PQGraph::collect_scaling(recompute, include_reuse)`: the
    names of the equations whose maps are added to `flop_map_` and
    `mem_map_`. -/
def collect_scaling_names (include_reuse : Bool) (equations : List (String × Equation)) :
    List String :=
  (equations.filter fun e => !(decide (e.1 = "reuse") && !include_reuse)).map Prod.fst

end PQGraph

/-! ## The connections of the specification -/

/-- The connections that the specification asks of `connect_lines` for the
    line vectors of the two children: `int_connec_` holds exactly the pairs
    of positions of equal lines, `l_ext_idx_` exactly the positions of the
    left lines that do not occur on the right, `r_ext_idx_` exactly the
    positions of the right lines that do not occur on the left, and no
    element is stored twice. -/
def ConnectsExactly (left_lines right_lines : List Line) (c : Linkage.Connec) : Prop :=
  (∀ i j, (i, j) ∈ c.int_connec_ ↔
    ∃ x y, left_lines[i]? = some x ∧ right_lines[j]? = some y ∧ Line.op_eq x y = true) ∧
  (∀ i, i ∈ c.l_ext_idx_ ↔
    ∃ x, left_lines[i]? = some x ∧ x.occurs_in right_lines = false) ∧
  (∀ j, j ∈ c.r_ext_idx_ ↔
    ∃ y, right_lines[j]? = some y ∧ y.occurs_in left_lines = false) ∧
  c.int_connec_.Nodup ∧ c.l_ext_idx_.Nodup ∧ c.r_ext_idx_.Nodup

/-! ## The string constructor of a vertex (`vertex.cc`) -/

/-- The value `std::string::npos` (`size_t(-1)`). -/
def npos : Nat := 18446744073709551615

/-- Subtraction of two `size_t` values. -/
def size_sub (a b : Nat) : Nat :=
  (a + (18446744073709551616 - b % 18446744073709551616)) % 18446744073709551616

/-- The first position of the character `c` in `s`, if there is one. -/
def first_index : List Char → Char → Option Nat
  | [], _ => none
  | x :: rest, c => if x = c then some 0 else (first_index rest c).map fun i => i + 1

/-- The call `s.find(c)`. -/
def str_find (s : List Char) (c : Char) : Nat := (first_index s c).getD npos

/-- The call `s.find(c, pos)`. -/
def str_find_from (s : List Char) (c : Char) (pos : Nat) : Nat :=
  match first_index (s.drop pos) c with
  | some i => pos + i
  | none => npos

/-- The first position at which the string `pat` starts in `s`, if there is
    one. -/
def first_index_of_string : List Char → List Char → Option Nat
  | [], pat => if pat = [] then some 0 else none
  | x :: rest, pat =>
    if pat.isPrefixOf (x :: rest) then some 0
    else (first_index_of_string rest pat).map fun i => i + 1

/-- The call `s.find(pat)` for a string `pat`. -/
def str_find_string (s pat : List Char) : Nat := (first_index_of_string s pat).getD npos

/-- The call `s.substr(pos, len)` with `pos <= s.size()`, which is the case at
    every call of the constructor; `len` is cut at the end of the string. -/
def str_substr (s : List Char) (pos len : Nat) : List Char := (s.drop pos).take len

/-- The call `s.replace(pos, len, t)`; `none` stands for the `out_of_range`
    that it throws when `pos > s.size()`. -/
def str_replace (s : List Char) (pos len : Nat) (t : List Char) : Option (List Char) :=
  if pos ≤ s.length then some (s.take pos ++ t ++ s.drop (pos + len)) else none

/-- The access `s[i]`: the character at `i`, the null character at
    `i = s.size()`; `none` stands for an access behind it. -/
def str_at (s : List Char) (i : Nat) : Option Char :=
  if i = s.length then some '\x00' else s[i]?

/-- The getter `Line::type` (called `ov()` in `vertex.cc`). -/
def Line.type (x : Line) : Char :=
  if x.sig_ then 'L' else if x.den_ then 'Q' else if x.o_ then 'o' else 'v'

namespace Vertex

/-- The loop of `Vertex::set_lines` over the labels that are still to come:
    the lines and the flags `is_sigma_` and `is_den_`.  The state is `c_blk`
    and the two flags; `none` stands for a `runtime_error` of the constructor
    of `Line` or for an access behind the end of `blk_string`. -/
def set_lines_loop (occ virt sig den : List Char) (has_blk : Bool) (blk_string : List Char) :
    List (List Char) → Nat → Bool → Bool → Option (List Line × Bool × Bool)
  | [], _, is_sigma, is_den => some ([], is_sigma, is_den)
  | label :: rest, c_blk, is_sigma, is_den =>
    (Line.of_name occ virt sig den (String.mk label) '\x00').bind fun line0 =>
      let blocked := has_blk && !line0.sig_ && !line0.den_
      (if blocked then
          (str_at blk_string c_blk).bind fun blk =>
            Line.of_name occ virt sig den (String.mk label) blk
        else some line0).bind fun line =>
        (set_lines_loop occ virt sig den has_blk blk_string rest
            (if blocked then (c_blk + 1) % 256 else c_blk)
            (is_sigma || line0.sig_) (is_den || line0.den_)).map fun r =>
          (line :: r.1, r.2)

/-- The member `Vertex::set_lines(lines, blk_string)`.  The four alphabets are
    those of the constructor of `Line`. -/
def set_lines (occ virt sig den : List Char) (v : Vertex) (lines : List (List Char))
    (blk_string : List Char) : Option Vertex :=
  let has_blk := !blk_string.isEmpty
  (set_lines_loop occ virt sig den has_blk blk_string lines 0 v.is_sigma_ v.is_den_).map
    fun r =>
      { v with
        rank_ := lines.length
        lines_ := r.1
        has_blk_ := has_blk
        is_sigma_ := r.2.1
        is_den_ := r.2.2
        shape_ := shape.ofLines r.1
        name_ := format_name v.base_name_ lines.length has_blk
          (String.mk (r.1.map Line.type))
          (String.mk (if has_blk then r.1.map Line.block
            else List.replicate lines.length '\x00')) }

/-- The loop `while (name_end != npos && blk.empty())` of the string
    constructor: `name_end` and `blk` at its exit.  The first argument bounds
    the number of iterations; `none` stands for an access behind the end of
    the string, and for a loop that has not ended within the bound. -/
def block_loop (s : List Char) (index : Nat) : Nat → Nat → Option (Nat × List Char)
  | 0, _ => none
  | fuel + 1, name_end =>
    if name_end = npos then some (name_end, [])
    else
      (str_at s ((name_end + 1) % 18446744073709551616)).bind fun c =>
        if c = 'a' ∨ c = 'b' ∨ c = '0' ∨ c = '1' then
          let blk := str_substr s ((name_end + 1) % 18446744073709551616)
            (size_sub (size_sub index name_end) 1)
          if blk = [] then block_loop s index fuel name_end else some (name_end, blk)
        else
          block_loop s index fuel
            (str_find_from s '_' ((name_end + 1) % 18446744073709551616))

/-- The loop `while (line_substring.find(',') != npos)` of the string
    constructor: the labels pushed and `line_substring` at the exit.  The
    first argument bounds the number of iterations; every iteration shortens
    `line_substring`. -/
def split_loop : Nat → List Char → List (List Char) × List Char
  | 0, line_substring => ([], line_substring)
  | fuel + 1, line_substring =>
    if str_find line_substring ',' = npos then ([], line_substring)
    else
      let comma_idx := str_find line_substring ','
      let r := split_loop fuel
        (str_substr line_substring ((comma_idx + 1) % 18446744073709551616)
          (size_sub (size_sub line_substring.length comma_idx) 1))
      (str_substr line_substring 0 comma_idx :: r.1, r.2)

/-- The head of the `else` branch of the string constructor: `base_name_`,
    `line_string` and `blk`. -/
def split_name (s : List Char) : Option (List Char × List Char × List Char) :=
  if str_find s '<' ≠ npos then
    let langel_idx := str_find s '<'
    let rangel_idx := str_find s '>'
    let line_string0 := str_substr s ((langel_idx + 1) % 18446744073709551616)
      (size_sub (size_sub rangel_idx langel_idx) 1)
    let line_string1 :=
      if (rangel_idx + 1) % 18446744073709551616 < s.length then
        line_string0 ++ str_substr s ((rangel_idx + 1) % 18446744073709551616) npos
      else line_string0
    (str_replace line_string1 (str_find_string line_string1 ['|', '|']) 2 [',']).map
      fun line_string => ("eri".data, line_string, [])
  else
    let index := str_find s '('
    let name_end0 := str_find s '_'
    (if name_end0 = npos then some (index, [])
      else (block_loop s index (s.length + 1) name_end0).map fun r =>
        (if r.1 = npos then index else r.1, r.2)).map fun r =>
      (str_substr s 0 r.1,
        str_substr s ((index + 1) % 18446744073709551616)
          (size_sub (size_sub s.length index) 2),
        r.2)

/-- The constructor `Vertex::Vertex(const string &vertex_string)`.  The four
    alphabets are those of the constructor of `Line`; `none` stands for an
    exception or undefined behaviour. -/
def of_string (occ virt sig den : List Char) (vertex_string : String) : Option Vertex :=
  let s := vertex_string.data
  if str_find s '(' = npos ∧ ¬ (str_find s '<' ≠ npos) then
    some
      { name_ := vertex_string, base_name_ := vertex_string, lines_ := [], rank_ := 0,
        shape_ := shape.zero, has_blk_ := false, is_sigma_ := false, is_den_ := false }
  else
    (split_name s).bind fun (base_name, line_string, blk0) =>
      let sp := split_loop (line_string.length + 1) line_string
      let line_substring := sp.2
      let underscore_idx := str_find line_substring '_'
      let cut := decide (underscore_idx ≠ npos) && blk0.isEmpty
      let last_line := if cut then str_substr line_substring 0 underscore_idx
        else line_substring
      let blk := if cut then
          str_substr line_substring ((underscore_idx + 1) % 18446744073709551616)
            (size_sub (size_sub line_substring.length underscore_idx) 1)
        else blk0
      let lines := if last_line.isEmpty then sp.1 else sp.1 ++ [last_line]
      set_lines occ virt sig den
        { name_ := "", base_name_ := String.mk base_name, lines_ := [], rank_ := 0,
          shape_ := shape.zero, has_blk_ := false, is_sigma_ := false, is_den_ := false }
        lines blk

end Vertex

/-- The labels `l1,...,lk` joined by commas, as the specification formats
    them. -/
def join_commas : List (List Char) → List Char
  | [] => []
  | [label] => label
  | label :: rest => label ++ ',' :: join_commas rest

/-- The tensor string `name(label,label,...)` of the specification. -/
def format_vertex (name : String) (labels : List String) : String :=
  String.mk (name.data ++ '(' :: join_commas (labels.map String.data) ++ [')'])

/-- The bra-ket form `<p,q||r,s>` of the specification. -/
def format_eri (p q r s : String) : String :=
  String.mk ('<' :: p.data ++ ',' :: q.data ++ '|' :: '|' :: r.data ++ ',' :: s.data ++ ['>'])

/-! ## Concrete data for the worked instances -/

/-- A stand-in for `update_name()` in the worked instances: the name of a
    linkage is its base name. -/
def ex_update_name : Node → Node → Vertex → String := fun _ _ v => v.base_name_

/-- The virtual line `a` (as `Line("a")` builds it). -/
def ex_a : Line := ⟨"a", false, true, '\x00', false, false⟩

/-- The virtual line `b`. -/
def ex_b : Line := ⟨"b", false, true, '\x00', false, false⟩

/-- The virtual line `c`. -/
def ex_c : Line := ⟨"c", false, true, '\x00', false, false⟩

/-- The occupied line `i`. -/
def ex_i : Line := ⟨"i", true, true, '\x00', false, false⟩

/-- The occupied line `j`. -/
def ex_j : Line := ⟨"j", true, true, '\x00', false, false⟩

/-- The occupied line `k`. -/
def ex_k : Line := ⟨"k", true, true, '\x00', false, false⟩

/-- The occupied line `l`. -/
def ex_l : Line := ⟨"l", true, true, '\x00', false, false⟩

/-- The vertex `Vertex("g", {a, b, i, j})`. -/
def ex_g_abij : Vertex :=
  { name_ := "g_[\"vvoo\"]", base_name_ := "g", lines_ := [ex_a, ex_b, ex_i, ex_j],
    rank_ := 4, shape_ := ⟨2, 0, 2, 0, 0, 0⟩, has_blk_ := false, is_sigma_ := false,
    is_den_ := false }

/-- The vertex `Vertex("g", {b, c, k, l})`. -/
def ex_g_bckl : Vertex :=
  { name_ := "g_[\"vvoo\"]", base_name_ := "g", lines_ := [ex_b, ex_c, ex_k, ex_l],
    rank_ := 4, shape_ := ⟨2, 0, 2, 0, 0, 0⟩, has_blk_ := false, is_sigma_ := false,
    is_den_ := false }

/-- The vertex `Vertex("t", {a, i})`. -/
def ex_t_ai : Vertex :=
  { name_ := "t_[\"vo\"]", base_name_ := "t", lines_ := [ex_a, ex_i],
    rank_ := 2, shape_ := ⟨1, 0, 1, 0, 0, 0⟩, has_blk_ := false, is_sigma_ := false,
    is_den_ := false }

/-- The vertex `Vertex("f", {i, a})`. -/
def ex_f_ia : Vertex :=
  { name_ := "f_[\"vo\"]", base_name_ := "f", lines_ := [ex_i, ex_a],
    rank_ := 2, shape_ := ⟨1, 0, 1, 0, 0, 0⟩, has_blk_ := false, is_sigma_ := false,
    is_den_ := false }

/-- The vertex `Vertex("t", {a, a})`, with the line `a` twice. -/
def ex_t_aa : Vertex :=
  { name_ := "t_[\"vv\"]", base_name_ := "t", lines_ := [ex_a, ex_a],
    rank_ := 2, shape_ := ⟨0, 0, 2, 0, 0, 0⟩, has_blk_ := false, is_sigma_ := false,
    is_den_ := false }

/-- The vertex `Vertex("u", {i})`. -/
def ex_u_i : Vertex :=
  { name_ := "u_[\"o\"]", base_name_ := "u", lines_ := [ex_i],
    rank_ := 1, shape_ := ⟨1, 0, 0, 0, 0, 0⟩, has_blk_ := false, is_sigma_ := false,
    is_den_ := false }

/-- The vertex `Vertex("t", {a, b, i})`. -/
def ex_t_abi : Vertex :=
  { name_ := "t_[\"vvo\"]", base_name_ := "t", lines_ := [ex_a, ex_b, ex_i],
    rank_ := 3, shape_ := ⟨1, 0, 2, 0, 0, 0⟩, has_blk_ := false, is_sigma_ := false,
    is_den_ := false }

/-- The scalar vertex `Vertex("w")` (string constructor, no lines). -/
def ex_w : Vertex :=
  { name_ := "w", base_name_ := "w", lines_ := [], rank_ := 0, shape_ := shape.zero,
    has_blk_ := false, is_sigma_ := false, is_den_ := false }

/-- The named intermediate `tmp1 = t(a,i) * f(i,a)` (id 1). -/
def ex_tmp : Node :=
  (Linkage.op_mul ex_update_name (Node.vertex ex_t_ai) (Node.vertex ex_f_ia)).set_id 1

/-- The linkage `tmp1 * u(i)`. -/
def ex_with_tmp : Node := Linkage.op_mul ex_update_name ex_tmp (Node.vertex ex_u_i)

/-- The linkage `(u(i) * tmp1) * g(a,b,i,j)`, with `tmp1` below a child that
    is not a named intermediate. -/
def ex_nested_tmp : Node :=
  Linkage.op_mul ex_update_name
    (Linkage.op_mul ex_update_name (Node.vertex ex_u_i) ex_tmp) (Node.vertex ex_g_abij)

/-- The balanced linkage `(t(a,i) * f(i,a)) * (u(i) * g(a,b,i,j))`. -/
def ex_balanced : Node :=
  Linkage.op_mul ex_update_name
    (Linkage.op_mul ex_update_name (Node.vertex ex_t_ai) (Node.vertex ex_f_ia))
    (Linkage.op_mul ex_update_name (Node.vertex ex_u_i) (Node.vertex ex_g_abij))

/-- The occupied line `i0`. -/
def ex_i0 : Line := ⟨"i0", true, true, '\x00', false, false⟩

/-- The vertex `Vertex("g", {b, a, i, j})`: `g(a,b,i,j)` with the two lines
    of the left half exchanged. -/
def ex_g_baij : Vertex :=
  { name_ := "g_[\"vvoo\"]", base_name_ := "g", lines_ := [ex_b, ex_a, ex_i, ex_j],
    rank_ := 4, shape_ := ⟨2, 0, 2, 0, 0, 0⟩, has_blk_ := false, is_sigma_ := false,
    is_den_ := false }

/-- The two-electron integral `<a,i||j,b>` as `Vertex("eri", {a, i, j, b})`. -/
def ex_eri_aijb : Vertex :=
  { name_ := "eri_[\"vvoo\"]", base_name_ := "eri", lines_ := [ex_a, ex_i, ex_j, ex_b],
    rank_ := 4, shape_ := ⟨2, 0, 2, 0, 0, 0⟩, has_blk_ := false, is_sigma_ := false,
    is_den_ := false }

/-- The two-electron integral `<i,a||b,j>` as `Vertex("eri", {i, a, b, j})`. -/
def ex_eri_iabj : Vertex :=
  { name_ := "eri_[\"vvoo\"]", base_name_ := "eri", lines_ := [ex_i, ex_a, ex_b, ex_j],
    rank_ := 4, shape_ := ⟨2, 0, 2, 0, 0, 0⟩, has_blk_ := false, is_sigma_ := false,
    is_den_ := false }

/-- The vertex `Vertex("t", {b, a})`. -/
def ex_t_ba : Vertex :=
  { name_ := "t_[\"vv\"]", base_name_ := "t", lines_ := [ex_b, ex_a],
    rank_ := 2, shape_ := ⟨0, 0, 2, 0, 0, 0⟩, has_blk_ := false, is_sigma_ := false,
    is_den_ := false }

/-- The vertex `Vertex("h", {i, i, i0})`: the label `i` twice, next to a line
    that is already called `i0`. -/
def ex_h_ii_i0 : Vertex :=
  { name_ := "h_[\"ooo\"]", base_name_ := "h", lines_ := [ex_i, ex_i, ex_i0],
    rank_ := 3, shape_ := ⟨3, 0, 0, 0, 0, 0⟩, has_blk_ := false, is_sigma_ := false,
    is_den_ := false }

/-- The constructor `Vertex::Vertex(const string&)` on a string without `(`
    and `<`: the string is the name. -/
def Vertex.of_name (vertex_string : String) : Vertex :=
  { name_ := vertex_string, base_name_ := vertex_string, lines_ := [], rank_ := 0,
    shape_ := shape.zero, has_blk_ := false, is_sigma_ := false, is_den_ := false }

/-- A stand-in for `Equation::substitute` in the worked instances: in every
    term of an equation that does not hold declarations, a right-hand side
    that begins with the two children of the linkage gets the linkage in
    their place. -/
def ex_substitute (equation : Equation) (linkage : Node) (_ : Bool) : Equation × Nat :=
  let sub : Term → Term × Nat := fun term =>
    match term.rhs with
    | a :: b :: rest =>
      if linkage.is_linked ∧ a = linkage.left_ ∧ b = linkage.right_ then
        ({ term with rhs := linkage :: rest }, 1)
      else (term, 0)
    | _ => (term, 0)
  if equation.is_temp_equation_ then (equation, 0)
  else
    ({ equation with terms := equation.terms.map fun term => (sub term).1 },
      (equation.terms.map fun term => (sub term).2).sum)

/-- A stand-in for the members that are not among the sources, used in the
    worked instances: a declaration has the linkage as left-hand side and its
    two children as right-hand side, a term built from a string has the
    vertex of that name as left-hand side and no right-hand side,
    `Equation::substitute` is `ex_substitute`, `linkage_set::insert` appends,
    and every other member leaves its argument as it is. -/
def ex_missing : Missing :=
  { term_of_linkage := fun n =>
      { lhs := n, rhs := [n.left_, n.right_], is_assignment_ := false, comments := [] }
    term_of_string := fun s =>
      { lhs := Node.vertex (Vertex.of_name s), rhs := [], is_assignment_ := false,
        comments := [] }
    lhs_name := fun n => n.vert.name_
    eq_substitute := ex_substitute
    eq_rearrange := fun eq => eq
    eq_make_scalars := fun eq scalars n => (eq, scalars, n)
    set_insert := fun s x => set_emplace s x
    sort_tmps := fun eq => eq
    remove_redundant_tmps := fun g => g
    reorder := fun g => g
    generate := fun g => g
    regenerate := fun g => g
    finish := fun g => g }

/-- The sigma line `L` (as `Line("L")` builds it). -/
def ex_L : Line := ⟨"L", false, true, '\x00', true, false⟩

/-- The scalar linkage `f(i,a) * t(a,i)`. -/
def ex_sc_ft : Node :=
  Linkage.op_mul ex_update_name (Node.vertex ex_f_ia) (Node.vertex ex_t_ai)

/-- The scalar linkage `g(a,b,i,j) * g(a,b,i,j)`. -/
def ex_sc_gg : Node :=
  Linkage.op_mul ex_update_name (Node.vertex ex_g_abij) (Node.vertex ex_g_abij)

/-- The linkage `t(a,i) * u(i)`, with the external line `a`. -/
def ex_tu : Node :=
  Linkage.op_mul ex_update_name (Node.vertex ex_t_ai) (Node.vertex ex_u_i)

/-- The linkage `g(a,b,i,j) * t(a,i)`, with the external lines `b`, `j`. -/
def ex_gt : Node :=
  Linkage.op_mul ex_update_name (Node.vertex ex_g_abij) (Node.vertex ex_t_ai)

/-- A term `lhs = rhs[0] * rhs[1] * ...` of a user equation. -/
def ex_term (name : String) (rhs : List Node) : Term :=
  { lhs := Node.vertex (Vertex.of_name name), rhs := rhs, is_assignment_ := false,
    comments := [] }

/-- The graph of the one equation
    `E = f(i,a) * t(a,i) + g(a,b,i,j) * g(a,b,i,j) + t(a,i) * u(i)
       + g(a,b,i,j) * t(a,i)`. -/
def ex_graph : PQGraph :=
  { equations_ :=
      [("E", ⟨[ex_term "E" [Node.vertex ex_f_ia, Node.vertex ex_t_ai],
               ex_term "E" [Node.vertex ex_g_abij, Node.vertex ex_g_abij],
               ex_term "E" [Node.vertex ex_t_ai, Node.vertex ex_u_i],
               ex_term "E" [Node.vertex ex_g_abij, Node.vertex ex_t_ai]], false⟩)],
    temp_counts_ := [],
    saved_linkages_ := [] }

/-- The vertex `Vertex("l1", {L, a, i})`, with the sigma line `L`. -/
def ex_l1_Lai : Vertex :=
  { name_ := "l1_[\"Lvo\"]", base_name_ := "l1", lines_ := [ex_L, ex_a, ex_i],
    rank_ := 3, shape_ := ⟨1, 0, 1, 0, 1, 0⟩, has_blk_ := false, is_sigma_ := false,
    is_den_ := false }

/-- The vertex `Vertex("r1", {L, b, j})`, with the sigma line `L`. -/
def ex_r1_Lbj : Vertex :=
  { name_ := "r1_[\"Lvo\"]", base_name_ := "r1", lines_ := [ex_L, ex_b, ex_j],
    rank_ := 3, shape_ := ⟨1, 0, 1, 0, 1, 0⟩, has_blk_ := false, is_sigma_ := false,
    is_den_ := false }

/-- The linkage `l1(L,a,i) * r1(L,b,j)`, which contracts the sigma line `L`. -/
def ex_l1r1 : Node :=
  Linkage.op_mul ex_update_name (Node.vertex ex_l1_Lai) (Node.vertex ex_r1_Lbj)

/-- The graph of the one equation `S = l1(L,a,i) * r1(L,b,j)`. -/
def ex_graph_sigma : PQGraph :=
  { equations_ :=
      [("S", ⟨[ex_term "S" [Node.vertex ex_l1_Lai, Node.vertex ex_r1_Lbj]], false⟩)],
    temp_counts_ := [],
    saved_linkages_ := [] }

/-! ## Basic facts about lines -/

theorem Line_op_eq_refl (x : Line) : Line.op_eq x x = true := by
  simp [Line.op_eq]

theorem lines_eq_refl (ls : List Line) : lines_eq ls ls = true := by
  induction ls with
  | nil => rfl
  | cons a as ih => simp [lines_eq, Line_op_eq_refl, ih]

/-! ## Vertex equality -/

/-- C1 (code): `Vertex::operator==` as written returns false whenever the two
    vertices have the same lines in the same order, so no vertex compares
    equal to itself. -/
theorem Vertex_op_eq_self_false (v : Vertex) : Vertex.op_eq v v = false := by
  simp [Vertex.op_eq, lines_eq_refl]

/-- C1 (code): two vertices with the same rank and shape, different lines and
    different base names compare equal under `Vertex::operator==`. -/
theorem Vertex_op_eq_different_true :
    Vertex.op_eq
      { name_ := "t_[\"v\"]", base_name_ := "t",
        lines_ := [⟨"a", false, true, '\x00', false, false⟩], rank_ := 1,
        shape_ := ⟨0, 0, 1, 0, 0, 0⟩, has_blk_ := false, is_sigma_ := false,
        is_den_ := false }
      { name_ := "u_[\"v\"]", base_name_ := "u",
        lines_ := [⟨"b", false, true, '\x00', false, false⟩], rank_ := 1,
        shape_ := ⟨0, 0, 1, 0, 0, 0⟩, has_blk_ := false, is_sigma_ := false,
        is_den_ := false } = true := by
  decide

/-! ## The order of lines and the population map -/

theorem str_lt_iff (a b : String) : str_lt a b = true ↔ a < b := by
  simp [str_lt, String.lt_iff_toList_lt]

theorem Line.op_lt_iff_kind (x y : Line) :
    Line.op_lt x y = true ↔ x.kind < y.kind ∨ (x.kind = y.kind ∧ x.label_ < y.label_) := by
  obtain ⟨xl, xo, xa, xb, xs, xd⟩ := x
  obtain ⟨yl, yo, ya, yb, ys, yd⟩ := y
  cases xo <;> cases xa <;> cases xs <;> cases xd <;> cases yo <;> cases ya <;> cases ys <;>
    cases yd <;> simp [Line.op_lt, Line.kind, str_lt_iff]

theorem Line.op_eq_iff_kind (x y : Line) :
    Line.op_eq x y = true ↔ x.kind = y.kind ∧ x.label_ = y.label_ := by
  obtain ⟨xl, xo, xa, xb, xs, xd⟩ := x
  obtain ⟨yl, yo, ya, yb, ys, yd⟩ := y
  cases xo <;> cases xa <;> cases xs <;> cases xd <;> cases yo <;> cases ya <;> cases ys <;>
    cases yd <;> simp [Line.op_eq, Line.kind]

theorem Line.op_lt_iff (x y : Line) : Line.op_lt x y = true ↔ x.key < y.key := by
  rw [Line.op_lt_iff_kind, Line.key, Line.key, Prod.Lex.lt_iff]

theorem Line.op_eq_iff (x y : Line) : Line.op_eq x y = true ↔ x.key = y.key := by
  rw [Line.op_eq_iff_kind, Line.key, Line.key]
  constructor
  · rintro ⟨h1, h2⟩; rw [h1, h2]
  · intro h
    have h2 := congrArg ofLex h
    simp only [ofLex_toLex, Prod.mk.injEq] at h2
    exact h2

theorem Line.op_lt_false_iff (x y : Line) : Line.op_lt x y = false ↔ y.key ≤ x.key := by
  rw [← not_lt, ← Line.op_lt_iff]; simp

theorem Line.op_eq_false_iff (x y : Line) : Line.op_eq x y = false ↔ x.key ≠ y.key := by
  rw [Ne, ← Line.op_eq_iff]; simp

theorem populate_keys (m : List (Line × Nat)) (x : Line) :
    ∀ e ∈ Linkage.populate m x, e.1.key = x.key ∨ e ∈ m := by
  induction m with
  | nil => intro e he; simp [Linkage.populate] at he; left; rw [he]
  | cons hd rest ih =>
    obtain ⟨k, n⟩ := hd
    intro e he
    unfold Linkage.populate at he
    split_ifs at he with h1 h2
    · rcases List.mem_cons.1 he with h | h
      · left; rw [h]
      · right; exact h
    · rcases List.mem_cons.1 he with h | h
      · right; rw [h]; exact List.mem_cons_self _ _
      · rcases ih e h with h3 | h3
        · left; exact h3
        · right; exact List.mem_cons_of_mem _ h3
    · rcases List.mem_cons.1 he with h | h
      · left
        have h1' := (Line.op_lt_false_iff _ _).1 (by simpa using h1)
        have h2' := (Line.op_lt_false_iff _ _).1 (by simpa using h2)
        rw [h]; exact le_antisymm h1' h2'
      · right; exact List.mem_cons_of_mem _ h

theorem populate_sorted (m : List (Line × Nat)) (x : Line) (hm : KeySorted m) :
    KeySorted (Linkage.populate m x) := by
  induction m with
  | nil => simp [Linkage.populate, KeySorted]
  | cons hd rest ih =>
    obtain ⟨k, n⟩ := hd
    have hm' := List.pairwise_cons.1 hm
    unfold Linkage.populate
    split_ifs with h1 h2
    · have h1' := (Line.op_lt_iff _ _).1 h1
      refine List.pairwise_cons.2 ⟨?_, hm⟩
      intro e he
      rcases List.mem_cons.1 he with h | h
      · rw [h]; exact h1'
      · exact lt_trans h1' (hm'.1 e h)
    · have h2' := (Line.op_lt_iff _ _).1 h2
      refine List.pairwise_cons.2 ⟨?_, ih hm'.2⟩
      intro e he
      rcases populate_keys rest x e he with h | h
      · show k.key < e.1.key
        rw [h]; exact h2'
      · exact hm'.1 e h
    · refine List.pairwise_cons.2 ⟨?_, hm'.2⟩
      intro e he
      exact hm'.1 e he

theorem populate_mem (m : List (Line × Nat)) (x : Line) (hm : KeySorted m) :
    ∀ e ∈ Linkage.populate m x,
      (e ∈ m ∧ e.1.key ≠ x.key) ∨
      (e.1.key = x.key ∧ ∃ n, (e.1, n) ∈ m ∧ e.2 = (n + 1) % 256) ∨
      (e = (x, 1) ∧ ∀ f ∈ m, f.1.key ≠ x.key) := by
  induction m with
  | nil => intro e he; simp [Linkage.populate] at he; right; right; simp [he]
  | cons hd rest ih =>
    obtain ⟨k, n⟩ := hd
    have hm' := List.pairwise_cons.1 hm
    intro e he
    unfold Linkage.populate at he
    split_ifs at he with h1 h2
    · have h1' : x.key < k.key := (Line.op_lt_iff _ _).1 h1
      have hall : ∀ f ∈ (k, n) :: rest, f.1.key ≠ x.key := by
        intro f hf
        rcases List.mem_cons.1 hf with h | h
        · rw [h]; exact ne_of_gt h1'
        · exact ne_of_gt (lt_trans h1' (hm'.1 f h))
      rcases List.mem_cons.1 he with h | h
      · right; right; exact ⟨h, hall⟩
      · left; exact ⟨h, hall e h⟩
    · have h2' : k.key < x.key := (Line.op_lt_iff _ _).1 h2
      rcases List.mem_cons.1 he with h | h
      · left; rw [h]; exact ⟨List.mem_cons_self _ _, ne_of_lt h2'⟩
      · rcases ih hm'.2 e h with h3 | h3 | h3
        · left; exact ⟨List.mem_cons_of_mem _ h3.1, h3.2⟩
        · right; left
          obtain ⟨hk, n', hn', he2⟩ := h3
          exact ⟨hk, n', List.mem_cons_of_mem _ hn', he2⟩
        · right; right
          refine ⟨h3.1, ?_⟩
          intro f hf
          rcases List.mem_cons.1 hf with h4 | h4
          · rw [h4]; exact ne_of_lt h2'
          · exact h3.2 f h4
    · have h1' := (Line.op_lt_false_iff _ _).1 (by simpa using h1)
      have h2' := (Line.op_lt_false_iff _ _).1 (by simpa using h2)
      have hk : k.key = x.key := le_antisymm h1' h2'
      rcases List.mem_cons.1 he with h | h
      · right; left
        rw [h]
        exact ⟨hk, n, List.mem_cons_self _ _, rfl⟩
      · left
        refine ⟨List.mem_cons_of_mem _ h, ?_⟩
        have := hm'.1 e h
        rw [← hk]; exact ne_of_gt this

theorem populate_has_key (m : List (Line × Nat)) (x : Line) :
    ∃ e ∈ Linkage.populate m x, e.1.key = x.key := by
  induction m with
  | nil => exact ⟨(x, 1), by simp [Linkage.populate], rfl⟩
  | cons hd rest ih =>
    obtain ⟨k, n⟩ := hd
    unfold Linkage.populate
    split_ifs with h1 h2
    · exact ⟨(x, 1), List.mem_cons_self _ _, rfl⟩
    · obtain ⟨e, he, hk⟩ := ih
      exact ⟨e, List.mem_cons_of_mem _ he, hk⟩
    · have h1' := (Line.op_lt_false_iff _ _).1 (by simpa using h1)
      have h2' := (Line.op_lt_false_iff _ _).1 (by simpa using h2)
      exact ⟨_, List.mem_cons_self _ _, le_antisymm h1' h2'⟩

theorem populate_keeps (m : List (Line × Nat)) (x : Line) :
    ∀ e ∈ m, ∃ f ∈ Linkage.populate m x, f.1 = e.1 := by
  induction m with
  | nil => intro e he; cases he
  | cons hd rest ih =>
    obtain ⟨k, n⟩ := hd
    intro e he
    unfold Linkage.populate
    split_ifs with h1 h2
    · exact ⟨e, List.mem_cons_of_mem _ he, rfl⟩
    · rcases List.mem_cons.1 he with h | h
      · exact ⟨(k, n), List.mem_cons_self _ _, by rw [h]⟩
      · obtain ⟨f, hf, hk⟩ := ih e h
        exact ⟨f, List.mem_cons_of_mem _ hf, hk⟩
    · rcases List.mem_cons.1 he with h | h
      · exact ⟨_, List.mem_cons_self _ _, by rw [h]⟩
      · exact ⟨e, List.mem_cons_of_mem _ h, rfl⟩

theorem key_count_append (ls : List Line) (y x : Line) :
    key_count (ls ++ [y]) x = key_count ls x + (if y.key = x.key then 1 else 0) := by
  simp [key_count, List.countP_append, List.countP_cons]

theorem key_count_append_list (l1 l2 : List Line) (x : Line) :
    key_count (l1 ++ l2) x = key_count l1 x + key_count l2 x := by
  simp [key_count, List.countP_append]

theorem key_count_congr (ls : List Line) (x y : Line) (h : x.key = y.key) :
    key_count ls x = key_count ls y := by
  simp [key_count, h]

theorem key_count_eq_zero (ls : List Line) (x : Line) (h : ∀ y ∈ ls, y.key ≠ x.key) :
    key_count ls x = 0 := by
  simp only [key_count, List.countP_eq_zero]
  intro y hy
  simpa using h y hy

theorem key_first_append_of_some (ls : List Line) (y x z : Line) (h : key_first ls x = some z) :
    key_first (ls ++ [y]) x = some z := by
  simp [key_first, List.find?_append, h] at *
  simp [h]

theorem key_first_none (ls : List Line) (x : Line) (h : ∀ y ∈ ls, y.key ≠ x.key) :
    key_first ls x = none := by
  simp only [key_first, List.find?_eq_none]
  intro y hy
  simpa using h y hy

theorem key_first_congr (ls : List Line) (x y : Line) (h : x.key = y.key) :
    key_first ls x = key_first ls y := by
  simp [key_first, h]

theorem PopInv.step (ls : List Line) (m : List (Line × Nat)) (x : Line) (h : PopInv ls m) :
    PopInv (ls ++ [x]) (Linkage.populate m x) := by
  refine ⟨populate_sorted m x h.sorted, ?_, ?_, ?_⟩
  · intro e he
    rcases populate_mem m x h.sorted e he with h1 | h1 | h1
    · obtain ⟨hm, hk⟩ := h1
      rw [key_count_append, if_neg (fun h2 => hk h2.symm), Nat.add_zero]
      exact h.count e hm
    · obtain ⟨hk, n, hn, he2⟩ := h1
      rw [key_count_append, if_pos hk.symm, he2]
      have h3 : n = key_count ls e.1 % 256 := h.count _ hn
      rw [h3]; omega
    · obtain ⟨he1, hall⟩ := h1
      subst he1
      have hz : key_count ls x = 0 := by
        apply key_count_eq_zero
        intro y hy hk
        obtain ⟨f, hf, hfk⟩ := h.cover y hy
        exact hall f hf (hfk.trans hk)
      rw [key_count_append, hz]; simp
  · intro e he
    rcases populate_mem m x h.sorted e he with h1 | h1 | h1
    · exact key_first_append_of_some _ _ _ _ (h.first e h1.1)
    · obtain ⟨hk, n, hn, he2⟩ := h1
      exact key_first_append_of_some _ _ _ _ (h.first (e.1, n) hn)
    · obtain ⟨he1, hall⟩ := h1
      subst he1
      have hz : key_first ls x = none := by
        apply key_first_none
        intro y hy hk
        obtain ⟨f, hf, hfk⟩ := h.cover y hy
        exact hall f hf (hfk.trans hk)
      simp only [key_first] at hz ⊢
      simp [List.find?_append, hz]
  · intro y hy
    rcases List.mem_append.1 hy with h1 | h1
    · obtain ⟨e, he, hk⟩ := h.cover y h1
      obtain ⟨f, hf, hfe⟩ := populate_keeps m x e he
      exact ⟨f, hf, by rw [hfe]; exact hk⟩
    · have : y = x := by simpa using h1
      subst this
      exact populate_has_key m y

theorem PopInv.foldl (ls0 ls : List Line) (m : List (Line × Nat)) (h : PopInv ls0 m) :
    PopInv (ls0 ++ ls) (ls.foldl Linkage.populate m) := by
  induction ls generalizing ls0 m with
  | nil => simpa using h
  | cons x rest ih =>
    have := ih (ls0 ++ [x]) (Linkage.populate m x) (h.step ls0 m x)
    simpa using this

theorem line_populations_inv (left_lines right_lines : List Line) :
    PopInv (left_lines ++ right_lines) (Linkage.line_populations left_lines right_lines) := by
  unfold Linkage.line_populations
  have h0 : PopInv [] [] := ⟨List.Pairwise.nil, by simp, by simp, by simp⟩
  have h1 := PopInv.foldl [] left_lines [] h0
  have h2 := PopInv.foldl _ right_lines _ h1
  simpa using h2

/-! ## Shapes and the classification loop of `set_links` -/

theorem shape.add_zero (s : shape) : shape.add s shape.zero = s := by
  cases s; simp [shape.add, shape.zero]

theorem shape.zero_add (s : shape) : shape.add shape.zero s = s := by
  cases s; simp [shape.add, shape.zero]

theorem shape.add_assoc (s t u : shape) :
    shape.add (shape.add s t) u = shape.add s (shape.add t u) := by
  cases s; cases t; cases u; simp [shape.add, Nat.add_assoc]

theorem shape.add_comm (s t : shape) : shape.add s t = shape.add t s := by
  cases s; cases t; simp [shape.add, Nat.add_comm]

theorem shape.foldl_addLine (ls : List Line) (s : shape) :
    ls.foldl shape.addLine s = shape.add s (shape.ofLines ls) := by
  induction ls using List.reverseRecOn with
  | nil => simp [shape.ofLines, shape.add_zero]
  | append_singleton l x ih =>
    simp only [shape.ofLines, List.foldl_append, List.foldl_cons, List.foldl_nil] at ih ⊢
    rw [ih]
    simp only [shape.addLine, shape.add_assoc]

theorem shape.ofLines_append (l1 l2 : List Line) :
    shape.ofLines (l1 ++ l2) = shape.add (shape.ofLines l1) (shape.ofLines l2) := by
  simp only [shape.ofLines, List.foldl_append]
  rw [shape.foldl_addLine]
  rfl

theorem shape.ofLines_cons (x : Line) (l : List Line) :
    shape.ofLines (x :: l) = shape.add (shape.ofLine x) (shape.ofLines l) := by
  have := shape.ofLines_append [x] l
  simp only [List.singleton_append] at this
  rw [this]
  simp [shape.ofLines, shape.addLine, shape.zero_add]

theorem shape.le_add_right (s t : shape) : shape.le s (shape.add s t) := by
  simp [shape.le, shape.add]

theorem int_lines_insert_new (s : List Line) (x : Line) (h : ∀ y ∈ s, y.key ≠ x.key) :
    Linkage.int_lines_insert s x = s ++ [x] := by
  unfold Linkage.int_lines_insert
  rw [if_neg]
  simp only [List.any_eq_true, not_exists, not_and]
  intro y hy hxy
  exact h y hy ((Line.op_eq_iff _ _).1 hxy)

theorem ext_of_cons (e : Line × Nat) (m : List (Line × Nat)) :
    ext_of (e :: m) = if e.2 = 1 then e.1 :: ext_of m else ext_of m := by
  unfold ext_of
  by_cases h : e.2 = 1 <;> simp [List.filter_cons, h]

theorem int_of_cons (e : Line × Nat) (m : List (Line × Nat)) :
    int_of (e :: m) = if e.2 = 1 then int_of m else e.1 :: int_of m := by
  unfold int_of
  by_cases h : e.2 = 1 <;> simp [List.filter_cons, h]

theorem classify_foldl (m : List (Line × Nat)) (st : Linkage.Links) (hs : KeySorted m)
    (hd : ∀ y ∈ st.int_lines_, ∀ e ∈ m, y.key ≠ e.1.key) :
    (m.foldl Linkage.classify st).lines_ = st.lines_ ++ ext_of m ∧
    (m.foldl Linkage.classify st).int_lines_ = st.int_lines_ ++ int_of m ∧
    (m.foldl Linkage.classify st).mem_scale_ = (ext_of m).foldl shape.addLine st.mem_scale_ ∧
    (m.foldl Linkage.classify st).flop_scale_ =
      (m.map Prod.fst).foldl shape.addLine st.flop_scale_ := by
  induction m generalizing st with
  | nil => simp [ext_of, int_of]
  | cons e rest ih =>
    have hs' := List.pairwise_cons.1 hs
    rw [List.foldl_cons, ext_of_cons, int_of_cons]
    by_cases h1 : e.2 = 1
    · have hst : Linkage.classify st e =
          { lines_ := st.lines_ ++ [e.1], int_lines_ := st.int_lines_,
            mem_scale_ := st.mem_scale_.addLine e.1,
            flop_scale_ := st.flop_scale_.addLine e.1,
            is_sigma_ := if e.1.sig_ then true else st.is_sigma_,
            is_den_ := if e.1.sig_ then st.is_den_ else if e.1.den_ then true
              else st.is_den_ } := by
        simp [Linkage.classify, h1]
      have hd' : ∀ y ∈ (Linkage.classify st e).int_lines_, ∀ f ∈ rest, y.key ≠ f.1.key := by
        rw [hst]
        intro y hy f hf
        exact hd y hy f (List.mem_cons_of_mem _ hf)
      obtain ⟨i1, i2, i3, i4⟩ := ih (Linkage.classify st e) hs'.2 hd'
      rw [i1, i2, i3, i4, hst]
      simp [h1]
    · have hnew : Linkage.int_lines_insert st.int_lines_ e.1 = st.int_lines_ ++ [e.1] :=
        int_lines_insert_new _ _ (fun y hy => hd y hy e (List.mem_cons_self _ _))
      have hst : Linkage.classify st e =
          { lines_ := st.lines_, int_lines_ := st.int_lines_ ++ [e.1],
            mem_scale_ := st.mem_scale_,
            flop_scale_ := st.flop_scale_.addLine e.1,
            is_sigma_ := st.is_sigma_, is_den_ := st.is_den_ } := by
        simp [Linkage.classify, h1, hnew]
      have hd' : ∀ y ∈ (Linkage.classify st e).int_lines_, ∀ f ∈ rest, y.key ≠ f.1.key := by
        rw [hst]
        intro y hy f hf
        rcases List.mem_append.1 hy with h2 | h2
        · exact hd y h2 f (List.mem_cons_of_mem _ hf)
        · have : y = e.1 := by simpa using h2
          rw [this]
          exact ne_of_lt (hs'.1 f hf)
      obtain ⟨i1, i2, i3, i4⟩ := ih (Linkage.classify st e) hs'.2 hd'
      rw [i1, i2, i3, i4, hst]
      simp [h1]

/-- The fields assigned by `set_links` when both children have lines. -/
theorem set_links_general (left right : Vertex) (hl : left.size ≠ 0) (hr : right.size ≠ 0) :
    (Linkage.set_links left right).lines_ =
        ext_of (Linkage.line_populations left.lines_ right.lines_) ∧
    (Linkage.set_links left right).int_lines_ =
        int_of (Linkage.line_populations left.lines_ right.lines_) ∧
    (Linkage.set_links left right).mem_scale_ =
        shape.ofLines (ext_of (Linkage.line_populations left.lines_ right.lines_)) ∧
    (Linkage.set_links left right).flop_scale_ =
        shape.ofLines ((Linkage.line_populations left.lines_ right.lines_).map Prod.fst) := by
  have hP := line_populations_inv left.lines_ right.lines_
  have h := classify_foldl _ Linkage.Links.init hP.sorted (by simp [Linkage.Links.init])
  have e : Linkage.set_links left right =
      (Linkage.line_populations left.lines_ right.lines_).foldl Linkage.classify
        Linkage.Links.init := by
    unfold Linkage.set_links
    simp [hl, hr]
  rw [e]
  obtain ⟨h1, h2, h3, h4⟩ := h
  refine ⟨?_, ?_, ?_, ?_⟩
  · rw [h1]; simp [Linkage.Links.init]
  · rw [h2]; simp [Linkage.Links.init]
  · rw [h3]; rfl
  · rw [h4]; rfl

/-! ## Shapes of a constructed linkage -/

theorem order_children_cases (l r : Node) :
    Linkage.order_children l r = (l, r) ∨ Linkage.order_children l r = (r, l) := by
  unfold Linkage.order_children
  split_ifs <;> simp

theorem set_links_mem (a b : Vertex) (ha : a.Inv) (hb : b.Inv) :
    (Linkage.set_links a b).mem_scale_ = shape.ofLines (Linkage.set_links a b).lines_ := by
  by_cases h1 : a.size = 0
  · by_cases h2 : b.size = 0
    · simp [Linkage.set_links, h1, h2, Linkage.Links.init, shape.ofLines]
    · simp [Linkage.set_links, h1, h2, hb.2]
  · by_cases h2 : b.size = 0
    · simp [Linkage.set_links, h1, h2, ha.2]
    · obtain ⟨e1, _, e3, _⟩ := set_links_general a b h1 h2
      rw [e1, e3]

theorem ofLines_keys_split (m : List (Line × Nat)) :
    shape.ofLines (m.map Prod.fst) =
      shape.add (shape.ofLines (ext_of m)) (shape.ofLines (int_of m)) := by
  induction m with
  | nil => simp [ext_of, int_of, shape.ofLines, shape.add_zero]
  | cons e rest ih =>
    rw [List.map_cons, shape.ofLines_cons, ih, ext_of_cons, int_of_cons]
    by_cases h : e.2 = 1
    · simp only [h, if_true]
      rw [shape.ofLines_cons, shape.add_assoc]
    · simp only [h, if_false]
      rw [shape.ofLines_cons, ← shape.add_assoc, ← shape.add_assoc,
        shape.add_comm (shape.ofLine e.1)]

theorem set_links_flop (a b : Vertex) :
    (Linkage.set_links a b).flop_scale_ =
      shape.add (Linkage.set_links a b).mem_scale_
        (shape.ofLines (Linkage.set_links a b).int_lines_) := by
  by_cases h1 : a.size = 0
  · by_cases h2 : b.size = 0
    · simp [Linkage.set_links, h1, h2, Linkage.Links.init, shape.ofLines, shape.add_zero]
    · simp [Linkage.set_links, h1, h2, Linkage.Links.init, shape.ofLines, shape.add_zero]
  · by_cases h2 : b.size = 0
    · simp [Linkage.set_links, h1, h2, Linkage.Links.init, shape.ofLines, shape.add_zero]
    · obtain ⟨_, e2, e3, e4⟩ := set_links_general a b h1 h2
      rw [e2, e3, e4, ofLines_keys_split]

theorem KeySorted.no_repeat_keys (m : List (Line × Nat)) (h : KeySorted m) :
    no_repeat (m.map Prod.fst) := by
  unfold no_repeat
  rw [List.pairwise_map]
  exact h.imp fun hab => (Line.op_eq_false_iff _ _).2 (ne_of_lt hab)

theorem set_links_int_no_repeat (a b : Vertex) :
    no_repeat (Linkage.set_links a b).int_lines_ := by
  by_cases h1 : a.size = 0
  · by_cases h2 : b.size = 0
    · simp [Linkage.set_links, h1, h2, Linkage.Links.init, no_repeat]
    · simp [Linkage.set_links, h1, h2, Linkage.Links.init, no_repeat]
  · by_cases h2 : b.size = 0
    · simp [Linkage.set_links, h1, h2, Linkage.Links.init, no_repeat]
    · obtain ⟨_, e2, _, _⟩ := set_links_general a b h1 h2
      rw [e2]
      have hs := (line_populations_inv a.lines_ b.lines_).sorted
      have := KeySorted.no_repeat_keys _ hs
      unfold no_repeat at this ⊢
      unfold int_of
      exact (this.sublist (List.Sublist.map _ (List.filter_sublist _)))

/-- C4: a linkage built from children that satisfy the vertex invariant has
    `rank_ = |lines_|`, `mem_scale_` equal to the sum of the shapes of its
    external lines, and `shape_ = mem_scale_`. -/
theorem Linkage_vertex_invariant (update_name : Node → Node → Vertex → String)
    (left right : Node) (is_addition : Bool)
    (hl : left.vert.Inv) (hr : right.vert.Inv) :
    (Linkage.Linkage update_name left right is_addition).vert.rank_ =
        (Linkage.Linkage update_name left right is_addition).vert.lines_.length ∧
    (Linkage.Linkage update_name left right is_addition).mem_scale_ =
        shape.ofLines (Linkage.Linkage update_name left right is_addition).vert.lines_ ∧
    (Linkage.Linkage update_name left right is_addition).vert.shape_ =
        (Linkage.Linkage update_name left right is_addition).mem_scale_ := by
  unfold Linkage.Linkage
  rcases order_children_cases left right with h | h <;> rw [h]
  · exact ⟨rfl, set_links_mem _ _ hl hr, rfl⟩
  · exact ⟨rfl, set_links_mem _ _ hr hl, rfl⟩

/-- C5: in every constructed linkage `flop_scale_` dominates `mem_scale_`
    componentwise, and `flop_scale_` is `mem_scale_` plus the sum of the
    shapes of the internal lines, which are pairwise distinct. -/
theorem Linkage_flop_ge_mem (update_name : Node → Node → Vertex → String)
    (left right : Node) (is_addition : Bool) :
    shape.le (Linkage.Linkage update_name left right is_addition).mem_scale_
        (Linkage.Linkage update_name left right is_addition).flop_scale_ ∧
    (Linkage.Linkage update_name left right is_addition).flop_scale_ =
        shape.add (Linkage.Linkage update_name left right is_addition).mem_scale_
          (shape.ofLines (Linkage.Linkage update_name left right is_addition).int_lines_) ∧
    no_repeat (Linkage.Linkage update_name left right is_addition).int_lines_ := by
  have key : ∀ a b : Node,
      shape.le (Linkage.assemble update_name a b is_addition).mem_scale_
        (Linkage.assemble update_name a b is_addition).flop_scale_ ∧
      (Linkage.assemble update_name a b is_addition).flop_scale_ =
        shape.add (Linkage.assemble update_name a b is_addition).mem_scale_
          (shape.ofLines (Linkage.assemble update_name a b is_addition).int_lines_) ∧
      no_repeat (Linkage.assemble update_name a b is_addition).int_lines_ := by
    intro a b
    have h := set_links_flop a.vert b.vert
    refine ⟨?_, h, set_links_int_no_repeat a.vert b.vert⟩
    show shape.le (Linkage.set_links a.vert b.vert).mem_scale_
      (Linkage.set_links a.vert b.vert).flop_scale_
    rw [h]
    exact shape.le_add_right _ _
  exact key _ _

/-! ## Scalar children and the vertex count -/

theorem connect_foldl_nil (search_left : Bool) (other : List Line)
    (l : List (Nat × Line)) (st : Linkage.Connec) :
    l.foldl (Linkage.connect_step search_left other []) st = st := by
  induction l generalizing st with
  | nil => rfl
  | cons e rest ih =>
    rw [List.foldl_cons]
    have : Linkage.connect_step search_left other [] st e = st := by
      simp [Linkage.connect_step, Linkage.int_lines_find]
    rw [this, ih]

theorem connect_lines_nil (a b : List Line) :
    (Linkage.connect_lines a b []).int_connec_ = [] := by
  unfold Linkage.connect_lines
  simp only [connect_foldl_nil]

theorem assemble_scalar_left (update_name : Node → Node → Vertex → String)
    (s n : Node) (is_addition : Bool) (hs : s.vert.size = 0) (hn : 0 < n.vert.size) :
    (Linkage.assemble update_name s n is_addition).int_lines_ = [] ∧
    (Linkage.assemble update_name s n is_addition).int_connec_ = [] ∧
    (Linkage.assemble update_name s n is_addition).vert.lines_ = n.vert.lines_ ∧
    (Linkage.assemble update_name s n is_addition).mem_scale_ = n.vert.shape_ ∧
    (Linkage.assemble update_name s n is_addition).flop_scale_ = n.vert.shape_ := by
  have hn' : n.vert.size ≠ 0 := Nat.pos_iff_ne_zero.1 hn
  have e : Linkage.set_links s.vert n.vert =
      { Linkage.Links.init with
        lines_ := n.vert.lines_, mem_scale_ := n.vert.shape_,
        flop_scale_ := n.vert.shape_ } := by
    simp [Linkage.set_links, hs, hn']
  refine ⟨?_, ?_, ?_, ?_, ?_⟩
  · show (Linkage.set_links s.vert n.vert).int_lines_ = []
    rw [e]; rfl
  · show (Linkage.connect_lines s.vert.lines_ n.vert.lines_
      (Linkage.set_links s.vert n.vert).int_lines_).int_connec_ = []
    rw [e]; exact connect_lines_nil _ _
  · show (Linkage.set_links s.vert n.vert).lines_ = _
    rw [e]
  · show (Linkage.set_links s.vert n.vert).mem_scale_ = _
    rw [e]
  · show (Linkage.set_links s.vert n.vert).flop_scale_ = _
    rw [e]

theorem assemble_scalar_right (update_name : Node → Node → Vertex → String)
    (s n : Node) (is_addition : Bool) (hs : s.vert.size = 0) (hn : 0 < n.vert.size) :
    (Linkage.assemble update_name n s is_addition).int_lines_ = [] ∧
    (Linkage.assemble update_name n s is_addition).int_connec_ = [] ∧
    (Linkage.assemble update_name n s is_addition).vert.lines_ = n.vert.lines_ ∧
    (Linkage.assemble update_name n s is_addition).mem_scale_ = n.vert.shape_ ∧
    (Linkage.assemble update_name n s is_addition).flop_scale_ = n.vert.shape_ := by
  have hn' : n.vert.size ≠ 0 := Nat.pos_iff_ne_zero.1 hn
  have e : Linkage.set_links n.vert s.vert =
      { Linkage.Links.init with
        lines_ := n.vert.lines_, mem_scale_ := n.vert.shape_,
        flop_scale_ := n.vert.shape_ } := by
    simp [Linkage.set_links, hs, hn']
  refine ⟨?_, ?_, ?_, ?_, ?_⟩
  · show (Linkage.set_links n.vert s.vert).int_lines_ = []
    rw [e]; rfl
  · show (Linkage.connect_lines n.vert.lines_ s.vert.lines_
      (Linkage.set_links n.vert s.vert).int_lines_).int_connec_ = []
    rw [e]; exact connect_lines_nil _ _
  · show (Linkage.set_links n.vert s.vert).lines_ = _
    rw [e]
  · show (Linkage.set_links n.vert s.vert).mem_scale_ = _
    rw [e]
  · show (Linkage.set_links n.vert s.vert).flop_scale_ = _
    rw [e]

/-- C6: when exactly one of the two children is a scalar (its `size()` is 0),
    the linkage, whichever side the scalar is supplied on, has no internal
    lines and no internal connections, its lines are those of the other
    child in that order, and `mem_scale_` and `flop_scale_` are that child's
    shape. -/
theorem Linkage_scalar_child (update_name : Node → Node → Vertex → String)
    (s n : Node) (is_addition : Bool) (hs : s.vert.size = 0) (hn : 0 < n.vert.size)
    (L : Node)
    (hL : L = Linkage.Linkage update_name s n is_addition ∨
      L = Linkage.Linkage update_name n s is_addition) :
    L.int_lines_ = [] ∧ L.int_connec_ = [] ∧ L.vert.lines_ = n.vert.lines_ ∧
    L.mem_scale_ = n.vert.shape_ ∧ L.flop_scale_ = n.vert.shape_ := by
  rcases hL with h | h <;> subst h <;> unfold Linkage.Linkage
  · rcases order_children_cases s n with h | h <;> rw [h]
    · exact assemble_scalar_left update_name s n is_addition hs hn
    · exact assemble_scalar_right update_name s n is_addition hs hn
  · rcases order_children_cases n s with h | h <;> rw [h]
    · exact assemble_scalar_right update_name s n is_addition hs hn
    · exact assemble_scalar_left update_name s n is_addition hs hn

theorem assemble_nvert (update_name : Node → Node → Vertex → String) (l r : Node)
    (is_addition : Bool) :
    (Linkage.assemble update_name l r is_addition).nvert_ = l.count + r.count := by
  show (if r.is_linked then (if l.is_linked then 2 - 1 + l.nvert_ else 2) - 1 + r.nvert_
    else (if l.is_linked then 2 - 1 + l.nvert_ else 2)) = l.count + r.count
  unfold Node.count
  by_cases h1 : l.is_linked = true <;> by_cases h2 : r.is_linked = true
  all_goals simp [h1, h2]
  all_goals omega

theorem Linkage_nvert_count (update_name : Node → Node → Vertex → String) (l r : Node)
    (is_addition : Bool) :
    (Linkage.Linkage update_name l r is_addition).nvert_ = l.count + r.count ∧
    (Linkage.Linkage update_name l r is_addition).leaf_count =
      l.leaf_count + r.leaf_count := by
  unfold Linkage.Linkage
  rcases order_children_cases l r with h | h <;> rw [h]
  · exact ⟨assemble_nvert _ _ _ _, rfl⟩
  · refine ⟨?_, ?_⟩
    · rw [assemble_nvert]; exact Nat.add_comm _ _
    · show r.leaf_count + l.leaf_count = _
      exact Nat.add_comm _ _

theorem Linkage_is_linked (update_name : Node → Node → Vertex → String) (l r : Node)
    (is_addition : Bool) : (Linkage.Linkage update_name l r is_addition).is_linked = true :=
  rfl

theorem Built_count_eq (update_name : Node → Node → Vertex → String) (n : Node)
    (h : Built update_name n) : n.count = n.leaf_count := by
  induction h with
  | vertex v => rfl
  | link l r add _ _ ihl ihr =>
    have h := Linkage_nvert_count update_name l r add
    unfold Node.count
    rw [Linkage_is_linked, if_pos rfl, h.1, h.2, ihl, ihr]
  | set_id n k _ ih =>
    cases n with
    | vertex v => exact ih
    | linkage v d l r => exact ih

/-- C7: for a linkage built by the constructor from constructed children,
    `nvert_` is `n(left) + n(right)`, with `n` equal to 1 for a plain vertex
    and to the stored `nvert_` for a linkage, and it equals the number of
    plain vertices at the leaves of the tree. -/
theorem Linkage_nvert (update_name : Node → Node → Vertex → String) (left right : Node)
    (is_addition : Bool) (hl : Built update_name left) (hr : Built update_name right) :
    (Linkage.Linkage update_name left right is_addition).nvert_ = left.count + right.count ∧
    (Linkage.Linkage update_name left right is_addition).nvert_ =
      (Linkage.Linkage update_name left right is_addition).leaf_count := by
  have h := Linkage_nvert_count update_name left right is_addition
  refine ⟨h.1, ?_⟩
  rw [h.1, h.2, Built_count_eq _ _ hl, Built_count_eq _ _ hr]

/-! ## External and internal lines -/

theorem no_repeat_iff (ls : List Line) : no_repeat ls ↔ (ls.map Line.key).Nodup := by
  unfold no_repeat List.Nodup
  rw [List.pairwise_map]
  constructor <;> intro h <;> refine h.imp ?_
  · intro a b hab; exact (Line.op_eq_false_iff _ _).1 hab
  · intro a b hab; exact (Line.op_eq_false_iff _ _).2 hab

theorem occurs_in_iff (x : Line) (ls : List Line) :
    x.occurs_in ls = true ↔ ∃ y ∈ ls, y.key = x.key := by
  simp only [Line.occurs_in, List.any_eq_true, Line.op_eq_iff]

theorem occurs_in_iff_count (x : Line) (ls : List Line) :
    x.occurs_in ls = true ↔ 0 < key_count ls x := by
  rw [occurs_in_iff, key_count, List.countP_pos_iff]
  simp

theorem occurs_in_self (x : Line) (ls : List Line) (h : x ∈ ls) : x.occurs_in ls = true :=
  (occurs_in_iff x ls).2 ⟨x, h, rfl⟩

theorem key_count_le_one (ls : List Line) (h : no_repeat ls) (x : Line) :
    key_count ls x ≤ 1 := by
  induction ls with
  | nil => simp [key_count]
  | cons a rest ih =>
    have hp := List.pairwise_cons.1 h
    have ih' := ih hp.2
    unfold key_count at ih' ⊢
    rw [List.countP_cons]
    by_cases hk : a.key = x.key
    · have hz : List.countP (fun y => decide (y.key = x.key)) rest = 0 := by
        rw [List.countP_eq_zero]
        intro y hy
        have := (Line.op_eq_false_iff _ _).1 (hp.1 y hy)
        simpa using fun h2 : y.key = x.key => this (hk.trans h2.symm)
      rw [hz]; simp [hk]
    · simp only [hk, decide_False]
      simpa using ih'

theorem key_first_self (ls : List Line) (h : no_repeat ls) (x : Line) (hx : x ∈ ls) :
    key_first ls x = some x := by
  induction ls with
  | nil => cases hx
  | cons a rest ih =>
    have hp := List.pairwise_cons.1 h
    unfold key_first
    rw [List.find?_cons]
    rcases List.mem_cons.1 hx with h1 | h1
    · subst h1; simp
    · have hne : a.key ≠ x.key := (Line.op_eq_false_iff _ _).1 (hp.1 x h1)
      simp only [hne, decide_False]
      exact ih hp.2 h1

theorem key_first_append_left (a b : List Line) (x z : Line) (h : key_first a x = some z) :
    key_first (a ++ b) x = some z := by
  unfold key_first at h ⊢
  rw [List.find?_append, h]; rfl

theorem key_first_append_right (a b : List Line) (x : Line)
    (h : x.occurs_in a = false) : key_first (a ++ b) x = key_first b x := by
  have hn : key_first a x = none := by
    apply key_first_none
    intro y hy hk
    have := (occurs_in_iff x a).2 ⟨y, hy, hk⟩
    rw [h] at this; cases this
  unfold key_first at hn ⊢
  rw [List.find?_append, hn]; rfl

theorem mem_ext_of (m : List (Line × Nat)) (x : Line) : x ∈ ext_of m ↔ (x, 1) ∈ m := by
  unfold ext_of
  simp only [List.mem_map, List.mem_filter, decide_eq_true_eq]
  constructor
  · rintro ⟨⟨l, n⟩, ⟨hm, hn⟩, hx⟩
    simp only at hn hx
    subst hn; subst hx; exact hm
  · intro h; exact ⟨(x, 1), ⟨h, rfl⟩, rfl⟩

theorem mem_int_of (m : List (Line × Nat)) (x : Line) :
    x ∈ int_of m ↔ ∃ n, (x, n) ∈ m ∧ n ≠ 1 := by
  unfold int_of
  simp only [List.mem_map, List.mem_filter, Bool.not_eq_true', decide_eq_false_iff_not]
  constructor
  · rintro ⟨⟨l, n⟩, ⟨hm, hn⟩, hx⟩
    simp only at hn hx
    subst hx; exact ⟨n, hm, hn⟩
  · rintro ⟨n, hm, hn⟩; exact ⟨(x, n), ⟨hm, hn⟩, rfl⟩

/-- With no repeated line inside a child, the external lines of the general
    branch of `set_links` are the lines present in exactly one child. -/
theorem mem_ext_of_populations (a b : List Line) (ha : no_repeat a) (hb : no_repeat b)
    (x : Line) :
    x ∈ ext_of (Linkage.line_populations a b) ↔
      x ∈ a.filter (fun y => !y.occurs_in b) ++ b.filter (fun y => !y.occurs_in a) := by
  have hP := line_populations_inv a b
  have hca := key_count_le_one a ha x
  have hcb := key_count_le_one b hb x
  rw [mem_ext_of, List.mem_append, List.mem_filter, List.mem_filter]
  constructor
  · intro h
    have h1 := hP.count _ h
    have h2 := List.mem_of_find?_eq_some (hP.first _ h)
    simp only at h1 h2
    rw [key_count_append_list] at h1
    rcases List.mem_append.1 h2 with h3 | h3
    · left
      refine ⟨h3, ?_⟩
      have : 0 < key_count a x := (occurs_in_iff_count x a).1 (occurs_in_self x a h3)
      have hz : ¬ 0 < key_count b x := by omega
      rw [← occurs_in_iff_count] at hz
      simpa using hz
    · right
      refine ⟨h3, ?_⟩
      have : 0 < key_count b x := (occurs_in_iff_count x b).1 (occurs_in_self x b h3)
      have hz : ¬ 0 < key_count a x := by omega
      rw [← occurs_in_iff_count] at hz
      simpa using hz
  · intro h
    have hx : x ∈ a ++ b := by
      rcases h with h | h
      · exact List.mem_append_left _ h.1
      · exact List.mem_append_right _ h.1
    obtain ⟨e, he, hk⟩ := hP.cover x hx
    have hfirst : key_first (a ++ b) x = some x := by
      rcases h with h | h
      · exact key_first_append_left a b x x (key_first_self a ha x h.1)
      · have hno : x.occurs_in a = false := by simpa using h.2
        rw [key_first_append_right a b x hno]
        exact key_first_self b hb x h.1
    have hcount : key_count (a ++ b) x = 1 := by
      rw [key_count_append_list]
      rcases h with h | h
      · have h1 : 0 < key_count a x := (occurs_in_iff_count x a).1 (occurs_in_self x a h.1)
        have h2 : ¬ 0 < key_count b x := by
          rw [← occurs_in_iff_count]; simpa using h.2
        omega
      · have h1 : 0 < key_count b x := (occurs_in_iff_count x b).1 (occurs_in_self x b h.1)
        have h2 : ¬ 0 < key_count a x := by
          rw [← occurs_in_iff_count]; simpa using h.2
        omega
    have e1 : e.1 = x := by
      have := hP.first e he
      rw [key_first_congr _ _ _ hk, hfirst] at this
      exact (Option.some.inj this).symm
    have e2 : e.2 = 1 := by
      have := hP.count e he
      rw [key_count_congr _ _ _ hk, hcount] at this
      exact this
    have : e = (x, 1) := Prod.ext e1 e2
    rw [← this]; exact he

/-- With no repeated line inside a child, a line is internal in the general
    branch of `set_links` exactly when it occurs in both children. -/
theorem int_of_populations (a b : List Line) (ha : no_repeat a) (hb : no_repeat b)
    (x : Line) :
    Linkage.int_lines_find (int_of (Linkage.line_populations a b)) x = true ↔
      (x.occurs_in a = true ∧ x.occurs_in b = true) := by
  have hP := line_populations_inv a b
  have hca := key_count_le_one a ha x
  have hcb := key_count_le_one b hb x
  have hfind : Linkage.int_lines_find (int_of (Linkage.line_populations a b)) x = true ↔
      ∃ y ∈ int_of (Linkage.line_populations a b), y.key = x.key := by
    simp only [Linkage.int_lines_find, List.any_eq_true, Line.op_eq_iff]
  rw [hfind, occurs_in_iff_count, occurs_in_iff_count]
  constructor
  · rintro ⟨y, hy, hk⟩
    obtain ⟨n, hn, hne⟩ := (mem_int_of _ _).1 hy
    have h1 := hP.count _ hn
    have h2 := List.mem_of_find?_eq_some (hP.first _ hn)
    simp only at h1 h2
    rw [key_count_congr _ _ _ hk, key_count_append_list] at h1
    have h3 : 0 < key_count (a ++ b) x := by
      rw [← key_count_congr _ _ _ hk, ← occurs_in_iff_count]
      exact occurs_in_self _ _ h2
    rw [key_count_append_list] at h3
    have h4 : n % 256 = n := by omega
    omega
  · rintro ⟨h1, h2⟩
    obtain ⟨y, hy, hk⟩ := (occurs_in_iff x a).1 ((occurs_in_iff_count x a).2 h1)
    obtain ⟨e, he, hek⟩ := hP.cover y (List.mem_append_left _ hy)
    refine ⟨e.1, (mem_int_of _ _).2 ⟨e.2, he, ?_⟩, hek.trans hk⟩
    have := hP.count e he
    rw [key_count_congr _ _ _ (hek.trans hk), key_count_append_list] at this
    omega

theorem ext_of_nodup (m : List (Line × Nat)) (h : KeySorted m) : (ext_of m).Nodup := by
  have h1 := (no_repeat_iff _).1 (KeySorted.no_repeat_keys m h)
  have h2 : (m.map Prod.fst).Nodup := List.Nodup.of_map _ h1
  unfold ext_of
  exact h2.sublist (List.Sublist.map _ (List.filter_sublist _))

theorem symm_diff_nodup (a b : List Line) (ha : no_repeat a) (hb : no_repeat b) :
    (a.filter (fun y => !y.occurs_in b) ++ b.filter (fun y => !y.occurs_in a)).Nodup := by
  have ha' : a.Nodup := List.Nodup.of_map _ ((no_repeat_iff a).1 ha)
  have hb' : b.Nodup := List.Nodup.of_map _ ((no_repeat_iff b).1 hb)
  refine List.Nodup.append (ha'.filter _) (hb'.filter _) ?_
  intro x h1 h2
  have h3 := (List.mem_filter.1 h1).2
  have h4 := (List.mem_filter.1 h2).1
  have := occurs_in_self x b h4
  simp [this] at h3

/-- The external and internal lines that `set_links` assigns for two children
    with lines and without repeated lines. -/
theorem set_links_no_repeat (a b : Vertex) (ha0 : 0 < a.size) (hb0 : 0 < b.size)
    (ha : no_repeat a.lines_) (hb : no_repeat b.lines_) :
    (Linkage.set_links a b).lines_.Perm
      (a.lines_.filter (fun y => !y.occurs_in b.lines_) ++
        b.lines_.filter (fun y => !y.occurs_in a.lines_)) ∧
    (∀ x, Linkage.int_lines_find (Linkage.set_links a b).int_lines_ x = true ↔
      (x.occurs_in a.lines_ = true ∧ x.occurs_in b.lines_ = true)) := by
  obtain ⟨e1, e2, _, _⟩ := set_links_general a b (Nat.pos_iff_ne_zero.1 ha0)
    (Nat.pos_iff_ne_zero.1 hb0)
  rw [e1, e2]
  refine ⟨?_, fun x => int_of_populations _ _ ha hb x⟩
  rw [List.perm_ext_iff_of_nodup
    (ext_of_nodup _ (line_populations_inv a.lines_ b.lines_).sorted)
    (symm_diff_nodup _ _ ha hb)]
  intro x
  exact mem_ext_of_populations _ _ ha hb x

theorem ext_of_sorted (m : List (Line × Nat)) (h : KeySorted m) :
    (ext_of m).Pairwise fun a b => Line.op_lt a b = true := by
  unfold ext_of
  rw [List.pairwise_map]
  refine List.Pairwise.sublist (List.filter_sublist _) ?_
  unfold KeySorted at h
  exact h.imp fun hab => (Line.op_lt_iff _ _).2 hab

theorem set_links_lines_sorted (a b : Vertex) (ha0 : 0 < a.size) (hb0 : 0 < b.size) :
    (Linkage.set_links a b).lines_.Pairwise fun x y => Line.op_lt x y = true := by
  obtain ⟨e1, _, _, _⟩ := set_links_general a b (Nat.pos_iff_ne_zero.1 ha0)
    (Nat.pos_iff_ne_zero.1 hb0)
  rw [e1]
  exact ext_of_sorted _ (line_populations_inv a.lines_ b.lines_).sorted

theorem set_links_lines_nodup (a b : Vertex) (ha0 : 0 < a.size) (hb0 : 0 < b.size) :
    (Linkage.set_links a b).lines_.Nodup := by
  obtain ⟨e1, _, _, _⟩ := set_links_general a b (Nat.pos_iff_ne_zero.1 ha0)
    (Nat.pos_iff_ne_zero.1 hb0)
  rw [e1]
  exact ext_of_nodup _ (line_populations_inv a.lines_ b.lines_).sorted

/-! ## Worked instances and the claims on external and internal lines -/

theorem ex_vertices_constructed :
    Vertex.of_lines "g" [ex_a, ex_b, ex_i, ex_j] = some ex_g_abij ∧
    Vertex.of_lines "g" [ex_b, ex_c, ex_k, ex_l] = some ex_g_bckl ∧
    Vertex.of_lines "t" [ex_a, ex_i] = some ex_t_ai ∧
    Vertex.of_lines "f" [ex_i, ex_a] = some ex_f_ia ∧
    Vertex.of_lines "t" [ex_a, ex_a] = some ex_t_aa ∧
    Vertex.of_lines "u" [ex_i] = some ex_u_i ∧
    Vertex.of_lines "t" [ex_a, ex_b, ex_i] = some ex_t_abi := by
  decide

/-- C3 (as stated, refuted): for the children `t(a,a)` and `u(i)` the line `a`,
    which occurs twice in the first child and not at all in the second, is
    made internal and is missing from the external lines, although it is not
    present in both children. -/
theorem Linkage_repeated_line_is_internal :
    (Linkage.Linkage ex_update_name (Node.vertex ex_t_aa) (Node.vertex ex_u_i) false).vert.lines_
      = [ex_i] ∧
    (Linkage.Linkage ex_update_name (Node.vertex ex_t_aa) (Node.vertex ex_u_i) false).int_lines_
      = [ex_a] ∧
    ex_a.occurs_in ex_t_aa.lines_ = true ∧ ex_a.occurs_in ex_u_i.lines_ = false ∧
    0 < ex_t_aa.size ∧ 0 < ex_u_i.size := by
  decide

/-- C3 (amended): for a linkage built from two children with lines
    (`size() > 0`) in each of which no line occurs twice, the external lines
    `lines_` hold exactly the lines of the left child that do not occur in
    the right child and the lines of the right child that do not occur in the
    left child, each once, in the order of the map (ascending under
    `Line::operator<`): `lines_` is the one list with these elements in that
    order.  A line is internal exactly when it occurs in both children, and
    no internal line is stored twice. -/
theorem Linkage_lines_symmetric_difference
    (update_name : Node → Node → Vertex → String) (left right : Node) (is_addition : Bool)
    (hl : 0 < left.vert.size) (hr : 0 < right.vert.size)
    (hnl : no_repeat left.vert.lines_) (hnr : no_repeat right.vert.lines_) :
    (Linkage.Linkage update_name left right is_addition).vert.lines_.Perm
      (left.vert.lines_.filter (fun y => !y.occurs_in right.vert.lines_) ++
        right.vert.lines_.filter (fun y => !y.occurs_in left.vert.lines_)) ∧
    (Linkage.Linkage update_name left right is_addition).vert.lines_.Pairwise
      (fun x y => Line.op_lt x y = true) ∧
    (Linkage.Linkage update_name left right is_addition).vert.lines_.Nodup ∧
    (∀ ls : List Line,
      ls.Perm (left.vert.lines_.filter (fun y => !y.occurs_in right.vert.lines_) ++
        right.vert.lines_.filter (fun y => !y.occurs_in left.vert.lines_)) →
      ls.Pairwise (fun x y => Line.op_lt x y = true) →
      (Linkage.Linkage update_name left right is_addition).vert.lines_ = ls) ∧
    (∀ x, Linkage.int_lines_find
        (Linkage.Linkage update_name left right is_addition).int_lines_ x = true ↔
      (x.occurs_in left.vert.lines_ = true ∧ x.occurs_in right.vert.lines_ = true)) ∧
    no_repeat (Linkage.Linkage update_name left right is_addition).int_lines_ := by
  have hperm : (Linkage.Linkage update_name left right is_addition).vert.lines_.Perm
      (left.vert.lines_.filter (fun y => !y.occurs_in right.vert.lines_) ++
        right.vert.lines_.filter (fun y => !y.occurs_in left.vert.lines_)) := by
    unfold Linkage.Linkage
    rcases order_children_cases left right with h | h <;> rw [h]
    · exact (set_links_no_repeat _ _ hl hr hnl hnr).1
    · exact (set_links_no_repeat _ _ hr hl hnr hnl).1.trans List.perm_append_comm
  have hsorted : (Linkage.Linkage update_name left right is_addition).vert.lines_.Pairwise
      (fun x y => Line.op_lt x y = true) := by
    unfold Linkage.Linkage
    rcases order_children_cases left right with h | h <;> rw [h]
    · exact set_links_lines_sorted _ _ hl hr
    · exact set_links_lines_sorted _ _ hr hl
  have hnodup : (Linkage.Linkage update_name left right is_addition).vert.lines_.Nodup := by
    unfold Linkage.Linkage
    rcases order_children_cases left right with h | h <;> rw [h]
    · exact set_links_lines_nodup _ _ hl hr
    · exact set_links_lines_nodup _ _ hr hl
  refine ⟨hperm, hsorted, hnodup, ?_, ?_, set_links_int_no_repeat _ _⟩
  · intro ls hp hs
    haveI : IsAntisymm Line (fun x y => Line.op_lt x y = true) :=
      ⟨fun a b h1 h2 => absurd ((Line.op_lt_iff a b).1 h1)
        (lt_asymm ((Line.op_lt_iff b a).1 h2))⟩
    exact List.eq_of_perm_of_sorted (hperm.trans hp.symm) hsorted hs
  · intro x
    unfold Linkage.Linkage
    rcases order_children_cases left right with h | h <;> rw [h]
    · exact (set_links_no_repeat _ _ hl hr hnl hnr).2 x
    · exact ((set_links_no_repeat _ _ hr hl hnr hnl).2 x).trans And.comm

theorem ex_no_repeat :
    no_repeat ex_g_abij.lines_ ∧ no_repeat ex_g_bckl.lines_ := by
  constructor <;>
    simp [no_repeat, ex_g_abij, ex_g_bckl, ex_a, ex_b, ex_c, ex_i, ex_j, ex_k, ex_l,
      Line.op_eq]

/-- C3 (amended), instance: `g(a,b,i,j) * g(b,c,k,l)`. -/
theorem Linkage_lines_symmetric_difference_witness :
    (0 < ex_g_abij.size ∧ 0 < ex_g_bckl.size ∧
      no_repeat ex_g_abij.lines_ ∧ no_repeat ex_g_bckl.lines_) ∧
    ((Linkage.Linkage ex_update_name (Node.vertex ex_g_abij) (Node.vertex ex_g_bckl)
        false).vert.lines_.Perm
      (ex_g_abij.lines_.filter (fun y => !y.occurs_in ex_g_bckl.lines_) ++
        ex_g_bckl.lines_.filter (fun y => !y.occurs_in ex_g_abij.lines_)) ∧
    (Linkage.Linkage ex_update_name (Node.vertex ex_g_abij) (Node.vertex ex_g_bckl)
        false).vert.lines_.Pairwise (fun x y => Line.op_lt x y = true) ∧
    (Linkage.Linkage ex_update_name (Node.vertex ex_g_abij) (Node.vertex ex_g_bckl)
        false).vert.lines_.Nodup ∧
    (∀ ls : List Line,
      ls.Perm (ex_g_abij.lines_.filter (fun y => !y.occurs_in ex_g_bckl.lines_) ++
        ex_g_bckl.lines_.filter (fun y => !y.occurs_in ex_g_abij.lines_)) →
      ls.Pairwise (fun x y => Line.op_lt x y = true) →
      (Linkage.Linkage ex_update_name (Node.vertex ex_g_abij) (Node.vertex ex_g_bckl)
        false).vert.lines_ = ls) ∧
    (∀ x, Linkage.int_lines_find
        (Linkage.Linkage ex_update_name (Node.vertex ex_g_abij) (Node.vertex ex_g_bckl)
          false).int_lines_ x = true ↔
      (x.occurs_in ex_g_abij.lines_ = true ∧ x.occurs_in ex_g_bckl.lines_ = true)) ∧
    no_repeat (Linkage.Linkage ex_update_name (Node.vertex ex_g_abij) (Node.vertex ex_g_bckl)
        false).int_lines_) :=
  ⟨⟨by decide, by decide, ex_no_repeat.1, ex_no_repeat.2⟩,
    Linkage_lines_symmetric_difference ex_update_name (Node.vertex ex_g_abij)
      (Node.vertex ex_g_bckl) false (by decide) (by decide) ex_no_repeat.1 ex_no_repeat.2⟩

/-- The external and internal lines of `g(a,b,i,j) * g(b,c,k,l)`: the virtual
    lines before the occupied ones, each group in the order of the labels. -/
theorem Linkage_external_lines_instance :
    (Linkage.Linkage ex_update_name (Node.vertex ex_g_abij) (Node.vertex ex_g_bckl)
        false).vert.lines_ = [ex_a, ex_c, ex_i, ex_j, ex_k, ex_l] ∧
    (Linkage.Linkage ex_update_name (Node.vertex ex_g_abij) (Node.vertex ex_g_bckl)
        false).int_lines_ = [ex_b] := by
  decide

/-- C4, instance: `t(a,i) * f(i,a)`. -/
theorem Linkage_vertex_invariant_witness :
    (ex_t_ai.Inv ∧ ex_f_ia.Inv) ∧
    ((Linkage.Linkage ex_update_name (Node.vertex ex_t_ai) (Node.vertex ex_f_ia)
        false).vert.rank_ =
      (Linkage.Linkage ex_update_name (Node.vertex ex_t_ai) (Node.vertex ex_f_ia)
        false).vert.lines_.length ∧
    (Linkage.Linkage ex_update_name (Node.vertex ex_t_ai) (Node.vertex ex_f_ia)
        false).mem_scale_ =
      shape.ofLines (Linkage.Linkage ex_update_name (Node.vertex ex_t_ai)
        (Node.vertex ex_f_ia) false).vert.lines_ ∧
    (Linkage.Linkage ex_update_name (Node.vertex ex_t_ai) (Node.vertex ex_f_ia)
        false).vert.shape_ =
      (Linkage.Linkage ex_update_name (Node.vertex ex_t_ai) (Node.vertex ex_f_ia)
        false).mem_scale_) :=
  ⟨by decide,
    Linkage_vertex_invariant ex_update_name (Node.vertex ex_t_ai) (Node.vertex ex_f_ia) false
      (by decide) (by decide)⟩

/-- C6, instance: the scalar `w` and `t(a,i)`, as `w * t` . -/
theorem Linkage_scalar_child_witness :
    (ex_w.size = 0 ∧ 0 < ex_t_ai.size) ∧
    ((Linkage.Linkage ex_update_name (Node.vertex ex_w) (Node.vertex ex_t_ai)
        false).int_lines_ = [] ∧
    (Linkage.Linkage ex_update_name (Node.vertex ex_w) (Node.vertex ex_t_ai)
        false).int_connec_ = [] ∧
    (Linkage.Linkage ex_update_name (Node.vertex ex_w) (Node.vertex ex_t_ai)
        false).vert.lines_ = ex_t_ai.lines_ ∧
    (Linkage.Linkage ex_update_name (Node.vertex ex_w) (Node.vertex ex_t_ai)
        false).mem_scale_ = ex_t_ai.shape_ ∧
    (Linkage.Linkage ex_update_name (Node.vertex ex_w) (Node.vertex ex_t_ai)
        false).flop_scale_ = ex_t_ai.shape_) :=
  ⟨by decide,
    Linkage_scalar_child ex_update_name (Node.vertex ex_w) (Node.vertex ex_t_ai) false
      (by decide) (by decide) _ (Or.inl rfl)⟩

/-- C7, instance: `(t(a,i) * f(i,a)) * u(i)` has three leaves. -/
theorem Linkage_nvert_witness :
    (Linkage.Linkage ex_update_name
        (Linkage.Linkage ex_update_name (Node.vertex ex_t_ai) (Node.vertex ex_f_ia) false)
        (Node.vertex ex_u_i) false).nvert_ =
      (Linkage.Linkage ex_update_name (Node.vertex ex_t_ai) (Node.vertex ex_f_ia) false).count
        + (Node.vertex ex_u_i).count ∧
    (Linkage.Linkage ex_update_name
        (Linkage.Linkage ex_update_name (Node.vertex ex_t_ai) (Node.vertex ex_f_ia) false)
        (Node.vertex ex_u_i) false).nvert_ =
      (Linkage.Linkage ex_update_name
        (Linkage.Linkage ex_update_name (Node.vertex ex_t_ai) (Node.vertex ex_f_ia) false)
        (Node.vertex ex_u_i) false).leaf_count :=
  Linkage_nvert ex_update_name _ _ false
    (Built.link _ _ false (Built.vertex _) (Built.vertex _)) (Built.vertex _)

/-! ## Canonical order of two plain vertices -/

theorem set_eq_refl {α : Type} [DecidableEq α] (s : List α) : set_eq s s = true := by
  simp [set_eq]

theorem Line_equivalent_refl (x : Line) : Line.equivalent x x = true := by
  simp [Line.equivalent]

theorem Vertex_equivalent_refl (v : Vertex) (h : v.rank_ = v.lines_.length) :
    Vertex.equivalent v v = true := by
  unfold Vertex.equivalent
  simp only [bne_self_eq_false, Bool.false_eq_true, if_false, beq_self_eq_true]
  rw [if_neg]
  simp only [Bool.not_eq_true', Bool.not_eq_false, List.all_eq_true]
  intro i hi
  have hi2 : i < v.lines_.length := by rw [← h]; exact List.mem_range.1 hi
  rw [List.getElem?_eq_getElem hi2]
  exact Line_equivalent_refl _

theorem Linkage.op_eq_linkage (v : Vertex) (d : LinkData) (l r : Node) (v2 : Vertex)
    (d2 : LinkData) (l2 r2 : Node) :
    Linkage.op_eq (Node.linkage v d l r) (Node.linkage v2 d2 l2 r2) =
      (if d.is_addition_ != d2.is_addition_ then false
      else if d.nvert_ != d2.nvert_ then false
      else if xor l.is_linked l2.is_linked then false
      else if xor r.is_linked r2.is_linked then false
      else if l.is_linked && !(Linkage.op_eq l l2) then false
      else if r.is_linked && !(Linkage.op_eq r r2) then false
      else if d.flop_scale_ != d2.flop_scale_ then false
      else if d.mem_scale_ != d2.mem_scale_ then false
      else if !(set_eq d.l_ext_idx_ d2.l_ext_idx_) then false
      else if !(set_eq d.r_ext_idx_ d2.r_ext_idx_) then false
      else if !(set_eq d.int_connec_ d2.int_connec_) then false
      else if !(Vertex.equivalent v v2) then false
      else if !(Vertex.equivalent l.vert l2.vert) then false
      else if !(Vertex.equivalent r.vert r2.vert) then false
      else true) := rfl

theorem Linkage_op_eq_refl (n : Node) (h : n.RankOK) (hl : n.is_linked = true) :
    Linkage.op_eq n n = true := by
  induction n with
  | vertex v => cases hl
  | linkage v d l r ihl ihr =>
    obtain ⟨hv, hL, hR⟩ := h
    have e1 : Vertex.equivalent v v = true := Vertex_equivalent_refl v hv
    have e2 : Vertex.equivalent l.vert l.vert = true := by
      cases l with
      | vertex a => exact Vertex_equivalent_refl a hL
      | linkage a _ _ _ => exact Vertex_equivalent_refl a hL.1
    have e3 : Vertex.equivalent r.vert r.vert = true := by
      cases r with
      | vertex a => exact Vertex_equivalent_refl a hR
      | linkage a _ _ _ => exact Vertex_equivalent_refl a hR.1
    have e4 : (l.is_linked && !(Linkage.op_eq l l)) = false := by
      cases hq : l.is_linked with
      | false => rfl
      | true => rw [ihl hL hq]; rfl
    have e5 : (r.is_linked && !(Linkage.op_eq r r)) = false := by
      cases hq : r.is_linked with
      | false => rfl
      | true => rw [ihr hR hq]; rfl
    rw [Linkage.op_eq_linkage]
    simp only [bne_self_eq_false, Bool.xor_self, e1, e2, e3, e4, e5, set_eq_refl,
      Bool.not_true, Bool.false_eq_true, if_false]

theorem assemble_RankOK (update_name : Node → Node → Vertex → String) (l r : Node)
    (is_addition : Bool) (hl : l.RankOK) (hr : r.RankOK) :
    (Linkage.assemble update_name l r is_addition).RankOK :=
  ⟨rfl, hl, hr⟩

theorem Linkage_RankOK (update_name : Node → Node → Vertex → String) (l r : Node)
    (is_addition : Bool) (hl : l.RankOK) (hr : r.RankOK) :
    (Linkage.Linkage update_name l r is_addition).RankOK := by
  unfold Linkage.Linkage
  rcases order_children_cases l r with h | h <;> rw [h]
  · exact assemble_RankOK _ _ _ _ hl hr
  · exact assemble_RankOK _ _ _ _ hr hl

theorem str_lt_total (a b : String) (h : a ≠ b) : str_lt a b = true ∨ str_lt b a = true := by
  rw [str_lt_iff, str_lt_iff]
  exact lt_or_gt_of_ne h

theorem str_lt_asymm (a b : String) (h : str_lt a b = true) : str_lt b a = false := by
  rw [str_lt_iff] at h
  have : ¬ b < a := not_lt.2 (le_of_lt h)
  rw [← str_lt_iff] at this
  simpa using this

theorem order_children_leaf_comm (A B : Vertex) (hne : A.name_ ≠ B.name_) :
    Linkage.order_children (Node.vertex A) (Node.vertex B) =
      Linkage.order_children (Node.vertex B) (Node.vertex A) := by
  unfold Linkage.order_children
  simp only [Node.is_linked, Node.name, Node.vert, Bool.not_false, Bool.and_self, if_true]
  rcases str_lt_total _ _ hne with h | h
  · simp [h, str_lt_asymm _ _ h]
  · simp [h, str_lt_asymm _ _ h]

/-- C2 (amended): for two plain vertices with different names that satisfy
    `rank = |lines|`, the linkages `A * B` and `B * A` are the same linkage
    (same children in the same order, same scales and index maps) and compare
    equal under `Linkage::operator==`. -/
theorem Linkage_leaf_commute (update_name : Node → Node → Vertex → String) (A B : Vertex)
    (hA : A.rank_ = A.lines_.length) (hB : B.rank_ = B.lines_.length)
    (hne : A.name_ ≠ B.name_) :
    Linkage.op_mul update_name (Node.vertex A) (Node.vertex B) =
      Linkage.op_mul update_name (Node.vertex B) (Node.vertex A) ∧
    Linkage.op_eq (Linkage.op_mul update_name (Node.vertex A) (Node.vertex B))
      (Linkage.op_mul update_name (Node.vertex B) (Node.vertex A)) = true := by
  have e : Linkage.op_mul update_name (Node.vertex A) (Node.vertex B) =
      Linkage.op_mul update_name (Node.vertex B) (Node.vertex A) := by
    unfold Linkage.op_mul Linkage.Linkage
    rw [order_children_leaf_comm A B hne]
  refine ⟨e, ?_⟩
  rw [← e]
  exact Linkage_op_eq_refl _ (Linkage_RankOK _ _ _ _ hA hB) rfl

/-- C2 (as stated, refuted): `g(a,b,i,j)` and `g(b,c,k,l)` have the same name;
    `A * B` stores `(B, A)` and `B * A` stores `(A, B)`, the index maps differ
    and `Linkage::operator==` returns false, whatever `update_name()` does. -/
theorem Linkage_same_name_not_commute :
    ex_g_abij.name_ = ex_g_bckl.name_ ∧ ex_g_abij.Inv ∧ ex_g_bckl.Inv ∧
    ∀ update_name : Node → Node → Vertex → String,
      (Linkage.op_mul update_name (Node.vertex ex_g_abij) (Node.vertex ex_g_bckl)).l_ext_idx_
        = [1, 2, 3] ∧
      (Linkage.op_mul update_name (Node.vertex ex_g_bckl) (Node.vertex ex_g_abij)).l_ext_idx_
        = [0, 2, 3] ∧
      Linkage.op_eq
        (Linkage.op_mul update_name (Node.vertex ex_g_abij) (Node.vertex ex_g_bckl))
        (Linkage.op_mul update_name (Node.vertex ex_g_bckl) (Node.vertex ex_g_abij))
        = false := by
  refine ⟨by decide, by decide, by decide, fun update_name => ⟨?_, ?_, ?_⟩⟩
  · rfl
  · rfl
  · rfl

/-- C2 (amended), instance: `t(a,i) * f(i,a)` and `f(i,a) * t(a,i)`. -/
theorem Linkage_leaf_commute_witness :
    (ex_t_ai.rank_ = ex_t_ai.lines_.length ∧ ex_f_ia.rank_ = ex_f_ia.lines_.length ∧
      ex_t_ai.name_ ≠ ex_f_ia.name_) ∧
    (Linkage.op_mul ex_update_name (Node.vertex ex_t_ai) (Node.vertex ex_f_ia) =
      Linkage.op_mul ex_update_name (Node.vertex ex_f_ia) (Node.vertex ex_t_ai) ∧
    Linkage.op_eq (Linkage.op_mul ex_update_name (Node.vertex ex_t_ai) (Node.vertex ex_f_ia))
      (Linkage.op_mul ex_update_name (Node.vertex ex_f_ia) (Node.vertex ex_t_ai)) = true) :=
  ⟨by decide,
    Linkage_leaf_commute ex_update_name ex_t_ai ex_f_ia (by decide) (by decide) (by decide)⟩

/-! ## Flattening on empty caches -/

theorem Linkage.to_vector_linkage (dr df : Bool) (v : Vertex) (d : LinkData) (l r : Node)
    (c : Cache) (regenerate full_expand : Bool) :
    Linkage.to_vector dr df (Node.linkage v d l r) c regenerate full_expand =
      (if c.all_vert_.isEmpty || regenerate then
        (if l.is_linked then
            if !full_expand && l.is_temp then some ([l], c.left)
            else Linkage.to_vector dr df l c.left dr df
          else some ([l], c.left)).bind fun lv =>
          (if r.is_linked then
              if !full_expand && r.is_temp then some ([r], c.right)
              else Linkage.to_vector dr df r c.right dr df
            else some ([r], c.right)).bind fun rv =>
            if lv.1.length + rv.1.length ≤ d.nvert_ then
              some (lv.1 ++ rv.1, Cache.node (lv.1 ++ rv.1) lv.2 rv.2)
            else none
      else some (c.all_vert_, c)) := rfl

theorem Node.leaves_length (n : Node) : n.leaves.length = n.leaf_count := by
  induction n with
  | vertex v => rfl
  | linkage v d l r ihl ihr => simp [Node.leaves, Node.leaf_count, ihl, ihr]

theorem Node.leaf_count_pos (n : Node) : 0 < n.leaf_count := by
  induction n with
  | vertex v => simp [Node.leaf_count]
  | linkage v d l r ihl ihr => simp only [Node.leaf_count]; omega

theorem Node.flat_named_length (n : Node) : n.flat_named.length ≤ n.leaf_count := by
  induction n with
  | vertex v => simp [Node.flat_named, Node.leaf_count]
  | linkage v d l r ihl ihr =>
    have hl := Node.leaf_count_pos l
    have hr := Node.leaf_count_pos r
    simp only [Node.flat_named, Node.leaf_count, List.length_append]
    split_ifs <;> (try simp only [List.length_singleton]) <;> omega

theorem Node.default_flat_length (df : Bool) (n : Node) :
    (n.default_flat df).length ≤ n.leaf_count := by
  unfold Node.default_flat
  split_ifs
  · exact le_of_eq (Node.leaves_length n)
  · exact Node.flat_named_length n

theorem Linkage.part_length (df full : Bool) (c : Node) :
    (Linkage.part df full c).length ≤ c.leaf_count := by
  have hp := Node.leaf_count_pos c
  unfold Linkage.part
  split_ifs
  · simpa using hp
  · exact Node.default_flat_length df c
  · simpa using hp

theorem Node.flat_named_eq_leaves (n : Node) (h : n.has_temp_below = false) :
    n.flat_named = n.leaves := by
  induction n with
  | vertex v => rfl
  | linkage v d l r ihl ihr =>
    simp only [Node.has_temp_below, Bool.or_eq_false_iff] at h
    obtain ⟨⟨⟨h1, h2⟩, h3⟩, h4⟩ := h
    simp only [Node.flat_named, Node.leaves, h1, h3, Bool.false_eq_true, if_false,
      ihl h2, ihr h4]

theorem Node.default_flat_linkage (df : Bool) (v : Vertex) (d : LinkData) (l r : Node) :
    (Node.linkage v d l r).default_flat df = Linkage.part df df l ++ Linkage.part df df r := by
  have hv : ∀ c : Node, c.is_linked = false → c.is_temp = false ∧ c.leaves = [c] ∧
      c.flat_named = [c] := by
    intro c hc
    cases c with
    | vertex a => exact ⟨rfl, rfl, rfl⟩
    | linkage _ _ _ _ => cases hc
  cases df with
  | true =>
    have hp : ∀ c : Node, Linkage.part true true c = c.leaves := by
      intro c
      unfold Linkage.part Node.default_flat
      cases hc : c.is_linked with
      | true => simp
      | false => simp [(hv c hc).2.1]
    simp [Node.default_flat, Node.leaves, hp]
  | false =>
    have hp : ∀ c : Node,
        Linkage.part false false c = if c.is_temp then [c] else c.flat_named := by
      intro c
      unfold Linkage.part Node.default_flat
      cases hc : c.is_linked with
      | true => simp
      | false => simp [(hv c hc).1, (hv c hc).2.2]
    simp [Node.default_flat, Node.flat_named, hp]

/-- On empty caches a call of `to_vector` with `full_expand` equal to the
    default computes the default flattening. -/
theorem to_vector_default (dr df : Bool) (n : Node) (hc : n.CountOK)
    (hl : n.is_linked = true) (regenerate : Bool) :
    ∃ c, Linkage.to_vector dr df n Cache.leaf regenerate df = some (n.default_flat df, c) := by
  induction n generalizing regenerate with
  | vertex v => cases hl
  | linkage v d l r ihl ihr =>
    obtain ⟨hn, hcl, hcr⟩ := hc
    have hchild : ∀ c : Node, c.CountOK →
        (c.is_linked = true → ∀ rg, ∃ cc,
          Linkage.to_vector dr df c Cache.leaf rg df = some (c.default_flat df, cc)) →
        ∃ cc, (if c.is_linked then
            if !df && c.is_temp then some ([c], Cache.leaf)
            else Linkage.to_vector dr df c Cache.leaf dr df
          else some ([c], Cache.leaf)) = some (Linkage.part df df c, cc) := by
      intro c hcc ih
      unfold Linkage.part
      cases hq : c.is_linked with
      | false => exact ⟨Cache.leaf, by simp⟩
      | true =>
        by_cases ht : (!df && c.is_temp) = true
        · exact ⟨Cache.leaf, by simp [ht]⟩
        · obtain ⟨cc, hcc2⟩ := ih hq dr
          exact ⟨cc, by simp [ht, hcc2]⟩
    obtain ⟨cl, hL⟩ := hchild l hcl (fun h rg => ihl hcl h rg)
    obtain ⟨cr, hR⟩ := hchild r hcr (fun h rg => ihr hcr h rg)
    have hlen : (Linkage.part df df l).length + (Linkage.part df df r).length ≤ d.nvert_ := by
      have h1 := Linkage.part_length df df l
      have h2 := Linkage.part_length df df r
      omega
    refine ⟨Cache.node (Linkage.part df df l ++ Linkage.part df df r) cl cr, ?_⟩
    rw [Linkage.to_vector_linkage]
    simp only [Cache.all_vert_, Cache.left, Cache.right, List.isEmpty_nil, Bool.true_or,
      if_true]
    rw [hL, Option.some_bind, hR, Option.some_bind]
    simp only [hlen, if_true]
    rw [Node.default_flat_linkage]

/-- What `to_vector` computes on empty caches for either value of
    `full_expand`. -/
theorem to_vector_fresh (dr df : Bool) (n : Node) (hc : n.CountOK)
    (hl : n.is_linked = true) (regenerate full_expand : Bool) :
    ∃ c, Linkage.to_vector dr df n Cache.leaf regenerate full_expand =
      some (Linkage.part df full_expand n.left_ ++ Linkage.part df full_expand n.right_, c) := by
  cases n with
  | vertex v => cases hl
  | linkage v d l r =>
    obtain ⟨hn, hcl, hcr⟩ := hc
    have hchild : ∀ c : Node, c.CountOK →
        ∃ cc, (if c.is_linked then
            if !full_expand && c.is_temp then some ([c], Cache.leaf)
            else Linkage.to_vector dr df c Cache.leaf dr df
          else some ([c], Cache.leaf)) = some (Linkage.part df full_expand c, cc) := by
      intro c hcc
      unfold Linkage.part
      cases hq : c.is_linked with
      | false => exact ⟨Cache.leaf, by simp⟩
      | true =>
        by_cases ht : (!full_expand && c.is_temp) = true
        · exact ⟨Cache.leaf, by simp [ht]⟩
        · obtain ⟨cc, hcc2⟩ := to_vector_default dr df c hcc hq dr
          exact ⟨cc, by simp [ht, hcc2]⟩
    obtain ⟨cl, hL⟩ := hchild l hcl
    obtain ⟨cr, hR⟩ := hchild r hcr
    have hlen : (Linkage.part df full_expand l).length +
        (Linkage.part df full_expand r).length ≤ d.nvert_ := by
      have h1 := Linkage.part_length df full_expand l
      have h2 := Linkage.part_length df full_expand r
      omega
    refine ⟨Cache.node (Linkage.part df full_expand l ++ Linkage.part df full_expand r)
      cl cr, ?_⟩
    rw [Linkage.to_vector_linkage]
    simp only [Cache.all_vert_, Cache.left, Cache.right, List.isEmpty_nil, Bool.true_or,
      if_true]
    rw [hL, Option.some_bind, hR, Option.some_bind]
    simp only [hlen, if_true]
    rfl

/-! ## Flattening: the stored vector -/

theorem Node.set_id_CountOK (n : Node) (k : Int) (h : n.CountOK) : (n.set_id k).CountOK := by
  cases n with
  | vertex v => exact h
  | linkage v d l r => exact h

theorem assemble_CountOK (update_name : Node → Node → Vertex → String) (l r : Node)
    (is_addition : Bool) (hl : l.CountOK) (hr : r.CountOK)
    (el : l.count = l.leaf_count) (er : r.count = r.leaf_count) :
    (Linkage.assemble update_name l r is_addition).CountOK := by
  refine ⟨?_, hl, hr⟩
  have := assemble_nvert update_name l r is_addition
  rw [el, er] at this
  exact this

theorem Built_CountOK (update_name : Node → Node → Vertex → String) (n : Node)
    (h : Built update_name n) : n.CountOK := by
  induction h with
  | vertex v => trivial
  | link l r add hl hr ihl ihr =>
    have el := Built_count_eq _ _ hl
    have er := Built_count_eq _ _ hr
    unfold Linkage.Linkage
    rcases order_children_cases l r with h | h <;> rw [h]
    · exact assemble_CountOK _ _ _ _ ihl ihr el er
    · exact assemble_CountOK _ _ _ _ ihr ihl er el
  | set_id n k _ ih => exact Node.set_id_CountOK n k ih

theorem Linkage.part_full (df : Bool) (c : Node)
    (h : df = true ∨ c.has_temp_below = false) : Linkage.part df true c = c.leaves := by
  unfold Linkage.part Node.default_flat
  cases c with
  | vertex v => rfl
  | linkage v d l r =>
    simp only [Node.is_linked, if_true, Bool.not_true, Bool.false_and, Bool.false_eq_true,
      if_false]
    rcases h with h | h
    · simp [h]
    · rw [Node.flat_named_eq_leaves _ h]; simp

theorem Linkage.part_named (df : Bool) (c : Node)
    (h : df = false ∨ (c.is_temp = false → c.has_temp_below = false)) :
    Linkage.part df false c = if c.is_temp then [c] else c.flat_named := by
  unfold Linkage.part Node.default_flat
  cases c with
  | vertex v => rfl
  | linkage v d l r =>
    simp only [Node.is_linked, if_true, Bool.not_false, Bool.true_and]
    by_cases ht : (Node.linkage v d l r).is_temp = true
    · simp [ht]
    · simp only [ht, Bool.false_eq_true, if_false]
      rcases h with h | h
      · simp [h]
      · rw [Node.flat_named_eq_leaves _ (h (by simpa using ht))]; simp

/-- A call of `to_vector` on a linkage returns a non-empty vector, and that
    vector is what the cache of the linkage holds afterwards. -/
theorem to_vector_stores (dr df : Bool) (n : Node) (hl : n.is_linked = true)
    (c0 : Cache) (r1 f1 : Bool) (vec : List Node) (c1 : Cache)
    (h : Linkage.to_vector dr df n c0 r1 f1 = some (vec, c1)) :
    vec ≠ [] ∧ c1.all_vert_ = vec := by
  induction n generalizing c0 r1 f1 vec c1 with
  | vertex v => cases hl
  | linkage v d l r ihl ihr =>
    rw [Linkage.to_vector_linkage] at h
    by_cases hc : (c0.all_vert_.isEmpty || r1) = true
    · rw [if_pos hc] at h
      obtain ⟨lv, hlv, h2⟩ := Option.bind_eq_some.1 h
      obtain ⟨rv, hrv, h3⟩ := Option.bind_eq_some.1 h2
      have hlne : lv.1 ≠ [] := by
        by_cases hq : l.is_linked = true
        · rw [if_pos hq] at hlv
          by_cases ht : (!f1 && l.is_temp) = true
          · rw [if_pos ht] at hlv
            have := Option.some.inj hlv
            rw [← this]; simp
          · rw [if_neg ht] at hlv
            exact (ihl hq _ _ _ _ _ hlv).1
        · rw [if_neg hq] at hlv
          have := Option.some.inj hlv
          rw [← this]; simp
      by_cases hlen : lv.1.length + rv.1.length ≤ d.nvert_
      · rw [if_pos hlen] at h3
        have := Option.some.inj h3
        have e1 : vec = lv.1 ++ rv.1 := (congrArg Prod.fst this).symm
        have e2 : c1 = Cache.node (lv.1 ++ rv.1) lv.2 rv.2 := (congrArg Prod.snd this).symm
        subst e1; subst e2
        exact ⟨by simp [hlne], rfl⟩
      · rw [if_neg hlen] at h3; cases h3
    · rw [if_neg hc] at h
      have := Option.some.inj h
      have e1 : vec = c0.all_vert_ := (congrArg Prod.fst this).symm
      have e2 : c1 = c0 := (congrArg Prod.snd this).symm
      subst e1; subst e2
      refine ⟨?_, rfl⟩
      intro he
      apply hc
      simp [he]

/-- A call without `regenerate` on caches left by an earlier call returns the
    stored vector. -/
theorem to_vector_cached (dr df : Bool) (n : Node) (hl : n.is_linked = true)
    (c0 : Cache) (r1 f1 : Bool) (vec : List Node) (c1 : Cache)
    (h : Linkage.to_vector dr df n c0 r1 f1 = some (vec, c1)) (f2 : Bool) :
    Linkage.to_vector dr df n c1 false f2 = some (vec, c1) := by
  obtain ⟨hne, hst⟩ := to_vector_stores dr df n hl c0 r1 f1 vec c1 h
  cases n with
  | vertex v => cases hl
  | linkage v d l r =>
    rw [Linkage.to_vector_linkage, hst]
    have : (vec.isEmpty || false) = false := by
      cases vec with
      | nil => exact absurd rfl hne
      | cons a t => rfl
    rw [this]; rfl

/-- The full flattening on empty caches. -/
theorem to_vector_full_leaves (dr df : Bool) (L : Node) (hc : L.CountOK)
    (hL : L.is_linked = true) (regenerate : Bool)
    (h : df = true ∨ (L.left_.has_temp_below = false ∧ L.right_.has_temp_below = false)) :
    ∃ c, Linkage.to_vector dr df L Cache.leaf regenerate true = some (L.leaves, c) := by
  obtain ⟨c, hcv⟩ := to_vector_fresh dr df L hc hL regenerate true
  refine ⟨c, ?_⟩
  rw [hcv, Linkage.part_full df _ (h.imp id And.left),
    Linkage.part_full df _ (h.imp id And.right)]
  cases L with
  | vertex v => cases hL
  | linkage v d l r => rfl

/-- C8 (amended): for a constructed linkage `L` with empty caches and any
    `regenerate`, (1) `to_vector` with `full_expand = true` returns the
    left-to-right sequence of all leaves of `L`, of length `nvert_`, when the
    recursive calls default to full expansion or no named intermediate lies
    below a child of `L`; (2) `to_vector` with `full_expand = false` returns
    that sequence with every named intermediate as one element when the
    recursive calls default to no expansion or no named intermediate lies
    below a child of `L` that is not itself named; (3) the returned vector is
    stored, and a later call without `regenerate` returns the stored vector
    whatever `full_expand` it passes. -/
theorem to_vector_spec (update_name : Node → Node → Vertex → String) (dr df : Bool)
    (L : Node) (hB : Built update_name L) (hL : L.is_linked = true) :
    (∀ regenerate : Bool,
      (df = true ∨ (L.left_.has_temp_below = false ∧ L.right_.has_temp_below = false)) →
      ∃ c, Linkage.to_vector dr df L Cache.leaf regenerate true = some (L.leaves, c)) ∧
    L.leaves.length = L.nvert_ ∧
    (∀ regenerate : Bool,
      (df = false ∨ ((L.left_.is_temp = false → L.left_.has_temp_below = false) ∧
        (L.right_.is_temp = false → L.right_.has_temp_below = false))) →
      ∃ c, Linkage.to_vector dr df L Cache.leaf regenerate false =
        some (L.flat_named, c)) ∧
    (∀ (c0 : Cache) (r1 f1 : Bool) (vec : List Node) (c1 : Cache),
      Linkage.to_vector dr df L c0 r1 f1 = some (vec, c1) →
      ∀ f2 : Bool, Linkage.to_vector dr df L c1 false f2 = some (vec, c1)) := by
  have hc := Built_CountOK update_name L hB
  refine ⟨?_, ?_, ?_, ?_⟩
  · intro regenerate h
    exact to_vector_full_leaves dr df L hc hL regenerate h
  · rw [Node.leaves_length]
    cases L with
    | vertex v => cases hL
    | linkage v d l r => exact hc.1.symm
  · intro regenerate h
    obtain ⟨c, hcv⟩ := to_vector_fresh dr df L hc hL regenerate false
    refine ⟨c, ?_⟩
    rw [hcv, Linkage.part_named df _ (h.imp id And.left),
      Linkage.part_named df _ (h.imp id And.right)]
    cases L with
    | vertex v => cases hL
    | linkage v d l r => rfl
  · intro c0 r1 f1 vec c1 h f2
    exact to_vector_cached dr df L hL c0 r1 f1 vec c1 h f2

theorem ex_with_tmp_built : Built ex_update_name ex_with_tmp :=
  Built.link _ _ false
    (Built.set_id _ 1 (Built.link _ _ false (Built.vertex _) (Built.vertex _)))
    (Built.vertex _)

/-- C8 (as stated, refuted): on `tmp1 * u(i)` with empty caches, a call with
    `full_expand = true` followed by a call with `full_expand = false` makes
    the second call return the three leaves, while the same call on empty
    caches returns `tmp1` as one element; this holds for every choice of the
    default arguments. -/
theorem to_vector_depends_on_earlier_call :
    ex_tmp.is_temp = true ∧
    ∀ dr df : Bool,
      ((Linkage.to_vector dr df ex_with_tmp Cache.leaf false true).bind fun p =>
          Linkage.to_vector dr df ex_with_tmp p.2 false false).map Prod.fst =
        some [Node.vertex ex_f_ia, Node.vertex ex_t_ai, Node.vertex ex_u_i] ∧
      (Linkage.to_vector dr df ex_with_tmp Cache.leaf false false).map Prod.fst =
        some [ex_tmp, Node.vertex ex_u_i] := by
  refine ⟨by decide, ?_⟩
  intro dr df
  cases dr <;> cases df <;> exact ⟨rfl, rfl⟩

/-- C8 (amended), instance: `tmp1 * u(i)` with the defaults
    `regenerate = false`, `full_expand = true`. -/
theorem to_vector_spec_witness :
    ex_with_tmp.is_linked = true ∧
    ((∀ regenerate : Bool,
      (true = true ∨
        (ex_with_tmp.left_.has_temp_below = false ∧
          ex_with_tmp.right_.has_temp_below = false)) →
      ∃ c, Linkage.to_vector false true ex_with_tmp Cache.leaf regenerate true =
        some (ex_with_tmp.leaves, c)) ∧
    ex_with_tmp.leaves.length = ex_with_tmp.nvert_ ∧
    (∀ regenerate : Bool,
      (true = false ∨
        ((ex_with_tmp.left_.is_temp = false → ex_with_tmp.left_.has_temp_below = false) ∧
        (ex_with_tmp.right_.is_temp = false →
          ex_with_tmp.right_.has_temp_below = false))) →
      ∃ c, Linkage.to_vector false true ex_with_tmp Cache.leaf regenerate false =
        some (ex_with_tmp.flat_named, c)) ∧
    (∀ (c0 : Cache) (r1 f1 : Bool) (vec : List Node) (c1 : Cache),
      Linkage.to_vector false true ex_with_tmp c0 r1 f1 = some (vec, c1) →
      ∀ f2 : Bool, Linkage.to_vector false true ex_with_tmp c1 false f2 = some (vec, c1))) :=
  ⟨rfl, to_vector_spec ex_update_name false true ex_with_tmp ex_with_tmp_built rfl⟩

/-! ## Rebuilding a chain from its flattening -/

theorem assemble_temp_free (update_name : Node → Node → Vertex → String) (l r : Node)
    (is_addition : Bool)
    (hl : l.is_temp = false ∧ l.has_temp_below = false)
    (hr : r.is_temp = false ∧ r.has_temp_below = false) :
    (Linkage.assemble update_name l r is_addition).is_temp = false ∧
    (Linkage.assemble update_name l r is_addition).has_temp_below = false := by
  refine ⟨rfl, ?_⟩
  show (l.is_temp || l.has_temp_below || r.is_temp || r.has_temp_below) = false
  rw [hl.1, hl.2, hr.1, hr.2]; rfl

theorem Linkage_temp_free (update_name : Node → Node → Vertex → String) (l r : Node)
    (is_addition : Bool)
    (hl : l.is_temp = false ∧ l.has_temp_below = false)
    (hr : r.is_temp = false ∧ r.has_temp_below = false) :
    (Linkage.Linkage update_name l r is_addition).is_temp = false ∧
    (Linkage.Linkage update_name l r is_addition).has_temp_below = false := by
  unfold Linkage.Linkage
  rcases order_children_cases l r with h | h <;> rw [h]
  · exact assemble_temp_free _ _ _ _ hl hr
  · exact assemble_temp_free _ _ _ _ hr hl

theorem op_mul_linked_left (update_name : Node → Node → Vertex → String) (acc c : Node)
    (h : acc.is_linked = true) :
    Linkage.op_mul update_name acc c = Linkage.assemble update_name acc c false := by
  unfold Linkage.op_mul Linkage.Linkage Linkage.order_children
  simp [h]

/-- What the fold of `operator*` over plain vertices keeps invariant. -/
theorem chain_fold (update_name : Node → Node → Vertex → String) (cs : List Vertex)
    (hcs : ∀ c ∈ cs, c.rank_ = c.lines_.length) (acc : Node)
    (h1 : acc.is_linked = true) (h2 : Built update_name acc) (h3 : acc.RankOK)
    (h4 : acc.is_temp = false ∧ acc.has_temp_below = false) :
    ((cs.map Node.vertex).foldl (Linkage.op_mul update_name) acc).is_linked = true ∧
    Built update_name ((cs.map Node.vertex).foldl (Linkage.op_mul update_name) acc) ∧
    ((cs.map Node.vertex).foldl (Linkage.op_mul update_name) acc).RankOK ∧
    (((cs.map Node.vertex).foldl (Linkage.op_mul update_name) acc).is_temp = false ∧
      ((cs.map Node.vertex).foldl (Linkage.op_mul update_name) acc).has_temp_below = false) ∧
    ((cs.map Node.vertex).foldl (Linkage.op_mul update_name) acc).leaves =
      acc.leaves ++ cs.map Node.vertex := by
  induction cs generalizing acc with
  | nil => exact ⟨h1, h2, h3, h4, by simp⟩
  | cons c rest ih =>
    have hc : c.rank_ = c.lines_.length := hcs c (List.mem_cons_self _ _)
    have hrest : ∀ x ∈ rest, x.rank_ = x.lines_.length :=
      fun x hx => hcs x (List.mem_cons_of_mem _ hx)
    have e := op_mul_linked_left update_name acc (Node.vertex c) h1
    have hb : Built update_name (Linkage.op_mul update_name acc (Node.vertex c)) :=
      Built.link _ _ false h2 (Built.vertex c)
    have hr : (Linkage.op_mul update_name acc (Node.vertex c)).RankOK :=
      Linkage_RankOK _ _ _ _ h3 hc
    have ht := Linkage_temp_free update_name acc (Node.vertex c) false h4 ⟨rfl, rfl⟩
    obtain ⟨i1, i2, i3, i4, i5⟩ :=
      ih hrest (Linkage.op_mul update_name acc (Node.vertex c)) rfl hb hr ht
    rw [List.map_cons, List.foldl_cons]
    refine ⟨i1, i2, i3, i4, ?_⟩
    rw [i5, e]
    show (acc.leaves ++ [Node.vertex c]) ++ _ = _
    simp

theorem link_two_or_more (update_name : Node → Node → Vertex → String) (a b : Node)
    (tail : List Node) (h : tail.length + 2 < 256) :
    Linkage.link update_name (a :: b :: tail) =
      some (tail.foldl (Linkage.op_mul update_name) (Linkage.op_mul update_name a b)) := by
  unfold Linkage.link
  have hm : (a :: b :: tail).length % 256 = tail.length + 2 := by
    simp only [List.length_cons]
    exact Nat.mod_eq_of_lt h
  simp only [hm]
  rw [if_neg (by omega), if_neg (by omega)]
  have : tail.length + 2 - 2 = tail.length := by omega
  rw [this, List.take_length]

theorem leaves_op_mul_leaf (update_name : Node → Node → Vertex → String) (A B : Vertex) :
    (Linkage.op_mul update_name (Node.vertex A) (Node.vertex B)).leaves =
      [(Linkage.order_children (Node.vertex A) (Node.vertex B)).1,
        (Linkage.order_children (Node.vertex A) (Node.vertex B)).2] := by
  unfold Linkage.op_mul Linkage.Linkage
  rcases order_children_cases (Node.vertex A) (Node.vertex B) with h | h <;> rw [h] <;> rfl

theorem op_mul_ordered (update_name : Node → Node → Vertex → String) (A B : Vertex)
    (hne : A.name_ ≠ B.name_) :
    Linkage.op_mul update_name (Linkage.order_children (Node.vertex A) (Node.vertex B)).1
        (Linkage.order_children (Node.vertex A) (Node.vertex B)).2 =
      Linkage.op_mul update_name (Node.vertex A) (Node.vertex B) := by
  rcases order_children_cases (Node.vertex A) (Node.vertex B) with h | h <;> rw [h]
  unfold Linkage.op_mul Linkage.Linkage
  rw [order_children_leaf_comm B A (Ne.symm hne)]

/-- C9 (amended): for a left-deep chain `((A * B) * C₁) * ...` of at most 255
    plain vertices that satisfy `rank = |lines|`, with `A` and `B` of
    different names, `to_vector` with `full_expand = true` on empty caches
    returns the leaves of the chain, `Linkage::link` rebuilds the very same
    linkage from them, and the rebuilt linkage compares equal to the chain
    under `Linkage::operator==`. -/
theorem link_to_vector_chain (update_name : Node → Node → Vertex → String) (dr df : Bool)
    (A B : Vertex) (cs : List Vertex) (regenerate : Bool)
    (hA : A.rank_ = A.lines_.length) (hB : B.rank_ = B.lines_.length)
    (hcs : ∀ c ∈ cs, c.rank_ = c.lines_.length) (hne : A.name_ ≠ B.name_)
    (hlen : cs.length + 2 < 256) :
    (∃ c, Linkage.to_vector dr df
        (Linkage.chain update_name (Node.vertex A) (Node.vertex B) (cs.map Node.vertex))
        Cache.leaf regenerate true =
      some ((Linkage.chain update_name (Node.vertex A) (Node.vertex B)
        (cs.map Node.vertex)).leaves, c)) ∧
    Linkage.link update_name
        (Linkage.chain update_name (Node.vertex A) (Node.vertex B)
          (cs.map Node.vertex)).leaves =
      some (Linkage.chain update_name (Node.vertex A) (Node.vertex B) (cs.map Node.vertex)) ∧
    Linkage.op_eq
        (Linkage.chain update_name (Node.vertex A) (Node.vertex B) (cs.map Node.vertex))
        (Linkage.chain update_name (Node.vertex A) (Node.vertex B) (cs.map Node.vertex))
      = true := by
  have hb0 : Built update_name (Linkage.op_mul update_name (Node.vertex A) (Node.vertex B)) :=
    Built.link _ _ false (Built.vertex A) (Built.vertex B)
  have hr0 : (Linkage.op_mul update_name (Node.vertex A) (Node.vertex B)).RankOK :=
    Linkage_RankOK _ _ _ _ hA hB
  have ht0 := Linkage_temp_free update_name (Node.vertex A) (Node.vertex B) false
    ⟨rfl, rfl⟩ ⟨rfl, rfl⟩
  obtain ⟨i1, i2, i3, i4, i5⟩ := chain_fold update_name cs hcs
    (Linkage.op_mul update_name (Node.vertex A) (Node.vertex B)) rfl hb0 hr0 ht0
  have hbelow : ∀ n : Node, n.is_linked = true → n.has_temp_below = false →
      n.left_.has_temp_below = false ∧ n.right_.has_temp_below = false := by
    intro n hn h
    cases n with
    | vertex v => cases hn
    | linkage v d l r =>
      simp only [Node.has_temp_below, Bool.or_eq_false_iff] at h
      exact ⟨h.1.1.2, h.2⟩
  refine ⟨?_, ?_, ?_⟩
  · exact to_vector_full_leaves dr df _ (Built_CountOK update_name _ i2) i1 regenerate
      (Or.inr (hbelow _ i1 i4.2))
  · unfold Linkage.chain
    rw [i5, leaves_op_mul_leaf, List.cons_append, List.cons_append, List.nil_append,
      link_two_or_more update_name _ _ _ (by simpa using hlen), op_mul_ordered _ _ _ hne]
  · exact Linkage_op_eq_refl _ i3 i1

/-- C9 (as stated, refuted): the balanced linkage
    `(t(a,i) * f(i,a)) * (u(i) * g(a,b,i,j))` has no named intermediate; its
    full flattening is its four leaves, `Linkage::link` rebuilds a left-deep
    chain from them, and `Linkage::operator==` of the rebuilt linkage with the
    original returns false. -/
theorem link_to_vector_balanced_differs :
    (ex_balanced.is_temp = false ∧ ex_balanced.has_temp_below = false) ∧
    (∀ dr df : Bool,
      (Linkage.to_vector dr df ex_balanced Cache.leaf false true).map Prod.fst =
        some ex_balanced.leaves) ∧
    ex_balanced.leaves =
      [Node.vertex ex_f_ia, Node.vertex ex_t_ai, Node.vertex ex_g_abij, Node.vertex ex_u_i] ∧
    (Linkage.link ex_update_name ex_balanced.leaves).map
        (fun L2 => Linkage.op_eq L2 ex_balanced) = some false ∧
    (Linkage.link ex_update_name ex_balanced.leaves).map
        (fun L2 => L2.right_.is_linked) = some false ∧
    ex_balanced.right_.is_linked = true := by
  refine ⟨by decide, ?_, rfl, rfl, rfl, rfl⟩
  intro dr df
  cases dr <;> cases df <;> rfl

/-- C9 (amended), instance: the chain `(t(a,i) * f(i,a)) * u(i)`. -/
theorem link_to_vector_chain_witness :
    (ex_t_ai.rank_ = ex_t_ai.lines_.length ∧ ex_f_ia.rank_ = ex_f_ia.lines_.length ∧
      (∀ c ∈ [ex_u_i], c.rank_ = c.lines_.length) ∧ ex_t_ai.name_ ≠ ex_f_ia.name_ ∧
      [ex_u_i].length + 2 < 256) ∧
    ((∃ c, Linkage.to_vector false true
        (Linkage.chain ex_update_name (Node.vertex ex_t_ai) (Node.vertex ex_f_ia)
          ([ex_u_i].map Node.vertex))
        Cache.leaf false true =
      some ((Linkage.chain ex_update_name (Node.vertex ex_t_ai) (Node.vertex ex_f_ia)
        ([ex_u_i].map Node.vertex)).leaves, c)) ∧
    Linkage.link ex_update_name
        (Linkage.chain ex_update_name (Node.vertex ex_t_ai) (Node.vertex ex_f_ia)
          ([ex_u_i].map Node.vertex)).leaves =
      some (Linkage.chain ex_update_name (Node.vertex ex_t_ai) (Node.vertex ex_f_ia)
        ([ex_u_i].map Node.vertex)) ∧
    Linkage.op_eq
        (Linkage.chain ex_update_name (Node.vertex ex_t_ai) (Node.vertex ex_f_ia)
          ([ex_u_i].map Node.vertex))
        (Linkage.chain ex_update_name (Node.vertex ex_t_ai) (Node.vertex ex_f_ia)
          ([ex_u_i].map Node.vertex))
      = true) :=
  ⟨by decide,
    link_to_vector_chain ex_update_name false true ex_t_ai ex_f_ia [ex_u_i] false
      (by decide) (by decide) (by decide) (by decide) (by decide)⟩

/-! ## Permutations of a vertex -/

theorem swap_at_length (p : List Nat) (i j : Nat) (q : List Nat)
    (h : Vertex.swap_at p i j = some q) : q.length = p.length := by
  unfold Vertex.swap_at at h
  split at h
  · have := Option.some.inj h
    rw [← this]; simp
  · cases h

theorem permute_fold_length (size perm_id : Nat) (l : List Nat) (st st2 : List Nat × Nat)
    (h : l.foldlM
      (fun (st : List Nat × Nat) i =>
        (Vertex.swap_at st.1 i ((i + perm_id % (size - i)) % 256)).map fun p =>
          (p, (st.2 + (if ((i + perm_id % (size - i)) % 256) != i then 1 else 0)) % 256))
      st = some st2) :
    st2.1.length = st.1.length := by
  induction l generalizing st with
  | nil =>
    simp only [List.foldlM_nil] at h
    have := Option.some.inj h
    rw [← this]
  | cons i rest ih =>
    rw [List.foldlM_cons] at h
    obtain ⟨mid, hmid, hrest⟩ := Option.bind_eq_some.1 h
    obtain ⟨p, hp, hpm⟩ := Option.map_eq_some'.1 hmid
    have h1 := ih mid hrest
    rw [h1, ← hpm]
    exact swap_at_length _ _ _ _ hp

theorem permute_side_length (size perm_id : Nat) (perm : List Nat) (r : List Nat × Nat)
    (h : Vertex.permute_side size perm_id perm = some r) : r.1.length = perm.length :=
  permute_fold_length size perm_id (List.range size) (perm, 0) r h

theorem permute_lines_none (lines : List Line) (left_size : Nat) (lp rp : List Nat)
    (idxs : List Nat) (pl : List Line)
    (h : ∃ i ∈ idxs, left_size ≤ i ∧ rp.length ≤ i) :
    Vertex.permute_lines lines left_size lp rp idxs pl = none := by
  induction idxs generalizing pl with
  | nil => obtain ⟨i, hi, _⟩ := h; cases hi
  | cons i rest ih =>
    unfold Vertex.permute_lines
    by_cases hbad : left_size ≤ i ∧ rp.length ≤ i
    · have h1 : ¬ i < left_size := Nat.not_lt.2 hbad.1
      have h2 : rp[i]? = none := List.getElem?_eq_none hbad.2
      rw [if_neg h1, h2]; rfl
    · have hrest : ∃ j ∈ rest, left_size ≤ j ∧ rp.length ≤ j := by
        obtain ⟨j, hj, hj2⟩ := h
        rcases List.mem_cons.1 hj with e | e
        · subst e; exact absurd hj2 hbad
        · exact ⟨j, e, hj2⟩
      cases (if i < left_size then lp[i]? else rp[i]?) with
      | none => rfl
      | some perm_idx =>
        rw [Option.some_bind]
        cases lines[perm_idx]? with
        | none => rfl
        | some line =>
          rw [Option.some_bind]
          split_ifs
          · exact ih _ hrest
          · rfl

/-- C10 (code): for a vertex of rank between 3 and 255 and every `perm_id`
    other than 0 below the bound that the code computes, the last loop of
    `Vertex::permute` reads `right_perm[i]` at `i = left_size`, outside the
    `right_size` elements of the array: the call has no defined result. -/
theorem permute_reads_outside_right_perm (v : Vertex) (perm_id : Nat)
    (h1 : 2 < v.rank_) (h2 : v.rank_ < 256) (h3 : perm_id ≠ 0)
    (h4 : perm_id < Vertex.factorial (v.rank_ - v.rank_ / 2) *
      Vertex.factorial (v.rank_ / 2) % 2 ^ 64) :
    Vertex.permute v perm_id = none := by
  have hr : v.rank_ / 2 % 256 = v.rank_ / 2 := Nat.mod_eq_of_lt (by omega)
  have hl : (v.rank_ - v.rank_ / 2) % 256 = v.rank_ - v.rank_ / 2 :=
    Nat.mod_eq_of_lt (by omega)
  unfold Vertex.permute
  rw [if_neg h3, if_neg (by omega)]
  simp only [hr, hl]
  rw [if_neg (by omega)]
  cases hlp : Vertex.permute_side (v.rank_ - v.rank_ / 2)
      (perm_id % Vertex.factorial (v.rank_ - v.rank_ / 2))
      (List.range (v.rank_ - v.rank_ / 2)) with
  | none => rfl
  | some lp =>
    rw [Option.some_bind]
    cases hrp : Vertex.permute_side (v.rank_ / 2)
        (perm_id / Vertex.factorial (v.rank_ - v.rank_ / 2))
        (List.map (fun i => (i + (v.rank_ - v.rank_ / 2)) % 256)
          (List.range (v.rank_ / 2))) with
    | none => rfl
    | some rp =>
      rw [Option.some_bind]
      have hlen : rp.1.length = v.rank_ / 2 := by
        rw [permute_side_length _ _ _ _ hrp]; simp
      have hnone : Vertex.permute_lines v.lines_ (v.rank_ - v.rank_ / 2) lp.1 rp.1
          (List.range v.rank_) v.lines_ = none := by
        apply permute_lines_none
        refine ⟨v.rank_ - v.rank_ / 2, List.mem_range.2 (by omega), le_refl _, ?_⟩
        rw [hlen]; omega
      rw [hnone]; rfl

/-- C10 (code), instance: `permute(1)` on `t(a,b,i)`, whose lines are pairwise
    distinct, where the claim expects the order `b, a, i`. -/
theorem permute_reads_outside_right_perm_witness :
    (2 < ex_t_abi.rank_ ∧ ex_t_abi.rank_ < 256 ∧ (1 : Nat) ≠ 0 ∧
      1 < Vertex.factorial (ex_t_abi.rank_ - ex_t_abi.rank_ / 2) *
        Vertex.factorial (ex_t_abi.rank_ / 2) % 2 ^ 64) ∧
    Vertex.permute ex_t_abi 1 = none :=
  ⟨by decide,
    permute_reads_outside_right_perm ex_t_abi 1 (by decide) (by decide) (by decide)
      (by decide)⟩

/-! ## The sign of a permutation (`Vertex::permute`) -/

/-- C11 (code), instance: for `g(a,b,i,j)` and `perm_id = 2` the swap loops of
    `Vertex::permute` leave the left index array `[0, 1]` after no swap and
    the right index array `[3, 2]` after one swap, so that `swap_sign` is set
    to true for the odd order `a, b, j, i`; the last loop then reads
    `right_perm[2]`, outside the two elements of the array, and the call has
    no defined result whose sign could be compared. -/
theorem permute_sign_without_result :
    Vertex.permute_side 2 (2 % Vertex.factorial 2) [0, 1] = some ([0, 1], 0) ∧
    Vertex.permute_side 2 (2 / Vertex.factorial 2) [2, 3] = some ([3, 2], 1) ∧
    Vertex.permute_lines ex_g_abij.lines_ 2 [0, 1] [3, 2] (List.range 4) ex_g_abij.lines_ =
      none ∧
    Vertex.permute ex_g_abij 2 = none := by
  decide

/-! ## Searching for a permutation (`permute_like`, `is_isomorphic`) -/

theorem permute_like_lines_ne (is_empty : Vertex → Bool) (fuel : Nat) (v w : Vertex)
    (h : lines_eq v.lines_ w.lines_ = false) :
    Vertex.permute_like is_empty fuel v w = Run.done (Vertex.empty_vertex, false) := by
  have hs : Vertex.same_lines v w = false := by
    unfold Vertex.same_lines
    split_ifs
    · rfl
    · exact h
  unfold Vertex.permute_like
  split_ifs <;> simp_all

/-- The guards of `permute_like`: the call returns before its search, with
    the empty vertex and `swap_sign = false`, whenever `v` has rank 0, `v` and
    `w` are not equivalent, or the lines of `v` are not equal to the lines of
    `w` position by position; the last case includes every `w` whose lines
    are the lines of `v` in another order, so the search for a permutation
    only runs when none is needed. -/
theorem permute_like_guard (is_empty : Vertex → Bool) (fuel : Nat) (v w : Vertex)
    (h : v.rank_ = 0 ∨ Vertex.equivalent v w = false ∨ lines_eq v.lines_ w.lines_ = false) :
    Vertex.permute_like is_empty fuel v w = Run.done (Vertex.empty_vertex, false) := by
  rcases h with h | h | h
  · unfold Vertex.permute_like
    rw [if_pos h]
  · unfold Vertex.permute_like
    split_ifs <;> simp_all
  · exact permute_like_lines_ne is_empty fuel v w h

/-- The guards of `permute_like` on `g(a,b,i,j)` against `g(b,c,k,l)`. -/
theorem permute_like_guard_witness :
    (ex_g_abij.rank_ = 0 ∨ Vertex.equivalent ex_g_abij ex_g_bckl = false ∨
      lines_eq ex_g_abij.lines_ ex_g_bckl.lines_ = false) ∧
    Vertex.permute_like (fun v => v.lines_.isEmpty) 8 ex_g_abij ex_g_bckl =
      Run.done (Vertex.empty_vertex, false) :=
  ⟨Or.inr (Or.inr (by decide)),
    permute_like_guard _ 8 ex_g_abij ex_g_bckl (Or.inr (Or.inr (by decide)))⟩

/-- C12 (code), instance: the lines of `g(b,a,i,j)` are the lines of
    `g(a,b,i,j)` with the two lines of the left half exchanged (one swap, an
    odd permutation within the halves), both vertices have rank 4 and base
    name `g` and they are equivalent, so the claim expects a vertex with the
    lines `b, a, i, j` and `swap_sign = true`; `permute_like` returns the
    empty vertex with `swap_sign = false` at its test `same_lines`, before
    the search for a permutation, for every reading of `empty()` and every
    bound on the loop. -/
theorem permute_like_rejects_reordered_lines :
    0 < ex_g_abij.rank_ ∧ ex_g_abij.base_name_ = ex_g_baij.base_name_ ∧
    ex_g_abij.lines_ = [ex_a, ex_b, ex_i, ex_j] ∧
    ex_g_baij.lines_ = [ex_b, ex_a, ex_i, ex_j] ∧
    Vertex.equivalent ex_g_abij ex_g_baij = true ∧
    ∀ (is_empty : Vertex → Bool) (fuel : Nat),
      Vertex.permute_like is_empty fuel ex_g_abij ex_g_baij =
        Run.done (Vertex.empty_vertex, false) :=
  ⟨by decide, rfl, rfl, rfl, by decide,
    fun is_empty fuel => permute_like_lines_ne is_empty fuel _ _ (by decide)⟩

/-- What `is_isomorphic` returns through the guard of `permute_like`: for
    vertices `l` and `r` with the same base name whose lines are not equal
    position by position, `r` having lines, the result is false and `s` is
    left as it was, also when the lines of `r` are a rearrangement of the
    lines of `l` within the halves. -/
theorem is_isomorphic_lines_differ (is_empty : Vertex → Bool) (fuel : Nat) (l r : Vertex)
    (s : Bool) (hb : l.base_name_ = r.base_name_)
    (hl : lines_eq l.lines_ r.lines_ = false) (hr : r.rank_ ≠ 0) :
    Vertex.is_isomorphic is_empty fuel l r s = Run.done (false, s) := by
  have h1 : Vertex.op_eq l r = false := by
    unfold Vertex.op_eq
    split_ifs <;> simp_all
  have h2 : Vertex.equivalent Vertex.empty_vertex r = false := by
    unfold Vertex.equivalent
    rw [if_pos]
    simp only [Vertex.empty_vertex, bne_iff_ne, ne_eq]
    exact fun h => hr h.symm
  unfold Vertex.is_isomorphic
  rw [h1, permute_like_lines_ne is_empty fuel l r hl]
  simp [hb, h2]

/-- The result of `is_isomorphic` on `g(a,b,i,j)` against `g(b,c,k,l)`. -/
theorem is_isomorphic_lines_differ_witness :
    (ex_g_abij.base_name_ = ex_g_bckl.base_name_ ∧
      lines_eq ex_g_abij.lines_ ex_g_bckl.lines_ = false ∧ ex_g_bckl.rank_ ≠ 0) ∧
    Vertex.is_isomorphic (fun v => v.lines_.isEmpty) 8 ex_g_abij ex_g_bckl false =
      Run.done (false, false) :=
  ⟨⟨rfl, by decide, by decide⟩,
    is_isomorphic_lines_differ _ 8 ex_g_abij ex_g_bckl false rfl (by decide) (by decide)⟩

/-- C13 (code), instance: `g(a,b,i,j)` and `g(b,a,i,j)` have the same base
    name and the lines of the second are those of the first with the two
    lines of the left half exchanged (an odd permutation within the left
    half), so the claim expects true and a toggled flag; `is_isomorphic`
    returns false and leaves the flag as it was, for every reading of
    `empty()` and every bound on the loop of `permute_like`. -/
theorem is_isomorphic_rejects_reordered_lines :
    ex_g_abij.base_name_ = ex_g_baij.base_name_ ∧
    ex_g_abij.lines_ = [ex_a, ex_b, ex_i, ex_j] ∧
    ex_g_baij.lines_ = [ex_b, ex_a, ex_i, ex_j] ∧
    ∀ (is_empty : Vertex → Bool) (fuel : Nat) (s : Bool),
      Vertex.is_isomorphic is_empty fuel ex_g_abij ex_g_baij s = Run.done (false, s) := by
  refine ⟨rfl, rfl, rfl, fun is_empty fuel s => ?_⟩
  have h1 : Vertex.op_eq ex_g_abij ex_g_baij = false := by decide
  have h2 : Vertex.equivalent Vertex.empty_vertex ex_g_baij = false := by decide
  have h3 : (ex_g_abij.base_name_ != ex_g_baij.base_name_) = false := by decide
  unfold Vertex.is_isomorphic
  rw [h1, permute_like_lines_ne is_empty fuel _ _ (by decide)]
  simp [h2, h3]

/-- On equal lines the search of `permute_like` compares with
    `Vertex::operator==`, which is false for equal lines: `t(a,i)` against
    itself passes the guards, fails the comparison at `perm_id = 0`, gets the
    empty vertex from `permute(1)` and returns the empty vertex; accordingly
    `is_isomorphic` of `t(a,i)` with itself is false.  Here `empty()` is read
    as "has no lines". -/
theorem permute_like_self_empty :
    Vertex.same_lines ex_t_ai ex_t_ai = true ∧
    Vertex.op_eq ex_t_ai ex_t_ai = false ∧
    Vertex.permute_like (fun v => v.lines_.isEmpty) 2 ex_t_ai ex_t_ai =
      Run.done (Vertex.empty_vertex, false) ∧
    ∀ s, Vertex.is_isomorphic (fun v => v.lines_.isEmpty) 2 ex_t_ai ex_t_ai s =
      Run.done (false, s) := by
  decide

/-! ## Two-electron integrals (`permute_eri`) -/

/-- The static `ovstring` of four lines that are occupied or virtual: the
    `v` of the virtual lines first, whatever their positions, so that the
    string is always in the allow-list of `permute_eri`. -/
theorem ovstring_four (l1 l2 l3 l4 : Line)
    (h : ∀ l ∈ [l1, l2, l3, l4], l.sig_ = false ∧ l.den_ = false) :
    ∃ s, Vertex.ovstring [l1, l2, l3, l4] = some s ∧
      Vertex.valid_ovstrings.contains s = true := by
  have h1 := h l1 (by simp)
  have h2 := h l2 (by simp)
  have h3 := h l3 (by simp)
  have h4 := h l4 (by simp)
  cases o1 : l1.o_ <;> cases o2 : l2.o_ <;> cases o3 : l3.o_ <;> cases o4 : l4.o_ <;>
    refine ⟨_, by
      simp [Vertex.ovstring, Vertex.ovstring_step, Vertex.write_at, h1, h2, h3, h4,
        o1, o2, o3, o4, List.replicate]; rfl, by decide⟩

theorem permute_zero (v : Vertex) : Vertex.permute v 0 = some (v, false) := by
  simp [Vertex.permute]

theorem blk_string_four (v : Vertex) (l1 l2 l3 l4 : Line) (hl : v.lines_ = [l1, l2, l3, l4])
    (hr : v.rank_ = 4) : ∃ s, Vertex.blk_string v = some s := by
  unfold Vertex.blk_string
  split_ifs
  · exact ⟨_, rfl⟩
  · rw [hl, hr]
    exact ⟨_, by simp [Vertex.write_at, List.replicate]; rfl⟩

/-- On a vertex of four lines that are occupied or virtual, `permute_eri`
    accepts the vertex as it is: it is left unchanged and false is
    returned. -/
theorem permute_eri_four (is_empty : Vertex → Bool) (v : Vertex) (l1 l2 l3 l4 : Line)
    (hl : v.lines_ = [l1, l2, l3, l4]) (hr : v.rank_ = 4)
    (h : ∀ l ∈ v.lines_, l.sig_ = false ∧ l.den_ = false) :
    Vertex.permute_eri is_empty true v = some (v, false) := by
  obtain ⟨b, hb⟩ := blk_string_four v l1 l2 l3 l4 hl hr
  obtain ⟨s, hs, hv⟩ := ovstring_four l1 l2 l3 l4 (by rw [← hl]; exact h)
  unfold Vertex.permute_eri
  rw [hb]
  simp only [Bool.not_true, Bool.false_eq_true, if_false, Option.some_bind]
  show Vertex.permute_eri_loop is_empty v (8 + 1) 0 = some (v, false)
  rw [Vertex.permute_eri_loop, Vertex.permute_eri_pass, permute_zero]
  simp only
  split_ifs
  · rfl
  · rw [Vertex.ovstring_member, hl, hs]
    simp only [hv, if_true]

/-- C14 (code), instance: the integral `<i,a||b,j>`, whose occ/vir string
    `ovvo` is not in the allow-list.  The static `ovstring` returns `vvoo`
    for it, `permute_eri` accepts the vertex at `perm_id = 0`, leaves it as it
    is and returns false, and the occ/vir string of the vertex afterwards is
    still `ovvo`. -/
theorem permute_eri_accepts_ovvo :
    occ_vir_string ex_eri_iabj.lines_ = "ovvo" ∧
    Vertex.valid_ovstrings.contains (occ_vir_string ex_eri_iabj.lines_) = false ∧
    Vertex.ovstring_member ex_eri_iabj = some "vvoo" ∧
    ∀ is_empty : Vertex → Bool,
      Vertex.permute_eri is_empty true ex_eri_iabj = some (ex_eri_iabj, false) :=
  ⟨by decide, by decide, by decide,
    fun is_empty => permute_eri_four is_empty ex_eri_iabj ex_i ex_a ex_b ex_j rfl rfl
      (by decide)⟩

theorem occ_vir_string_voov (ls : List Line) (h : occ_vir_string ls = "voov") :
    ∃ l1 l2 l3 l4, ls = [l1, l2, l3, l4] := by
  have h2 : ls.map (fun l => if l.o_ then 'o' else 'v') = ['v', 'o', 'o', 'v'] :=
    congrArg String.data h
  have hlen : ls.length = 4 := by
    have := congrArg List.length h2
    simpa using this
  rcases ls with _ | ⟨l1, _ | ⟨l2, _ | ⟨l3, _ | ⟨l4, _ | ⟨l5, t⟩⟩⟩⟩⟩
  all_goals first
    | exact ⟨_, _, _, _, rfl⟩
    | (simp at hlen)

/-- C15 (amended): on a rank-4 vertex of occupied and virtual lines whose
    occ/vir string is `voov`, `permute_eri` returns, the first two lines
    afterwards are the first two lines before in some order, likewise the
    last two, and the occ/vir string afterwards is not `oovv`. -/
theorem permute_eri_keeps_halves (is_empty : Vertex → Bool) (v : Vertex)
    (hr : v.rank_ = 4) (h : ∀ l ∈ v.lines_, l.sig_ = false ∧ l.den_ = false)
    (hs : occ_vir_string v.lines_ = "voov") :
    ∃ w s, Vertex.permute_eri is_empty true v = some (w, s) ∧
      (w.lines_.take 2).Perm (v.lines_.take 2) ∧
      (w.lines_.drop 2).Perm (v.lines_.drop 2) ∧
      occ_vir_string w.lines_ ≠ "oovv" := by
  obtain ⟨l1, l2, l3, l4, hl⟩ := occ_vir_string_voov v.lines_ hs
  refine ⟨v, false, permute_eri_four is_empty v l1 l2 l3 l4 hl hr h, List.Perm.refl _,
    List.Perm.refl _, ?_⟩
  rw [hs]
  decide

/-- C15, instance of the amended claim: the integral `<a,i||j,b>`. -/
theorem permute_eri_keeps_halves_witness :
    (ex_eri_aijb.rank_ = 4 ∧
      (∀ l ∈ ex_eri_aijb.lines_, l.sig_ = false ∧ l.den_ = false) ∧
      occ_vir_string ex_eri_aijb.lines_ = "voov") ∧
    ∃ w s, Vertex.permute_eri (fun v => v.lines_.isEmpty) true ex_eri_aijb = some (w, s) ∧
      (w.lines_.take 2).Perm (ex_eri_aijb.lines_.take 2) ∧
      (w.lines_.drop 2).Perm (ex_eri_aijb.lines_.drop 2) ∧
      occ_vir_string w.lines_ ≠ "oovv" :=
  ⟨⟨rfl, by decide, by decide⟩,
    permute_eri_keeps_halves _ ex_eri_aijb rfl (by decide) (by decide)⟩

/-- C15, counterexample: for `<a,i||j,b>`, with occ/vir string `voov`,
    `permute_eri` leaves a vertex whose occ/vir string is `voov`, not `oovv`,
    and returns false. -/
theorem permute_eri_voov_not_oovv :
    occ_vir_string ex_eri_aijb.lines_ = "voov" ∧
    ∀ is_empty : Vertex → Bool,
      (Vertex.permute_eri is_empty true ex_eri_aijb).map
        (fun r => (occ_vir_string r.1.lines_, r.2)) = some ("voov", false) := by
  refine ⟨by decide, fun is_empty => ?_⟩
  rw [permute_eri_four is_empty ex_eri_aijb ex_a ex_i ex_j ex_b rfl rfl (by decide)]
  decide

/-! ## Sorting the lines (`Vertex::sort`) -/

/-- C16 (code), instance: `sort()` on `f(i,a)`, whose left half is the line
    `i` and whose right half is the line `a`, leaves the lines `a, i`: the
    line in the right half is not the one that was there. -/
theorem sort_moves_right_half :
    ex_f_ia.lines_ = [ex_i, ex_a] ∧
    ex_f_ia.lines_.drop (ex_f_ia.rank_ - ex_f_ia.rank_ / 2) = [ex_a] ∧
    Vertex.sort_lines ex_f_ia.lines_ = [ex_a, ex_i] ∧
    (Vertex.sort ex_f_ia).map (fun w => w.lines_) = some [ex_a, ex_i] ∧
    (Vertex.sort ex_f_ia).map
      (fun w => w.lines_.drop (w.rank_ - w.rank_ / 2)) = some [ex_i] := by
  decide

/-- C17 (code), instance: `sort()` on `t(b,a)`, two virtual lines with the
    same kind bits, leaves the lines `b, a`, although `a` is before `b` in
    the order of labels: the comparator finds neither line before the
    other. -/
theorem sort_ignores_labels :
    ex_t_ba.lines_ = [ex_b, ex_a] ∧
    Line.equivalent ex_a ex_b = true ∧ str_lt ex_a.label_ ex_b.label_ = true ∧
    Vertex.sort_compare ex_a ex_b = false ∧ Vertex.sort_compare ex_b ex_a = false ∧
    (Vertex.sort ex_t_ba).map (fun w => w.lines_) = some [ex_b, ex_a] := by
  decide

/-! ## Maps keyed by labels -/

theorem str_lt_false_iff (a b : String) : str_lt a b = false ↔ b ≤ a := by
  rw [← not_lt, ← str_lt_iff]; simp

theorem smap_incr_keys (m : List (String × Nat)) (key : String) :
    ∀ e ∈ smap_incr m key, e.1 = key ∨ e ∈ m := by
  induction m with
  | nil => intro e he; simp [smap_incr] at he; left; rw [he]
  | cons hd rest ih =>
    obtain ⟨k, n⟩ := hd
    intro e he
    unfold smap_incr at he
    split_ifs at he with h1 h2
    · rcases List.mem_cons.1 he with h | h
      · left; rw [h]
      · right; exact h
    · rcases List.mem_cons.1 he with h | h
      · right; rw [h]; exact List.mem_cons_self _ _
      · rcases ih e h with h3 | h3
        · left; exact h3
        · right; exact List.mem_cons_of_mem _ h3
    · rcases List.mem_cons.1 he with h | h
      · left
        have h1b := (str_lt_false_iff _ _).1 (by simpa using h1)
        have h2b := (str_lt_false_iff _ _).1 (by simpa using h2)
        rw [h]; exact le_antisymm h1b h2b
      · right; exact List.mem_cons_of_mem _ h

theorem smap_incr_sorted (m : List (String × Nat)) (key : String) (hm : SSorted m) :
    SSorted (smap_incr m key) := by
  induction m with
  | nil => simp [smap_incr, SSorted]
  | cons hd rest ih =>
    obtain ⟨k, n⟩ := hd
    have hp := List.pairwise_cons.1 hm
    unfold smap_incr
    split_ifs with h1 h2
    · have h1b := (str_lt_iff _ _).1 h1
      refine List.pairwise_cons.2 ⟨?_, hm⟩
      intro e he
      rcases List.mem_cons.1 he with h | h
      · rw [h]; exact h1b
      · exact lt_trans h1b (hp.1 e h)
    · have h2b := (str_lt_iff _ _).1 h2
      refine List.pairwise_cons.2 ⟨?_, ih hp.2⟩
      intro e he
      rcases smap_incr_keys rest key e he with h | h
      · show k < e.1
        rw [h]; exact h2b
      · exact hp.1 e h
    · exact List.pairwise_cons.2 ⟨fun e he => hp.1 e he, hp.2⟩

theorem smap_get_absent (m : List (String × Nat)) (key : String)
    (h : ∀ e ∈ m, e.1 ≠ key) : smap_get m key = 0 := by
  induction m with
  | nil => rfl
  | cons hd rest ih =>
    obtain ⟨k, n⟩ := hd
    have hk : k ≠ key := h (k, n) (List.mem_cons_self _ _)
    simp only [smap_get, hk, if_false]
    exact ih fun e he => h e (List.mem_cons_of_mem _ he)

theorem smap_get_incr (m : List (String × Nat)) (key key2 : String) (hm : SSorted m) :
    smap_get (smap_incr m key) key2 =
      if key2 = key then (smap_get m key + 1) % 256 else smap_get m key2 := by
  induction m with
  | nil =>
    by_cases h : key2 = key
    · subst h; simp [smap_incr, smap_get]
    · have h2 : ¬ key = key2 := fun e => h e.symm
      simp [smap_incr, smap_get, h, h2]
  | cons hd rest ih =>
    obtain ⟨k, n⟩ := hd
    have hp := List.pairwise_cons.1 hm
    unfold smap_incr
    by_cases h1 : str_lt key k = true
    · rw [if_pos h1]
      have h1b := (str_lt_iff _ _).1 h1
      have hz : smap_get ((k, n) :: rest) key = 0 := by
        apply smap_get_absent
        intro e he
        rcases List.mem_cons.1 he with h | h
        · rw [h]; exact ne_of_gt h1b
        · exact ne_of_gt (lt_trans h1b (hp.1 e h))
      by_cases h : key2 = key
      · subst h; rw [hz]; simp [smap_get]
      · have h2 : ¬ key = key2 := fun e => h e.symm
        rw [if_neg h]
        simp only [smap_get, h2, if_false]
    · rw [if_neg h1]
      by_cases h2 : str_lt k key = true
      · rw [if_pos h2]
        have h2b := (str_lt_iff _ _).1 h2
        have hk : ¬ k = key := ne_of_lt h2b
        by_cases h : key2 = key
        · subst h
          simp only [smap_get, hk, if_false]
          rw [ih hp.2]; simp
        · simp only [smap_get]
          rw [ih hp.2, if_neg h, if_neg h]
      · rw [if_neg h2]
        have h1b := (str_lt_false_iff _ _).1 (by simpa using h1)
        have h2b := (str_lt_false_iff _ _).1 (by simpa using h2)
        have hk : k = key := le_antisymm h1b h2b
        subst hk
        by_cases h : key2 = k
        · subst h; simp [smap_get]
        · have hk2 : ¬ k = key2 := fun e => h e.symm
          simp [smap_get, hk2, h]

theorem label_count_append (ls : List Line) (x : Line) (label : String) :
    label_count (ls ++ [x]) label =
      label_count ls label + (if x.label_ = label then 1 else 0) := by
  simp [label_count, List.countP_append, List.countP_cons]

/-- The map built by the first loop of `self_links` holds, for every label,
    the number of lines that carry it (as an 8-bit count). -/
theorem unique_line_map_spec (ls : List Line) :
    SSorted (Vertex.unique_line_map ls) ∧
    ∀ label, smap_get (Vertex.unique_line_map ls) label = label_count ls label % 256 := by
  induction ls using List.reverseRecOn with
  | nil => exact ⟨List.Pairwise.nil, fun label => rfl⟩
  | append_singleton l x ih =>
    have e : Vertex.unique_line_map (l ++ [x]) =
        smap_incr (Vertex.unique_line_map l) x.label_ := by
      simp [Vertex.unique_line_map, List.foldl_append]
    rw [e]
    refine ⟨smap_incr_sorted _ _ ih.1, fun label => ?_⟩
    rw [smap_get_incr _ _ _ ih.1, label_count_append]
    by_cases h : label = x.label_
    · subst h
      rw [if_pos rfl, if_pos rfl, ih.2]; omega
    · rw [if_neg h, if_neg (fun e2 => h e2.symm), ih.2]; rfl

theorem smap_assign_mem {β : Type} (m : List (String × β)) (key : String) (value : β)
    (hm : SSorted m) (e : String × β) :
    e ∈ smap_assign m key value ↔ e = (key, value) ∨ (e ∈ m ∧ e.1 ≠ key) := by
  induction m with
  | nil => simp [smap_assign]
  | cons hd rest ih =>
    obtain ⟨k, b⟩ := hd
    have hp := List.pairwise_cons.1 hm
    unfold smap_assign
    by_cases h1 : str_lt key k = true
    · rw [if_pos h1]
      have h1b := (str_lt_iff _ _).1 h1
      have hall : ∀ f ∈ (k, b) :: rest, f.1 ≠ key := by
        intro f hf
        rcases List.mem_cons.1 hf with h | h
        · rw [h]; exact ne_of_gt h1b
        · exact ne_of_gt (lt_trans h1b (hp.1 f h))
      constructor
      · intro he
        rcases List.mem_cons.1 he with h | h
        · left; exact h
        · right; exact ⟨h, hall e h⟩
      · rintro (h | h)
        · rw [h]; exact List.mem_cons_self _ _
        · exact List.mem_cons_of_mem _ h.1
    · rw [if_neg h1]
      by_cases h2 : str_lt k key = true
      · rw [if_pos h2]
        have h2b := (str_lt_iff _ _).1 h2
        constructor
        · intro he
          rcases List.mem_cons.1 he with h | h
          · right; rw [h]; exact ⟨List.mem_cons_self _ _, ne_of_lt h2b⟩
          · rcases (ih hp.2).1 h with h3 | h3
            · left; exact h3
            · right; exact ⟨List.mem_cons_of_mem _ h3.1, h3.2⟩
        · rintro (h | h)
          · exact List.mem_cons_of_mem _ ((ih hp.2).2 (Or.inl h))
          · rcases List.mem_cons.1 h.1 with h3 | h3
            · rw [h3]; exact List.mem_cons_self _ _
            · exact List.mem_cons_of_mem _ ((ih hp.2).2 (Or.inr ⟨h3, h.2⟩))
      · rw [if_neg h2]
        have h1b := (str_lt_false_iff _ _).1 (by simpa using h1)
        have h2b := (str_lt_false_iff _ _).1 (by simpa using h2)
        have hk : k = key := le_antisymm h1b h2b
        subst hk
        constructor
        · intro he
          rcases List.mem_cons.1 he with h | h
          · left; exact h
          · right; exact ⟨List.mem_cons_of_mem _ h, ne_of_gt (hp.1 e h)⟩
        · rintro (h | h)
          · rw [h]; exact List.mem_cons_self _ _
          · rcases List.mem_cons.1 h.1 with h3 | h3
            · exact absurd (by rw [h3]) h.2
            · exact List.mem_cons_of_mem _ h3

theorem smap_assign_sorted {β : Type} (m : List (String × β)) (key : String) (value : β)
    (hm : SSorted m) : SSorted (smap_assign m key value) := by
  induction m with
  | nil => simp [smap_assign, SSorted]
  | cons hd rest ih =>
    obtain ⟨k, b⟩ := hd
    have hp := List.pairwise_cons.1 hm
    unfold smap_assign
    by_cases h1 : str_lt key k = true
    · rw [if_pos h1]
      have h1b := (str_lt_iff _ _).1 h1
      refine List.pairwise_cons.2 ⟨?_, hm⟩
      intro e he
      rcases List.mem_cons.1 he with h | h
      · rw [h]; exact h1b
      · exact lt_trans h1b (hp.1 e h)
    · rw [if_neg h1]
      by_cases h2 : str_lt k key = true
      · rw [if_pos h2]
        have h2b := (str_lt_iff _ _).1 h2
        refine List.pairwise_cons.2 ⟨?_, ih hp.2⟩
        intro e he
        rcases (smap_assign_mem rest key value hp.2 e).1 he with h | h
        · rw [h]; exact h2b
        · exact hp.1 e h.1
      · rw [if_neg h2]
        exact List.pairwise_cons.2 ⟨fun e he => hp.1 e he, hp.2⟩

theorem smap_has_iff {β : Type} (m : List (String × β)) (key : String) :
    smap_has m key = true ↔ ∃ e ∈ m, e.1 = key := by
  simp [smap_has]

/-! ## Repeated labels (`self_links`) -/

/-- What the second loop of `self_links` has stored after the lines `p`, for
    a count function `cnt`. -/
theorem self_links_fold (cnt : String → Nat) (p : List Line) :
    SSorted (p.foldl
      (fun (sl : List (String × (Line × Nat))) line =>
        if cnt line.label_ > 1 then smap_assign sl line.label_ (line, cnt line.label_)
        else sl) []) ∧
    (∀ e ∈ p.foldl
      (fun (sl : List (String × (Line × Nat))) line =>
        if cnt line.label_ > 1 then smap_assign sl line.label_ (line, cnt line.label_)
        else sl) [],
      cnt e.1 > 1 ∧ e.2.2 = cnt e.1 ∧ e.2.1 ∈ p ∧ e.2.1.label_ = e.1) ∧
    (∀ l ∈ p, cnt l.label_ > 1 → ∃ e ∈ p.foldl
      (fun (sl : List (String × (Line × Nat))) line =>
        if cnt line.label_ > 1 then smap_assign sl line.label_ (line, cnt line.label_)
        else sl) [], e.1 = l.label_) := by
  induction p using List.reverseRecOn with
  | nil => exact ⟨List.Pairwise.nil, by simp, by simp⟩
  | append_singleton p x ih =>
    obtain ⟨i1, i2, i3⟩ := ih
    rw [List.foldl_append, List.foldl_cons, List.foldl_nil]
    by_cases hx : cnt x.label_ > 1
    · rw [if_pos hx]
      refine ⟨smap_assign_sorted _ _ _ i1, ?_, ?_⟩
      · intro e he
        rcases (smap_assign_mem _ _ _ i1 e).1 he with h | h
        · rw [h]; exact ⟨hx, rfl, by simp, rfl⟩
        · obtain ⟨a, b, c, d⟩ := i2 e h.1
          exact ⟨a, b, List.mem_append_left _ c, d⟩
      · intro l hl hc
        rcases List.mem_append.1 hl with h | h
        · obtain ⟨e, he, hk⟩ := i3 l h hc
          by_cases hek : e.1 = x.label_
          · exact ⟨(x.label_, (x, cnt x.label_)),
              (smap_assign_mem _ _ _ i1 _).2 (Or.inl rfl), by rw [← hk, hek]⟩
          · exact ⟨e, (smap_assign_mem _ _ _ i1 _).2 (Or.inr ⟨he, hek⟩), hk⟩
        · have : l = x := by simpa using h
          subst this
          exact ⟨(l.label_, (l, cnt l.label_)),
            (smap_assign_mem _ _ _ i1 _).2 (Or.inl rfl), rfl⟩
    · rw [if_neg hx]
      refine ⟨i1, ?_, ?_⟩
      · intro e he
        obtain ⟨a, b, c, d⟩ := i2 e he
        exact ⟨a, b, List.mem_append_left _ c, d⟩
      · intro l hl hc
        rcases List.mem_append.1 hl with h | h
        · exact i3 l h hc
        · have : l = x := by simpa using h
          subst this
          exact absurd hc hx

theorem label_count_le (ls : List Line) (label : String) :
    label_count ls label ≤ ls.length := by
  unfold label_count
  exact List.countP_le_length _

theorem SSorted_keys_nodup {β : Type} (m : List (String × β)) (h : SSorted m) :
    (m.map Prod.fst).Nodup := by
  unfold List.Nodup
  rw [List.pairwise_map]
  exact h.imp fun hab => ne_of_lt hab

/-- The map returned by `self_links` for a vertex with fewer than 256 lines
    and `rank = |lines|`. -/
theorem self_links_entries (v : Vertex) (hr : v.rank_ = v.lines_.length)
    (hn : v.lines_.length < 256) :
    SSorted (Vertex.self_links v) ∧
    (∀ e ∈ Vertex.self_links v,
      2 ≤ label_count v.lines_ e.1 ∧ e.2.2 = label_count v.lines_ e.1 ∧
        e.2.1 ∈ v.lines_ ∧ e.2.1.label_ = e.1) ∧
    (∀ l ∈ v.lines_, 2 ≤ label_count v.lines_ l.label_ →
      ∃ e ∈ Vertex.self_links v, e.1 = l.label_) := by
  have hc : ∀ label, smap_get (Vertex.unique_line_map v.lines_) label =
      label_count v.lines_ label := by
    intro label
    rw [(unique_line_map_spec v.lines_).2 label]
    exact Nat.mod_eq_of_lt (lt_of_le_of_lt (label_count_le _ _) hn)
  unfold Vertex.self_links
  by_cases h1 : v.rank_ ≤ 1
  · rw [if_pos h1]
    have hlen : v.lines_.length ≤ 1 := by rw [← hr]; exact h1
    refine ⟨List.Pairwise.nil, by simp, ?_⟩
    intro l _ hc2
    have := label_count_le v.lines_ l.label_
    omega
  · rw [if_neg h1]
    obtain ⟨i1, i2, i3⟩ :=
      self_links_fold (fun k => smap_get (Vertex.unique_line_map v.lines_) k) v.lines_
    refine ⟨i1, ?_, ?_⟩
    · intro e he
      obtain ⟨a, b, c, d⟩ := i2 e he
      simp only [hc] at a b
      exact ⟨a, b, c, d⟩
    · intro l hl h2
      exact i3 l hl (by simp only [hc]; exact h2)

theorem self_links_has_iff (v : Vertex) (hr : v.rank_ = v.lines_.length)
    (hn : v.lines_.length < 256) (label : String) :
    smap_has (Vertex.self_links v) label = true ↔ 2 ≤ label_count v.lines_ label := by
  obtain ⟨_, i2, i3⟩ := self_links_entries v hr hn
  rw [smap_has_iff]
  constructor
  · rintro ⟨e, he, hk⟩
    rw [← hk]; exact (i2 e he).1
  · intro h
    have hpos : 0 < label_count v.lines_ label := by omega
    unfold label_count at hpos
    obtain ⟨l, hl, hlab⟩ := List.countP_pos_iff.1 hpos
    have hlab2 : l.label_ = label := by simpa using hlab
    obtain ⟨e, he, hk⟩ := i3 l hl (by rw [hlab2]; exact h)
    exact ⟨e, he, hk.trans hlab2⟩

/-- C18: for a vertex with `rank = |lines|` and fewer than 256 lines, a label
    is a key of the map returned by `self_links()` exactly when at least two
    lines carry it, the count stored with a key is the number of lines that
    carry it, and no key occurs twice. -/
theorem self_links_spec (v : Vertex) (hr : v.rank_ = v.lines_.length)
    (hn : v.lines_.length < 256) :
    (∀ label, smap_has (Vertex.self_links v) label = true ↔
      2 ≤ label_count v.lines_ label) ∧
    (∀ e ∈ Vertex.self_links v, e.2.2 = label_count v.lines_ e.1) ∧
    ((Vertex.self_links v).map Prod.fst).Nodup := by
  obtain ⟨i1, i2, _⟩ := self_links_entries v hr hn
  exact ⟨self_links_has_iff v hr hn, fun e he => (i2 e he).2.1, SSorted_keys_nodup _ i1⟩

/-- C18, instance: `h(i,i,i0)`, where the label `i` is on two lines. -/
theorem self_links_spec_witness :
    (ex_h_ii_i0.rank_ = ex_h_ii_i0.lines_.length ∧ ex_h_ii_i0.lines_.length < 256) ∧
    (∀ label, smap_has (Vertex.self_links ex_h_ii_i0) label = true ↔
      2 ≤ label_count ex_h_ii_i0.lines_ label) ∧
    (∀ e ∈ Vertex.self_links ex_h_ii_i0, e.2.2 = label_count ex_h_ii_i0.lines_ e.1) ∧
    ((Vertex.self_links ex_h_ii_i0).map Prod.fst).Nodup :=
  ⟨⟨rfl, by decide⟩, self_links_spec ex_h_ii_i0 rfl (by decide)⟩

/-! ## Replacing repeated labels (`make_self_linkages`) -/

set_option maxRecDepth 100000 in
theorem parse_to_string_small : ∀ a : Fin 256, parse_decimal (to_string a.val) = a.val := by
  decide

theorem to_string_injective_small (a b : Nat) (ha : a < 256) (hb : b < 256)
    (h : to_string a = to_string b) : a = b := by
  have h1 := parse_to_string_small ⟨a, ha⟩
  have h2 := parse_to_string_small ⟨b, hb⟩
  simp only at h1 h2
  rw [← h1, ← h2, h]

theorem string_append_left_cancel (k s t : String) (h : k ++ s = k ++ t) : s = t := by
  have h2 := congrArg String.data h
  simp only [String.data_append] at h2
  exact String.ext (List.append_cancel_left h2)

theorem label_count_take_succ (ls : List Line) (i : Nat) (h : i < ls.length) (k : String) :
    label_count (ls.take (i + 1)) k =
      label_count (ls.take i) k + (if (ls.get ⟨i, h⟩).label_ = k then 1 else 0) := by
  rw [List.take_succ, List.getElem?_eq_getElem h]
  simp only [Option.toList_some]
  rw [label_count_append]
  rfl

theorem label_count_take_mono (ls : List Line) (i j : Nat) (hij : i ≤ j) (k : String) :
    label_count (ls.take i) k ≤ label_count (ls.take j) k := by
  unfold label_count
  exact (List.take_sublist_take_left ls hij).countP_le _

theorem label_count_take_le (ls : List Line) (i : Nat) (k : String) :
    label_count (ls.take i) k ≤ label_count ls k := by
  unfold label_count
  exact (List.take_sublist i ls).countP_le _

/-- The lines after the first loop of `make_self_linkages`, entered with the
    map `counts`. -/
theorem relabel_loop_get (sl : List (String × (Line × Nat))) (ls : List Line)
    (counts : List (String × Nat)) (hs : SSorted counts)
    (hb : ∀ k, smap_get counts k < 256) (i : Nat) (h : i < ls.length) :
    (Vertex.relabel_loop sl ls counts)[i]? =
      some (if smap_has sl (ls.get ⟨i, h⟩).label_ then
        Vertex.delta_line (ls.get ⟨i, h⟩)
          ((smap_get counts (ls.get ⟨i, h⟩).label_ +
            label_count (ls.take i) (ls.get ⟨i, h⟩).label_) % 256)
        else ls.get ⟨i, h⟩) := by
  induction ls generalizing counts i with
  | nil => cases h
  | cons l rest ih =>
    unfold Vertex.relabel_loop
    cases i with
    | zero =>
      by_cases hl : smap_has sl l.label_ = true
      · simp [hl, Vertex.delta_line, label_count, Nat.mod_eq_of_lt (hb l.label_)]
      · simp [hl]
    | succ j =>
      have hj : j < rest.length := by simpa using h
      by_cases hl : smap_has sl l.label_ = true
      · rw [if_pos hl, List.getElem?_cons_succ,
          ih (smap_incr counts l.label_) (smap_incr_sorted _ _ hs) ?_ j hj]
        · simp only [List.get_eq_getElem, List.getElem_cons_succ, List.take_succ_cons]
          by_cases hx : smap_has sl rest[j].label_ = true
          · rw [if_pos hx, if_pos hx, smap_get_incr _ _ _ hs]
            congr 2
            have e : label_count (l :: List.take j rest) rest[j].label_ =
                (if l.label_ = rest[j].label_ then 1 else 0) +
                  label_count (List.take j rest) rest[j].label_ := by
              simp only [label_count, List.countP_cons, decide_eq_true_eq]
              omega
            rw [e]
            by_cases hk : rest[j].label_ = l.label_
            · rw [if_pos hk, if_pos hk.symm, hk]; omega
            · rw [if_neg hk, if_neg (fun e2 => hk e2.symm)]; omega
          · rw [if_neg hx, if_neg hx]
        · intro k
          rw [smap_get_incr _ _ _ hs]
          split_ifs
          · exact Nat.mod_lt _ (by norm_num)
          · exact hb k
      · rw [if_neg hl, List.getElem?_cons_succ, ih counts hs hb j hj]
        simp only [List.get_eq_getElem, List.getElem_cons_succ, List.take_succ_cons]
        by_cases hx : smap_has sl rest[j].label_ = true
        · rw [if_pos hx, if_pos hx]
          congr 2
          have hk : ¬ l.label_ = rest[j].label_ := by
            intro e2; rw [e2] at hl; exact hl hx
          simp [label_count, List.countP_cons, hk]
        · rw [if_neg hx, if_neg hx]

theorem relabel_loop_length (sl : List (String × (Line × Nat))) (ls : List Line)
    (counts : List (String × Nat)) :
    (Vertex.relabel_loop sl ls counts).length = ls.length := by
  induction ls generalizing counts with
  | nil => rfl
  | cons l rest ih =>
    unfold Vertex.relabel_loop
    split_ifs <;> simp [ih]

/-- The list `delta_lines_list`: the pairs of copies `2k`, `2k + 1`. -/
theorem delta_lines_fold (line : Line) (n : Nat) :
    (List.range n).foldl
      (fun (st : List (List Line) × List Line) j =>
        if j % 2 = 1 then (st.1 ++ [st.2 ++ [Vertex.delta_line line j]], [])
        else (st.1, st.2 ++ [Vertex.delta_line line j]))
      ([], []) =
    ((List.range (n / 2)).map fun k =>
        [Vertex.delta_line line (2 * k), Vertex.delta_line line (2 * k + 1)],
      if n % 2 = 1 then [Vertex.delta_line line (n - 1)] else []) := by
  induction n with
  | zero => rfl
  | succ m ih =>
    rw [List.range_succ, List.foldl_append, ih, List.foldl_cons, List.foldl_nil]
    by_cases hm : m % 2 = 1
    · have h1 : (m + 1) / 2 = m / 2 + 1 := by omega
      have h2 : ¬ (m + 1) % 2 = 1 := by omega
      have h3 : m - 1 = 2 * (m / 2) := by omega
      have h4 : m = 2 * (m / 2) + 1 := by omega
      simp only [hm, if_true, h2, if_false, h1, List.range_succ, List.map_append,
        List.map_cons, List.map_nil, h3, List.singleton_append]
      rw [← h4]
    · have h1 : (m + 1) / 2 = m / 2 := by omega
      have h2 : (m + 1) % 2 = 1 := by omega
      simp only [hm, if_false, h2, if_true, h1, List.nil_append, Nat.add_sub_cancel]

theorem delta_lines_list_eq (line : Line) (freq : Nat) :
    Vertex.delta_lines_list line freq =
      (List.range (freq / 2)).map fun k =>
        [Vertex.delta_line line (2 * k), Vertex.delta_line line (2 * k + 1)] := by
  unfold Vertex.delta_lines_list
  rw [delta_lines_fold]

theorem update_lines_of_loop (v : Vertex) (lines : List Line) (b : Bool)
    (st : List Char × List Char × Bool × Nat)
    (h : Vertex.update_lines_loop lines
      (List.replicate lines.length 'o', List.replicate lines.length '\x00', false, 0) =
        some st) :
    ∃ d, Vertex.update_lines v lines b = some d ∧ d.lines_ = lines ∧
      d.base_name_ = v.base_name_ ∧ d.rank_ = lines.length := by
  unfold Vertex.update_lines
  simp only [h, Option.map_some']
  exact ⟨_, rfl, rfl, rfl, rfl⟩

theorem update_lines_loop_pair (x y : Line) (hx : x.delta_ok = true)
    (h1 : y.sig_ = x.sig_) (h2 : y.den_ = x.den_) (h3 : y.o_ = x.o_)
    (h4 : y.has_blk = x.has_blk) :
    ∃ st, Vertex.update_lines_loop [x, y]
      (List.replicate [x, y].length 'o', List.replicate [x, y].length '\x00', false, 0) =
        some st := by
  unfold Line.delta_ok at hx
  cases hs : x.sig_ <;> cases hd : x.den_ <;> cases ho : x.o_ <;> cases hb : x.has_blk <;>
    simp [hs, hd, ho, hb] at hx <;>
    simp [Vertex.update_lines_loop, Vertex.update_lines_step, Vertex.write_at, h1, h2, h3, h4,
      hs, hd, ho, hb, List.replicate]

theorem make_delta_pair (line : Line) (a b : Nat) (hok : line.delta_ok = true) :
    ∃ d, Vertex.make_delta [Vertex.delta_line line a, Vertex.delta_line line b] = some d ∧
      d.base_name_ = "Id" ∧
      d.lines_ = [Vertex.delta_line line a, Vertex.delta_line line b] ∧ d.rank_ = 2 := by
  obtain ⟨st, hst⟩ := update_lines_loop_pair (Vertex.delta_line line a)
    (Vertex.delta_line line b) hok rfl rfl rfl rfl
  unfold Vertex.make_delta Vertex.of_lines
  obtain ⟨d1, hd1, _, _, _⟩ := update_lines_of_loop
    { name_ := "", base_name_ := "Id",
      lines_ := [Vertex.delta_line line a, Vertex.delta_line line b],
      rank_ := [Vertex.delta_line line a, Vertex.delta_line line b].length,
      shape_ := shape.zero, has_blk_ := false, is_sigma_ := false, is_den_ := false }
    [Vertex.delta_line line a, Vertex.delta_line line b] true st hst
  rw [hd1, Option.some_bind]
  obtain ⟨d2, hd2, e1, e2, e3⟩ := update_lines_of_loop { d1 with base_name_ := "Id" }
    [Vertex.delta_line line a, Vertex.delta_line line b] true st hst
  exact ⟨d2, hd2, e2, e1, e3⟩

theorem all_defined_map {α β : Type} (f : α → Option β) (P : α → β → Prop) (l : List α)
    (h : ∀ x ∈ l, ∃ y, f x = some y ∧ P x y) :
    ∃ ys, Vertex.all_defined (l.map f) = some ys ∧ List.Forall₂ P l ys := by
  induction l with
  | nil => exact ⟨[], rfl, List.Forall₂.nil⟩
  | cons x rest ih =>
    obtain ⟨y, hy, hp⟩ := h x (List.mem_cons_self _ _)
    obtain ⟨ys, hys, hf⟩ := ih fun z hz => h z (List.mem_cons_of_mem _ hz)
    refine ⟨y :: ys, ?_, List.Forall₂.cons hp hf⟩
    simp [Vertex.all_defined, hy, hys]

theorem forall2_map_eq {α β γ : Type} (f : α → γ) (g : β → γ) (l : List α) (ys : List β)
    (h : List.Forall₂ (fun x y => g y = f x) l ys) : ys.map g = l.map f := by
  induction h with
  | nil => rfl
  | cons hxy _ ih => simp [hxy, ih]

theorem flatMap_congr_mem {α β : Type} (l : List α) (f g : α → List β)
    (h : ∀ x ∈ l, f x = g x) : l.flatMap f = l.flatMap g := by
  induction l with
  | nil => rfl
  | cons x rest ih =>
    rw [List.flatMap_cons, List.flatMap_cons, h x (List.mem_cons_self _ _),
      ih fun y hy => h y (List.mem_cons_of_mem _ hy)]

/-- The lines of a vertex after `make_self_linkages(self_links())`. -/
theorem relabel_self_links_get (v : Vertex) (hr : v.rank_ = v.lines_.length)
    (hn : v.lines_.length < 256) (i : Nat) (h : i < v.lines_.length) :
    (Vertex.relabel_loop (Vertex.self_links v) v.lines_ [])[i]? =
      some (if 2 ≤ label_count v.lines_ (v.lines_.get ⟨i, h⟩).label_ then
        Vertex.delta_line (v.lines_.get ⟨i, h⟩)
          (label_count (v.lines_.take i) (v.lines_.get ⟨i, h⟩).label_)
        else v.lines_.get ⟨i, h⟩) := by
  rw [relabel_loop_get (Vertex.self_links v) v.lines_ [] List.Pairwise.nil
    (fun k => by simp [smap_get]) i h]
  have hlt : label_count (v.lines_.take i) (v.lines_.get ⟨i, h⟩).label_ < 256 :=
    lt_of_le_of_lt (label_count_take_le _ _ _) (lt_of_le_of_lt (label_count_le _ _) hn)
  by_cases hc : 2 ≤ label_count v.lines_ (v.lines_.get ⟨i, h⟩).label_
  · rw [if_pos ((self_links_has_iff v hr hn _).2 hc), if_pos hc]
    simp only [smap_get, Nat.zero_add, Nat.mod_eq_of_lt hlt]
  · have hf : ¬ smap_has (Vertex.self_links v) (v.lines_.get ⟨i, h⟩).label_ = true :=
      fun hh => hc ((self_links_has_iff v hr hn _).1 hh)
    rw [if_neg hf, if_neg hc]

/-- The delta vertices built by `make_self_linkages(self_links())`. -/
theorem self_links_deltas (v : Vertex) (hr : v.rank_ = v.lines_.length)
    (hn : v.lines_.length < 256)
    (hok : ∀ l ∈ v.lines_, 2 ≤ label_count v.lines_ l.label_ → l.delta_ok = true) :
    ∃ deltas,
      Vertex.all_defined
        (((Vertex.self_links v).flatMap fun e => Vertex.delta_lines_list e.2.1 e.2.2).map
          Vertex.make_delta) = some deltas ∧
      deltas.map (fun d => (d.base_name_, d.rank_, d.lines_.map fun l => l.label_)) =
        (Vertex.self_links v).flatMap fun e =>
          (List.range (label_count v.lines_ e.1 / 2)).map fun k =>
            ("Id", 2, [e.1 ++ to_string (2 * k), e.1 ++ to_string (2 * k + 1)]) := by
  obtain ⟨_, i2, _⟩ := self_links_entries v hr hn
  have hmem : ∀ dl ∈ (Vertex.self_links v).flatMap
      (fun e => Vertex.delta_lines_list e.2.1 e.2.2),
      ∃ d, Vertex.make_delta dl = some d ∧
        (d.base_name_, d.rank_, d.lines_.map fun l => l.label_) =
          ("Id", 2, dl.map fun l => l.label_) := by
    intro dl hdl
    rw [List.mem_flatMap] at hdl
    obtain ⟨e, he, hdl⟩ := hdl
    rw [delta_lines_list_eq, List.mem_map] at hdl
    obtain ⟨k, _, rfl⟩ := hdl
    obtain ⟨a, _, c, d⟩ := i2 e he
    have hd : e.2.1.delta_ok = true := hok _ c (by rw [d]; exact a)
    obtain ⟨dv, h1, h2, h3, h4⟩ := make_delta_pair e.2.1 (2 * k) (2 * k + 1) hd
    exact ⟨dv, h1, by rw [h2, h3, h4]⟩
  obtain ⟨deltas, hd, hf⟩ := all_defined_map Vertex.make_delta
    (fun dl d => (d.base_name_, d.rank_, d.lines_.map fun l => l.label_) =
      ("Id", 2, dl.map fun l => l.label_)) _ hmem
  refine ⟨deltas, hd, ?_⟩
  rw [forall2_map_eq (fun dl : List Line => ("Id", 2, dl.map fun l => l.label_)) _ _ _ hf,
    List.map_flatMap]
  apply flatMap_congr_mem
  intro e he
  obtain ⟨_, b, _, d⟩ := i2 e he
  rw [delta_lines_list_eq, List.map_map, b]
  apply List.map_congr_left
  intro k _
  simp [Vertex.delta_line, d]

/-- Two lines of a vertex that carry the same label get different labels in
    `make_self_linkages(self_links())`. -/
theorem relabel_self_links_distinct (v : Vertex) (hr : v.rank_ = v.lines_.length)
    (hn : v.lines_.length < 256) (i j : Nat) (hij : i < j) (hj : j < v.lines_.length)
    (hl : (v.lines_.get ⟨i, lt_trans hij hj⟩).label_ = (v.lines_.get ⟨j, hj⟩).label_)
    (a b : Line)
    (ha : (Vertex.relabel_loop (Vertex.self_links v) v.lines_ [])[i]? = some a)
    (hb : (Vertex.relabel_loop (Vertex.self_links v) v.lines_ [])[j]? = some b) :
    a.label_ ≠ b.label_ := by
  have hi : i < v.lines_.length := lt_trans hij hj
  rw [relabel_self_links_get v hr hn i hi] at ha
  rw [relabel_self_links_get v hr hn j hj] at hb
  have h1 := label_count_take_succ v.lines_ i hi (v.lines_.get ⟨i, hi⟩).label_
  rw [if_pos rfl] at h1
  have h2 := label_count_take_mono v.lines_ (i + 1) j hij (v.lines_.get ⟨i, hi⟩).label_
  have h3 := label_count_take_succ v.lines_ j hj (v.lines_.get ⟨i, hi⟩).label_
  rw [if_pos hl.symm] at h3
  have h4 := label_count_take_le v.lines_ (j + 1) (v.lines_.get ⟨i, hi⟩).label_
  have h5 := label_count_le v.lines_ (v.lines_.get ⟨i, hi⟩).label_
  have hc : 2 ≤ label_count v.lines_ (v.lines_.get ⟨i, hi⟩).label_ := by omega
  rw [if_pos hc] at ha
  rw [← hl, if_pos hc] at hb
  cases Option.some.inj ha
  cases Option.some.inj hb
  intro heq
  simp only [Vertex.delta_line] at heq
  rw [hl] at heq
  have h6 := to_string_injective_small _ _ (by rw [hl] at h1 h2 h3 h4 h5; omega)
    (by rw [hl] at h1 h2 h3 h4 h5; omega) (string_append_left_cancel _ _ _ heq)
  rw [hl] at h1 h2
  omega

/-- C19 (amended): for a vertex with `rank = |lines|`, fewer than 256 lines
    and no repeated line that is at once virtual and blocked,
    `make_self_linkages(self_links())` returns; a line whose label is
    repeated gets the number of earlier lines with that label appended, every
    other line is left as it is; two lines that carried the same label carry
    different labels afterwards; and the returned vertices are, for each
    repeated label of frequency `f` in the order of the map, `f / 2` vertices
    of base name `Id` and rank 2 with the lines `label+2k`, `label+(2k+1)`. -/
theorem make_self_linkages_spec (v : Vertex) (hr : v.rank_ = v.lines_.length)
    (hn : v.lines_.length < 256)
    (hok : ∀ l ∈ v.lines_, 2 ≤ label_count v.lines_ l.label_ → l.delta_ok = true) :
    ∃ w deltas, Vertex.make_self_linkages v (Vertex.self_links v) = some (w, deltas) ∧
      w.lines_.length = v.lines_.length ∧
      (∀ (i : Nat) (h : i < v.lines_.length), w.lines_[i]? =
        some (if 2 ≤ label_count v.lines_ (v.lines_.get ⟨i, h⟩).label_ then
          Vertex.delta_line (v.lines_.get ⟨i, h⟩)
            (label_count (v.lines_.take i) (v.lines_.get ⟨i, h⟩).label_)
          else v.lines_.get ⟨i, h⟩)) ∧
      (∀ (i j : Nat) (a b x y : Line), i < j →
        v.lines_[i]? = some a → v.lines_[j]? = some b → a.label_ = b.label_ →
        w.lines_[i]? = some x → w.lines_[j]? = some y → x.label_ ≠ y.label_) ∧
      deltas.map (fun d => (d.base_name_, d.rank_, d.lines_.map fun l => l.label_)) =
        (Vertex.self_links v).flatMap fun e =>
          (List.range (label_count v.lines_ e.1 / 2)).map fun k =>
            ("Id", 2, [e.1 ++ to_string (2 * k), e.1 ++ to_string (2 * k + 1)]) := by
  obtain ⟨deltas, hd, hm⟩ := self_links_deltas v hr hn hok
  refine ⟨{ v with lines_ := Vertex.relabel_loop (Vertex.self_links v) v.lines_ [] }, deltas,
    ?_, relabel_loop_length _ _ _, fun i h => relabel_self_links_get v hr hn i h, ?_, hm⟩
  · unfold Vertex.make_self_linkages
    rw [hd]
    rfl
  · intro i j a b x y hij ha hb hab hx hy
    obtain ⟨hj, hbj⟩ := List.getElem?_eq_some_iff.1 hb
    obtain ⟨hi, hai⟩ := List.getElem?_eq_some_iff.1 ha
    refine relabel_self_links_distinct v hr hn i j hij hj ?_ x y hx hy
    simp only [List.get_eq_getElem, hai, hbj, hab]

/-- C19, instance of the amended claim: `t(a,a)` becomes `t(a0,a1)` next to
    one vertex `Id(a0,a1)`. -/
theorem make_self_linkages_spec_witness :
    (ex_t_aa.rank_ = ex_t_aa.lines_.length ∧ ex_t_aa.lines_.length < 256 ∧
      ∀ l ∈ ex_t_aa.lines_, 2 ≤ label_count ex_t_aa.lines_ l.label_ → l.delta_ok = true) ∧
    ∃ w deltas,
      Vertex.make_self_linkages ex_t_aa (Vertex.self_links ex_t_aa) = some (w, deltas) ∧
      w.lines_.length = ex_t_aa.lines_.length ∧
      (∀ (i : Nat) (h : i < ex_t_aa.lines_.length), w.lines_[i]? =
        some (if 2 ≤ label_count ex_t_aa.lines_ (ex_t_aa.lines_.get ⟨i, h⟩).label_ then
          Vertex.delta_line (ex_t_aa.lines_.get ⟨i, h⟩)
            (label_count (ex_t_aa.lines_.take i) (ex_t_aa.lines_.get ⟨i, h⟩).label_)
          else ex_t_aa.lines_.get ⟨i, h⟩)) ∧
      (∀ (i j : Nat) (a b x y : Line), i < j →
        ex_t_aa.lines_[i]? = some a → ex_t_aa.lines_[j]? = some b → a.label_ = b.label_ →
        w.lines_[i]? = some x → w.lines_[j]? = some y → x.label_ ≠ y.label_) ∧
      deltas.map (fun d => (d.base_name_, d.rank_, d.lines_.map fun l => l.label_)) =
        (Vertex.self_links ex_t_aa).flatMap fun e =>
          (List.range (label_count ex_t_aa.lines_ e.1 / 2)).map fun k =>
            ("Id", 2, [e.1 ++ to_string (2 * k), e.1 ++ to_string (2 * k + 1)]) :=
  ⟨⟨rfl, by decide, by decide⟩, make_self_linkages_spec ex_t_aa rfl (by decide) (by decide)⟩

/-- C19, counterexample: on `h(i,i,i0)` the call leaves the labels
    `i0, i1, i0`: the first line and the line that was already called `i0`
    now carry the same label. -/
theorem make_self_linkages_label_collision :
    ex_h_ii_i0.lines_.map (fun l => l.label_) = ["i", "i", "i0"] ∧
    (Vertex.make_self_linkages ex_h_ii_i0 (Vertex.self_links ex_h_ii_i0)).map
      (fun r => r.1.lines_.map fun l => l.label_) = some ["i0", "i1", "i0"] := by
  decide

/-! ## Generic lines (`general_lines`) -/

/-- C21 (amended): `a == b` holds exactly when the label and the four kind
    bits (occupied, active, sigma, density) agree; `blk_type_` is not
    looked at. -/
theorem Line_op_eq_fields (a b : Line) :
    Line.op_eq a b = true ↔
      a.label_ = b.label_ ∧ a.o_ = b.o_ ∧ a.a_ = b.a_ ∧ a.sig_ = b.sig_ ∧ a.den_ = b.den_ := by
  simp only [Line.op_eq, Bool.and_eq_true, beq_iff_eq]
  tauto

/-- C21, counterexample: the spin-blocked alpha line `Line("a", 'a')` and the
    range-blocked active line `Line("a", '1')` have the block types `s` and
    `r`, and `operator==` holds of them. -/
theorem Line_op_eq_ignores_block :
    Line.of_name Line.occ_labels_ Line.virt_labels_ Line.sig_labels_ Line.den_labels_ "a" 'a' =
      some ⟨"a", false, true, 's', false, false⟩ ∧
    Line.of_name Line.occ_labels_ Line.virt_labels_ Line.sig_labels_ Line.den_labels_ "a" '1' =
      some ⟨"a", false, true, 'r', false, false⟩ ∧
    Line.op_eq ⟨"a", false, true, 's', false, false⟩ ⟨"a", false, true, 'r', false, false⟩ =
      true := by
  decide

/-- C23: for every configuration of the four alphabets, every non-empty name
    and every valid block character the constructor `Line(name, blk)`
    returns a line; the line is not both sigma and density; a sigma or density
    line is not occupied; and when the first character of the name is in none
    of the alphabets the line is virtual (occupied, sigma and density all
    false). -/
theorem Line_constructor_kinds (occ virt sig den : List Char) (name : String) (blk : Char)
    (hn : name ≠ "") (hb : blk ∈ ['\x00', 'a', 'b', '0', '1']) :
    ∃ l, Line.of_name occ virt sig den name blk = some l ∧
      l.label_ = name ∧
      ¬ (l.sig_ = true ∧ l.den_ = true) ∧
      (l.sig_ = true ∨ l.den_ = true → l.o_ = false) ∧
      ((∀ c, name.data.head? = some c → c ∉ occ ∧ c ∉ virt ∧ c ∉ sig ∧ c ∉ den) →
        l.o_ = false ∧ l.sig_ = false ∧ l.den_ = false) := by
  have hd : name.data ≠ [] := fun h => hn (String.ext h)
  obtain ⟨b, hbs⟩ : ∃ b, Line.block_switch blk = some b := by
    simp only [List.mem_cons, List.mem_singleton, List.not_mem_nil, or_false] at hb
    rcases hb with h | h | h | h | h <;> subst h <;> exact ⟨_, rfl⟩
  unfold Line.of_name
  cases hdat : name.data with
  | nil => exact absurd hdat hd
  | cons c rest =>
    simp only
    by_cases h0 : c = '\x00'
    · rw [if_pos h0]
      exact ⟨_, rfl, rfl, by simp, by simp, by simp⟩
    · rw [if_neg h0, hbs]
      refine ⟨_, rfl, rfl, ?_, ?_, ?_⟩
      · cases ho : occ.contains c <;> cases hv : virt.contains c <;>
          cases hs : sig.contains c <;> simp
      · cases ho : occ.contains c <;> cases hv : virt.contains c <;>
          cases hs : sig.contains c <;> simp
      · intro hall
        obtain ⟨h1, h2, h3, h4⟩ := hall c (by simp)
        simp [h1, h2, h3, h4]

/-- C23, instance: `Line("x", 'b')` with the initial alphabets, where `x` is
    in none of them. -/
theorem Line_constructor_kinds_witness :
    (("x" : String) ≠ "" ∧ 'b' ∈ ['\x00', 'a', 'b', '0', '1']) ∧
    ∃ l, Line.of_name Line.occ_labels_ Line.virt_labels_ Line.sig_labels_ Line.den_labels_
        "x" 'b' = some l ∧
      l.label_ = "x" ∧
      ¬ (l.sig_ = true ∧ l.den_ = true) ∧
      (l.sig_ = true ∨ l.den_ = true → l.o_ = false) ∧
      ((∀ c, ("x" : String).data.head? = some c →
          c ∉ Line.occ_labels_ ∧ c ∉ Line.virt_labels_ ∧ c ∉ Line.sig_labels_ ∧
            c ∉ Line.den_labels_) →
        l.o_ = false ∧ l.sig_ = false ∧ l.den_ = false) :=
  ⟨⟨by decide, by decide⟩,
    Line_constructor_kinds Line.occ_labels_ Line.virt_labels_ Line.sig_labels_
      Line.den_labels_ "x" 'b' (by decide) (by decide)⟩

theorem Line_op_lt_lex (a b : Line) :
    Line.op_lt a b = true ↔
      (a.sig_ = true ∧ b.sig_ = false) ∨
      (a.sig_ = b.sig_ ∧
        ((a.den_ = true ∧ b.den_ = false) ∨
        (a.den_ = b.den_ ∧
          ((a.o_ = false ∧ b.o_ = true) ∨
          (a.o_ = b.o_ ∧
            ((a.a_ = true ∧ b.a_ = false) ∨
            (a.a_ = b.a_ ∧ a.label_ < b.label_))))))) := by
  unfold Line.op_lt
  cases a.sig_ <;> cases b.sig_ <;> cases a.den_ <;> cases b.den_ <;>
    cases a.o_ <;> cases b.o_ <;> cases a.a_ <;> cases b.a_ <;>
    simp [str_lt_iff]

/-- C24: `Line::operator<` is irreflexive and transitive; of `a < b`,
    `a == b`, `b < a` exactly one holds; and `a < b` is the lexicographic
    comparison by sigma before non-sigma, density before non-density, virtual
    before occupied, active before inactive, then label ascending. -/
theorem Line_op_lt_strict_total (a b c : Line) :
    Line.op_lt a a = false ∧
    (Line.op_lt a b = true → Line.op_lt b c = true → Line.op_lt a c = true) ∧
    ((Line.op_lt a b = true ∧ Line.op_eq a b = false ∧ Line.op_lt b a = false) ∨
      (Line.op_lt a b = false ∧ Line.op_eq a b = true ∧ Line.op_lt b a = false) ∨
      (Line.op_lt a b = false ∧ Line.op_eq a b = false ∧ Line.op_lt b a = true)) ∧
    (Line.op_lt a b = true ↔
      (a.sig_ = true ∧ b.sig_ = false) ∨
      (a.sig_ = b.sig_ ∧
        ((a.den_ = true ∧ b.den_ = false) ∨
        (a.den_ = b.den_ ∧
          ((a.o_ = false ∧ b.o_ = true) ∨
          (a.o_ = b.o_ ∧
            ((a.a_ = true ∧ b.a_ = false) ∨
            (a.a_ = b.a_ ∧ a.label_ < b.label_)))))))) := by
  refine ⟨?_, ?_, ?_, Line_op_lt_lex a b⟩
  · rw [Line.op_lt_false_iff]
  · intro h1 h2
    rw [Line.op_lt_iff] at h1 h2 ⊢
    exact lt_trans h1 h2
  · rcases lt_trichotomy a.key b.key with h | h | h
    · exact Or.inl ⟨(Line.op_lt_iff a b).2 h, (Line.op_eq_false_iff a b).2 (ne_of_lt h),
        (Line.op_lt_false_iff b a).2 (le_of_lt h)⟩
    · exact Or.inr (Or.inl ⟨(Line.op_lt_false_iff a b).2 (le_of_eq h.symm),
        (Line.op_eq_iff a b).2 h, (Line.op_lt_false_iff b a).2 (le_of_eq h)⟩)
    · exact Or.inr (Or.inr ⟨(Line.op_lt_false_iff a b).2 (le_of_lt h),
        (Line.op_eq_false_iff a b).2 (ne_of_gt h), (Line.op_lt_iff b a).2 h⟩)

/-- C24, instance: the lines `a`, `b` and `i`. -/
theorem Line_op_lt_strict_total_witness :
    (Line.op_lt ex_a ex_b = true ∧ Line.op_lt ex_b ex_i = true) ∧ Line.op_lt ex_a ex_i = true :=
  ⟨⟨by decide, by decide⟩,
    (Line_op_lt_strict_total ex_a ex_b ex_i).2.1 (by decide) (by decide)⟩

/-! ## Equivalence of lines and of vertices -/

theorem Line_equivalent_iff (a b : Line) :
    Line.equivalent a b = true ↔
      a.o_ = b.o_ ∧ a.a_ = b.a_ ∧ a.sig_ = b.sig_ ∧ a.den_ = b.den_ := by
  simp only [Line.equivalent, Bool.and_eq_true, beq_iff_eq]
  tauto

theorem Line_equivalent_symm (a b : Line) (h : Line.equivalent a b = true) :
    Line.equivalent b a = true := by
  rw [Line_equivalent_iff] at h ⊢
  exact ⟨h.1.symm, h.2.1.symm, h.2.2.1.symm, h.2.2.2.symm⟩

theorem Line_equivalent_trans (a b c : Line) (h1 : Line.equivalent a b = true)
    (h2 : Line.equivalent b c = true) : Line.equivalent a c = true := by
  rw [Line_equivalent_iff] at h1 h2 ⊢
  exact ⟨h1.1.trans h2.1, h1.2.1.trans h2.2.1, h1.2.2.1.trans h2.2.2.1,
    h1.2.2.2.trans h2.2.2.2⟩

theorem shape_ofLine_equivalent (a b : Line) (h : Line.equivalent a b = true) :
    shape.ofLine a = shape.ofLine b := by
  rw [Line_equivalent_iff] at h
  obtain ⟨h1, h2, h3, h4⟩ := h
  simp [shape.ofLine, h1, h2, h3, h4]

theorem shape_ofLines_equivalent (xs ys : List Line)
    (h : List.Forall₂ (fun a b => Line.equivalent a b = true) xs ys) :
    shape.ofLines xs = shape.ofLines ys := by
  induction h with
  | nil => rfl
  | cons hab _ ih => rw [shape.ofLines_cons, shape.ofLines_cons, ih, shape_ofLine_equivalent _ _ hab]

theorem positions_equivalent_iff (xs ys : List Line) (n : Nat) :
    positions_equivalent xs ys n = true ↔
      ∀ i, i < n → ∃ a b, xs[i]? = some a ∧ ys[i]? = some b ∧ Line.equivalent a b = true := by
  unfold positions_equivalent
  rw [List.all_eq_true]
  constructor
  · intro h i hi
    have := h i (List.mem_range.2 hi)
    cases hx : xs[i]? with
    | none => simp [hx] at this
    | some a =>
      cases hy : ys[i]? with
      | none => simp [hx, hy] at this
      | some b =>
        simp only [hx, hy] at this
        exact ⟨a, b, rfl, rfl, this⟩
  · intro h i hi
    obtain ⟨a, b, ha, hb, hab⟩ := h i (List.mem_range.1 hi)
    simp only [ha, hb]
    exact hab

theorem forall2_iff_positions (xs ys : List Line) :
    List.Forall₂ (fun a b => Line.equivalent a b = true) xs ys ↔
      xs.length = ys.length ∧
      ∀ i, i < xs.length →
        ∃ a b, xs[i]? = some a ∧ ys[i]? = some b ∧ Line.equivalent a b = true := by
  constructor
  · intro h
    induction h with
    | nil => exact ⟨rfl, fun i hi => absurd hi (Nat.not_lt_zero _)⟩
    | @cons a b as bs hab _ ih =>
      refine ⟨by simp [ih.1], ?_⟩
      intro i hi
      cases i with
      | zero => exact ⟨a, b, by simp, by simp, hab⟩
      | succ j =>
        simp only [List.getElem?_cons_succ]
        exact ih.2 j (by simpa using hi)
  · rintro ⟨hlen, h⟩
    induction xs generalizing ys with
    | nil =>
      cases ys with
      | nil => exact List.Forall₂.nil
      | cons b bs => simp at hlen
    | cons a as ih =>
      cases ys with
      | nil => simp at hlen
      | cons b bs =>
        obtain ⟨a', b', ha, hb, hab⟩ := h 0 (by simp)
        simp only [List.getElem?_cons_zero, Option.some.injEq] at ha hb
        subst ha; subst hb
        refine List.Forall₂.cons hab (ih bs (by simpa using hlen) ?_)
        intro i hi
        have := h (i + 1) (by simpa using hi)
        simpa only [List.getElem?_cons_succ] using this

theorem Vertex_equivalent_eq (v w : Vertex) :
    Vertex.equivalent v w =
      (if v.rank_ != w.rank_ then false
      else if v.shape_ != w.shape_ then false
      else if !(positions_equivalent v.lines_ w.lines_ v.rank_) then false
      else v.base_name_ == w.base_name_) := rfl

theorem Vertex_equivalent_iff_raw (v w : Vertex) :
    Vertex.equivalent v w = true ↔
      v.rank_ = w.rank_ ∧ v.shape_ = w.shape_ ∧
      positions_equivalent v.lines_ w.lines_ v.rank_ = true ∧ v.base_name_ = w.base_name_ := by
  rw [Vertex_equivalent_eq]
  by_cases h1 : v.rank_ = w.rank_ <;> by_cases h2 : v.shape_ = w.shape_ <;>
    by_cases h3 : positions_equivalent v.lines_ w.lines_ v.rank_ = true <;>
    simp [h1, h2, h3]

/-- C22: `Line::equivalent` and `Vertex::equivalent` are reflexive, symmetric
    and transitive, and for vertices that satisfy the vertex invariant
    (`rank = |lines|`, `shape = Σ line shapes`) `v.equivalent(w)` holds exactly
    when the base names and the ranks agree and the lines are equivalent
    position by position. -/
theorem equivalent_is_equivalence (a b c : Line) (u v w : Vertex) (hu : u.Inv) (hv : v.Inv) :
    Line.equivalent a a = true ∧
    (Line.equivalent a b = true → Line.equivalent b a = true) ∧
    (Line.equivalent a b = true → Line.equivalent b c = true →
      Line.equivalent a c = true) ∧
    Vertex.equivalent u u = true ∧
    (Vertex.equivalent u v = true → Vertex.equivalent v u = true) ∧
    (Vertex.equivalent u v = true → Vertex.equivalent v w = true →
      Vertex.equivalent u w = true) ∧
    (Vertex.equivalent u v = true ↔
      u.base_name_ = v.base_name_ ∧ u.rank_ = v.rank_ ∧
      List.Forall₂ (fun x y => Line.equivalent x y = true) u.lines_ v.lines_) := by
  refine ⟨Line_equivalent_refl a, Line_equivalent_symm a b, Line_equivalent_trans a b c,
    Vertex_equivalent_refl u hu.1, ?_, ?_, ?_⟩
  · intro h
    rw [Vertex_equivalent_iff_raw] at h ⊢
    obtain ⟨h1, h2, h3, h4⟩ := h
    refine ⟨h1.symm, h2.symm, ?_, h4.symm⟩
    rw [positions_equivalent_iff] at h3 ⊢
    intro i hi
    obtain ⟨x, y, hx, hy, hxy⟩ := h3 i (by rw [h1]; exact hi)
    exact ⟨y, x, hy, hx, Line_equivalent_symm x y hxy⟩
  · intro h h'
    rw [Vertex_equivalent_iff_raw] at h h' ⊢
    obtain ⟨h1, h2, h3, h4⟩ := h
    obtain ⟨k1, k2, k3, k4⟩ := h'
    refine ⟨h1.trans k1, h2.trans k2, ?_, h4.trans k4⟩
    rw [positions_equivalent_iff] at h3 k3 ⊢
    intro i hi
    obtain ⟨x, y, hx, hy, hxy⟩ := h3 i hi
    obtain ⟨y', z, hy', hz, hyz⟩ := k3 i (by rw [← h1]; exact hi)
    rw [hy] at hy'
    cases Option.some.inj hy'
    exact ⟨x, z, hx, hz, Line_equivalent_trans x y z hxy hyz⟩
  · rw [Vertex_equivalent_iff_raw, positions_equivalent_iff, forall2_iff_positions]
    constructor
    · rintro ⟨h1, _, h3, h4⟩
      refine ⟨h4, h1, ?_, ?_⟩
      · rw [← hu.1, ← hv.1]; exact h1
      · intro i hi
        exact h3 i (by rw [hu.1]; exact hi)
    · rintro ⟨h4, h1, hlen, h3⟩
      refine ⟨h1, ?_, ?_, h4⟩
      · rw [hu.2, hv.2]
        exact shape_ofLines_equivalent _ _ ((forall2_iff_positions _ _).2 ⟨hlen, h3⟩)
      · intro i hi
        exact h3 i (by rw [← hu.1]; exact hi)

/-- C22, instance: the lines `a`, `b`, `c` and the vertices `g(a,b,i,j)`,
    `g(b,c,k,l)`, `g(b,a,i,j)`. -/
theorem equivalent_is_equivalence_witness :
    (ex_g_abij.Inv ∧ ex_g_bckl.Inv) ∧
    Vertex.equivalent ex_g_abij ex_g_bckl = true ∧
    Vertex.equivalent ex_g_bckl ex_g_abij = true ∧
    Vertex.equivalent ex_g_abij ex_g_baij = true :=
  ⟨⟨by decide, by decide⟩, by decide,
    (equivalent_is_equivalence ex_a ex_b ex_c ex_g_abij ex_g_bckl ex_g_baij (by decide)
      (by decide)).2.2.2.2.1 (by decide),
    (equivalent_is_equivalence ex_a ex_b ex_c ex_g_abij ex_g_bckl ex_g_baij (by decide)
      (by decide)).2.2.2.2.2.1 (by decide) (by decide)⟩

/-! ## The counters of intermediates (`PQGraph::substitute`) -/

theorem smap_get_assign (m : List (String × Nat)) (key : String) (value : Nat)
    (key2 : String) :
    smap_get (smap_assign m key value) key2 =
      if key2 = key then value else smap_get m key2 := by
  induction m with
  | nil =>
    by_cases h : key2 = key
    · simp [smap_assign, smap_get, h]
    · have h' : ¬ key = key2 := fun e => h e.symm
      simp [smap_assign, smap_get, h, h']
  | cons hd rest ih =>
    obtain ⟨k, n⟩ := hd
    unfold smap_assign
    by_cases h1 : str_lt key k = true
    · rw [if_pos h1]
      by_cases h : key2 = key
      · simp [smap_get, h]
      · have h' : ¬ key = key2 := fun e => h e.symm
        simp [smap_get, h, h']
    · rw [if_neg h1]
      by_cases h2 : str_lt k key = true
      · rw [if_pos h2]
        have hne : k ≠ key := by
          intro e
          rw [e] at h2
          have := str_lt_asymm key key h2
          rw [h2] at this
          exact Bool.noConfusion this
        by_cases h : k = key2
        · have h3 : key2 ≠ key := fun e => hne (h.trans e)
          simp [smap_get, h, h3]
        · simp only [smap_get, h, if_false]
          exact ih
      · rw [if_neg h2]
        have hk : k = key := by
          by_contra hne
          rcases str_lt_total k key hne with h3 | h3
          · exact h2 h3
          · exact h1 h3
        subst hk
        by_cases h : key2 = k
        · simp [smap_get, h]
        · have h' : ¬ k = key2 := fun e => h e.symm
          simp [smap_get, h, h']

/-- The counters after one commit: the counter of the kind of the linkage
    is one higher when a substitution was made, and nothing else changes. -/
theorem commit_step_counts (m : Missing) (temp_type : String) (found : Node) (g : PQGraph)
    (k : String) :
    smap_get (PQGraph.commit_step m temp_type found g).1.temp_counts_ k =
      if (PQGraph.commit_step m temp_type found g).2 = true ∧
          k = PQGraph.eq_type temp_type found
      then smap_get g.temp_counts_ k + 1 else smap_get g.temp_counts_ k := by
  unfold PQGraph.commit_step
  simp only
  split_ifs with h1 h2 h3
  · exact absurd h2.1 (by simp)
  · simp only [smap_get_assign]
    split_ifs with h4
    · rw [h4]; simp
    · rfl
  · simp only [smap_get_assign]
    rw [if_pos h3.2, h3.2]
  · simp only [smap_get_assign]
    have : ¬ k = PQGraph.eq_type temp_type found := fun e => h3 ⟨rfl, e⟩
    rw [if_neg this]

theorem commit_loop_single (m : Missing) (batch_size max_temps : Nat) (temp_type : String)
    (l : List Node) (batch_count : Nat) (g : PQGraph) (k : String) :
    smap_get (PQGraph.commit_loop m false batch_size max_temps temp_type l batch_count
      g).temp_counts_ k ≤ smap_get g.temp_counts_ k + 1 := by
  induction l generalizing g with
  | nil => simp [PQGraph.commit_loop]
  | cons f rest ih =>
    unfold PQGraph.commit_loop
    simp only
    have hc := commit_step_counts m temp_type f g k
    by_cases h : (PQGraph.commit_step m temp_type f g).2 = true
    · simp only [h, Bool.not_true, Bool.false_eq_true, if_false, Bool.not_false,
        Bool.true_or, if_true]
      rw [hc]
      split_ifs <;> omega
    · have h' : (PQGraph.commit_step m temp_type f g).2 = false := by simpa using h
      simp only [h', Bool.not_false, if_true]
      refine le_trans (ih _) ?_
      rw [hc]
      simp [h']

theorem substitute_loop_bound (m : Missing) (batch_size max_temps : Nat) (temp_type : String)
    (hre : ∀ g, (m.regenerate g).temp_counts_ = g.temp_counts_)
    (passes : List (List Node)) (g : PQGraph)
    (h0 : smap_get g.temp_counts_ temp_type ≤ max_temps) :
    smap_get (PQGraph.substitute_loop m false batch_size max_temps temp_type passes
      g).temp_counts_ temp_type ≤ max_temps := by
  induction passes generalizing g with
  | nil => exact h0
  | cons p later ih =>
    unfold PQGraph.substitute_loop
    split_ifs with h
    · apply ih
      rw [hre]
      have := commit_loop_single m batch_size max_temps temp_type p 0 g temp_type
      omega
    · exact h0

/-- C25 (amended): in a run of `PQGraph::substitute` that is not batched and
    is entered with the counter of the kind it looks for (`scalar` with
    `only_scalars`, else `reused` with `format_sigma`, else `temp`) at most
    `max_temps`, that counter is at most `max_temps` at the return, whatever
    the scoring finds; the members of `PQGraph` whose definitions are not
    among the sources are taken to leave `temp_counts_` as it is. -/
theorem substitute_counts_bound (m : Missing) (batch_size max_temps : Nat)
    (format_sigma only_scalars : Bool) (passes : List (List Node)) (g : PQGraph)
    (hm : ∀ g, (m.reorder g).temp_counts_ = g.temp_counts_ ∧
      (m.generate g).temp_counts_ = g.temp_counts_ ∧
      (m.regenerate g).temp_counts_ = g.temp_counts_ ∧
      (m.finish g).temp_counts_ = g.temp_counts_)
    (h0 : smap_get g.temp_counts_ (PQGraph.temp_type format_sigma only_scalars) ≤ max_temps) :
    smap_get
      (PQGraph.substitute m false batch_size max_temps format_sigma only_scalars passes
        g).temp_counts_ (PQGraph.temp_type format_sigma only_scalars) ≤ max_temps := by
  unfold PQGraph.substitute
  simp only
  rw [(hm _).2.2.2]
  apply substitute_loop_bound m batch_size max_temps _ (fun g => (hm g).2.2.1)
  rw [(hm _).2.1]
  simp only
  rw [(hm _).1]
  exact h0

/-- C25, instance of the amended claim: one pass that finds `t(a,i) * u(i)`
    with `max_temps = 1`. -/
theorem substitute_counts_bound_witness :
    ((∀ g, (ex_missing.reorder g).temp_counts_ = g.temp_counts_ ∧
        (ex_missing.generate g).temp_counts_ = g.temp_counts_ ∧
        (ex_missing.regenerate g).temp_counts_ = g.temp_counts_ ∧
        (ex_missing.finish g).temp_counts_ = g.temp_counts_) ∧
      smap_get ex_graph.temp_counts_ (PQGraph.temp_type false false) ≤ 1) ∧
    smap_get
      (PQGraph.substitute ex_missing false (2 ^ 64 - 1) 1 false false [[ex_tu]]
        ex_graph).temp_counts_ (PQGraph.temp_type false false) ≤ 1 :=
  ⟨⟨fun _ => ⟨rfl, rfl, rfl, rfl⟩, by decide⟩,
    substitute_counts_bound ex_missing (2 ^ 64 - 1) 1 false false [[ex_tu]] ex_graph
      (fun _ => ⟨rfl, rfl, rfl, rfl⟩) (by decide)⟩

/-- C25, counterexample: a run that is not batched, with `max_temps = 1`,
    looks for `temp` intermediates and finds the scalar `f(i,a) * t(a,i)` in
    its first pass and the scalar `g(a,b,i,j) * g(a,b,i,j)` in its second
    pass; it returns with `temp_counts_["scalar"] = 2`. -/
theorem substitute_scalars_exceed_max_temps :
    ex_sc_ft.is_scalar = true ∧ ex_sc_gg.is_scalar = true ∧
    smap_get ex_graph.temp_counts_ "scalar" = 0 ∧
    smap_get
      (PQGraph.substitute ex_missing false (2 ^ 64 - 1) 1 false false
        [[ex_sc_ft], [ex_sc_gg]] ex_graph).temp_counts_ "scalar" = 2 := by
  decide

/-- A batched run with `max_temps = 1` that finds the two linkages
    `t(a,i) * u(i)` and `g(a,b,i,j) * t(a,i)` of the kind `temp` in one pass
    commits both: the test that ends the batch is
    `temp_counts_[eq_type] > max_temps_`. -/
theorem substitute_batch_exceeds_max_temps :
    ex_tu.is_scalar = false ∧ ex_gt.is_scalar = false ∧
    smap_get
      (PQGraph.substitute ex_missing true (2 ^ 64 - 1) 1 false false [[ex_tu, ex_gt]]
        ex_graph).temp_counts_ "temp" = 2 := by
  decide

/-! ## Sigma lines and the `reused` equation (`PQGraph::substitute`) -/

theorem classify_foldl_sigma (m : List (Line × Nat)) (st : Linkage.Links) :
    (m.foldl Linkage.classify st).is_sigma_ =
      (st.is_sigma_ || (ext_of m).any fun l => l.sig_) := by
  induction m generalizing st with
  | nil => simp [ext_of]
  | cons e rest ih =>
    rw [List.foldl_cons, ih, ext_of_cons]
    by_cases h1 : e.2 = 1
    · rw [if_pos h1]
      cases hs : e.1.sig_ <;> simp [Linkage.classify, h1, hs]
    · rw [if_neg h1]
      simp [Linkage.classify, h1]

theorem set_links_sigma (a b : Vertex) (ha : a.size ≠ 0) (hb : b.size ≠ 0) :
    (Linkage.set_links a b).is_sigma_ =
      (Linkage.set_links a b).lines_.any fun l => l.sig_ := by
  rw [(set_links_general a b ha hb).1]
  have e : Linkage.set_links a b =
      (Linkage.line_populations a.lines_ b.lines_).foldl Linkage.classify
        Linkage.Links.init := by
    unfold Linkage.set_links
    simp [ha, hb]
  rw [e, classify_foldl_sigma]
  simp [Linkage.Links.init]

theorem assemble_sigma (update_name : Node → Node → Vertex → String) (l r : Node)
    (is_addition : Bool) (hl : l.vert.size ≠ 0) (hr : r.vert.size ≠ 0) :
    (Linkage.assemble update_name l r is_addition).vert.is_sigma_ =
      (Linkage.assemble update_name l r is_addition).vert.lines_.any fun x => x.sig_ := by
  have := set_links_sigma l.vert r.vert hl hr
  simpa [Linkage.assemble, Node.vert] using this

/-- The flag `is_sigma_` of a constructed linkage whose two children have
    lines: some external line of the linkage is a sigma line. -/
theorem Linkage_sigma (update_name : Node → Node → Vertex → String) (l r : Node)
    (is_addition : Bool) (hl : l.vert.size ≠ 0) (hr : r.vert.size ≠ 0) :
    (Linkage.Linkage update_name l r is_addition).vert.is_sigma_ =
      (Linkage.Linkage update_name l r is_addition).vert.lines_.any fun x => x.sig_ := by
  unfold Linkage.Linkage
  rcases order_children_cases l r with h | h <;> rw [h]
  · exact assemble_sigma update_name l r is_addition hl hr
  · exact assemble_sigma update_name r l is_addition hr hl

theorem Node_set_id_vert (k : Int) (n : Node) : (n.set_id k).vert = n.vert := by
  cases n <;> rfl

theorem Node_set_reused_vert (b : Bool) (n : Node) : (n.set_reused b).vert = n.vert := by
  cases n <;> rfl

theorem Node_set_id_reused (k : Int) (b : Bool) (n : Node) (h : n.is_linked = true) :
    ((n.set_reused b).set_id k).is_reused_ = b := by
  cases n with
  | vertex v => simp [Node.is_linked] at h
  | linkage v d l r => rfl

theorem smap_eq_assign_self (m : List (String × Equation)) (key : String) (value : Equation) :
    smap_eq (smap_assign m key value) key = value := by
  induction m with
  | nil => simp [smap_assign, smap_eq]
  | cons hd rest ih =>
    obtain ⟨k, b⟩ := hd
    unfold smap_assign
    by_cases h1 : str_lt key k = true
    · rw [if_pos h1]
      simp [smap_eq]
    · rw [if_neg h1]
      by_cases h2 : str_lt k key = true
      · rw [if_pos h2]
        have hne : k ≠ key := by
          intro e
          rw [e] at h2
          have := str_lt_asymm key key h2
          rw [h2] at this
          exact Bool.noConfusion this
        unfold smap_eq at ih ⊢
        simp only [List.find?_cons, hne, decide_False]
        exact ih
      · rw [if_neg h2]
        have hk : k = key := by
          by_contra hne
          rcases str_lt_total k key hne with h3 | h3
          · exact h2 h3
          · exact h1 h3
        simp [smap_eq, hk]

/-- C26 (amended): in a run with `format_sigma` on, a candidate that is
    built from two children with lines and is not a scalar passes the head of
    the scoring loop exactly when `only_scalars` is off and none of its
    external lines (the lines that occur once among the lines of the two
    children) is a sigma line; it is then flagged reused, its equation is
    `reused`, and a commit that makes a substitution appends its declaration
    to the equation `reused`. -/
theorem reused_iff_no_external_sigma (update_name : Node → Node → Vertex → String)
    (l r : Node) (is_addition only_scalars no_scalars : Bool)
    (temp_counts : List (String × Nat)) (hl : l.vert.size ≠ 0) (hr : r.vert.size ≠ 0)
    (hns : (Linkage.Linkage update_name l r is_addition).is_scalar = false) :
    ((PQGraph.screen true only_scalars no_scalars temp_counts
        (Linkage.Linkage update_name l r is_addition)).isSome = true ↔
      only_scalars = false ∧
      ∀ x ∈ (Linkage.Linkage update_name l r is_addition).vert.lines_, x.sig_ = false) ∧
    ∀ n, PQGraph.screen true only_scalars no_scalars temp_counts
        (Linkage.Linkage update_name l r is_addition) = some n →
      n.is_reused_ = true ∧
      PQGraph.eq_type (PQGraph.temp_type true only_scalars) n = "reused" ∧
      ∀ (m : Missing) (g : PQGraph),
        (PQGraph.commit_step m (PQGraph.temp_type true only_scalars) n g).2 = true →
        (smap_eq (PQGraph.commit_step m (PQGraph.temp_type true only_scalars) n
          g).1.equations_ "reused").terms.getLast? =
            some (m.term_of_linkage (n.set_id (smap_get g.temp_counts_ "reused" + 1 : Nat))) := by
  have hsig := Linkage_sigma update_name l r is_addition hl hr
  have hlinked : (Linkage.Linkage update_name l r is_addition).is_linked = true := rfl
  have hscreen : PQGraph.screen true only_scalars no_scalars temp_counts
      (Linkage.Linkage update_name l r is_addition) =
      if (Linkage.Linkage update_name l r is_addition).vert.is_sigma_ = true ∨
          only_scalars = true then none
      else some (((Linkage.Linkage update_name l r is_addition).set_reused true).set_id
        ((smap_get temp_counts (PQGraph.eq_type (PQGraph.temp_type true only_scalars)
          (Linkage.Linkage update_name l r is_addition)) : Nat) + 1)) := by
    unfold PQGraph.screen
    simp [hns]
  constructor
  · rw [hscreen, hsig]
    cases only_scalars <;> simp
  · intro n hn
    rw [hscreen] at hn
    split_ifs at hn with hc
    have hos : only_scalars = false := by
      cases only_scalars
      · rfl
      · exact absurd (Or.inr rfl) hc
    subst hos
    cases Option.some.inj hn
    have hsc : ∀ k, (((Linkage.Linkage update_name l r is_addition).set_reused true).set_id
        k).is_scalar = false := by
      intro k
      unfold Node.is_scalar at hns ⊢
      rw [Node_set_id_vert, Node_set_reused_vert]
      exact hns
    have het : ∀ k, PQGraph.eq_type (PQGraph.temp_type true false)
        (((Linkage.Linkage update_name l r is_addition).set_reused true).set_id k) =
        "reused" := by
      intro k
      simp [PQGraph.eq_type, hsc k, PQGraph.temp_type]
    refine ⟨Node_set_id_reused _ _ _ hlinked, het _, ?_⟩
    intro m g hcommit
    unfold PQGraph.commit_step at hcommit ⊢
    simp only [het] at hcommit ⊢
    split_ifs at hcommit ⊢ with h0
    simp only [smap_eq_assign_self, PQGraph.add_tmp]
    simp

/-- The vertices `l1(L,a,i)` and `r1(L,b,j)` and the line `L` of the worked
    instances are what the constructors build. -/
theorem ex_sigma_data_built :
    Vertex.of_lines "l1" [ex_L, ex_a, ex_i] = some ex_l1_Lai ∧
    Vertex.of_lines "r1" [ex_L, ex_b, ex_j] = some ex_r1_Lbj ∧
    Line.of_name Line.occ_labels_ Line.virt_labels_ Line.sig_labels_ Line.den_labels_
      "L" '\x00' = some ex_L := by
  decide

/-- C26, instance of the amended claim: the candidate `t(a,i) * u(i)`, whose
    external line `a` is not a sigma line, passes the head of the scoring
    loop of a run with `format_sigma` on. -/
theorem reused_iff_no_external_sigma_witness :
    ((Node.vertex ex_t_ai).vert.size ≠ 0 ∧ (Node.vertex ex_u_i).vert.size ≠ 0 ∧
      (Linkage.Linkage ex_update_name (Node.vertex ex_t_ai) (Node.vertex ex_u_i)
        false).is_scalar = false) ∧
    (PQGraph.screen true false false []
      (Linkage.Linkage ex_update_name (Node.vertex ex_t_ai) (Node.vertex ex_u_i)
        false)).isSome = true :=
  ⟨⟨by decide, by decide, by decide⟩,
    (reused_iff_no_external_sigma ex_update_name (Node.vertex ex_t_ai) (Node.vertex ex_u_i)
      false false false [] (by decide) (by decide) (by decide)).1.2 ⟨rfl, by decide⟩⟩

/-- C26, counterexample: the linkage `l1(L,a,i) * r1(L,b,j)` contracts the
    sigma line `L` of its two operands; its external lines are `a, b, i, j`
    and its flag `is_sigma_` is false.  In a run with `format_sigma` on it
    passes the head of the scoring loop and is flagged reused, and the commit
    declares it in the equation `reused`. -/
theorem contracted_sigma_line_is_reused :
    ex_L.sig_ = true ∧ ex_L ∈ ex_l1_Lai.lines_ ∧ ex_L ∈ ex_r1_Lbj.lines_ ∧
    ex_l1r1.int_lines_ = [ex_L] ∧ ex_l1r1.vert.lines_ = [ex_a, ex_b, ex_i, ex_j] ∧
    ex_l1r1.vert.is_sigma_ = false ∧ ex_l1r1.is_scalar = false ∧
    (PQGraph.screen true false false [] ex_l1r1).map
      (fun n => (n.is_reused_, n.id_)) = some (true, 1) ∧
    ((PQGraph.screen true false false [] ex_l1r1).map fun n =>
      (smap_eq (PQGraph.substitute ex_missing false (2 ^ 64 - 1) (2 ^ 64 - 1) true false [[n]]
        ex_graph_sigma).equations_ "reused").terms.map fun term => term.lhs.vert.lines_) =
      some [[ex_a, ex_b, ex_i, ex_j]] := by
  decide

/-! ## Destructors in the emitted terms (`PQGraph::str`) -/

theorem collect_terms_keys (m : Missing) (eqs : List (String × Equation)) :
    (PQGraph.collect_terms m eqs).1.map Prod.fst = eqs.map Prod.fst := by
  induction eqs with
  | nil => rfl
  | cons hd rest ih =>
    obtain ⟨name, eq⟩ := hd
    unfold PQGraph.collect_terms
    simp only
    split_ifs <;> simp [ih]

theorem smap_eq_keys (eqs : List (String × Equation)) (key : String)
    (h : key ∉ eqs.map Prod.fst) : smap_eq eqs key = Equation.empty := by
  unfold smap_eq
  have : eqs.find? (fun e => decide (e.1 = key)) = none := by
    rw [List.find?_eq_none]
    intro e he hk
    apply h
    rw [List.mem_map]
    exact ⟨e, he, by simpa using hk⟩
  rw [this]

theorem smap_has_keys {β : Type} (eqs : List (String × β)) (key : String) :
    smap_has eqs key = false ↔ key ∉ eqs.map Prod.fst := by
  rw [← Bool.not_eq_true, smap_has_iff]
  simp

/-- C27 (code): when the graph holds no equation named `tmps` (the
    intermediates that `PQGraph::substitute` introduces are declared in the
    equations `temp`, `reused` and `scalar`), the loop of `PQGraph::str` over
    `equations_["tmps"]` has nothing to run over and no destructor is
    inserted: the emitted term list is the sorted list of the collected terms,
    whatever intermediates these terms use. -/
theorem str_inserts_no_destructor (m : Missing) (make_einsum : Bool) (g : PQGraph)
    (hs : (m.sort_tmps Equation.empty).terms = [])
    (ht : smap_has (m.remove_redundant_tmps g).equations_ "tmps" = false) :
    PQGraph.str_terms m make_einsum g =
      some (m.sort_tmps
        { terms := (PQGraph.collect_terms m (m.remove_redundant_tmps g).equations_).2,
          is_temp_equation_ := false }).terms := by
  have hk : smap_eq (PQGraph.collect_terms m (m.remove_redundant_tmps g).equations_).1 "tmps" =
      Equation.empty := by
    apply smap_eq_keys
    rw [collect_terms_keys]
    exact (smap_has_keys _ _).1 ht
  unfold PQGraph.str_terms
  simp only [hk, hs]
  rfl

/-- C27 (code), instance: the graph that `PQGraph::substitute` leaves after
    it committed the intermediate `t(a,i) * u(i)` with id 1.  The collected
    terms are the four terms of `E`, the third of which uses the intermediate,
    and its declaration from the equation `temp`; `PQGraph::str` emits these
    five terms and no destructor. -/
theorem str_inserts_no_destructor_witness :
    ((ex_missing.sort_tmps Equation.empty).terms = [] ∧
      smap_has (ex_missing.remove_redundant_tmps
        (PQGraph.substitute ex_missing false (2 ^ 64 - 1) (2 ^ 64 - 1) false false [[ex_tu]]
          ex_graph)).equations_ "tmps" = false) ∧
    PQGraph.str_terms ex_missing true
        (PQGraph.substitute ex_missing false (2 ^ 64 - 1) (2 ^ 64 - 1) false false [[ex_tu]]
          ex_graph) =
      some (ex_missing.sort_tmps
        { terms := (PQGraph.collect_terms ex_missing (ex_missing.remove_redundant_tmps
            (PQGraph.substitute ex_missing false (2 ^ 64 - 1) (2 ^ 64 - 1) false false
              [[ex_tu]] ex_graph)).equations_).2,
          is_temp_equation_ := false }).terms ∧
    (PQGraph.collect_terms ex_missing
        (PQGraph.substitute ex_missing false (2 ^ 64 - 1) (2 ^ 64 - 1) false false [[ex_tu]]
          ex_graph).equations_).2.map
      (fun term => (term.lhs.id_, term.rhs.map fun op => op.id_, PQGraph.uses_tmp 1 term)) =
      [(-1, [-1, -1], false), (-1, [-1, -1], false), (-1, [1], true), (-1, [-1, -1], false),
       (1, [-1, -1], false)] :=
  ⟨⟨rfl, by decide⟩,
    str_inserts_no_destructor ex_missing true _ rfl (by decide), by decide⟩

/-- With the declaration of the intermediate `t(a,i) * u(i)` in an equation
    named `tmps` instead of `temp`, `PQGraph::str` inserts the destructor
    directly after the third term of `E`, the last term that uses the
    intermediate. -/
theorem str_destructor_with_tmps_equation :
    (PQGraph.str_terms ex_missing true
      { equations_ :=
          (PQGraph.substitute ex_missing false (2 ^ 64 - 1) (2 ^ 64 - 1) false false [[ex_tu]]
            ex_graph).equations_.map fun e => if e.1 = "temp" then ("tmps", e.2) else e,
        temp_counts_ := [("temp", 1)],
        saved_linkages_ := [] }).map
      (fun terms => terms.map fun term =>
        (term.lhs.vert.name_, term.rhs.map fun op => op.id_)) =
      some [("E", [-1, -1]), ("E", [-1, -1]), ("E", [1]), ("del t_[\"vo\"]\tu_[\"o\"]", []),
        ("E", [-1, -1]), ("t_[\"vo\"]\tu_[\"o\"]", [-1, -1])] := by
  decide

/-! ## The option `max_shape` (`PQGraph::set_options`) -/

/-- C28 (code): when the options hold the key `max_shape` and no key
    `max_shape_map`, whatever the value of `max_shape`, the block of
    `set_options` that reads `max_shape` leaves through the `invalid_argument`
    of its `catch` and stores nothing: the key whose presence it tests is
    `max_shape`, the key that it reads is `max_shape_map`. -/
theorem set_options_rejects_max_shape (narrow : Nat → Nat) (options : List (String × PyObj))
    (max_shape_ : Nat × Nat) (h1 : smap_has options "max_shape" = true)
    (h2 : smap_has options "max_shape_map" = false) :
    PQGraph.set_options_max_shape narrow options max_shape_ =
      (max_shape_,
        some "max_shape_map must be a map with 'o' or 'v' as keys to int values") := by
  have hf : options.find? (fun e => decide (e.1 = "max_shape_map")) = none := by
    rw [List.find?_eq_none]
    intro e he hk
    have : smap_has options "max_shape_map" = true :=
      (smap_has_iff _ _).2 ⟨e, he, by simpa using hk⟩
    rw [h2] at this
    exact Bool.noConfusion this
  unfold PQGraph.set_options_max_shape
  rw [if_pos h1]
  unfold cast_int_map
  rw [hf]

/-- C28 (code), instance: the options `{max_shape: {o: 2, v: 4}}`, entered
    with the maxima 255 and 255. -/
theorem set_options_rejects_max_shape_witness :
    (smap_has [("max_shape", PyObj.int_map [("o", 2), ("v", 4)])] "max_shape" = true ∧
      smap_has [("max_shape", PyObj.int_map [("o", 2), ("v", 4)])] "max_shape_map" = false) ∧
    PQGraph.set_options_max_shape (fun n => n % 256)
        [("max_shape", PyObj.int_map [("o", 2), ("v", 4)])] (255, 255) =
      ((255, 255),
        some "max_shape_map must be a map with 'o' or 'v' as keys to int values") :=
  ⟨⟨by decide, by decide⟩,
    set_options_rejects_max_shape _ _ _ (by decide) (by decide)⟩

/-- With the map under the key `max_shape_map` next to the key `max_shape`,
    the options `{o: 2, v: 4}` are accepted and stored. -/
theorem set_options_reads_max_shape_map :
    PQGraph.set_options_max_shape (fun n => n % 256)
        [("max_shape", PyObj.bool true), ("max_shape_map", PyObj.int_map [("o", 2), ("v", 4)])]
        (255, 255) = ((2, 4), none) := by
  decide

/-! ## Scalars (`PQGraph::make_scalars`) -/

theorem SSorted_iff_keys {β : Type} (m : List (String × β)) :
    SSorted m ↔ (m.map Prod.fst).Pairwise (fun a b => a < b) := by
  unfold SSorted
  rw [List.pairwise_map]

theorem make_scalars_loop_keys (m : Missing) (eqs : List (String × Equation))
    (scalars : List Node) (n : Nat) :
    (PQGraph.make_scalars_loop m eqs scalars n).1.map Prod.fst = eqs.map Prod.fst := by
  induction eqs generalizing scalars n with
  | nil => rfl
  | cons hd rest ih =>
    obtain ⟨name, eq⟩ := hd
    unfold PQGraph.make_scalars_loop
    split_ifs <;> simp [ih]

theorem make_scalars_loop_mem (m : Missing) (eqs : List (String × Equation))
    (scalars : List Node) (n : Nat) (name : String) (eq : Equation)
    (h : (name, eq) ∈ eqs) (hn : name ≠ "scalar") :
    ∃ s k, (name, (m.eq_make_scalars eq s k).1) ∈
      (PQGraph.make_scalars_loop m eqs scalars n).1 := by
  induction eqs generalizing scalars n with
  | nil => cases h
  | cons hd rest ih =>
    obtain ⟨name0, eq0⟩ := hd
    unfold PQGraph.make_scalars_loop
    rcases List.mem_cons.1 h with h1 | h1
    · cases h1
      rw [if_neg hn]
      exact ⟨scalars, n, List.mem_cons_self _ _⟩
    · by_cases h0 : name0 = "scalar"
      · rw [if_pos h0]
        obtain ⟨s, k, hk⟩ := ih scalars n h1
        exact ⟨s, k, List.mem_cons_of_mem _ hk⟩
      · rw [if_neg h0]
        obtain ⟨s, k, hk⟩ := ih (m.eq_make_scalars eq0 scalars n).2.1
          (m.eq_make_scalars eq0 scalars n).2.2 h1
        exact ⟨s, k, List.mem_cons_of_mem _ hk⟩

theorem ensure_equation_sorted (eqs : List (String × Equation)) (key : String)
    (hs : SSorted eqs) : SSorted (PQGraph.ensure_equation eqs key) := by
  unfold PQGraph.ensure_equation
  split_ifs
  · exact hs
  · exact smap_assign_sorted _ _ _ hs

theorem ensure_equation_mem (eqs : List (String × Equation)) (key : String)
    (hs : SSorted eqs) (e : String × Equation) (he : e ∈ eqs) (hk : e.1 ≠ key) :
    e ∈ PQGraph.ensure_equation eqs key := by
  unfold PQGraph.ensure_equation
  split_ifs
  · exact he
  · exact (smap_assign_mem _ _ _ hs e).2 (Or.inr ⟨he, hk⟩)

theorem add_scalars_equations (m : Missing) (scalars : List Node) (g : PQGraph)
    (hs : SSorted g.equations_) :
    SSorted (PQGraph.add_scalars m scalars g).equations_ ∧
    ∀ e : String × Equation, e.1 ≠ "scalar" →
      (e ∈ (PQGraph.add_scalars m scalars g).equations_ ↔ e ∈ g.equations_) := by
  induction scalars generalizing g with
  | nil => exact ⟨hs, fun _ _ => Iff.rfl⟩
  | cons x rest ih =>
    unfold PQGraph.add_scalars
    rw [List.foldl_cons]
    have h1 := smap_assign_sorted g.equations_ "scalar"
      (PQGraph.add_tmp m x (smap_eq g.equations_ "scalar")) hs
    obtain ⟨i1, i2⟩ := ih
      { g with
        equations_ := smap_assign g.equations_ "scalar"
          (PQGraph.add_tmp m x (smap_eq g.equations_ "scalar"))
        saved_linkages_ := smap_assign g.saved_linkages_ "scalar"
          (m.set_insert (smap_set g.saved_linkages_ "scalar") x) } h1
    refine ⟨i1, fun e he => ?_⟩
    rw [show List.foldl _ _ rest = PQGraph.add_scalars m rest _ from rfl, i2 e he,
      smap_assign_mem _ _ _ hs e]
    constructor
    · rintro (h | h)
      · exact absurd (by rw [h]) he
      · exact h.1
    · intro h
      exact Or.inr ⟨h, he⟩

theorem remove_scalars_terms (eqs : List (String × Equation)) (e : String × Equation)
    (he : e ∈ PQGraph.remove_scalars eqs) :
    ∀ term ∈ e.2.terms, PQGraph.has_scalar term = false := by
  unfold PQGraph.remove_scalars at he
  rw [List.mem_filterMap] at he
  obtain ⟨e0, _, h0⟩ := he
  simp only at h0
  split_ifs at h0
  cases Option.some.inj h0
  intro term ht
  simp only [List.mem_filter] at ht
  simpa using ht.2

theorem remove_scalars_sorted (eqs : List (String × Equation)) (hs : SSorted eqs) :
    SSorted (PQGraph.remove_scalars eqs) := by
  unfold PQGraph.remove_scalars SSorted
  refine List.Pairwise.filterMap _ ?_ hs
  intro a a' haa b hb b' hb'
  simp only [Option.mem_def] at hb hb'
  split_ifs at hb hb'
  cases Option.some.inj hb
  cases Option.some.inj hb'
  exact haa

theorem smap_erase_sorted {β : Type} (m : List (String × β)) (key : String) (hs : SSorted m) :
    SSorted (smap_erase m key) := by
  unfold smap_erase SSorted
  exact List.Pairwise.filter _ hs

theorem make_scalars_loop_mem_inv (m : Missing) (eqs : List (String × Equation))
    (scalars : List Node) (n : Nat) (e : String × Equation)
    (h : e ∈ (PQGraph.make_scalars_loop m eqs scalars n).1) (hn : e.1 ≠ "scalar") :
    ∃ eq s k, (e.1, eq) ∈ eqs ∧ e.2 = (m.eq_make_scalars eq s k).1 := by
  induction eqs generalizing scalars n with
  | nil => cases h
  | cons hd rest ih =>
    obtain ⟨name0, eq0⟩ := hd
    unfold PQGraph.make_scalars_loop at h
    by_cases h0 : name0 = "scalar"
    · rw [if_pos h0] at h
      rcases List.mem_cons.1 h with h1 | h1
      · exact absurd (by rw [h1]; exact h0) hn
      · obtain ⟨eq, s, k, hk, he⟩ := ih scalars n h1
        exact ⟨eq, s, k, List.mem_cons_of_mem _ hk, he⟩
    · rw [if_neg h0] at h
      rcases List.mem_cons.1 h with h1 | h1
      · refine ⟨eq0, scalars, n, ?_, ?_⟩
        · rw [h1]; exact List.mem_cons_self _ _
        · rw [h1]
      · obtain ⟨eq, s, k, hk, he⟩ := ih _ _ h1
        exact ⟨eq, s, k, List.mem_cons_of_mem _ hk, he⟩

theorem make_scalars_loop_sorted (m : Missing) (eqs : List (String × Equation))
    (scalars : List Node) (n : Nat) (hs : SSorted eqs) :
    SSorted (PQGraph.make_scalars_loop m eqs scalars n).1 := by
  rw [SSorted_iff_keys, make_scalars_loop_keys, ← SSorted_iff_keys]
  exact hs

theorem remove_scalars_mem (eqs : List (String × Equation)) (e : String × Equation)
    (he : e ∈ PQGraph.remove_scalars eqs) :
    ∃ eq, (e.1, eq) ∈ eqs ∧
      e.2.terms = eq.terms.filter (fun term => !(PQGraph.has_scalar term)) := by
  unfold PQGraph.remove_scalars at he
  rw [List.mem_filterMap] at he
  obtain ⟨e0, hm, h0⟩ := he
  simp only at h0
  split_ifs at h0
  cases Option.some.inj h0
  exact ⟨e0.2, hm, rfl⟩

theorem smap_erase_mem {β : Type} (m : List (String × β)) (key : String) (e : String × β)
    (h : e ∈ smap_erase m key) : e ∈ m := by
  unfold smap_erase at h
  exact (List.mem_filter.1 h).1

theorem ensure_equation_mem_inv (eqs : List (String × Equation)) (key : String)
    (hs : SSorted eqs) (e : String × Equation) (he : e ∈ PQGraph.ensure_equation eqs key)
    (hk : e.1 ≠ key) : e ∈ eqs := by
  unfold PQGraph.ensure_equation at he
  split_ifs at he
  · exact he
  · rcases (smap_assign_mem _ _ _ hs e).1 he with h | h
    · exact absurd (by rw [h]) hk
    · exact h.1

/-- C30 (amended): `PQGraph::make_scalars` itself drops no term while
    `no_scalars` is off: every equation other than `scalar` is still there
    afterwards and holds what `Equation::make_scalars` made of it, so when
    that member conserves what the terms of an equation expand to, the
    equation expands to what it expanded to before, up to the order.  With
    `no_scalars` on, an equation other than `scalar` that is left holds, of
    what `Equation::make_scalars` made of it, the terms without a scalar
    linkage among their operands, and no others. -/
theorem make_scalars_terms {α : Type} (m : Missing) (expansion : Term → α) (g : PQGraph)
    (hs : SSorted g.equations_)
    (hcons : ∀ eq scalars n,
      ((m.eq_make_scalars eq scalars n).1.terms.map expansion).Perm (eq.terms.map expansion)) :
    (∀ name eq, name ≠ "scalar" → (name, eq) ∈ g.equations_ →
      ∃ eq', (name, eq') ∈ (PQGraph.make_scalars m false g).equations_ ∧
        (eq'.terms.map expansion).Perm (eq.terms.map expansion)) ∧
    (∀ name eq', name ≠ "scalar" →
      (name, eq') ∈ (PQGraph.make_scalars m true g).equations_ →
      ∃ eq s k, (name, eq) ∈ g.equations_ ∧
        eq'.terms = (m.eq_make_scalars eq s k).1.terms.filter
          (fun term => !(PQGraph.has_scalar term))) := by
  have hl := make_scalars_loop_sorted m g.equations_ (smap_set g.saved_linkages_ "scalar")
    (smap_get g.temp_counts_ "scalar") hs
  have he := ensure_equation_sorted _ "scalar" hl
  constructor
  · intro name eq hn hmem
    obtain ⟨s, k, hk⟩ := make_scalars_loop_mem m g.equations_
      (smap_set g.saved_linkages_ "scalar") (smap_get g.temp_counts_ "scalar") name eq hmem hn
    refine ⟨(m.eq_make_scalars eq s k).1, ?_, hcons eq s k⟩
    have h1 := ensure_equation_mem _ "scalar" hl _ hk hn
    unfold PQGraph.make_scalars
    simp only [Bool.false_eq_true, if_false]
    obtain ⟨a1, a2⟩ := add_scalars_equations m
      (PQGraph.make_scalars_loop m g.equations_ (smap_set g.saved_linkages_ "scalar")
        (smap_get g.temp_counts_ "scalar")).2.1
      { g with
        equations_ := PQGraph.ensure_equation
          (PQGraph.make_scalars_loop m g.equations_ (smap_set g.saved_linkages_ "scalar")
            (smap_get g.temp_counts_ "scalar")).1 "scalar"
        temp_counts_ := smap_assign g.temp_counts_ "scalar"
          (PQGraph.make_scalars_loop m g.equations_ (smap_set g.saved_linkages_ "scalar")
            (smap_get g.temp_counts_ "scalar")).2.2 } he
    exact (smap_assign_mem _ _ _ a1 _).2 (Or.inr ⟨(a2 _ hn).2 h1, hn⟩)
  · intro name eq' hn hmem
    unfold PQGraph.make_scalars at hmem
    simp only [if_true, PQGraph.add_scalars, List.foldl_nil] at hmem
    have h2 := remove_scalars_sorted _ (smap_erase_sorted _ "scalar" he)
    rcases (smap_assign_mem _ _ _ h2 _).1 hmem with h | h
    · exact absurd (congrArg Prod.fst h) hn
    · obtain ⟨eq1, h3, h4⟩ := remove_scalars_mem _ _ h.1
      have h5 := ensure_equation_mem_inv _ "scalar" hl _ (smap_erase_mem _ _ _ h3) hn
      obtain ⟨eq, s, k, h6, h7⟩ := make_scalars_loop_mem_inv m _ _ _ _ h5 hn
      exact ⟨eq, s, k, h6, by rw [h4]; exact congrArg _ (congrArg _ h7)⟩

/-- C30, instance of the amended claim: the graph of the equation `E`, when
    `Equation::make_scalars` leaves an equation as it is. -/
theorem make_scalars_terms_witness :
    (SSorted ex_graph.equations_ ∧
      ∀ eq scalars n,
        ((ex_missing.eq_make_scalars eq scalars n).1.terms.map fun term => term).Perm
          (eq.terms.map fun term => term)) ∧
    ((∀ name eq, name ≠ "scalar" → (name, eq) ∈ ex_graph.equations_ →
      ∃ eq', (name, eq') ∈ (PQGraph.make_scalars ex_missing false ex_graph).equations_ ∧
        (eq'.terms.map fun term => term).Perm (eq.terms.map fun term => term)) ∧
    (∀ name eq', name ≠ "scalar" →
      (name, eq') ∈ (PQGraph.make_scalars ex_missing true ex_graph).equations_ →
      ∃ eq s k, (name, eq) ∈ ex_graph.equations_ ∧
        eq'.terms = (ex_missing.eq_make_scalars eq s k).1.terms.filter
          (fun term => !(PQGraph.has_scalar term)))) :=
  ⟨⟨List.pairwise_singleton _ _, fun _ _ _ => List.Perm.refl _⟩,
    make_scalars_terms ex_missing (fun term => term) ex_graph (List.pairwise_singleton _ _)
      (fun _ _ _ => List.Perm.refl _)⟩

/-- C30, counterexample: the equation `E` with the two scalar intermediates
    `f(i,a) * t(a,i)` and `g(a,b,i,j) * g(a,b,i,j)` in its first two terms.
    With `no_scalars` on, `PQGraph::make_scalars` leaves `E` with its last two
    terms: the two terms that hold a scalar are gone, and no equation declares
    a scalar. -/
theorem make_scalars_no_scalars_drops_terms :
    (smap_eq (PQGraph.substitute ex_missing false (2 ^ 64 - 1) 1 false false
      [[ex_sc_ft], [ex_sc_gg]] ex_graph).equations_ "E").terms.length = 4 ∧
    (PQGraph.make_scalars ex_missing true
      (PQGraph.substitute ex_missing false (2 ^ 64 - 1) 1 false false
        [[ex_sc_ft], [ex_sc_gg]] ex_graph)).equations_ =
      [("E", ⟨[ex_term "E" [Node.vertex ex_t_ai, Node.vertex ex_u_i],
               ex_term "E" [Node.vertex ex_g_abij, Node.vertex ex_t_ai]], false⟩),
       ("scalar", Equation.empty)] := by
  decide

/-! ## Parsing a tensor string (`Vertex::Vertex(const string&)`) -/

theorem first_index_none (s : List Char) (c : Char) (h : c ∉ s) : first_index s c = none := by
  induction s with
  | nil => rfl
  | cons x rest ih =>
    have hx : x ≠ c := fun e => h (e ▸ List.mem_cons_self _ _)
    have hr : c ∉ rest := fun e => h (List.mem_cons_of_mem _ e)
    simp [first_index, hx, ih hr]

theorem first_index_append (a b : List Char) (c : Char) (h : c ∉ a) :
    first_index (a ++ c :: b) c = some a.length := by
  induction a with
  | nil => simp [first_index]
  | cons x rest ih =>
    have hx : x ≠ c := fun e => h (e ▸ List.mem_cons_self _ _)
    have hr : c ∉ rest := fun e => h (List.mem_cons_of_mem _ e)
    simp [first_index, hx, ih hr]

theorem str_find_none (s : List Char) (c : Char) (h : c ∉ s) : str_find s c = npos := by
  unfold str_find
  rw [first_index_none s c h]
  rfl

theorem str_find_append (a b : List Char) (c : Char) (h : c ∉ a) :
    str_find (a ++ c :: b) c = a.length := by
  unfold str_find
  rw [first_index_append a b c h]
  rfl

theorem first_index_of_string_bars (a b : List Char) (h : '|' ∉ a) :
    first_index_of_string (a ++ '|' :: '|' :: b) ['|', '|'] = some a.length := by
  induction a with
  | nil => simp [first_index_of_string, List.isPrefixOf]
  | cons x rest ih =>
    have hx : x ≠ '|' := fun e => h (e ▸ List.mem_cons_self _ _)
    have hx' : ('|' == x) = false := by
      rw [beq_eq_false_iff_ne]; exact fun e => hx e.symm
    have hr : '|' ∉ rest := fun e => h (List.mem_cons_of_mem _ e)
    simp [first_index_of_string, List.isPrefixOf, hx', ih hr]

theorem size_sub_eq (a b : Nat) (hb : b ≤ a) (ha : a < 18446744073709551616) :
    size_sub a b = a - b := by
  unfold size_sub
  omega

theorem mem_join_commas (ls : List (List Char)) (c : Char) (h : c ∈ join_commas ls) :
    c = ',' ∨ ∃ l ∈ ls, c ∈ l := by
  induction ls with
  | nil => simp [join_commas] at h
  | cons l rest ih =>
    cases rest with
    | nil =>
      simp only [join_commas] at h
      exact Or.inr ⟨l, List.mem_cons_self _ _, h⟩
    | cons l2 rest2 =>
      simp only [join_commas, List.mem_append, List.mem_cons] at h
      rcases h with h | h | h
      · exact Or.inr ⟨l, List.mem_cons_self _ _, h⟩
      · exact Or.inl h
      · rcases ih h with h1 | ⟨l', hl', hc⟩
        · exact Or.inl h1
        · exact Or.inr ⟨l', List.mem_cons_of_mem _ hl', hc⟩

theorem join_commas_cons (l l2 : List Char) (rest : List (List Char)) :
    join_commas (l :: l2 :: rest) = l ++ ',' :: join_commas (l2 :: rest) := rfl

/-- The loop that splits at the commas returns the labels that were joined:
    all but the last are pushed, the last is left in `line_substring`. -/
theorem split_loop_join (labels : List (List Char)) (last : List Char)
    (hc : ∀ l ∈ labels ++ [last], ',' ∉ l) (fuel : Nat)
    (hf : (join_commas (labels ++ [last])).length < fuel)
    (hs : (join_commas (labels ++ [last])).length < 18446744073709551615) :
    Vertex.split_loop fuel (join_commas (labels ++ [last])) = (labels, last) := by
  induction labels generalizing fuel with
  | nil =>
    have hl : ',' ∉ last := hc last (by simp)
    cases fuel with
    | zero => rfl
    | succ f =>
      simp only [List.nil_append, join_commas, Vertex.split_loop]
      rw [if_pos (str_find_none last ',' hl)]
  | cons l rest ih =>
    have hl : ',' ∉ l := hc l (List.mem_cons_self _ _)
    obtain ⟨x, xs, hx⟩ : ∃ x xs, rest ++ [last] = x :: xs := by
      cases rest with
      | nil => exact ⟨last, [], rfl⟩
      | cons y ys => exact ⟨y, ys ++ [last], rfl⟩
    have hj : join_commas (l :: rest ++ [last]) = l ++ ',' :: join_commas (rest ++ [last]) := by
      rw [List.cons_append, hx]
      rfl
    rw [hj] at hf hs ⊢
    simp only [List.length_append, List.length_cons] at hf hs
    cases fuel with
    | zero => omega
    | succ f =>
      unfold Vertex.split_loop
      have hfind : str_find (l ++ ',' :: join_commas (rest ++ [last])) ',' = l.length :=
        str_find_append _ _ _ hl
      rw [hfind]
      have hne : l.length ≠ npos := by unfold npos; omega
      rw [if_neg hne]
      have hsub : str_substr (l ++ ',' :: join_commas (rest ++ [last]))
          ((l.length + 1) % 18446744073709551616)
          (size_sub (size_sub (l ++ ',' :: join_commas (rest ++ [last])).length l.length) 1) =
          join_commas (rest ++ [last]) := by
        unfold str_substr
        rw [Nat.mod_eq_of_lt (by omega)]
        simp only [List.length_append, List.length_cons]
        have h1 : size_sub (l.length + ((join_commas (rest ++ [last])).length + 1)) l.length =
            (join_commas (rest ++ [last])).length + 1 := by
          rw [size_sub_eq _ _ (by omega) (by omega)]
          omega
        have h2 : size_sub ((join_commas (rest ++ [last])).length + 1) 1 =
            (join_commas (rest ++ [last])).length := by
          rw [size_sub_eq _ _ (by omega) (by omega)]
          omega
        rw [h1, h2]
        rw [show l ++ ',' :: join_commas (rest ++ [last]) =
          (l ++ [',']) ++ join_commas (rest ++ [last]) by simp]
        rw [List.drop_left' (by simp)]
        rw [List.take_of_length_le (by omega)]
      have htake : str_substr (l ++ ',' :: join_commas (rest ++ [last])) 0 l.length = l := by
        unfold str_substr
        simp
      simp only [hsub, htake]
      rw [ih (fun y hy => hc y (List.mem_cons_of_mem _ hy)) f (by omega) (by omega)]

theorem Line_of_name_plain (occ virt sig den : List Char) (name : List Char)
    (hn : name ≠ []) :
    ∃ l, Line.of_name occ virt sig den (String.mk name) '\x00' = some l ∧
      l.label_ = String.mk name := by
  unfold Line.of_name
  cases name with
  | nil => exact absurd rfl hn
  | cons c rest =>
    simp only
    by_cases h0 : c = '\x00'
    · rw [if_pos h0]
      exact ⟨_, rfl, rfl⟩
    · rw [if_neg h0]
      exact ⟨_, rfl, rfl⟩

theorem set_lines_loop_plain (occ virt sig den : List Char) (labels : List (List Char))
    (hne : ∀ l ∈ labels, l ≠ []) (c_blk : Nat) (is_sigma is_den : Bool) :
    ∃ r, Vertex.set_lines_loop occ virt sig den false [] labels c_blk is_sigma is_den =
        some r ∧
      r.1.map (fun l => l.label_) = labels.map String.mk := by
  induction labels generalizing c_blk is_sigma is_den with
  | nil => exact ⟨_, rfl, rfl⟩
  | cons l rest ih =>
    obtain ⟨line, hline, hlabel⟩ := Line_of_name_plain occ virt sig den l
      (hne l (List.mem_cons_self _ _))
    obtain ⟨r, hr, hmap⟩ := ih (fun x hx => hne x (List.mem_cons_of_mem _ hx)) c_blk
      (is_sigma || line.sig_) (is_den || line.den_)
    refine ⟨(line :: r.1, r.2), ?_, ?_⟩
    · unfold Vertex.set_lines_loop
      simp only [hline, Option.some_bind, Bool.false_and, Bool.false_eq_true, if_false, hr,
        Option.map_some']
    · simp only [List.map_cons, hlabel, hmap]

/-- The tail of the string constructor, from the split at the commas on, when
    `line_string` holds labels joined by commas and there is no block
    string. -/
theorem of_string_of_split (occ virt sig den : List Char) (vertex_string : String)
    (base : List Char) (init : List (List Char)) (last : List Char)
    (hbranch : ¬ (str_find vertex_string.data '(' = npos ∧
      ¬ (str_find vertex_string.data '<' ≠ npos)))
    (hsplit : Vertex.split_name vertex_string.data =
      some (base, join_commas (init ++ [last]), []))
    (hc : ∀ l ∈ init ++ [last], l ≠ [] ∧ ',' ∉ l) (hu : '_' ∉ last)
    (hs : (join_commas (init ++ [last])).length < 18446744073709551615) :
    ∃ v, Vertex.of_string occ virt sig den vertex_string = some v ∧
      v.base_name_ = String.mk base ∧ v.rank_ = (init ++ [last]).length ∧
      v.lines_.map (fun l => l.label_) = (init ++ [last]).map String.mk := by
  have hlast : last ≠ [] := (hc last (by simp)).1
  have hsp := split_loop_join init last (fun l hl => (hc l hl).2)
    ((join_commas (init ++ [last])).length + 1) (Nat.lt_succ_self _) hs
  obtain ⟨r, hr, hmap⟩ := set_lines_loop_plain occ virt sig den (init ++ [last])
    (fun l hl => (hc l hl).1) 0 false false
  have he : last.isEmpty = false := by
    cases last with
    | nil => exact absurd rfl hlast
    | cons _ _ => rfl
  have key : ∃ v, Vertex.of_string occ virt sig den vertex_string = some v ∧
      v.base_name_ = String.mk base ∧ v.rank_ = (init ++ [last]).length ∧ v.lines_ = r.1 := by
    unfold Vertex.of_string
    simp only
    rw [if_neg hbranch, hsplit, Option.some_bind]
    simp only [hsp, str_find_none last '_' hu, ne_eq, not_true_eq_false, decide_False,
      Bool.false_and, Bool.false_eq_true, if_false, he]
    unfold Vertex.set_lines
    simp only [List.isEmpty_nil, Bool.not_true, hr, Option.map_some']
    exact ⟨_, rfl, rfl, rfl, rfl⟩
  obtain ⟨v, h1, h2, h3, h4⟩ := key
  exact ⟨v, h1, h2, h3, by rw [h4]; exact hmap⟩

/-- The head of the constructor on `name(label,...)`: the name, the text
    between the brackets and no block string. -/
theorem split_name_vertex (n body : List Char)
    (hn : ∀ c ∈ n, c ≠ '(' ∧ c ≠ '<' ∧ c ≠ '_')
    (hb : '<' ∉ body ∧ '_' ∉ body)
    (hs : (n ++ '(' :: body ++ [')']).length < 18446744073709551616) :
    Vertex.split_name (n ++ '(' :: body ++ [')']) = some (n, body, []) ∧
    ¬ (str_find (n ++ '(' :: body ++ [')']) '(' = npos ∧
      ¬ (str_find (n ++ '(' :: body ++ [')']) '<' ≠ npos)) := by
  have h1 : '<' ∉ n ++ '(' :: body ++ [')'] := by
    simp only [List.mem_append, List.mem_cons, List.mem_singleton, List.not_mem_nil,
      or_false, not_or]
    exact ⟨⟨fun h => (hn _ h).2.1 rfl, by decide, hb.1⟩, by decide⟩
  have h2 : '_' ∉ n ++ '(' :: body ++ [')'] := by
    simp only [List.mem_append, List.mem_cons, List.mem_singleton, List.not_mem_nil,
      or_false, not_or]
    exact ⟨⟨fun h => (hn _ h).2.2 rfl, by decide, hb.2⟩, by decide⟩
  have h3 : str_find (n ++ '(' :: body ++ [')']) '(' = n.length := by
    rw [List.append_assoc]
    exact str_find_append n _ '(' (fun h => (hn _ h).1 rfl)
  have hlen : (n ++ '(' :: body ++ [')']).length = n.length + 1 + body.length + 1 := by
    simp only [List.length_append, List.length_cons, List.length_nil]
    omega
  rw [hlen] at hs
  constructor
  · unfold Vertex.split_name
    rw [str_find_none _ _ h1, str_find_none _ _ h2, h3]
    simp only [ne_eq, not_true_eq_false, if_false, if_true, Option.map_some']
    have e1 : str_substr (n ++ '(' :: body ++ [')']) 0 n.length = n := by
      unfold str_substr
      rw [List.append_assoc]
      simp
    have e2 : str_substr (n ++ '(' :: body ++ [')']) ((n.length + 1) % 18446744073709551616)
        (size_sub (size_sub (n ++ '(' :: body ++ [')']).length n.length) 2) = body := by
      unfold str_substr
      rw [hlen, Nat.mod_eq_of_lt (by omega)]
      have s1 : size_sub (n.length + 1 + body.length + 1) n.length = body.length + 2 := by
        rw [size_sub_eq _ _ (by omega) (by omega)]; omega
      have s2 : size_sub (body.length + 2) 2 = body.length := by
        rw [size_sub_eq _ _ (by omega) (by omega)]; omega
      rw [s1, s2]
      rw [show n ++ '(' :: body ++ [')'] = (n ++ ['(']) ++ (body ++ [')']) by simp]
      rw [List.drop_left' (by simp)]
      simp
    rw [e1, e2]
  · rw [h3]
    intro h
    unfold npos at h
    omega

/-- The head of the constructor on `<p,q||r,s>`: the name `eri`, the four
    labels joined by commas and no block string. -/
theorem split_name_eri (p q r s : List Char)
    (hg : '>' ∉ p ∧ '>' ∉ q ∧ '>' ∉ r ∧ '>' ∉ s) (hbar : '|' ∉ p ∧ '|' ∉ q)
    (hs : ('<' :: p ++ ',' :: q ++ '|' :: '|' :: r ++ ',' :: s ++ ['>']).length <
      18446744073709551615) :
    Vertex.split_name ('<' :: p ++ ',' :: q ++ '|' :: '|' :: r ++ ',' :: s ++ ['>']) =
      some ("eri".data, join_commas [p, q, r, s], []) ∧
    ¬ (str_find ('<' :: p ++ ',' :: q ++ '|' :: '|' :: r ++ ',' :: s ++ ['>']) '(' = npos ∧
      ¬ (str_find ('<' :: p ++ ',' :: q ++ '|' :: '|' :: r ++ ',' :: s ++ ['>']) '<' ≠
        npos)) := by
  have hshape : '<' :: p ++ ',' :: q ++ '|' :: '|' :: r ++ ',' :: s ++ ['>'] =
      '<' :: ((p ++ ',' :: q) ++ '|' :: '|' :: (r ++ ',' :: s)) ++ ['>'] := by simp
  rw [hshape]
  generalize hbody : (p ++ ',' :: q) ++ '|' :: '|' :: (r ++ ',' :: s) = body at *
  have hlen : ('<' :: body ++ ['>']).length = body.length + 2 := by simp
  rw [hshape, hlen] at hs
  have hgb : '>' ∉ '<' :: body := by
    rw [← hbody]
    simp only [List.mem_cons, List.mem_append, not_or]
    exact ⟨by decide, ⟨hg.1, by decide, hg.2.1⟩, by decide, by decide, hg.2.2.1, by decide,
      hg.2.2.2⟩
  have h1 : str_find ('<' :: body ++ ['>']) '<' = 0 := by
    simp [str_find, first_index]
  have h2 : str_find ('<' :: body ++ ['>']) '>' = body.length + 1 := by
    have := str_find_append ('<' :: body) [] '>' hgb
    simpa using this
  have h3 : str_find_string body ['|', '|'] = (p ++ ',' :: q).length := by
    unfold str_find_string
    rw [← hbody, first_index_of_string_bars]
    · rfl
    · simp only [List.mem_append, List.mem_cons, not_or]
      exact ⟨hbar.1, by decide, hbar.2⟩
  constructor
  · unfold Vertex.split_name
    rw [h1, h2]
    have hne : (0 : Nat) ≠ npos := by unfold npos; omega
    rw [if_pos hne]
    simp only
    have s1 : size_sub (body.length + 1) 0 = body.length + 1 := by
      rw [size_sub_eq _ _ (by omega) (by omega)]; omega
    have s2 : size_sub (body.length + 1) 1 = body.length := by
      rw [size_sub_eq _ _ (by omega) (by omega)]; omega
    have e0 : str_substr ('<' :: body ++ ['>']) ((0 + 1) % 18446744073709551616)
        (size_sub (size_sub (body.length + 1) 0) 1) = body := by
      unfold str_substr
      rw [s1, s2]
      simp
    rw [e0, hlen, Nat.mod_eq_of_lt (show body.length + 1 + 1 < 18446744073709551616 by omega),
      if_neg (by omega), h3]
    unfold str_replace
    have hle : (p ++ ',' :: q).length ≤ body.length := by
      rw [← hbody]; simp
    rw [if_pos hle, ← hbody]
    have hx : List.take (p ++ ',' :: q).length ((p ++ ',' :: q) ++ '|' :: '|' :: (r ++ ',' :: s))
        ++ [','] ++
        List.drop ((p ++ ',' :: q).length + 2)
          ((p ++ ',' :: q) ++ '|' :: '|' :: (r ++ ',' :: s)) =
        join_commas [p, q, r, s] := by
      rw [List.take_left' rfl,
        show (p ++ ',' :: q) ++ '|' :: '|' :: (r ++ ',' :: s) =
          ((p ++ ',' :: q) ++ ['|', '|']) ++ (r ++ ',' :: s) by simp,
        List.drop_left' (by simp only [List.length_append, List.length_cons,
          List.length_nil])]
      simp [join_commas]
    rw [hx]
    rfl
  · rw [h1]
    intro h
    exact h.2 (by unfold npos; omega)

theorem String_mk_data_map (labels : List String) :
    (labels.map String.data).map String.mk = labels := by
  induction labels with
  | nil => rfl
  | cons l rest ih => simp [ih]

/-- C31 (amended): for every base name `n` without `(`, `<` or `_` and every
    non-empty list of non-empty labels without `,`, `_` or `<`,
    `Vertex(n(l1,...,lk))` has the base name `n`, the rank `k` and the line
    labels `l1..lk` in order; for non-empty labels `p, q, r, s` without `,`,
    `_` or `>`, with no `|` in `p` and `q`, `Vertex(<p,q||r,s>)` has the base
    name `eri`, the rank 4 and the line labels `p, q, r, s` in order; and a
    string with neither `(` nor `<` gives a vertex of rank 0 without lines
    whose base name and name are that string.  The strings are shorter than
    `2^64 - 1` characters. -/
theorem of_string_inverts_format (occ virt sig den : List Char) (n : String)
    (labels : List String) (p q r s w : String) :
    ((∀ c ∈ n.data, c ≠ '(' ∧ c ≠ '<' ∧ c ≠ '_') → labels ≠ [] →
      (∀ l ∈ labels, l ≠ "" ∧ ∀ c ∈ l.data, c ≠ ',' ∧ c ≠ '_' ∧ c ≠ '<') →
      (format_vertex n labels).length < 18446744073709551615 →
      ∃ v, Vertex.of_string occ virt sig den (format_vertex n labels) = some v ∧
        v.base_name_ = n ∧ v.rank_ = labels.length ∧
        v.lines_.map (fun l => l.label_) = labels) ∧
    ((∀ l ∈ [p, q, r, s], l ≠ "" ∧ ∀ c ∈ l.data, c ≠ ',' ∧ c ≠ '_' ∧ c ≠ '>') →
      (∀ l ∈ [p, q], ∀ c ∈ l.data, c ≠ '|') →
      (format_eri p q r s).length < 18446744073709551615 →
      ∃ v, Vertex.of_string occ virt sig den (format_eri p q r s) = some v ∧
        v.base_name_ = "eri" ∧ v.rank_ = 4 ∧
        v.lines_.map (fun l => l.label_) = [p, q, r, s]) ∧
    ((∀ c ∈ w.data, c ≠ '(' ∧ c ≠ '<') →
      ∃ v, Vertex.of_string occ virt sig den w = some v ∧
        v.base_name_ = w ∧ v.name_ = w ∧ v.rank_ = 0 ∧ v.lines_ = []) := by
  refine ⟨?_, ?_, ?_⟩
  · intro hn hne hl hsize
    obtain ⟨init, last, hil⟩ : ∃ init last, labels.map String.data = init ++ [last] := by
      rcases List.eq_nil_or_concat (labels.map String.data) with h | ⟨i, l, h⟩
      · exact absurd (List.map_eq_nil_iff.1 h) hne
      · exact ⟨i, l, by rw [h, List.concat_eq_append]⟩
    have hmem : ∀ x ∈ init ++ [last], ∃ l ∈ labels, l.data = x := by
      intro x hx
      rw [← hil, List.mem_map] at hx
      exact hx
    have hc : ∀ x ∈ init ++ [last], x ≠ [] ∧ ',' ∉ x := by
      intro x hx
      obtain ⟨l, hl1, rfl⟩ := hmem x hx
      refine ⟨fun h => (hl l hl1).1 (String.ext h), fun h => ((hl l hl1).2 _ h).1 rfl⟩
    have hu : '_' ∉ last := by
      obtain ⟨l, hl1, hd⟩ := hmem last (by simp)
      rw [← hd]
      exact fun h => ((hl l hl1).2 _ h).2.1 rfl
    have hbody : '<' ∉ join_commas (init ++ [last]) ∧ '_' ∉ join_commas (init ++ [last]) := by
      constructor
      · intro h
        rcases mem_join_commas _ _ h with h1 | ⟨x, hx, hcx⟩
        · exact absurd h1 (by decide)
        · obtain ⟨l, hl1, rfl⟩ := hmem x hx
          exact ((hl l hl1).2 _ hcx).2.2 rfl
      · intro h
        rcases mem_join_commas _ _ h with h1 | ⟨x, hx, hcx⟩
        · exact absurd h1 (by decide)
        · obtain ⟨l, hl1, rfl⟩ := hmem x hx
          exact ((hl l hl1).2 _ hcx).2.1 rfl
    have hdata : (format_vertex n labels).data =
        n.data ++ '(' :: join_commas (init ++ [last]) ++ [')'] := by
      unfold format_vertex
      rw [hil]
    have hsz : (n.data ++ '(' :: join_commas (init ++ [last]) ++ [')']).length <
        18446744073709551615 := by
      rw [← hdata]; exact hsize
    obtain ⟨h1, h2⟩ := split_name_vertex n.data (join_commas (init ++ [last])) hn hbody
      (by omega)
    have hjs : (join_commas (init ++ [last])).length < 18446744073709551615 := by
      simp only [List.length_append, List.length_cons, List.length_nil] at hsz
      omega
    obtain ⟨v, e1, e2, e3, e4⟩ := of_string_of_split occ virt sig den (format_vertex n labels)
      n.data init last (by rw [hdata]; exact h2) (by rw [hdata]; exact h1) hc hu hjs
    refine ⟨v, e1, e2, ?_, ?_⟩
    · rw [e3, ← hil, List.length_map]
    · rw [e4, ← hil, String_mk_data_map]
  · intro hl hbar hsize
    have hp := hl p (by simp)
    have hq := hl q (by simp)
    have hr := hl r (by simp)
    have hs' := hl s (by simp)
    have hdata : (format_eri p q r s).data =
        '<' :: p.data ++ ',' :: q.data ++ '|' :: '|' :: r.data ++ ',' :: s.data ++ ['>'] := rfl
    obtain ⟨h1, h2⟩ := split_name_eri p.data q.data r.data s.data
      ⟨fun h => (hp.2 _ h).2.2 rfl, fun h => (hq.2 _ h).2.2 rfl, fun h => (hr.2 _ h).2.2 rfl,
        fun h => (hs'.2 _ h).2.2 rfl⟩
      ⟨fun h => hbar p (by simp) _ h rfl, fun h => hbar q (by simp) _ h rfl⟩
      (by rw [← hdata]; exact hsize)
    have hj : join_commas [p.data, q.data, r.data, s.data] =
        join_commas ([p.data, q.data, r.data] ++ [s.data]) := rfl
    have hjs : (join_commas ([p.data, q.data, r.data] ++ [s.data])).length <
        18446744073709551615 := by
      have : (format_eri p q r s).length =
          (join_commas ([p.data, q.data, r.data] ++ [s.data])).length + 3 := by
        show (format_eri p q r s).data.length = _
        rw [hdata]
        simp [join_commas]
        omega
      omega
    obtain ⟨v, e1, e2, e3, e4⟩ := of_string_of_split occ virt sig den (format_eri p q r s)
      "eri".data [p.data, q.data, r.data] s.data (by rw [hdata]; exact h2)
      (by rw [hdata, h1, hj]) (by
        intro x hx
        simp only [List.cons_append, List.nil_append, List.mem_cons, List.mem_singleton,
          List.not_mem_nil, or_false] at hx
        rcases hx with rfl | rfl | rfl | rfl
        · exact ⟨fun h => hp.1 (String.ext h), fun h => (hp.2 _ h).1 rfl⟩
        · exact ⟨fun h => hq.1 (String.ext h), fun h => (hq.2 _ h).1 rfl⟩
        · exact ⟨fun h => hr.1 (String.ext h), fun h => (hr.2 _ h).1 rfl⟩
        · exact ⟨fun h => hs'.1 (String.ext h), fun h => (hs'.2 _ h).1 rfl⟩)
      (fun h => (hs'.2 _ h).2.1 rfl) hjs
    exact ⟨v, e1, e2, e3, e4⟩
  · intro hw
    have hb : str_find w.data '(' = npos ∧ ¬ (str_find w.data '<' ≠ npos) := by
      refine ⟨str_find_none _ _ (fun h => (hw _ h).1 rfl), ?_⟩
      rw [str_find_none _ _ (fun h => (hw _ h).2 rfl)]
      simp
    refine ⟨⟨w, w, [], 0, shape.zero, false, false, false⟩, ?_, rfl, rfl, rfl, rfl⟩
    unfold Vertex.of_string
    simp only
    rw [if_pos hb]

/-- C31, instance of the amended claim: the string `t(a,i)` with the
    default alphabets. -/
theorem of_string_inverts_format_witness :
    ((∀ c ∈ ("t" : String).data, c ≠ '(' ∧ c ≠ '<' ∧ c ≠ '_') ∧
      (["a", "i"] : List String) ≠ [] ∧
      (∀ l ∈ (["a", "i"] : List String),
        l ≠ "" ∧ ∀ c ∈ l.data, c ≠ ',' ∧ c ≠ '_' ∧ c ≠ '<') ∧
      (format_vertex "t" ["a", "i"]).length < 18446744073709551615) ∧
    ∃ v, Vertex.of_string Line.occ_labels_ Line.virt_labels_ Line.sig_labels_ Line.den_labels_
        (format_vertex "t" ["a", "i"]) = some v ∧
      v.base_name_ = "t" ∧ v.rank_ = (["a", "i"] : List String).length ∧
      v.lines_.map (fun l => l.label_) = ["a", "i"] :=
  ⟨⟨by decide, by decide, by decide, by decide⟩,
    (of_string_inverts_format Line.occ_labels_ Line.virt_labels_ Line.sig_labels_
      Line.den_labels_ "t" ["a", "i"] "i" "j" "a" "b" "w").1
      (by decide) (by decide) (by decide) (by decide)⟩

/-- C31, counterexample: the base name `t` and the one label `a<`, which is
    not empty and holds none of `,`, `(`, `)`, `_`, format to `t(a<)`.  The
    constructor takes the string for the bra-ket form because of its `<`,
    finds no `||` in it, and `line_string.replace(npos, 2, ",")` throws. -/
theorem of_string_rejects_angle_in_label :
    format_vertex "t" ["a<"] = "t(a<)" ∧
    (∀ c ∈ ("t" : String).data, c ≠ '(' ∧ c ≠ '<' ∧ c ≠ '_') ∧
    (("a<" : String) ≠ "" ∧ ∀ c ∈ ("a<" : String).data, c ≠ ',' ∧ c ≠ '(' ∧ c ≠ ')' ∧ c ≠ '_') ∧
    Vertex.split_name ("t(a<)" : String).data = none ∧
    Vertex.of_string Line.occ_labels_ Line.virt_labels_ Line.sig_labels_ Line.den_labels_
      "t(a<)" = none := by
  decide

/-- The strings that the examples of the specification name: `t(a,i)`,
    `<i,j||a,b>` and the name `w`, with the default alphabets; and the
    bra-ket form with the labels `i`, `j|`, `a`, `b` and with the labels
    `a>`, `j`, `a`, `b`, whose labels come back as `i, j, |a, b` and as
    `a, j, a, b>`. -/
theorem of_string_instances :
    (Vertex.of_string Line.occ_labels_ Line.virt_labels_ Line.sig_labels_ Line.den_labels_
      "t(a,i)").map (fun v => (v.name_, v.base_name_, v.rank_, v.lines_)) =
      some ("t_[\"vo\"]", "t", 2, [ex_a, ex_i]) ∧
    (Vertex.of_string Line.occ_labels_ Line.virt_labels_ Line.sig_labels_ Line.den_labels_
      "<i,j||a,b>").map (fun v => (v.name_, v.base_name_, v.rank_, v.lines_)) =
      some ("eri_[\"oovv\"]", "eri", 4, [ex_i, ex_j, ex_a, ex_b]) ∧
    (Vertex.of_string Line.occ_labels_ Line.virt_labels_ Line.sig_labels_ Line.den_labels_
      "w") = some (Vertex.of_name "w") ∧
    format_eri "i" "j|" "a" "b" = "<i,j|||a,b>" ∧
    (Vertex.of_string Line.occ_labels_ Line.virt_labels_ Line.sig_labels_ Line.den_labels_
      "<i,j|||a,b>").map (fun v => v.lines_.map fun l => l.label_) =
      some ["i", "j", "|a", "b"] ∧
    format_eri "a>" "j" "a" "b" = "<a>,j||a,b>" ∧
    (Vertex.of_string Line.occ_labels_ Line.virt_labels_ Line.sig_labels_ Line.den_labels_
      "<a>,j||a,b>").map (fun v => v.lines_.map fun l => l.label_) =
      some ["a", "j", "a", "b>"] := by
  decide

/-! ## The operators `*` and `+` on vertices (`linkage.cc`) -/

/-- C32 (code): `operator+` passes `false` for `is_addition`, as `operator*`
    does: for all operands the two operators build the same linkage, a
    contraction. -/
theorem op_add_builds_contraction (update_name : Node → Node → Vertex → String)
    (l r : Node) :
    Linkage.op_add update_name l r = Linkage.op_mul update_name l r ∧
    ∃ v d a b, Linkage.op_add update_name l r = Node.linkage v d a b ∧
      d.is_addition_ = false :=
  ⟨rfl, _, _, _, _, rfl, rfl⟩

/-- For `t(a,i)` and `u(i)` the linkages built by `operator*` and by
    `operator+` are equal under `Linkage::operator==`. -/
theorem op_add_equals_op_mul :
    Linkage.op_eq (Linkage.op_mul ex_update_name (Node.vertex ex_t_ai) (Node.vertex ex_u_i))
      (Linkage.op_add ex_update_name (Node.vertex ex_t_ai) (Node.vertex ex_u_i)) = true := by
  decide

/-! ## The ids of the committed intermediates (`PQGraph::substitute`) -/

theorem Node_id_set_id (k : Int) (n : Node) (h : n.is_linked = true) :
    (n.set_id k).id_ = k := by
  cases n with
  | vertex v => cases h
  | linkage v d l r => rfl

/-- The ids that `count` consecutive commits of one kind take when the
    counter of the kind is `start` before the first. -/
theorem ids_from_cons (start count : Nat) :
    ((List.range' (start + 1) (count + 1)).map Int.ofNat) =
      Int.ofNat (start + 1) :: (List.range' (start + 1 + 1) count).map Int.ofNat := by
  rw [List.range'_succ, List.map_cons]

theorem smap_set_assign_self (m : List (String × List Node)) (key : String)
    (value : List Node) : smap_set (smap_assign m key value) key = value := by
  induction m with
  | nil => simp [smap_assign, smap_set]
  | cons hd rest ih =>
    obtain ⟨k, b⟩ := hd
    unfold smap_assign
    by_cases h1 : str_lt key k = true
    · rw [if_pos h1]
      simp [smap_set]
    · rw [if_neg h1]
      by_cases h2 : str_lt k key = true
      · rw [if_pos h2]
        have hne : k ≠ key := by
          intro e
          rw [e] at h2
          have := str_lt_asymm key key h2
          rw [h2] at this
          exact Bool.noConfusion this
        unfold smap_set at ih ⊢
        simp only [List.find?_cons, hne, decide_False]
        exact ih
      · rw [if_neg h2]
        have hk : k = key := by
          by_contra hne
          rcases str_lt_total k key hne with h3 | h3
          · exact h2 h3
          · exact h1 h3
        simp [smap_set, hk]

theorem commit_loop_ids (m : Missing) (batched : Bool) (batch_size max_temps : Nat)
    (temp_type kind : String) (l : List Node) (hl : ∀ n ∈ l, n.is_linked = true)
    (batch_count : Nat) (g : PQGraph) :
    (((PQGraph.commit_loop_saved m batched batch_size max_temps temp_type l batch_count
        g).filter fun e => decide (e.1 = kind)).map fun e => e.2.id_) =
      ((List.range' (smap_get g.temp_counts_ kind + 1)
        ((PQGraph.commit_loop_saved m batched batch_size max_temps temp_type l batch_count
          g).filter fun e => decide (e.1 = kind)).length).map Int.ofNat) ∧
    smap_get (PQGraph.commit_loop m batched batch_size max_temps temp_type l batch_count
        g).temp_counts_ kind =
      smap_get g.temp_counts_ kind +
        ((PQGraph.commit_loop_saved m batched batch_size max_temps temp_type l batch_count
          g).filter fun e => decide (e.1 = kind)).length := by
  induction l generalizing batch_count g with
  | nil => simp [PQGraph.commit_loop_saved, PQGraph.commit_loop]
  | cons f rest ih =>
    have hf : f.is_linked = true := hl f (List.mem_cons_self _ _)
    have hrest : ∀ n ∈ rest, n.is_linked = true := fun n hn => hl n (List.mem_cons_of_mem _ hn)
    have hc := commit_step_counts m temp_type f g kind
    unfold PQGraph.commit_loop_saved PQGraph.commit_loop
    simp only
    by_cases h : (PQGraph.commit_step m temp_type f g).2 = true
    · have hn : (!(PQGraph.commit_step m temp_type f g).2) = false := by simp [h]
      rw [hn]
      simp only [Bool.false_eq_true, if_false]
      by_cases hk : PQGraph.eq_type temp_type f = kind
      · rw [if_pos ⟨h, hk.symm⟩] at hc
        split_ifs with hstop
        · simp only [List.filter_cons, hk, decide_True, if_true, List.filter_nil,
            List.map_cons, List.map_nil, List.length_singleton]
          refine ⟨?_, hc⟩
          rw [Node_id_set_id _ _ hf]
          rfl
        · obtain ⟨i1, i2⟩ := ih hrest (batch_count + 1) (PQGraph.commit_step m temp_type f g).1
          simp only [List.filter_cons, hk, decide_True, if_true, List.map_cons,
            List.length_cons]
          refine ⟨?_, ?_⟩
          · rw [ids_from_cons, Node_id_set_id _ _ hf, i1, hc]
            rfl
          · rw [i2, hc]; omega
      · have hk' : ¬ kind = PQGraph.eq_type temp_type f := fun e => hk e.symm
        rw [if_neg (fun e => hk' e.2)] at hc
        split_ifs with hstop
        · simp only [List.filter_cons, hk, decide_False, Bool.false_eq_true, if_false,
            List.filter_nil, List.map_nil, List.length_nil, List.range'_zero, add_zero]
          exact ⟨trivial, hc⟩
        · obtain ⟨i1, i2⟩ := ih hrest (batch_count + 1) (PQGraph.commit_step m temp_type f g).1
          simp only [List.filter_cons, hk, decide_False, Bool.false_eq_true, if_false]
          rw [hc] at i1 i2
          exact ⟨i1, i2⟩
    · have hn : (!(PQGraph.commit_step m temp_type f g).2) = true := by simpa using h
      rw [hn]
      simp only [if_true]
      rw [if_neg (fun e => h e.1)] at hc
      obtain ⟨i1, i2⟩ := ih hrest batch_count (PQGraph.commit_step m temp_type f g).1
      rw [hc] at i1 i2
      exact ⟨i1, i2⟩

theorem range_ids_append (start a b : Nat) :
    ((List.range' (start + 1) a).map Int.ofNat) ++
      ((List.range' (start + a + 1) b).map Int.ofNat) =
      (List.range' (start + 1) (a + b)).map Int.ofNat := by
  rw [← List.map_append]
  congr 1
  rw [show start + a + 1 = start + 1 + 1 * a by omega, Nat.add_comm a b]
  exact List.range'_append _ _ _ 1

theorem substitute_loop_ids (m : Missing) (batched : Bool) (batch_size max_temps : Nat)
    (temp_type kind : String) (passes : List (List Node))
    (hm : ∀ g, (m.regenerate g).temp_counts_ = g.temp_counts_)
    (hl : ∀ pass ∈ passes, ∀ n ∈ pass, n.is_linked = true) (g : PQGraph) :
    (((PQGraph.substitute_loop_saved m batched batch_size max_temps temp_type passes
        g).filter fun e => decide (e.1 = kind)).map fun e => e.2.id_) =
      ((List.range' (smap_get g.temp_counts_ kind + 1)
        ((PQGraph.substitute_loop_saved m batched batch_size max_temps temp_type passes
          g).filter fun e => decide (e.1 = kind)).length).map Int.ofNat) ∧
    smap_get (PQGraph.substitute_loop m batched batch_size max_temps temp_type passes
        g).temp_counts_ kind =
      smap_get g.temp_counts_ kind +
        ((PQGraph.substitute_loop_saved m batched batch_size max_temps temp_type passes
          g).filter fun e => decide (e.1 = kind)).length := by
  induction passes generalizing g with
  | nil => simp [PQGraph.substitute_loop_saved, PQGraph.substitute_loop]
  | cons p later ih =>
    have hp : ∀ n ∈ p, n.is_linked = true := hl p (List.mem_cons_self _ _)
    have hlater : ∀ pass ∈ later, ∀ n ∈ pass, n.is_linked = true :=
      fun q hq => hl q (List.mem_cons_of_mem _ hq)
    unfold PQGraph.substitute_loop_saved PQGraph.substitute_loop
    by_cases hguard : smap_get g.temp_counts_ temp_type < max_temps
    · rw [if_pos hguard, if_pos hguard]
      obtain ⟨c1, c2⟩ := commit_loop_ids m batched batch_size max_temps temp_type kind p hp 0 g
      obtain ⟨i1, i2⟩ := ih hlater
        (m.regenerate (PQGraph.commit_loop m batched batch_size max_temps temp_type p 0 g))
      rw [hm, c2] at i1 i2
      rw [List.filter_append, List.map_append, List.length_append, c1, i1, i2]
      exact ⟨range_ids_append _ _ _, by omega⟩
    · rw [if_neg hguard, if_neg hguard]
      simp

theorem ensure_equations_counts (m : Missing) (g : PQGraph)
    (hm : ∀ g, (m.reorder g).temp_counts_ = g.temp_counts_ ∧
      (m.generate g).temp_counts_ = g.temp_counts_) :
    (PQGraph.substitute_entry m g).temp_counts_ = g.temp_counts_ := by
  unfold PQGraph.substitute_entry
  rw [(hm _).2]
  exact (hm g).1

/-- C33: one commit attempt takes the id `temp_counts_[kind] + 1`; when it
    makes no substitution the counters and `saved_linkages_` are as before and
    no declaration is appended, otherwise the counter of the kind is one
    higher, the linkage with this id is inserted into `saved_linkages_[kind]`
    and its declaration is the one term appended to the equation of the kind.
    Over a run, the ids of the linkages saved for a kind are, in order,
    `c + 1, c + 2, ...` with `c` the counter of the kind on entry, so they are
    pairwise distinct and at least 1, and the counter of the kind at the
    return is `c` plus the number of linkages saved for the kind.  The
    candidates are linkages; the members of `PQGraph` that are defined
    outside the sources are taken to leave `temp_counts_` as it is. -/
theorem commit_ids_consecutive (m : Missing) (batched : Bool) (batch_size max_temps : Nat)
    (format_sigma only_scalars : Bool) (passes : List (List Node)) (g : PQGraph)
    (kind : String)
    (hm : ∀ g, (m.reorder g).temp_counts_ = g.temp_counts_ ∧
      (m.generate g).temp_counts_ = g.temp_counts_ ∧
      (m.regenerate g).temp_counts_ = g.temp_counts_ ∧
      (m.finish g).temp_counts_ = g.temp_counts_)
    (hl : ∀ pass ∈ passes, ∀ n ∈ pass, n.is_linked = true) :
    (∀ (temp_type : String) (found : Node) (g0 : PQGraph),
      ((PQGraph.commit_step m temp_type found g0).2 = false →
        (∀ k, smap_get (PQGraph.commit_step m temp_type found g0).1.temp_counts_ k =
          smap_get g0.temp_counts_ k) ∧
        (PQGraph.commit_step m temp_type found g0).1.saved_linkages_ = g0.saved_linkages_ ∧
        (PQGraph.commit_step m temp_type found g0).1.equations_ =
          (PQGraph.substitute_all m
            (found.set_id
              ((smap_get g0.temp_counts_ (PQGraph.eq_type temp_type found) + 1 : Nat) : Int))
            true g0.equations_).1) ∧
      ((PQGraph.commit_step m temp_type found g0).2 = true →
        smap_get (PQGraph.commit_step m temp_type found g0).1.temp_counts_
            (PQGraph.eq_type temp_type found) =
          smap_get g0.temp_counts_ (PQGraph.eq_type temp_type found) + 1 ∧
        smap_set (PQGraph.commit_step m temp_type found g0).1.saved_linkages_
            (PQGraph.eq_type temp_type found) =
          m.set_insert (smap_set g0.saved_linkages_ (PQGraph.eq_type temp_type found))
            (found.set_id
              ((smap_get g0.temp_counts_ (PQGraph.eq_type temp_type found) + 1 : Nat) : Int)) ∧
        (smap_eq (PQGraph.commit_step m temp_type found g0).1.equations_
            (PQGraph.eq_type temp_type found)).terms =
          (smap_eq (PQGraph.substitute_all m
            (found.set_id
              ((smap_get g0.temp_counts_ (PQGraph.eq_type temp_type found) + 1 : Nat) : Int))
            true g0.equations_).1 (PQGraph.eq_type temp_type found)).terms ++
            [m.term_of_linkage (found.set_id
              ((smap_get g0.temp_counts_ (PQGraph.eq_type temp_type found) + 1 : Nat) :
                Int))])) ∧
    (((PQGraph.substitute_saved m batched batch_size max_temps format_sigma only_scalars
        passes g).filter fun e => decide (e.1 = kind)).map fun e => e.2.id_) =
      ((List.range' (smap_get g.temp_counts_ kind + 1)
        ((PQGraph.substitute_saved m batched batch_size max_temps format_sigma only_scalars
          passes g).filter fun e => decide (e.1 = kind)).length).map Int.ofNat) ∧
    (((PQGraph.substitute_saved m batched batch_size max_temps format_sigma only_scalars
        passes g).filter fun e => decide (e.1 = kind)).map fun e => e.2.id_).Nodup ∧
    (∀ i ∈ ((PQGraph.substitute_saved m batched batch_size max_temps format_sigma only_scalars
        passes g).filter fun e => decide (e.1 = kind)).map fun e => e.2.id_, 1 ≤ i) ∧
    smap_get (PQGraph.substitute m batched batch_size max_temps format_sigma only_scalars
        passes g).temp_counts_ kind =
      smap_get g.temp_counts_ kind +
        ((PQGraph.substitute_saved m batched batch_size max_temps format_sigma only_scalars
          passes g).filter fun e => decide (e.1 = kind)).length := by
  have hentry := ensure_equations_counts m g (fun g => ⟨(hm g).1, (hm g).2.1⟩)
  obtain ⟨i1, i2⟩ := substitute_loop_ids m batched batch_size max_temps
    (PQGraph.temp_type format_sigma only_scalars) kind passes (fun g => (hm g).2.2.1) hl
    (PQGraph.substitute_entry m g)
  rw [hentry] at i1 i2
  refine ⟨?_, i1, ?_, ?_, ?_⟩
  · intro temp_type found g0
    constructor
    · intro h
      refine ⟨fun k => ?_, ?_, ?_⟩
      · rw [commit_step_counts, if_neg (fun e => by rw [h] at e; exact absurd e.1 (by simp))]
      · unfold PQGraph.commit_step at h ⊢
        simp only at h ⊢
        split_ifs at h ⊢ with h0
        rfl
      · unfold PQGraph.commit_step at h ⊢
        simp only at h ⊢
        split_ifs at h ⊢ with h0
        rfl
    · intro h
      refine ⟨?_, ?_, ?_⟩
      · rw [commit_step_counts, if_pos ⟨h, rfl⟩]
      · unfold PQGraph.commit_step at h ⊢
        simp only at h ⊢
        split_ifs at h ⊢ with h0
        exact smap_set_assign_self _ _ _
      · unfold PQGraph.commit_step at h ⊢
        simp only at h ⊢
        split_ifs at h ⊢ with h0
        simp only
        rw [smap_eq_assign_self]
        rfl
  · unfold PQGraph.substitute_saved
    rw [i1]
    exact List.Nodup.map (fun a b hab => Int.ofNat.inj hab) (List.nodup_range' _ _)
  · unfold PQGraph.substitute_saved
    rw [i1]
    intro i hi
    rw [List.mem_map] at hi
    obtain ⟨n, hn, rfl⟩ := hi
    rw [List.mem_range'_1] at hn
    have := hn.1
    show (1 : Int) ≤ ((n : Nat) : Int)
    omega
  · unfold PQGraph.substitute
    simp only
    rw [(hm _).2.2.2]
    exact i2

/-- C33, instance: a batched run that commits `t(a,i) * u(i)` and
    `g(a,b,i,j) * t(a,i)` in one pass, for the kind `temp`. -/
theorem commit_ids_consecutive_witness :
    ((∀ g, (ex_missing.reorder g).temp_counts_ = g.temp_counts_ ∧
        (ex_missing.generate g).temp_counts_ = g.temp_counts_ ∧
        (ex_missing.regenerate g).temp_counts_ = g.temp_counts_ ∧
        (ex_missing.finish g).temp_counts_ = g.temp_counts_) ∧
      ∀ pass ∈ [[ex_tu, ex_gt]], ∀ n ∈ pass, n.is_linked = true) ∧
    smap_get (PQGraph.substitute ex_missing true (2 ^ 64 - 1) (2 ^ 64 - 1) false false
        [[ex_tu, ex_gt]] ex_graph).temp_counts_ "temp" =
      smap_get ex_graph.temp_counts_ "temp" +
        ((PQGraph.substitute_saved ex_missing true (2 ^ 64 - 1) (2 ^ 64 - 1) false false
          [[ex_tu, ex_gt]] ex_graph).filter fun e => decide (e.1 = "temp")).length :=
  ⟨⟨fun _ => ⟨rfl, rfl, rfl, rfl⟩, by decide⟩,
    (commit_ids_consecutive ex_missing true (2 ^ 64 - 1) (2 ^ 64 - 1) false false
      [[ex_tu, ex_gt]] ex_graph "temp" (fun _ => ⟨rfl, rfl, rfl, rfl⟩) (by decide)).2.2.2.2⟩

/-- In the batched run that commits `t(a,i) * u(i)` and `g(a,b,i,j) * t(a,i)`
    the saved linkages are of the kind `temp` with the ids 1 and 2, and the
    counter of `temp` goes from 0 to 2; a second attempt to commit
    `t(a,i) * u(i)` makes no substitution and saves nothing. -/
theorem commit_ids_instance :
    (PQGraph.substitute_saved ex_missing true (2 ^ 64 - 1) (2 ^ 64 - 1) false false
      [[ex_tu, ex_gt]] ex_graph).map (fun e => (e.1, e.2.id_)) = [("temp", 1), ("temp", 2)] ∧
    smap_get ex_graph.temp_counts_ "temp" = 0 ∧
    smap_get (PQGraph.substitute ex_missing true (2 ^ 64 - 1) (2 ^ 64 - 1) false false
      [[ex_tu, ex_gt]] ex_graph).temp_counts_ "temp" = 2 ∧
    (PQGraph.substitute_saved ex_missing true (2 ^ 64 - 1) (2 ^ 64 - 1) false false
      [[ex_tu, ex_tu]] ex_graph).map (fun e => (e.1, e.2.id_)) = [("temp", 1)] ∧
    smap_get (PQGraph.substitute ex_missing true (2 ^ 64 - 1) (2 ^ 64 - 1) false false
      [[ex_tu, ex_tu]] ex_graph).temp_counts_ "temp" = 1 := by
  decide

/-! ## The filter of the scored candidates (`PQGraph::substitute`) -/

/-- What the filter does with a map of which `test_flop_map > flop_map_` does
    not hold although `compare` calls it neither better nor the same: with
    `format_sigma` on, and for a scalar, the candidate is kept; a candidate of
    the kind `temp` is discarded. -/
theorem filter_keep_without_first_test :
    PQGraph.filter_keep false scaling_map.Comparison.incomparable false true false true = true ∧
    PQGraph.filter_keep false scaling_map.Comparison.incomparable true false false false =
      true ∧
    PQGraph.filter_keep false scaling_map.Comparison.incomparable false false false true =
      false := by
  decide

/-! ## The depth of the candidates (`PQGraph::substitute`) -/

theorem grow_loop_unbatched (org_max_depth : Nat) (found_empty : Bool) (later : List Bool)
    (d : PQGraph.Depth) :
    ∃ c, PQGraph.grow_loop false org_max_depth (found_empty :: later) true d =
      some ({ max_depth_ := (d.current_depth + 1) % 18446744073709551616,
              current_depth := c,
              used := d.used ++ [(d.current_depth + 1) % 18446744073709551616] },
        found_empty) := by
  unfold PQGraph.grow_loop
  simp only
  by_cases h : (d.current_depth + 1) % 18446744073709551616 ≥ org_max_depth
  · rw [if_pos h]; exact ⟨_, rfl⟩
  · rw [if_neg h]
    cases found_empty
    · exact ⟨_, rfl⟩
    · exact ⟨_, rfl⟩

/-- C35 (code): with `batched` off and `Term::max_depth_ = org_max_depth` on
    entry, a run whose first pass leaves `test_linkages` empty enters the
    loop that raises the depth, sets `Term::max_depth_` to 2 and regenerates
    the candidates with it, whatever `org_max_depth` is: the candidate
    generations of the run use the depths `org_max_depth` and 2.
    `Term::max_depth_` is `org_max_depth` again at the return. -/
theorem substitute_unbatched_regenerates (org_max_depth : Nat) (found_empty : Bool)
    (later : List Bool) :
    (PQGraph.substitute_depth false org_max_depth [(true, found_empty :: later)]).map
      (fun d => (d.used, d.max_depth_)) = some ([org_max_depth, 2], org_max_depth) := by
  unfold PQGraph.substitute_depth PQGraph.depth_loop
  obtain ⟨c, hc⟩ := grow_loop_unbatched org_max_depth found_empty later
    { max_depth_ := org_max_depth, current_depth := 1, used := [org_max_depth] }
  simp only [Bool.false_eq_true, if_false, if_true, hc, Option.some_bind, PQGraph.depth_loop,
    Option.map_some']
  rfl

/-- With `batched` off and the configured depth 3, a run over a graph without
    candidates regenerates the candidates with the depth 2; with the
    configured depth 1 it regenerates them with the depth 2 as well. -/
theorem substitute_unbatched_depth_instances :
    (PQGraph.substitute_depth false 3 [(true, [true])]).map (fun d => d.used) = some [3, 2] ∧
    (PQGraph.substitute_depth false 1 [(true, [true])]).map (fun d => d.used) = some [1, 2] := by
  decide

/-- The configured depth is restored at the return of every run. -/
theorem substitute_depth_restored (batched : Bool) (org_max_depth : Nat)
    (passes : List (Bool × List Bool)) (d : PQGraph.Depth)
    (h : PQGraph.substitute_depth batched org_max_depth passes = some d) :
    d.max_depth_ = org_max_depth := by
  unfold PQGraph.substitute_depth at h
  simp only [Option.map_eq_some'] at h
  obtain ⟨d0, _, h2⟩ := h
  rw [← h2]

/-! ## The names of the reserved equations (`substitute`, `str`, `collect_scaling`) -/

/-- C36 (code): on a graph without equations named `scalars` and `reuse`
    (`PQGraph::substitute` creates and fills `scalar`, `reused` and `temp`),
    `PQGraph::str` leaves out its sections "Scalars" and "Shared Operators",
    which it reads from `equations_["scalars"]` and `equations_["reuse"]`, and
    `collect_scaling(recompute, false)` adds the maps of every equation,
    the equation `reused` included: the name it skips is `reuse`. -/
theorem reserved_names_differ (m : Missing) (g : PQGraph)
    (h1 : smap_has (m.remove_redundant_tmps g).equations_ "scalars" = false)
    (h2 : smap_has (m.remove_redundant_tmps g).equations_ "reuse" = false)
    (h3 : smap_has g.equations_ "reuse" = false) :
    PQGraph.str_scalars m g = none ∧ PQGraph.str_reuse m g = none ∧
    PQGraph.collect_scaling_names false g.equations_ = g.equations_.map Prod.fst := by
  rw [smap_has_keys] at h1 h2 h3
  refine ⟨?_, ?_, ?_⟩
  · unfold PQGraph.str_scalars
    simp only
    rw [smap_eq_keys _ _ (by rw [collect_terms_keys]; exact h1)]
    rfl
  · unfold PQGraph.str_reuse
    simp only
    rw [smap_eq_keys _ _ (by rw [collect_terms_keys]; exact h2)]
    rfl
  · unfold PQGraph.collect_scaling_names
    congr 1
    rw [List.filter_eq_self]
    intro e he
    have : e.1 ≠ "reuse" := fun hk => h3 (List.mem_map.2 ⟨e, he, hk⟩)
    simp [this]

/-- C36 (code), instance: the graph that `PQGraph::substitute` leaves after
    it committed the scalar `f(i,a) * t(a,i)`. -/
theorem reserved_names_differ_witness :
    (smap_has (ex_missing.remove_redundant_tmps
        (PQGraph.substitute ex_missing false (2 ^ 64 - 1) (2 ^ 64 - 1) false false
          [[ex_sc_ft]] ex_graph)).equations_ "scalars" = false ∧
      smap_has (ex_missing.remove_redundant_tmps
        (PQGraph.substitute ex_missing false (2 ^ 64 - 1) (2 ^ 64 - 1) false false
          [[ex_sc_ft]] ex_graph)).equations_ "reuse" = false ∧
      smap_has (PQGraph.substitute ex_missing false (2 ^ 64 - 1) (2 ^ 64 - 1) false false
          [[ex_sc_ft]] ex_graph).equations_ "reuse" = false) ∧
    (PQGraph.str_scalars ex_missing
        (PQGraph.substitute ex_missing false (2 ^ 64 - 1) (2 ^ 64 - 1) false false
          [[ex_sc_ft]] ex_graph) = none ∧
      PQGraph.str_reuse ex_missing
        (PQGraph.substitute ex_missing false (2 ^ 64 - 1) (2 ^ 64 - 1) false false
          [[ex_sc_ft]] ex_graph) = none ∧
      PQGraph.collect_scaling_names false
        (PQGraph.substitute ex_missing false (2 ^ 64 - 1) (2 ^ 64 - 1) false false
          [[ex_sc_ft]] ex_graph).equations_ =
        (PQGraph.substitute ex_missing false (2 ^ 64 - 1) (2 ^ 64 - 1) false false
          [[ex_sc_ft]] ex_graph).equations_.map Prod.fst) :=
  ⟨⟨by decide, by decide, by decide⟩,
    reserved_names_differ ex_missing _ (by decide) (by decide) (by decide)⟩

/-- After the commit of the scalar `f(i,a) * t(a,i)` the equation `scalar`
    holds its declaration, the equations are `E`, `reused`, `scalar` and
    `temp`, `collect_scaling(recompute, false)` adds the maps of all four, and
    `PQGraph::str` streams the declaration among the terms under "Evaluate
    Equations" (the terms of `E`, then the declaration), not in a section
    "Scalars". -/
theorem substitute_scalar_not_in_section :
    ((smap_eq (PQGraph.substitute ex_missing false (2 ^ 64 - 1) (2 ^ 64 - 1) false false
        [[ex_sc_ft]] ex_graph).equations_ "scalar").terms.map fun term => term.lhs.id_) = [1] ∧
    PQGraph.collect_scaling_names false
      (PQGraph.substitute ex_missing false (2 ^ 64 - 1) (2 ^ 64 - 1) false false
        [[ex_sc_ft]] ex_graph).equations_ = ["E", "reused", "scalar", "temp"] ∧
    PQGraph.str_scalars ex_missing
      (PQGraph.substitute ex_missing false (2 ^ 64 - 1) (2 ^ 64 - 1) false false
        [[ex_sc_ft]] ex_graph) = none ∧
    (PQGraph.str_terms ex_missing true
      (PQGraph.substitute ex_missing false (2 ^ 64 - 1) (2 ^ 64 - 1) false false
        [[ex_sc_ft]] ex_graph)).map (fun terms => terms.map fun term => term.lhs.id_) =
      some [-1, -1, -1, -1, 1] := by
  decide

/-! ## Connections between the children (`Linkage::connect_lines`) -/

theorem index_of_lt (ls : List Line) (x : Line) (h : x.occurs_in ls = true) :
    ∃ y, ls[Linkage.index_of ls x]? = some y ∧ y.key = x.key := by
  induction ls with
  | nil => simp [Line.occurs_in] at h
  | cons a rest ih =>
    unfold Linkage.index_of
    by_cases ha : Line.op_eq a x = true
    · rw [if_pos ha]
      exact ⟨a, by simp, (Line.op_eq_iff a x).1 ha⟩
    · rw [if_neg ha]
      have h' : x.occurs_in rest = true := by
        simp only [Line.occurs_in, List.any_cons, Bool.or_eq_true] at h
        rcases h with h | h
        · exact absurd h ha
        · exact h
      obtain ⟨y, hy, hk⟩ := ih h'
      exact ⟨y, by simpa using hy, hk⟩

theorem index_of_unique (ls : List Line) (hn : no_repeat ls) (x y : Line) (j : Nat)
    (hj : ls[j]? = some y) (hk : y.key = x.key) : Linkage.index_of ls x = j := by
  induction ls generalizing j with
  | nil => simp at hj
  | cons a rest ih =>
    have hp := List.pairwise_cons.1 hn
    unfold Linkage.index_of
    cases j with
    | zero =>
      simp only [List.getElem?_cons_zero, Option.some.injEq] at hj
      rw [hj, if_pos ((Line.op_eq_iff y x).2 hk)]
    | succ j =>
      simp only [List.getElem?_cons_succ] at hj
      have hy : y ∈ rest := (List.mem_iff_getElem?.2 ⟨j, hj⟩)
      have hne : Line.op_eq a x = false := by
        rw [Line.op_eq_false_iff, ← hk]
        exact (Line.op_eq_false_iff a y).1 (hp.1 y hy)
      rw [hne]
      simp only [Bool.false_eq_true, if_false]
      rw [ih hp.2 j hj]

theorem set_emplace_new {α : Type} [DecidableEq α] (s : List α) (x : α) (h : x ∉ s) :
    set_emplace s x = s ++ [x] := by
  unfold set_emplace
  simp [h]

theorem getElem?_lt_of_some {α : Type} (l : List α) (i : Nat) (x : α) (h : l[i]? = some x) :
    i < l.length := by
  by_contra hlt
  rw [List.getElem?_eq_none (by omega)] at h
  cases h

/-- The state after the loop of `connect_lines` that searches the left
    lines, run over the entries `es`. -/
theorem connect_fold_left (R I : List Line) (es : List (Nat × Line)) (st : Linkage.Connec)
    (hes : (es.map Prod.fst).Nodup)
    (hst : ∀ e ∈ es, ∀ p ∈ st.int_connec_, p.1 ≠ e.1) :
    (es.foldl (Linkage.connect_step true R I) st).int_connec_ =
      st.int_connec_ ++ (es.filter fun e => Linkage.int_lines_find I e.2).map
        (fun e => (e.1, Linkage.index_of R e.2 % 256)) ∧
    (es.foldl (Linkage.connect_step true R I) st).l_ext_idx_ =
      st.l_ext_idx_.filter (fun i =>
        es.all fun e => !(Linkage.int_lines_find I e.2) || decide (i ≠ e.1)) ∧
    (es.foldl (Linkage.connect_step true R I) st).r_ext_idx_ =
      st.r_ext_idx_.filter (fun j =>
        es.all fun e => !(Linkage.int_lines_find I e.2) ||
          decide (j ≠ Linkage.index_of R e.2 % 256)) := by
  induction es generalizing st with
  | nil => simp
  | cons e rest ih =>
    have hnd : e.1 ∉ rest.map Prod.fst ∧ (rest.map Prod.fst).Nodup := by
      rw [List.map_cons] at hes
      exact List.nodup_cons.1 hes
    have hrest : (rest.map Prod.fst).Nodup := hnd.2
    rw [List.foldl_cons]
    by_cases hi : Linkage.int_lines_find I e.2 = true
    · have hstep : Linkage.connect_step true R I st e =
          { int_connec_ := st.int_connec_ ++ [(e.1, Linkage.index_of R e.2 % 256)]
            l_ext_idx_ := set_erase st.l_ext_idx_ e.1
            r_ext_idx_ := set_erase st.r_ext_idx_ (Linkage.index_of R e.2 % 256) } := by
        unfold Linkage.connect_step
        simp only [hi, Bool.not_true, Bool.false_eq_true, if_false, if_true]
        rw [set_emplace_new]
        intro hp
        exact hst e (List.mem_cons_self _ _) _ hp rfl
      rw [hstep]
      obtain ⟨i1, i2, i3⟩ := ih
        { int_connec_ := st.int_connec_ ++ [(e.1, Linkage.index_of R e.2 % 256)]
          l_ext_idx_ := set_erase st.l_ext_idx_ e.1
          r_ext_idx_ := set_erase st.r_ext_idx_ (Linkage.index_of R e.2 % 256) } hrest
        (by
          intro e' he' p hp
          simp only [List.mem_append, List.mem_singleton] at hp
          rcases hp with hp | hp
          · exact hst e' (List.mem_cons_of_mem _ he') p hp
          · rw [hp]
            intro heq
            apply hnd.1
            simp only at heq
            rw [heq]
            exact List.mem_map_of_mem _ he')
      refine ⟨?_, ?_, ?_⟩
      · rw [i1]
        simp [List.filter_cons, hi]
      · rw [i2]
        simp only [set_erase, List.filter_filter, List.all_cons, hi, Bool.not_true,
          Bool.false_or]
        congr 1
        funext i
        rw [Bool.and_comm]
      · rw [i3]
        simp only [set_erase, List.filter_filter, List.all_cons, hi, Bool.not_true,
          Bool.false_or]
        congr 1
        funext i
        rw [Bool.and_comm]
    · have hi' : Linkage.int_lines_find I e.2 = false := by simpa using hi
      have hstep : Linkage.connect_step true R I st e = st := by
        unfold Linkage.connect_step
        simp [hi']
      rw [hstep]
      obtain ⟨i1, i2, i3⟩ := ih st hrest
        (fun e' he' p hp => hst e' (List.mem_cons_of_mem _ he') p hp)
      refine ⟨?_, ?_, ?_⟩
      · rw [i1]; simp [List.filter_cons, hi']
      · rw [i2]; simp [hi']
      · rw [i3]; simp [hi']

theorem occurs_in_of_key (x y : Line) (ls : List Line) (h : y ∈ ls) (hk : y.key = x.key) :
    x.occurs_in ls = true :=
  (occurs_in_iff x ls).2 ⟨y, h, hk⟩

theorem occurs_in_false_of_key (x y : Line) (ls : List Line) (hk : x.key = y.key)
    (h : x.occurs_in ls = false) : y.occurs_in ls = false := by
  rw [← Bool.not_eq_true] at h ⊢
  intro hy
  apply h
  obtain ⟨z, hz, hzk⟩ := (occurs_in_iff y ls).1 hy
  exact (occurs_in_iff x ls).2 ⟨z, hz, hzk.trans hk.symm⟩

theorem filter_positions_length {α : Type} (l : List α) (p : Nat → Bool) (q : α → Bool)
    (h : ∀ i x, l[i]? = some x → p i = q x) :
    ((List.range l.length).filter p).length = (l.filter q).length := by
  rw [← List.enum_map_fst l, List.filter_map, List.length_map]
  have : l.filter q = (l.enum.filter (q ∘ Prod.snd)).map Prod.snd := by
    rw [← List.filter_map, List.enum_map_snd]
  rw [this, List.length_map]
  congr 1
  apply List.filter_congr
  rintro ⟨i, x⟩ he
  exact h i x (List.mk_mem_enum_iff_getElem?.1 he)

/-- The loop of `connect_lines` that searches the left lines. -/
theorem connect_scan_left (L R I : List Line) (hL : L.length < 256) (hR : R.length < 256)
    (hnR : no_repeat R)
    (hI : ∀ x, Linkage.int_lines_find I x = true ↔
      (x.occurs_in L = true ∧ x.occurs_in R = true)) :
    ConnectsExactly L R (Linkage.connect_scan true L R I) ∧
    (Linkage.connect_scan true L R I).int_connec_.length =
      (L.filter fun x => x.occurs_in R).length ∧
    (Linkage.connect_scan true L R I).l_ext_idx_.length =
      (L.filter fun x => !x.occurs_in R).length ∧
    (Linkage.connect_scan true L R I).r_ext_idx_.length =
      (R.filter fun y => !y.occurs_in L).length := by
  have hes : (L.enum.map Prod.fst).Nodup := by
    rw [List.enum_map_fst]; exact List.nodup_range _
  obtain ⟨f1, f2, f3⟩ := connect_fold_left R I L.enum
    { int_connec_ := [], l_ext_idx_ := List.range L.length, r_ext_idx_ := List.range R.length }
    hes (fun _ _ p hp => by cases hp)
  have hscan : Linkage.connect_scan true L R I =
      L.enum.foldl (Linkage.connect_step true R I)
        { int_connec_ := [], l_ext_idx_ := List.range L.length,
          r_ext_idx_ := List.range R.length } := by
    unfold Linkage.connect_scan
    simp only [if_true, Nat.mod_eq_of_lt hL, Nat.mod_eq_of_lt hR]
    rw [List.enum_eq_zip_range]
  rw [hscan]
  simp only [List.nil_append] at f1
  have hint : ∀ (i : Nat) (x : Line), L[i]? = some x →
      (Linkage.int_lines_find I x = true ↔ x.occurs_in R = true) := by
    intro i x hx
    rw [hI]
    exact ⟨fun h => h.2, fun h => ⟨occurs_in_self x L (List.mem_iff_getElem?.2 ⟨i, hx⟩), h⟩⟩
  have hidx : ∀ x, x.occurs_in R = true →
      ∃ y, R[Linkage.index_of R x]? = some y ∧ y.key = x.key ∧
        Linkage.index_of R x % 256 = Linkage.index_of R x := by
    intro x hx
    obtain ⟨y, hy, hk⟩ := index_of_lt R x hx
    refine ⟨y, hy, hk, Nat.mod_eq_of_lt ?_⟩
    have := getElem?_lt_of_some R _ y hy
    omega
  -- membership in the three sets
  have m1 : ∀ (i j : Nat), (i, j) ∈ (L.enum.filter fun e => Linkage.int_lines_find I e.2).map
        (fun e => (e.1, Linkage.index_of R e.2 % 256)) ↔
      ∃ x y, L[i]? = some x ∧ R[j]? = some y ∧ Line.op_eq x y = true := by
    intro i j
    simp only [List.mem_map, List.mem_filter, Prod.mk.injEq, Prod.exists]
    constructor
    · rintro ⟨i', x, ⟨he, hin⟩, rfl, rfl⟩
      have hx := List.mk_mem_enum_iff_getElem?.1 he
      obtain ⟨y, hy, hk, hm⟩ := hidx x ((hint _ _ hx).1 hin)
      rw [hm]
      exact ⟨x, y, hx, hy, (Line.op_eq_iff x y).2 hk.symm⟩
    · rintro ⟨x, y, hx, hy, hxy⟩
      have hk := (Line.op_eq_iff x y).1 hxy
      have hocc : x.occurs_in R = true :=
        occurs_in_of_key x y R (List.mem_iff_getElem?.2 ⟨j, hy⟩) hk.symm
      refine ⟨i, x, ⟨List.mk_mem_enum_iff_getElem?.2 hx, (hint _ _ hx).2 hocc⟩, rfl, ?_⟩
      have hu := index_of_unique R hnR x y j hy hk.symm
      rw [hu]
      exact Nat.mod_eq_of_lt (by have := getElem?_lt_of_some R _ y hy; omega)
  have p2 : ∀ (i : Nat) (x : Line), L[i]? = some x →
      (L.enum.all fun e => !(Linkage.int_lines_find I e.2) || decide (i ≠ e.1)) =
        !x.occurs_in R := by
    intro i x hx
    rw [Bool.eq_iff_iff]
    simp only [List.all_eq_true, Bool.or_eq_true, Bool.not_eq_true', decide_eq_true_eq,
      Prod.forall]
    constructor
    · intro h
      rcases h i x (List.mk_mem_enum_iff_getElem?.2 hx) with h1 | h1
      · by_contra hc
        have hc' : x.occurs_in R = true := by simpa using hc
        rw [(hint _ _ hx).2 hc'] at h1
        cases h1
      · exact absurd rfl h1
    · intro h i' x' he
      by_cases hii : i = i'
      · left
        subst hii
        have hx' := List.mk_mem_enum_iff_getElem?.1 he
        rw [hx] at hx'
        cases hx'
        by_contra hc
        have hc' : Linkage.int_lines_find I x = true := by simpa using hc
        rw [(hint _ _ hx).1 hc'] at h
        cases h
      · exact Or.inr hii
  have p3 : ∀ (j : Nat) (y : Line), R[j]? = some y →
      (L.enum.all fun e => !(Linkage.int_lines_find I e.2) ||
        decide (j ≠ Linkage.index_of R e.2 % 256)) = !y.occurs_in L := by
    intro j y hy
    rw [Bool.eq_iff_iff]
    simp only [List.all_eq_true, Bool.or_eq_true, Bool.not_eq_true', decide_eq_true_eq,
      Prod.forall]
    constructor
    · intro h
      by_contra hc
      have hc' : y.occurs_in L = true := by simpa using hc
      obtain ⟨x, hxL, hk⟩ := (occurs_in_iff y L).1 hc'
      obtain ⟨i, hx⟩ := List.mem_iff_getElem?.1 hxL
      have hocc : x.occurs_in R = true :=
        occurs_in_of_key x y R (List.mem_iff_getElem?.2 ⟨j, hy⟩) hk.symm
      have hu := index_of_unique R hnR x y j hy hk.symm
      rcases h i x (List.mk_mem_enum_iff_getElem?.2 hx) with h1 | h1
      · rw [(hint _ _ hx).2 hocc] at h1
        cases h1
      · apply h1
        rw [hu]
        exact (Nat.mod_eq_of_lt (by have := getElem?_lt_of_some R _ y hy; omega)).symm
    · intro h i x he
      have hx := List.mk_mem_enum_iff_getElem?.1 he
      by_cases hin : Linkage.int_lines_find I x = true
      · right
        intro hj
        obtain ⟨y', hy', hk, hm⟩ := hidx x ((hint _ _ hx).1 hin)
        rw [hm] at hj
        rw [← hj, hy] at hy'
        cases hy'
        have : y.occurs_in L = true :=
          occurs_in_of_key y x L (List.mem_iff_getElem?.2 ⟨i, hx⟩) hk.symm
        rw [this] at h
        cases h
      · left
        simpa using hin
  refine ⟨⟨?_, ?_, ?_, ?_, ?_, ?_⟩, ?_, ?_, ?_⟩
  · intro i j
    rw [f1]
    exact m1 i j
  · intro i
    rw [f2, List.mem_filter, List.mem_range]
    constructor
    · rintro ⟨hi, hp⟩
      obtain ⟨x, hx⟩ : ∃ x, L[i]? = some x := ⟨L[i], List.getElem?_eq_getElem hi⟩
      rw [p2 i x hx] at hp
      exact ⟨x, hx, by simpa using hp⟩
    · rintro ⟨x, hx, hocc⟩
      refine ⟨getElem?_lt_of_some L i x hx, ?_⟩
      rw [p2 i x hx, hocc]
      rfl
  · intro j
    rw [f3, List.mem_filter, List.mem_range]
    constructor
    · rintro ⟨hj, hp⟩
      obtain ⟨y, hy⟩ : ∃ y, R[j]? = some y := ⟨R[j], List.getElem?_eq_getElem hj⟩
      rw [p3 j y hy] at hp
      exact ⟨y, hy, by simpa using hp⟩
    · rintro ⟨y, hy, hocc⟩
      refine ⟨getElem?_lt_of_some R j y hy, ?_⟩
      rw [p3 j y hy, hocc]
      rfl
  · rw [f1]
    apply List.Nodup.of_map Prod.fst
    rw [List.map_map]
    have : (Prod.fst ∘ fun e : Nat × Line => (e.1, Linkage.index_of R e.2 % 256)) = Prod.fst :=
      rfl
    rw [this]
    exact hes.sublist (List.Sublist.map _ (List.filter_sublist _))
  · rw [f2]; exact (List.nodup_range _).filter _
  · rw [f3]; exact (List.nodup_range _).filter _
  · rw [f1, List.length_map]
    have : (L.filter fun x => x.occurs_in R) =
        (L.enum.filter ((fun x => x.occurs_in R) ∘ Prod.snd)).map Prod.snd := by
      rw [← List.filter_map, List.enum_map_snd]
    rw [this, List.length_map]
    congr 1
    apply List.filter_congr
    rintro ⟨i, x⟩ he
    have hx := List.mk_mem_enum_iff_getElem?.1 he
    rw [Bool.eq_iff_iff]
    exact hint i x hx
  · rw [f2]
    exact filter_positions_length L _ _ p2
  · rw [f3]
    exact filter_positions_length R _ _ p3

theorem set_emplace_map {α β : Type} [DecidableEq α] [DecidableEq β] (f : α → β)
    (hf : Function.Injective f) (s : List α) (x : α) :
    set_emplace (s.map f) (f x) = (set_emplace s x).map f := by
  unfold set_emplace
  by_cases h : x ∈ s
  · have h' : f x ∈ s.map f := List.mem_map_of_mem f h
    simp [h, h']
  · have h' : f x ∉ s.map f := by
      rw [List.mem_map]
      rintro ⟨y, hy, hxy⟩
      exact h (hf hxy ▸ hy)
    simp [h, h']

/-- Searching the right lines gives what searching the left lines gives with
    the two children exchanged. -/
theorem connect_fold_swap (O I : List Line) (es : List (Nat × Line))
    (st st' : Linkage.Connec)
    (h1 : st'.int_connec_ = st.int_connec_.map Prod.swap)
    (h2 : st'.l_ext_idx_ = st.r_ext_idx_) (h3 : st'.r_ext_idx_ = st.l_ext_idx_) :
    (es.foldl (Linkage.connect_step false O I) st').int_connec_ =
      (es.foldl (Linkage.connect_step true O I) st).int_connec_.map Prod.swap ∧
    (es.foldl (Linkage.connect_step false O I) st').l_ext_idx_ =
      (es.foldl (Linkage.connect_step true O I) st).r_ext_idx_ ∧
    (es.foldl (Linkage.connect_step false O I) st').r_ext_idx_ =
      (es.foldl (Linkage.connect_step true O I) st).l_ext_idx_ := by
  induction es generalizing st st' with
  | nil => exact ⟨h1, h2, h3⟩
  | cons e rest ih =>
    rw [List.foldl_cons, List.foldl_cons]
    apply ih
    · unfold Linkage.connect_step
      by_cases hi : Linkage.int_lines_find I e.2 = true
      · simp only [hi, Bool.not_true, Bool.false_eq_true, if_false, if_true]
        rw [h1]
        exact set_emplace_map Prod.swap Prod.swap_injective _ (e.1, _)
      · simp only [hi, Bool.not_false, if_true, Bool.not_eq_true] at *
        simp [hi, h1]
    · unfold Linkage.connect_step
      by_cases hi : Linkage.int_lines_find I e.2 = true
      · simp only [hi, Bool.not_true, Bool.false_eq_true, if_false, if_true]
        rw [h2]
      · simp [hi, h2]
    · unfold Linkage.connect_step
      by_cases hi : Linkage.int_lines_find I e.2 = true
      · simp only [hi, Bool.not_true, Bool.false_eq_true, if_false, if_true]
        rw [h3]
      · simp [hi, h3]

theorem connect_scan_swap (L R I : List Line) :
    (Linkage.connect_scan false L R I).int_connec_ =
      (Linkage.connect_scan true R L I).int_connec_.map Prod.swap ∧
    (Linkage.connect_scan false L R I).l_ext_idx_ =
      (Linkage.connect_scan true R L I).r_ext_idx_ ∧
    (Linkage.connect_scan false L R I).r_ext_idx_ =
      (Linkage.connect_scan true R L I).l_ext_idx_ := by
  unfold Linkage.connect_scan
  simp only [Bool.false_eq_true, if_false, if_true]
  exact connect_fold_swap L I _ _ _ rfl rfl rfl

/-- The loop of `connect_lines`, whichever child it searches. -/
theorem connect_scan_spec (b : Bool) (L R I : List Line) (hL : L.length < 256)
    (hR : R.length < 256) (hnL : no_repeat L) (hnR : no_repeat R)
    (hI : ∀ x, Linkage.int_lines_find I x = true ↔
      (x.occurs_in L = true ∧ x.occurs_in R = true)) :
    ConnectsExactly L R (Linkage.connect_scan b L R I) ∧
    (Linkage.connect_scan b L R I).int_connec_.length =
      (L.filter fun x => x.occurs_in R).length ∧
    (Linkage.connect_scan b L R I).l_ext_idx_.length =
      (L.filter fun x => !x.occurs_in R).length ∧
    (Linkage.connect_scan b L R I).r_ext_idx_.length =
      (R.filter fun y => !y.occurs_in L).length := by
  cases b
  · obtain ⟨⟨c1, c2, c3, c4, c5, c6⟩, n1, n2, n3⟩ := connect_scan_left R L I hR hL hnL
      (fun x => (hI x).trans And.comm)
    obtain ⟨s1, s2, s3⟩ := connect_scan_swap L R I
    obtain ⟨⟨d1, _, _, _, _, _⟩, m1, _, _⟩ := connect_scan_left L R I hL hR hnR hI
    refine ⟨⟨?_, ?_, ?_, ?_, ?_, ?_⟩, ?_, ?_, ?_⟩
    · intro i j
      rw [s1]
      have : (i, j) ∈ (Linkage.connect_scan true R L I).int_connec_.map Prod.swap ↔
          (j, i) ∈ (Linkage.connect_scan true R L I).int_connec_ := by
        simp only [List.mem_map, Prod.exists, Prod.swap_prod_mk, Prod.mk.injEq]
        constructor
        · rintro ⟨a, c, h, rfl, rfl⟩; exact h
        · intro h; exact ⟨j, i, h, rfl, rfl⟩
      rw [this, c1]
      constructor
      · rintro ⟨x, y, hx, hy, hxy⟩
        exact ⟨y, x, hy, hx, (Line.op_eq_iff y x).2 ((Line.op_eq_iff x y).1 hxy).symm⟩
      · rintro ⟨x, y, hx, hy, hxy⟩
        exact ⟨y, x, hy, hx, (Line.op_eq_iff y x).2 ((Line.op_eq_iff x y).1 hxy).symm⟩
    · intro i; rw [s2]; exact c3 i
    · intro j; rw [s3]; exact c2 j
    · rw [s1]; exact c4.map Prod.swap_injective
    · rw [s2]; exact c6
    · rw [s3]; exact c5
    · rw [s1, List.length_map, ← m1]
      -- both scans store one pair for every pair of equal lines
      have hperm : List.Perm ((Linkage.connect_scan true R L I).int_connec_.map Prod.swap)
          (Linkage.connect_scan true L R I).int_connec_ := by
        rw [List.perm_ext_iff_of_nodup (c4.map Prod.swap_injective)
          (connect_scan_left L R I hL hR hnR hI).1.2.2.2.1]
        rintro ⟨i, j⟩
        have : (i, j) ∈ (Linkage.connect_scan true R L I).int_connec_.map Prod.swap ↔
            (j, i) ∈ (Linkage.connect_scan true R L I).int_connec_ := by
          simp only [List.mem_map, Prod.exists, Prod.swap_prod_mk, Prod.mk.injEq]
          constructor
          · rintro ⟨a, c, h, rfl, rfl⟩; exact h
          · intro h; exact ⟨j, i, h, rfl, rfl⟩
        rw [this, c1, d1]
        constructor
        · rintro ⟨x, y, hx, hy, hxy⟩
          exact ⟨y, x, hy, hx, (Line.op_eq_iff y x).2 ((Line.op_eq_iff x y).1 hxy).symm⟩
        · rintro ⟨x, y, hx, hy, hxy⟩
          exact ⟨y, x, hy, hx, (Line.op_eq_iff y x).2 ((Line.op_eq_iff x y).1 hxy).symm⟩
      have := hperm.length_eq
      rw [List.length_map] at this
      exact this
    · rw [s2]; exact n3
    · rw [s3]; exact n2
  · exact connect_scan_left L R I hL hR hnR hI

theorem int_lines_find_self (I : List Line) (y : Line) (h : y ∈ I) :
    Linkage.int_lines_find I y = true := by
  unfold Linkage.int_lines_find
  rw [List.any_eq_true]
  exact ⟨y, h, (Line.op_eq_iff y y).2 rfl⟩

/-- The number of internal lines is the number of left lines that occur on
    the right. -/
theorem int_lines_length (L R I : List Line) (hnL : no_repeat L) (hnI : no_repeat I)
    (hI : ∀ x, Linkage.int_lines_find I x = true ↔
      (x.occurs_in L = true ∧ x.occurs_in R = true)) :
    I.length = (L.filter fun x => x.occurs_in R).length := by
  have h1 : (I.map Line.key).Nodup := (no_repeat_iff I).1 hnI
  have h2 : ((L.filter fun x => x.occurs_in R).map Line.key).Nodup :=
    ((no_repeat_iff L).1 hnL).sublist ((List.filter_sublist _).map _)
  have hp : List.Perm (I.map Line.key) ((L.filter fun x => x.occurs_in R).map Line.key) := by
    rw [List.perm_ext_iff_of_nodup h1 h2]
    intro k
    simp only [List.mem_map, List.mem_filter]
    constructor
    · rintro ⟨y, hy, rfl⟩
      obtain ⟨o1, o2⟩ := (hI y).1 (int_lines_find_self I y hy)
      obtain ⟨x, hx, hk⟩ := (occurs_in_iff y L).1 o1
      obtain ⟨z, hz, hzk⟩ := (occurs_in_iff y R).1 o2
      exact ⟨x, ⟨hx, (occurs_in_iff x R).2 ⟨z, hz, hzk.trans hk.symm⟩⟩, hk⟩
    · rintro ⟨x, ⟨hx, hocc⟩, rfl⟩
      have := (hI x).2 ⟨occurs_in_self x L hx, hocc⟩
      unfold Linkage.int_lines_find at this
      rw [List.any_eq_true] at this
      obtain ⟨y, hy, hyx⟩ := this
      exact ⟨y, hy, (Line.op_eq_iff y x).1 hyx⟩
  have := hp.length_eq
  simpa using this

theorem connect_lines_eq_scan (l r I : List Line) :
    Linkage.connect_lines l r I = Linkage.connect_scan (lines_lt l r) l r I := rfl

/-- The connections of a linkage assembled from the stored children `a` and
    `b`. -/
theorem assemble_connects (update_name : Node → Node → Vertex → String) (a b : Node)
    (is_addition : Bool)
    (ha0 : 0 < a.vert.size) (hb0 : 0 < b.vert.size)
    (ha : a.vert.lines_.length < 256) (hb : b.vert.lines_.length < 256)
    (hna : no_repeat a.vert.lines_) (hnb : no_repeat b.vert.lines_) :
    ConnectsExactly a.vert.lines_ b.vert.lines_
      { int_connec_ := (Linkage.assemble update_name a b is_addition).int_connec_
        l_ext_idx_ := (Linkage.assemble update_name a b is_addition).l_ext_idx_
        r_ext_idx_ := (Linkage.assemble update_name a b is_addition).r_ext_idx_ } ∧
    (Linkage.assemble update_name a b is_addition).int_connec_.length =
      (Linkage.assemble update_name a b is_addition).int_lines_.length ∧
    (Linkage.assemble update_name a b is_addition).l_ext_idx_.length +
      (Linkage.assemble update_name a b is_addition).r_ext_idx_.length =
      (Linkage.assemble update_name a b is_addition).vert.rank_ ∧
    ∀ search_left, ConnectsExactly a.vert.lines_ b.vert.lines_
      (Linkage.connect_scan search_left a.vert.lines_ b.vert.lines_
        (Linkage.assemble update_name a b is_addition).int_lines_) := by
  obtain ⟨hperm, hI⟩ := set_links_no_repeat a.vert b.vert ha0 hb0 hna hnb
  have hnI := set_links_int_no_repeat a.vert b.vert
  have hspec := fun s => connect_scan_spec s a.vert.lines_ b.vert.lines_
    (Linkage.set_links a.vert b.vert).int_lines_ ha hb hna hnb hI
  obtain ⟨c, n1, n2, n3⟩ := hspec (lines_lt a.vert.lines_ b.vert.lines_)
  refine ⟨c, ?_, ?_, fun s => (hspec s).1⟩
  · show (Linkage.connect_scan (lines_lt a.vert.lines_ b.vert.lines_) a.vert.lines_
        b.vert.lines_ (Linkage.set_links a.vert b.vert).int_lines_).int_connec_.length =
      (Linkage.set_links a.vert b.vert).int_lines_.length
    rw [n1, int_lines_length a.vert.lines_ b.vert.lines_ _ hna hnI hI]
  · show (Linkage.connect_scan (lines_lt a.vert.lines_ b.vert.lines_) a.vert.lines_
        b.vert.lines_ (Linkage.set_links a.vert b.vert).int_lines_).l_ext_idx_.length +
      (Linkage.connect_scan (lines_lt a.vert.lines_ b.vert.lines_) a.vert.lines_
        b.vert.lines_ (Linkage.set_links a.vert b.vert).int_lines_).r_ext_idx_.length =
      (Linkage.set_links a.vert b.vert).lines_.length
    rw [n2, n3, hperm.length_eq, List.length_append]

/-- C37: for a linkage whose two children have lines (fewer than 256, the
    range of the 8-bit sizes of `connect_lines`) and hold no line twice,
    `int_connec_` is exactly the set of the pairs `(i, j)` with
    `left.lines[i] == right.lines[j]`, `l_ext_idx_` exactly the set of the
    positions of the left lines that do not occur on the right and
    `r_ext_idx_` that of the right lines that do not occur on the left, so
    every stored index is a position of its child; `|int_connec_| =
    |int_lines_|` and `|l_ext_idx_| + |r_ext_idx_| = rank_`; and the loop
    gives these sets whichever child it searches. -/
theorem connect_lines_spec (update_name : Node → Node → Vertex → String)
    (left right : Node) (is_addition : Bool)
    (hl0 : 0 < left.vert.size) (hr0 : 0 < right.vert.size)
    (hl : left.vert.lines_.length < 256) (hr : right.vert.lines_.length < 256)
    (hnl : no_repeat left.vert.lines_) (hnr : no_repeat right.vert.lines_) :
    ConnectsExactly
      (Linkage.Linkage update_name left right is_addition).left_.vert.lines_
      (Linkage.Linkage update_name left right is_addition).right_.vert.lines_
      { int_connec_ := (Linkage.Linkage update_name left right is_addition).int_connec_
        l_ext_idx_ := (Linkage.Linkage update_name left right is_addition).l_ext_idx_
        r_ext_idx_ := (Linkage.Linkage update_name left right is_addition).r_ext_idx_ } ∧
    (Linkage.Linkage update_name left right is_addition).int_connec_.length =
      (Linkage.Linkage update_name left right is_addition).int_lines_.length ∧
    (Linkage.Linkage update_name left right is_addition).l_ext_idx_.length +
      (Linkage.Linkage update_name left right is_addition).r_ext_idx_.length =
      (Linkage.Linkage update_name left right is_addition).vert.rank_ ∧
    ∀ search_left, ConnectsExactly
      (Linkage.Linkage update_name left right is_addition).left_.vert.lines_
      (Linkage.Linkage update_name left right is_addition).right_.vert.lines_
      (Linkage.connect_scan search_left
        (Linkage.Linkage update_name left right is_addition).left_.vert.lines_
        (Linkage.Linkage update_name left right is_addition).right_.vert.lines_
        (Linkage.Linkage update_name left right is_addition).int_lines_) := by
  unfold Linkage.Linkage
  rcases order_children_cases left right with h | h <;> rw [h]
  · exact assemble_connects update_name left right is_addition hl0 hr0 hl hr hnl hnr
  · exact assemble_connects update_name right left is_addition hr0 hl0 hr hl hnr hnl

/-- C37, instance: `g(a,b,i,j) * g(b,c,k,l)`. -/
theorem connect_lines_spec_witness :
    (0 < ex_g_abij.size ∧ 0 < ex_g_bckl.size ∧
      ex_g_abij.lines_.length < 256 ∧ ex_g_bckl.lines_.length < 256 ∧
      no_repeat ex_g_abij.lines_ ∧ no_repeat ex_g_bckl.lines_) ∧
    (Linkage.Linkage ex_update_name (Node.vertex ex_g_abij) (Node.vertex ex_g_bckl)
        false).int_connec_.length =
      (Linkage.Linkage ex_update_name (Node.vertex ex_g_abij) (Node.vertex ex_g_bckl)
        false).int_lines_.length ∧
    (Linkage.Linkage ex_update_name (Node.vertex ex_g_abij) (Node.vertex ex_g_bckl)
        false).l_ext_idx_.length +
      (Linkage.Linkage ex_update_name (Node.vertex ex_g_abij) (Node.vertex ex_g_bckl)
        false).r_ext_idx_.length =
      (Linkage.Linkage ex_update_name (Node.vertex ex_g_abij) (Node.vertex ex_g_bckl)
        false).vert.rank_ :=
  ⟨⟨by decide, by decide, by decide, by decide, ex_no_repeat.1, ex_no_repeat.2⟩,
    (connect_lines_spec ex_update_name (Node.vertex ex_g_abij) (Node.vertex ex_g_bckl) false
      (by decide) (by decide) (by decide) (by decide) ex_no_repeat.1 ex_no_repeat.2).2.1,
    (connect_lines_spec ex_update_name (Node.vertex ex_g_abij) (Node.vertex ex_g_bckl) false
      (by decide) (by decide) (by decide) (by decide) ex_no_repeat.1 ex_no_repeat.2).2.2.1⟩

/-- The connections of `g(a,b,i,j) * g(b,c,k,l)`: the children are stored in
    the reverse order (equal names), the line `b` connects position 0 of the
    left child with position 1 of the right child, and both searches give the
    same sets. -/
theorem connect_lines_instance :
    (Linkage.Linkage ex_update_name (Node.vertex ex_g_abij) (Node.vertex ex_g_bckl)
      false).left_ = Node.vertex ex_g_bckl ∧
    (Linkage.Linkage ex_update_name (Node.vertex ex_g_abij) (Node.vertex ex_g_bckl)
      false).int_connec_ = [(0, 1)] ∧
    (Linkage.Linkage ex_update_name (Node.vertex ex_g_abij) (Node.vertex ex_g_bckl)
      false).l_ext_idx_ = [1, 2, 3] ∧
    (Linkage.Linkage ex_update_name (Node.vertex ex_g_abij) (Node.vertex ex_g_bckl)
      false).r_ext_idx_ = [0, 2, 3] ∧
    Linkage.connect_scan true ex_g_bckl.lines_ ex_g_abij.lines_ [ex_b] =
      Linkage.connect_scan false ex_g_bckl.lines_ ex_g_abij.lines_ [ex_b] := by
  decide

/-! ## Sigma vertices (`make_sigma`, `remove_sigma`) -/

theorem write_at_some (s : List Char) (idx : Nat) (c : Char) (h : idx < s.length) :
    Vertex.write_at s idx c = some (s.set idx c) := by
  unfold Vertex.write_at
  rw [if_pos h]

/-- The loop of `update_lines` stays inside its buffers when no line is at
    once virtual and blocked: every line then advances `line_idx` at most
    once. -/
theorem update_lines_loop_defined (lines : List Line)
    (hok : ∀ l ∈ lines, l.delta_ok = true) (ov blk : List Char) (hb : Bool) (idx : Nat)
    (h1 : idx + lines.length ≤ ov.length) (h2 : idx + lines.length ≤ blk.length) :
    ∃ st, Vertex.update_lines_loop lines (ov, blk, hb, idx) = some st := by
  induction lines generalizing ov blk hb idx with
  | nil => exact ⟨_, rfl⟩
  | cons l rest ih =>
    have hrest : ∀ x ∈ rest, x.delta_ok = true := fun x hx => hok x (List.mem_cons_of_mem _ hx)
    have hl := hok l (List.mem_cons_self _ _)
    simp only [List.length_cons] at h1 h2
    have hi1 : idx < ov.length := by omega
    have hi2 : idx < blk.length := by omega
    have hm : (idx + 1) % 256 ≤ idx + 1 := Nat.mod_le _ _
    unfold Line.delta_ok at hl
    unfold Vertex.update_lines_loop Vertex.update_lines_step
    simp only
    by_cases hs : l.sig_ = true
    · rw [if_pos hs, write_at_some _ _ _ hi1]
      exact ih hrest _ _ _ _ (by rw [List.length_set]; omega) (by omega)
    · rw [if_neg hs]
      by_cases hd : l.den_ = true
      · rw [if_pos hd, write_at_some _ _ _ hi1]
        exact ih hrest _ _ _ _ (by rw [List.length_set]; omega) (by omega)
      · rw [if_neg hd]
        by_cases ho : l.o_ = true
        · simp only [ho, Bool.not_true, Bool.false_eq_true, if_false, Option.some_bind]
          by_cases hbk : l.has_blk = true
          · rw [if_pos hbk, write_at_some _ _ _ hi2]
            exact ih hrest _ _ _ _ (by omega) (by rw [List.length_set]; omega)
          · rw [if_neg hbk]
            exact ih hrest _ _ _ _ (by omega) (by omega)
        · have hbk : l.has_blk = false := by
            cases h : l.has_blk
            · rfl
            · simp [hs, hd, ho, h] at hl
          simp only [ho, Bool.not_false, if_true, hbk, Bool.false_eq_true, if_false,
            write_at_some _ _ _ hi1, Option.map_some', Option.some_bind]
          exact ih hrest _ _ _ _ (by rw [List.length_set]; omega) (by omega)

/-- The member `update_lines` returns, with the lines it was given, when no
    line is at once virtual and blocked. -/
theorem update_lines_defined (v : Vertex) (lines : List Line) (b : Bool)
    (hok : ∀ l ∈ lines, l.delta_ok = true) :
    ∃ d, Vertex.update_lines v lines b = some d ∧ d.lines_ = lines ∧
      d.rank_ = lines.length ∧ d.is_sigma_ = v.is_sigma_ := by
  obtain ⟨st, hst⟩ := update_lines_loop_defined lines hok (List.replicate lines.length 'o')
    (List.replicate lines.length '\x00') false 0 (by simp) (by simp)
  unfold Vertex.update_lines
  simp only [hst, Option.map_some']
  exact ⟨_, rfl, rfl, rfl, rfl⟩

theorem sigma_line_default :
    Line.of_name Line.occ_labels_ Line.virt_labels_ Line.sig_labels_ Line.den_labels_ "I"
      '\x00' = some ⟨"I", true, true, '\x00', false, false⟩ := by
  decide

/-- C38 (amended): with the default label alphabets, on a vertex none of
    whose lines is at once virtual and blocked `make_sigma()` returns; the
    inserted line is the first line, has the label `I`, is sigma and is not
    density; the remaining lines are the lines of the vertex, unchanged and in
    order.  `remove_sigma()` afterwards returns and leaves the lines of the
    vertex that are not sigma lines, in order, so it restores the lines when
    none of them is a sigma line. -/
theorem make_sigma_inserts_first (v : Vertex) (hok : ∀ l ∈ v.lines_, l.delta_ok = true) :
    ∃ s v1 v2,
      Vertex.make_sigma Line.occ_labels_ Line.virt_labels_ Line.sig_labels_ Line.den_labels_
        v = some v1 ∧
      v1.lines_ = s :: v.lines_ ∧ s.label_ = "I" ∧ s.sig_ = true ∧ s.den_ = false ∧
      v1.is_sigma_ = true ∧ v1.rank_ = v.lines_.length + 1 ∧
      Vertex.remove_sigma v1 = some v2 ∧
      v2.lines_ = v.lines_.filter (fun l => !l.sig_) ∧ v2.is_sigma_ = false ∧
      ((∀ l ∈ v.lines_, l.sig_ = false) → v2.lines_ = v.lines_) := by
  have hs : (⟨"I", true, true, '\x00', true, false⟩ : Line).delta_ok = true := rfl
  obtain ⟨d, hd, e1, e2, _⟩ := update_lines_defined v
    ((⟨"I", true, true, '\x00', true, false⟩ : Line) :: v.lines_) true
    (fun l hl => by
      rcases List.mem_cons.1 hl with h | h
      · rw [h]; rfl
      · exact hok l h)
  have hf : ∀ l ∈ (v.lines_.filter fun l => !l.sig_), l.delta_ok = true :=
    fun l hl => hok l (List.mem_of_mem_filter hl)
  have hrm : (({ d with is_sigma_ := true } : Vertex).lines_.filter fun l => !l.sig_) =
      v.lines_.filter fun l => !l.sig_ := by
    show (d.lines_.filter fun l => !l.sig_) = _
    rw [e1]
    rfl
  obtain ⟨d2, hd2, f1, _, f3⟩ := update_lines_defined
    { ({ d with is_sigma_ := true } : Vertex) with is_sigma_ := false }
    (v.lines_.filter fun l => !l.sig_) true hf
  refine ⟨⟨"I", true, true, '\x00', true, false⟩, { d with is_sigma_ := true }, d2, ?_, e1,
    rfl, rfl, rfl, rfl, ?_, ?_, f1, f3, ?_⟩
  · unfold Vertex.make_sigma
    rw [sigma_line_default, Option.some_bind]
    simp only [hd, Option.map_some']
  · rw [e2]; rfl
  · unfold Vertex.remove_sigma
    simp only [Bool.not_true, Bool.false_eq_true, if_false]
    rw [hrm]
    exact hd2
  · intro hall
    rw [f1, List.filter_eq_self]
    intro l hl
    simp [hall l hl]

/-- C38, instance of the amended claim: the vertex `t(a,i)`. -/
theorem make_sigma_inserts_first_witness :
    (∀ l ∈ ex_t_ai.lines_, l.delta_ok = true) ∧
    ∃ s v1 v2,
      Vertex.make_sigma Line.occ_labels_ Line.virt_labels_ Line.sig_labels_ Line.den_labels_
        ex_t_ai = some v1 ∧
      v1.lines_ = s :: ex_t_ai.lines_ ∧ s.label_ = "I" ∧ s.sig_ = true ∧ s.den_ = false ∧
      v1.is_sigma_ = true ∧ v1.rank_ = ex_t_ai.lines_.length + 1 ∧
      Vertex.remove_sigma v1 = some v2 ∧
      v2.lines_ = ex_t_ai.lines_.filter (fun l => !l.sig_) ∧ v2.is_sigma_ = false ∧
      ((∀ l ∈ ex_t_ai.lines_, l.sig_ = false) → v2.lines_ = ex_t_ai.lines_) :=
  ⟨by decide, make_sigma_inserts_first ex_t_ai (by decide)⟩

/-- C38, counterexample: on `l1(L,a,i)`, whose lines satisfy the line
    invariant, `make_sigma()` gives the lines `I, L, a, i` and
    `remove_sigma()` afterwards gives the lines `a, i`: the sigma line `L` of
    the vertex is removed together with the inserted line. -/
theorem remove_sigma_drops_sigma_lines :
    (∀ l ∈ ex_l1_Lai.lines_, ¬ (l.sig_ = true ∧ l.den_ = true) ∧
      (l.sig_ = true ∨ l.den_ = true → l.o_ = false)) ∧
    (Vertex.make_sigma Line.occ_labels_ Line.virt_labels_ Line.sig_labels_ Line.den_labels_
      ex_l1_Lai).map (fun v1 => v1.lines_.map fun l => l.label_) = some ["I", "L", "a", "i"] ∧
    ((Vertex.make_sigma Line.occ_labels_ Line.virt_labels_ Line.sig_labels_ Line.den_labels_
      ex_l1_Lai).bind Vertex.remove_sigma).map (fun v2 => v2.lines_) = some [ex_a, ex_i] ∧
    ex_l1_Lai.lines_ = [ex_L, ex_a, ex_i] := by
  decide

/-- The line that `make_sigma()` inserts with the default label alphabets:
    `I` is one of the occupied labels, so the line is a sigma line that is
    occupied. -/
theorem make_sigma_line_is_occupied :
    (Vertex.make_sigma Line.occ_labels_ Line.virt_labels_ Line.sig_labels_ Line.den_labels_
      ex_t_ai).map (fun v1 => v1.lines_) =
      some [⟨"I", true, true, '\x00', true, false⟩, ex_a, ex_i] ∧
    'I' ∈ Line.occ_labels_ := by
  decide

/-! ## The chain builders (`link`, `links`, `scale_list`, `link_and_scale`) -/

theorem links_loop_length (update_name : Node → Node → Vertex → String) (x : Node)
    (t : List Node) : (Linkage.links_loop update_name x t).length = t.length := by
  induction t generalizing x with
  | nil => rfl
  | cons c rest ih => simp [Linkage.links_loop, ih]

theorem links_loop_get (update_name : Node → Node → Vertex → String) (x : Node)
    (t : List Node) (k : Nat) (hk : k ≤ t.length) :
    (x :: Linkage.links_loop update_name x t)[k]? =
      some ((t.take k).foldl (Linkage.op_mul update_name) x) := by
  induction t generalizing x k with
  | nil =>
    have : k = 0 := by simpa using hk
    subst this; rfl
  | cons c rest ih =>
    cases k with
    | zero => rfl
    | succ k =>
      have hk' : k ≤ rest.length := by simpa using hk
      simp only [Linkage.links_loop, List.getElem?_cons_succ, List.take_succ_cons,
        List.foldl_cons]
      exact ih _ k hk'

theorem links_loop_getLast (update_name : Node → Node → Vertex → String) (x : Node)
    (t : List Node) :
    (x :: Linkage.links_loop update_name x t).getLast? =
      some (t.foldl (Linkage.op_mul update_name) x) := by
  induction t generalizing x with
  | nil => rfl
  | cons c rest ih =>
    simp only [Linkage.links_loop, List.foldl_cons]
    rw [List.getLast?_cons_cons]
    exact ih _

theorem scale_loop_eq (update_name : Node → Node → Vertex → String) (x : Node)
    (fl ml : List shape) (t : List Node) :
    Linkage.scale_loop update_name x fl ml t =
      (t.foldl (Linkage.op_mul update_name) x,
        fl ++ (Linkage.links_loop update_name x t).map Node.flop_scale_,
        ml ++ (Linkage.links_loop update_name x t).map Node.mem_scale_) := by
  induction t generalizing x fl ml with
  | nil => simp [Linkage.scale_loop, Linkage.links_loop]
  | cons c rest ih =>
    simp only [Linkage.scale_loop, Linkage.links_loop, List.foldl_cons, List.map_cons]
    rw [ih]
    simp

theorem link_none_iff (update_name : Node → Node → Vertex → String) (v : List Node) :
    Linkage.link update_name v = none ↔ v.length % 256 = 0 := by
  unfold Linkage.link
  rcases v with _ | ⟨a, _ | ⟨b, tail⟩⟩
  · simp
  · simp
  · simp only [List.length_cons]
    by_cases h0 : (tail.length + 1 + 1) % 256 = 0
    · simp [h0]
    · by_cases h1 : (tail.length + 1 + 1) % 256 = 1
      · simp [h1]
      · simp [h0, h1]

theorem links_none_iff (update_name : Node → Node → Vertex → String) (v : List Node) :
    Linkage.links update_name v = none ↔ v.length % 256 ≤ 1 := by
  unfold Linkage.links
  rcases v with _ | ⟨a, _ | ⟨b, tail⟩⟩
  · simp
  · simp
  · simp only [List.length_cons]
    by_cases h : (tail.length + 1 + 1) % 256 ≤ 1
    · simp [h]
    · simp [h]

theorem link_and_scale_none_iff (update_name : Node → Node → Vertex → String)
    (v : List Node) :
    Linkage.link_and_scale update_name v = none ↔ v.length % 256 ≤ 1 := by
  unfold Linkage.link_and_scale
  rcases v with _ | ⟨a, _ | ⟨b, tail⟩⟩
  · simp
  · simp
  · simp only [List.length_cons]
    by_cases h : (tail.length + 1 + 1) % 256 ≤ 1
    · simp [h]
    · simp [h]

theorem scale_list_none_iff (update_name : Node → Node → Vertex → String)
    (v : List Node) :
    Linkage.scale_list update_name v = none ↔ v.length % 256 ≤ 1 := by
  unfold Linkage.scale_list
  rcases v with _ | ⟨a, _ | ⟨b, tail⟩⟩
  · simp
  · simp
  · simp only [List.length_cons]
    by_cases h : (tail.length + 1 + 1) % 256 ≤ 1
    · simp [h]
    · simp [h]

/-- C39 (amended): for every operand vector `v` with `2 <= |v| <= 255`,
    `links(v)` has `|v| - 1` elements, element `k` is the left fold
    `v[0]*v[1]*...*v[k+1]` (what `link` builds from the first `k + 2`
    operands), its last element is `link(v)`, `scale_list(v)` is the pair of
    the lists of the flop and mem shapes of these linkages, and
    `link_and_scale(v) = (link(v), scale_list(v).first, scale_list(v).second)`.
    The builders count the operands in 8 bits: `link` fails exactly when the
    number of operands is a multiple of 256, and `links`, `scale_list` and
    `link_and_scale` fail exactly when the number of operands modulo 256 is
    below two. -/
theorem chain_builders_agree (update_name : Node → Node → Vertex → String)
    (v : List Node) :
    (2 ≤ v.length → v.length ≤ 255 →
      ∃ ls, Linkage.links update_name v = some ls ∧
        ls.length = v.length - 1 ∧
        (∀ k, k + 1 < v.length → ls[k]? = Linkage.link update_name (v.take (k + 2))) ∧
        ls.getLast? = Linkage.link update_name v ∧
        Linkage.scale_list update_name v =
          some (ls.map Node.flop_scale_, ls.map Node.mem_scale_) ∧
        Linkage.link_and_scale update_name v =
          (Linkage.link update_name v).map fun l =>
            (l, ls.map Node.flop_scale_, ls.map Node.mem_scale_)) ∧
    (Linkage.link update_name v = none ↔ v.length % 256 = 0) ∧
    (Linkage.links update_name v = none ↔ v.length % 256 ≤ 1) ∧
    (Linkage.scale_list update_name v = none ↔ v.length % 256 ≤ 1) ∧
    (Linkage.link_and_scale update_name v = none ↔ v.length % 256 ≤ 1) := by
  refine ⟨?_, link_none_iff _ _, links_none_iff _ _, scale_list_none_iff _ _,
    link_and_scale_none_iff _ _⟩
  intro h2 h255
  rcases v with _ | ⟨a, _ | ⟨b, tail⟩⟩
  · simp at h2
  · simp at h2
  · have hlen : tail.length + 2 < 256 := by
      simp only [List.length_cons] at h255; omega
    have hm : (a :: b :: tail).length % 256 = tail.length + 2 := by
      simp only [List.length_cons]
      exact Nat.mod_eq_of_lt hlen
    have ht : List.take (tail.length + 2 - 2) tail = tail := by
      rw [show tail.length + 2 - 2 = tail.length by omega, List.take_length]
    refine ⟨Linkage.op_mul update_name a b ::
      Linkage.links_loop update_name (Linkage.op_mul update_name a b) tail, ?_, ?_, ?_, ?_,
      ?_, ?_⟩
    · unfold Linkage.links
      simp only [hm]
      rw [if_neg (by omega), ht]
    · simp [links_loop_length]
    · intro k hk
      have hk' : k ≤ tail.length := by
        simp only [List.length_cons] at hk; omega
      rw [links_loop_get _ _ _ _ hk']
      rw [show List.take (k + 2) (a :: b :: tail) = a :: b :: tail.take k by simp]
      rw [link_two_or_more]
      rw [List.length_take]
      omega
    · rw [links_loop_getLast, link_two_or_more _ _ _ _ hlen]
    · unfold Linkage.scale_list
      simp only [hm]
      rw [if_neg (by omega), ht, scale_loop_eq]
      simp
    · unfold Linkage.link_and_scale
      simp only [hm]
      rw [if_neg (by omega), ht, scale_loop_eq, link_two_or_more _ _ _ _ hlen]
      simp

/-- C39, instance of the amended claim: the three operands `t(a,i)`, `u(i)`,
    `f(i,a)`. -/
theorem chain_builders_agree_witness :
    (2 ≤ [Node.vertex ex_t_ai, Node.vertex ex_u_i, Node.vertex ex_f_ia].length ∧
      [Node.vertex ex_t_ai, Node.vertex ex_u_i, Node.vertex ex_f_ia].length ≤ 255) ∧
    ∃ ls, Linkage.links ex_update_name
        [Node.vertex ex_t_ai, Node.vertex ex_u_i, Node.vertex ex_f_ia] = some ls ∧
      ls.length = [Node.vertex ex_t_ai, Node.vertex ex_u_i, Node.vertex ex_f_ia].length - 1 ∧
      (∀ k, k + 1 < [Node.vertex ex_t_ai, Node.vertex ex_u_i, Node.vertex ex_f_ia].length →
        ls[k]? = Linkage.link ex_update_name
          ([Node.vertex ex_t_ai, Node.vertex ex_u_i, Node.vertex ex_f_ia].take (k + 2))) ∧
      ls.getLast? = Linkage.link ex_update_name
        [Node.vertex ex_t_ai, Node.vertex ex_u_i, Node.vertex ex_f_ia] ∧
      Linkage.scale_list ex_update_name
          [Node.vertex ex_t_ai, Node.vertex ex_u_i, Node.vertex ex_f_ia] =
        some (ls.map Node.flop_scale_, ls.map Node.mem_scale_) ∧
      Linkage.link_and_scale ex_update_name
          [Node.vertex ex_t_ai, Node.vertex ex_u_i, Node.vertex ex_f_ia] =
        (Linkage.link ex_update_name
          [Node.vertex ex_t_ai, Node.vertex ex_u_i, Node.vertex ex_f_ia]).map fun l =>
            (l, ls.map Node.flop_scale_, ls.map Node.mem_scale_) :=
  ⟨⟨by decide, by decide⟩,
    (chain_builders_agree ex_update_name
      [Node.vertex ex_t_ai, Node.vertex ex_u_i, Node.vertex ex_f_ia]).1
      (by decide) (by decide)⟩

/-- C39, counterexample: a vector of 256 operands is not empty and has more
    than one operand, and all four builders fail on it. -/
theorem chain_builders_fail_on_256 :
    (List.replicate 256 (Node.vertex ex_u_i)).length = 256 ∧
    Linkage.link ex_update_name (List.replicate 256 (Node.vertex ex_u_i)) = none ∧
    Linkage.links ex_update_name (List.replicate 256 (Node.vertex ex_u_i)) = none ∧
    Linkage.scale_list ex_update_name (List.replicate 256 (Node.vertex ex_u_i)) = none ∧
    Linkage.link_and_scale ex_update_name (List.replicate 256 (Node.vertex ex_u_i)) =
      none := by
  refine ⟨List.length_replicate _ _, ?_, ?_, ?_, ?_⟩
  · rw [link_none_iff, List.length_replicate]
  · rw [links_none_iff, List.length_replicate]; decide
  · rw [scale_list_none_iff, List.length_replicate]; decide
  · rw [link_and_scale_none_iff, List.length_replicate]; decide

/-! ## Nested commutators (`ahat_helper.cc`) -/

/-- C40: the four helpers issue, in this order, the signed words of the
    nested commutators `f*[A,B]`, `f*[[A,B],C]`, `f*[[[A,B],C],D]` and
    `f*[[[[A,B],C],D],E]` with `[X,Y] = XY - YX` (2, 4, 8 and 16 calls); read
    in any algebra over the ring of the factors, the signed sum of the words
    is `f` times the nested commutator; when the operators are pairwise
    different no word is issued twice; and each helper rejects every input
    whose length is not 2, 3, 4 or 5 respectively. -/
theorem commutators_expand {K R : Type} [CommRing K] [Ring R] [Algebra K R]
    (f : K) (op : String → R) (A B C D E : String) (in_ : List String) :
    (ahat_helper.add_commutator f [A, B] =
        some (ahat_helper.nested_commutator f A [B]) ∧
      ahat_helper.add_double_commutator f [A, B, C] =
        some (ahat_helper.nested_commutator f A [B, C]) ∧
      ahat_helper.add_triple_commutator f [A, B, C, D] =
        some (ahat_helper.nested_commutator f A [B, C, D]) ∧
      ahat_helper.add_quadruple_commutator f [A, B, C, D, E] =
        some (ahat_helper.nested_commutator f A [B, C, D, E])) ∧
    ((ahat_helper.nested_commutator f A [B]).length = 2 ∧
      (ahat_helper.nested_commutator f A [B, C]).length = 4 ∧
      (ahat_helper.nested_commutator f A [B, C, D]).length = 8 ∧
      (ahat_helper.nested_commutator f A [B, C, D, E]).length = 16) ∧
    (ahat_helper.words_value op (ahat_helper.nested_commutator f A [B]) =
        f • ahat_helper.ring_commutator (op A) (op B) ∧
      ahat_helper.words_value op (ahat_helper.nested_commutator f A [B, C]) =
        f • ahat_helper.ring_commutator (ahat_helper.ring_commutator (op A) (op B)) (op C) ∧
      ahat_helper.words_value op (ahat_helper.nested_commutator f A [B, C, D]) =
        f • ahat_helper.ring_commutator (ahat_helper.ring_commutator
          (ahat_helper.ring_commutator (op A) (op B)) (op C)) (op D) ∧
      ahat_helper.words_value op (ahat_helper.nested_commutator f A [B, C, D, E]) =
        f • ahat_helper.ring_commutator (ahat_helper.ring_commutator
          (ahat_helper.ring_commutator (ahat_helper.ring_commutator (op A) (op B)) (op C))
          (op D)) (op E)) ∧
    ([A, B, C, D, E].Nodup →
      ((ahat_helper.nested_commutator f A [B]).map Prod.snd).Nodup ∧
      ((ahat_helper.nested_commutator f A [B, C]).map Prod.snd).Nodup ∧
      ((ahat_helper.nested_commutator f A [B, C, D]).map Prod.snd).Nodup ∧
      ((ahat_helper.nested_commutator f A [B, C, D, E]).map Prod.snd).Nodup) ∧
    ((in_.length ≠ 2 → ahat_helper.add_commutator f in_ = none) ∧
      (in_.length ≠ 3 → ahat_helper.add_double_commutator f in_ = none) ∧
      (in_.length ≠ 4 → ahat_helper.add_triple_commutator f in_ = none) ∧
      (in_.length ≠ 5 → ahat_helper.add_quadruple_commutator f in_ = none)) := by
  refine ⟨?_, ?_, ?_, ?_, ?_⟩
  · simp [ahat_helper.add_commutator, ahat_helper.add_double_commutator,
      ahat_helper.add_triple_commutator, ahat_helper.add_quadruple_commutator,
      ahat_helper.nested_commutator, ahat_helper.commutator_with]
  · simp [ahat_helper.nested_commutator, ahat_helper.commutator_with]
  · refine ⟨?_, ?_, ?_, ?_⟩ <;>
      simp only [ahat_helper.nested_commutator, ahat_helper.commutator_with,
        ahat_helper.words_value, ahat_helper.ring_commutator, List.foldl_cons, List.foldl_nil,
        List.map_cons, List.map_nil, List.cons_append, List.nil_append, List.sum_cons,
        List.sum_nil, List.prod_cons, List.prod_nil, mul_one, add_zero, neg_neg, neg_smul,
        mul_sub, sub_mul, smul_sub, mul_assoc] <;>
      abel
  · intro h
    simp only [List.nodup_cons, List.mem_cons, List.mem_singleton, List.not_mem_nil,
      not_or, List.nodup_nil, or_false, and_true, not_false_eq_true] at h
    obtain ⟨⟨h1, h2, h3, h4⟩, ⟨h5, h6, h7⟩, ⟨h8, h9⟩, h10⟩ := h
    have h1' := Ne.symm h1
    have h2' := Ne.symm h2
    have h3' := Ne.symm h3
    have h4' := Ne.symm h4
    have h5' := Ne.symm h5
    have h6' := Ne.symm h6
    have h7' := Ne.symm h7
    have h8' := Ne.symm h8
    have h9' := Ne.symm h9
    have h10' := Ne.symm h10
    simp [ahat_helper.nested_commutator, ahat_helper.commutator_with, h1, h2, h3, h4, h5, h6,
      h7, h8, h9, h10, h1', h2', h3', h4', h5', h6', h7', h8', h9', h10']
  · refine ⟨?_, ?_, ?_, ?_⟩ <;> intro h
    · rcases in_ with _ | ⟨a, _ | ⟨b, _ | ⟨c, l⟩⟩⟩ <;>
        simp [ahat_helper.add_commutator] at h ⊢
    · rcases in_ with _ | ⟨a, _ | ⟨b, _ | ⟨c, _ | ⟨d, l⟩⟩⟩⟩ <;>
        simp [ahat_helper.add_double_commutator] at h ⊢
    · rcases in_ with _ | ⟨a, _ | ⟨b, _ | ⟨c, _ | ⟨d, _ | ⟨e, l⟩⟩⟩⟩⟩ <;>
        simp [ahat_helper.add_triple_commutator] at h ⊢
    · rcases in_ with _ | ⟨a, _ | ⟨b, _ | ⟨c, _ | ⟨d, _ | ⟨e, _ | ⟨e2, l⟩⟩⟩⟩⟩⟩ <;>
        simp [ahat_helper.add_quadruple_commutator] at h ⊢

/-- C40, instance: the operators `a`, `b`, `c`, `d`, `e` with the factor 1,
    every operator read as the integer 1, and the input `[a]`. -/
theorem commutators_expand_witness :
    ((["a", "b", "c", "d", "e"] : List String).Nodup ∧ (["a"] : List String).length ≠ 2) ∧
    (((ahat_helper.nested_commutator (1 : ℤ) "a" ["b", "c", "d", "e"]).map Prod.snd).Nodup ∧
      ahat_helper.add_commutator (1 : ℤ) ["a"] = none) :=
  ⟨⟨by decide, by decide⟩,
    ((commutators_expand (1 : ℤ) (fun _ => (1 : ℤ)) "a" "b" "c" "d" "e" ["a"]).2.2.2.1
        (by decide)).2.2.2,
    (commutators_expand (1 : ℤ) (fun _ => (1 : ℤ)) "a" "b" "c" "d" "e" ["a"]).2.2.2.2.1
      (by decide)⟩

end pdaggerq
